import Mathlib

/-!
The vodka path router: `Router.Add`, `Router.insert` and `Router.Find`, and
the registration `Vodka.add` that calls `Router.Add`.

A shallow embedding of `router.go` and of `Vodka.add` of `vodka.go`.

* A Go `string` is its sequence of bytes, `Str := List Nat`; `ascii` turns an
  ASCII literal into that sequence.
* A Go `HandlerFunc` value is `nil`, a handler supplied by the application, or
  one of the two handlers `notFoundHandler` / `methodNotAllowedHandler(..)`
  that `Find` produces itself.
* A Go `map[string]HandlerFunc` is `Option (List (Str × HandlerFunc H))`:
  `none` is the nil map, otherwise an association list with distinct keys.
  Go leaves the iteration order of a map unspecified; the model iterates in
  insertion order.
* The tree of `*node` pointers is an immutable tree; `insert` rebuilds the
  path from the root to the node it mutates.  The `parent` pointer is written
  but never read by `insert` or `Find` and is left out.
* Loops are functions with an explicit iteration budget; `Exec.timeout`
  marks an exhausted budget and `Exec.panic` a Go run-time panic.
* The field `prefix` of `node` is called `pfx` here, since the source name is
  a reserved word.
* `Add` is always called with the instance that owns the router, so the
  cell `*e.maxParam` and the switch `r.vodka.stripTrailingSlash` live in
  `Router.vodka`.
* The field `routes` is written by `Vodka.add` only, with the keyed
  assignment `routes[method+path] = r`; it is a list of entries that is
  written by key (`routesSet`).
-/

namespace VodkaRouter

/-- A Go string, as its bytes. -/
abbrev Str := List Nat

/-- The bytes of an ASCII literal. -/
def ascii (s : String) : Str := s.toList.map Char.toNat

/-- The byte `'/'`. -/
abbrev slash : Nat := 47
/-- The byte `':'`. -/
abbrev colon : Nat := 58
/-- The byte `'*'`. -/
abbrev star : Nat := 42

/-- Node kinds: `stype` (static), `ptype` (param), `mtype` (match-any). -/
inductive ntype where
  | stype
  | ptype
  | mtype
  deriving DecidableEq, Repr

/-- Values of Go type `HandlerFunc`.  `notFoundHandler` and the result of
`methodNotAllowedHandler(ctx, allowedMethods...)` are produced by `Find`;
their definitions are not part of `router.go`, so they are kept symbolic. -/
inductive HandlerFunc (H : Type) where
  | nil
  | user (h : H)
  | notFoundHandler
  | methodNotAllowedHandler (allowedMethods : List Str)
  deriving DecidableEq, Repr

/-- The test `h == nil` on a handler value. -/
def HandlerFunc.isNil {H : Type} : HandlerFunc H → Bool
  | HandlerFunc.nil => true
  | _ => false

/-- A non-nil Go map from method names to handlers. -/
abbrev HandlerMap (H : Type) := List (Str × HandlerFunc H)

/-- The struct `node` (without the `parent` back pointer).  `vodka` tells
whether the owner reference is set (`true`) or nil (`false`). -/
structure node (H : Type) where
  typ : ntype
  label : Nat
  pfx : Str
  children : List (node H)
  handler : Option (HandlerMap H)
  pnames : List Str
  vodka : Bool

/-- The struct `Route`. -/
structure Route where
  Method : Str
  Path : Str
  Handler : Str
  deriving DecidableEq, Repr

/-- The part of the framework instance that the router reads and writes:
the cell behind `maxParam` and the trailing-slash switch. -/
structure Vodka where
  maxParam : Nat
  stripTrailingSlash : Bool
  deriving DecidableEq, Repr

/-- The struct `Router`; `vodka` is the instance that owns the router and
that `Add` is called with. -/
structure Router (H : Type) where
  tree : node H
  routes : List Route
  vodka : Vodka

/-- The part of the request context that `Find` writes. -/
structure Context where
  pnames : List Str
  pvalues : List Str
  deriving DecidableEq, Repr

/-- Go run-time panics that the router can raise. -/
inductive Panic where
  | invalidMethod
  | indexOutOfRange
  | nilMap
  | nilDereference
  deriving DecidableEq, Repr

/-- Outcome of running a piece of the program: normal return with a value,
a panic together with the value at that moment, or an exhausted budget. -/
inductive Exec (σ : Type) where
  | ok (s : σ)
  | panic (p : Panic) (s : σ)
  | timeout

/-- What `Find` hands back: the handler `h`, the owner reference `e` and the
context it has written to. -/
structure FindResult (H : Type) where
  h : HandlerFunc H
  e : Bool
  ctx : Context

/-- The array `methods` of vodka.go. -/
def methods : List Str :=
  [ascii "CONNECT", ascii "DELETE", ascii "GET", ascii "HEAD", ascii "OPTIONS",
   ascii "PATCH", ascii "POST", ascii "PUT", ascii "TRACE"]

/-- `validMethod`: linear scan of `methods`. -/
def validMethod (method : Str) : Bool :=
  methods.any (fun v => v == method)

/-- Lookup of a key among the entries of a non-nil map. -/
def HandlerMap.lookup {H : Type} : HandlerMap H → Str → Option (HandlerFunc H)
  | [], _ => none
  | (k', v) :: rest, k => if k' = k then some v else HandlerMap.lookup rest k

/-- Map read `m[k]` with the comma-ok flag; a nil map has no entries. -/
def mapGet? {H : Type} : Option (HandlerMap H) → Str → Option (HandlerFunc H)
  | none, _ => none
  | some m, k => m.lookup k

/-- Map read `m[k]`: the zero value `nil` when the key is absent. -/
def mapGet {H : Type} (m : Option (HandlerMap H)) (k : Str) : HandlerFunc H :=
  (mapGet? m k).getD HandlerFunc.nil

/-- Map write `m[k] = v` on a non-nil map. -/
def mapSet {H : Type} : HandlerMap H → Str → HandlerFunc H → HandlerMap H
  | [], k, v => [(k, v)]
  | (k', v') :: rest, k, v =>
    if k' = k then (k, v) :: rest else (k', v') :: mapSet rest k v

/-- The keys visited by `for m, _ := range handler`. -/
def mapKeys {H : Type} : Option (HandlerMap H) → List Str
  | none => []
  | some m => m.map Prod.fst

/-- `NewRouter`: an empty root whose handler map is allocated and empty. -/
def NewRouter {H : Type} (e : Vodka) : Router H :=
  { tree := { typ := ntype.stype, label := 0, pfx := [], children := [],
              handler := some [], pnames := [], vodka := false },
    routes := [],
    vodka := e }

/-- `newNode`; `none` is the panic of `pre[0]` on an empty prefix. -/
def newNode {H : Type} (t : ntype) (pre : Str) (c : List (node H)) (h : HandlerFunc H)
    (pnames : List Str) (e : Bool) (m : Str) : Option (node H) :=
  match pre with
  | [] => none
  | b :: _ =>
    some { typ := t, label := b, pfx := pre, children := c,
           handler := some [(m, h)], pnames := pnames, vodka := e }

/-- `addChild`. -/
def addChild {H : Type} (n c : node H) : node H :=
  { n with children := n.children ++ [c] }

/-- `findChild`: first child with the label and the kind. -/
def findChild {H : Type} (n : node H) (l : Nat) (t : ntype) : Option (node H) :=
  n.children.find? (fun c => c.label == l && c.typ == t)

/-- `findChildWithLabel`: first child with the label. -/
def findChildWithLabel {H : Type} (n : node H) (l : Nat) : Option (node H) :=
  n.children.find? (fun c => c.label == l)

/-- `findChildWithType`: first child with the kind. -/
def findChildWithType {H : Type} (n : node H) (t : ntype) : Option (node H) :=
  n.children.find? (fun c => c.typ == t)

/-- The LCP loop `for ; l < max && search[l] == prefix[l]; l++`. -/
def lcp : Str → Str → Nat
  | a :: as, b :: bs => if a = b then lcp as bs + 1 else 0
  | _, _ => 0

/-- Writes back the child that `findChildWithLabel l` returned, after it
has been mutated. -/
def replaceChildWithLabel {H : Type} (l : Nat) (c' : node H) : List (node H) → List (node H)
  | [] => []
  | c :: cs => if c.label == l then c' :: cs else c :: replaceChildWithLabel l c' cs

/-- The loop of `insert`, started at node `cn` with `search`; returns the
node `cn` as the loop leaves it. -/
def insertLoop {H : Type} (method : Str) (h : HandlerFunc H) (t : ntype)
    (pnames : List Str) (e : Bool) : Nat → node H → Str → Exec (node H)
  | 0, _, _ => Exec.timeout
  | fuel + 1, cn, search =>
    let sl := search.length
    let pl := cn.pfx.length
    let l := lcp search cn.pfx
    if l = 0 then
      -- At root node
      match search with
      | [] => Exec.panic Panic.indexOutOfRange cn
      | b :: _ =>
        if !h.isNil then
          Exec.ok { cn with label := b, pfx := search, typ := t,
                            handler := some [(method, h)], pnames := pnames, vodka := e }
        else
          Exec.ok { cn with label := b, pfx := search }
    else if l < pl then
      -- Split node
      match newNode cn.typ (cn.pfx.drop l) cn.children (mapGet cn.handler method)
              cn.pnames cn.vodka method with
      | none => Exec.panic Panic.indexOutOfRange cn
      | some n =>
        -- Reset parent node
        let cn1 : node H :=
          { typ := ntype.stype, label := cn.pfx.headD 0, pfx := cn.pfx.take l,
            children := [], handler := some [], pnames := [], vodka := false }
        let cn2 := addChild cn1 n
        if l = sl then
          -- At parent node
          Exec.ok { cn2 with typ := t, handler := some (mapSet [] method h),
                             pnames := pnames, vodka := e }
        else
          -- Create child node
          match newNode t (search.drop l) [] h pnames e method with
          | none => Exec.panic Panic.indexOutOfRange cn2
          | some n' => Exec.ok (addChild cn2 n')
    else if l < sl then
      let search := search.drop l
      match findChildWithLabel cn (search.headD 0) with
      | some c =>
        -- Go deeper
        match insertLoop method h t pnames e fuel c search with
        | Exec.ok c' =>
          Exec.ok { cn with children := replaceChildWithLabel (search.headD 0) c' cn.children }
        | Exec.panic p c' =>
          Exec.panic p { cn with children := replaceChildWithLabel (search.headD 0) c' cn.children }
        | Exec.timeout => Exec.timeout
      | none =>
        -- Create child node
        match newNode t search [] h pnames e method with
        | none => Exec.panic Panic.indexOutOfRange cn
        | some n => Exec.ok (addChild cn n)
    else
      -- Node already exists
      if !h.isNil then
        match cn.handler with
        | none => Exec.panic Panic.nilMap cn
        | some hm =>
          Exec.ok { cn with handler := some (mapSet hm method h), pnames := pnames, vodka := e }
      else
        Exec.ok cn

/-- `Router.insert`: adjusts `maxParam`, rejects an invalid method, then runs
the loop from the root.  Every pass that goes deeper has consumed at least
one byte of `search`, which bounds the number of passes. -/
def insert {H : Type} (r : Router H) (method path : Str) (h : HandlerFunc H) (t : ntype)
    (pnames : List Str) : Exec (Router H) :=
  -- Adjust max param
  let l := pnames.length
  let r := if r.vodka.maxParam < l then { r with vodka := { r.vodka with maxParam := l } } else r
  if !validMethod method then Exec.panic Panic.invalidMethod r
  else
    match insertLoop method h t pnames true (path.length + 1) r.tree path with
    | Exec.ok cn => Exec.ok { r with tree := cn }
    | Exec.panic p cn => Exec.panic p { r with tree := cn }
    | Exec.timeout => Exec.timeout

/-- The scan `for ; i < l && path[i] != '/'; i++`: the index it stops at. -/
def skipSegment (path : Str) (i : Nat) : Nat :=
  i + ((path.drop i).takeWhile (fun b => b != slash)).length

/-- The loop of `Router.Add` with its variables `path`, `i` and `pnames`
(`l` is always `len(path)`).  Each pass strictly shortens `path[i:]`. -/
def AddLoop {H : Type} (method : Str) (h : HandlerFunc H) :
    Nat → Router H → Str → Nat → List Str → Exec (Router H)
  | 0, _, _, _, _ => Exec.timeout
  | fuel + 1, r, path, i, pnames =>
    if i < path.length then
      if path.getD i 0 = colon then
        let j := i + 1
        match insert r method (path.take i) HandlerFunc.nil ntype.stype [] with
        | Exec.ok r =>
          let i := skipSegment path i
          let pnames := pnames ++ [(path.drop j).take (i - j)]
          let path := path.take j ++ path.drop i
          let i := j
          if i = path.length then
            insert r method (path.take i) h ntype.ptype pnames
          else
            match insert r method (path.take i) HandlerFunc.nil ntype.ptype pnames with
            | Exec.ok r => AddLoop method h fuel r path (i + 1) pnames
            | other => other
        | other => other
      else if path.getD i 0 = star then
        match insert r method (path.take i) HandlerFunc.nil ntype.stype [] with
        | Exec.ok r =>
          insert r method (path.take (i + 1)) h ntype.mtype (pnames ++ [ascii "_name"])
        | other => other
      else
        AddLoop method h fuel r path (i + 1) pnames
    else
      insert r method path h ntype.stype pnames

/-- `Router.Add` (its argument `e` is the instance `r.vodka`). -/
def Add {H : Type} (r : Router H) (method path : Str) (h : HandlerFunc H) : Exec (Router H) :=
  AddLoop method h (path.length + 1) r path 0 []

/-- The local variables of `Router.Find` (with the results `h`, `e` and the
context). -/
structure FindState (H : Type) where
  cn : node H
  search : Str
  n : Nat
  nt : ntype
  nn : Option (node H)
  ns : Str
  h : HandlerFunc H
  e : Bool
  ctx : Context

/-- One pass of the loop of `Find`: either `continue` with new variables or
leave the function. -/
inductive Step (H : Type) where
  | next (s : FindState H)
  | done (r : Exec (FindResult H))

/-- The values `Find` returns when it leaves with its current variables. -/
def FindState.result {H : Type} (s : FindState H) : FindResult H :=
  { h := s.h, e := s.e, ctx := s.ctx }

/-- The assignment `pvalues[i] = v`; `none` when `i` is out of range. -/
def setValue : List Str → Nat → Str → Option (List Str)
  | [], _, _ => none
  | _ :: vs, 0, v => some (v :: vs)
  | x :: vs, i + 1, v => (setValue vs i v).map (fun vs' => x :: vs')

/-- The code at label `MatchAny`. -/
def MatchAny {H : Type} (s : FindState H) : Step H :=
  match findChildWithType s.cn ntype.mtype with
  | some c =>
    match setValue s.ctx.pvalues 0 s.search with
    | some pv =>
      Step.next { s with cn := c, ctx := { s.ctx with pvalues := pv }, search := [] }
    | none => Step.done (Exec.panic Panic.indexOutOfRange s.result)
  | none =>
    -- Not found
    Step.done (Exec.ok s.result)

/-- The code at label `Param`, falling through to `MatchAny`. -/
def Param {H : Type} (s : FindState H) : Step H :=
  match findChildWithType s.cn ntype.ptype with
  | some c =>
    -- Save next
    let s1 := if s.cn.label = slash then
        { s with nt := ntype.mtype, nn := some s.cn, ns := s.search } else s
    let i := (s.search.takeWhile (fun b => b != slash)).length
    match setValue s1.ctx.pvalues s1.n (s1.search.take i) with
    | some pv =>
      Step.next { s1 with cn := c, ctx := { s1.ctx with pvalues := pv }, n := s1.n + 1,
                          search := s1.search.drop i }
    | none => Step.done (Exec.panic Panic.indexOutOfRange { s1 with cn := c }.result)
  | none => MatchAny s

/-- One pass of `for { ... }` in `Find`. -/
def FindStep {H : Type} (method : Str) (s : FindState H) : Step H :=
  if s.search = [] then
    match s.cn.handler with
    | some hm =>
      -- Found route, check if method is applicable
      match mapGet? (some hm) method with
      | none =>
        Step.done (Exec.ok { h := HandlerFunc.methodNotAllowedHandler (mapKeys (some hm)),
                             e := s.cn.vodka, ctx := s.ctx })
      | some h =>
        Step.done (Exec.ok { h := h, e := s.cn.vodka,
                             ctx := { s.ctx with pnames := s.cn.pnames } })
    | none => Step.done (Exec.ok s.result)
  else
    let pl := if s.cn.label ≠ colon then s.cn.pfx.length else 0
    let l := if s.cn.label ≠ colon then lcp s.search s.cn.pfx else 0
    if l = pl then
      -- Continue search
      let s1 := { s with search := s.search.drop l }
      if s1.search = [] then
        if (findChildWithType s1.cn ntype.mtype).isNone then Step.next s1
        else MatchAny s1
      else
        -- Static node
        match findChild s1.cn (s1.search.headD 0) ntype.stype with
        | some c =>
          -- Save next
          let s2 := if s1.cn.label = slash then
              { s1 with nt := ntype.ptype, nn := some s1.cn, ns := s1.search } else s1
          Step.next { s2 with cn := c }
        | none => Param s1
    else
      match s.nt, s.nn with
      | ntype.stype, _ =>
        -- Not found
        Step.done (Exec.ok s.result)
      | ntype.ptype, some nn => Param { s with cn := nn, search := s.ns }
      | ntype.mtype, some nn => MatchAny { s with cn := nn, search := s.ns }
      | _, none => Step.done (Exec.panic Panic.nilDereference s.result)

/-- The loop of `Find`, for at most the given number of passes. -/
def FindLoop {H : Type} (method : Str) : Nat → FindState H → Exec (FindResult H)
  | 0, _ => Exec.timeout
  | fuel + 1, s =>
    match FindStep method s with
    | Step.next s' => FindLoop method fuel s'
    | Step.done r => r

mutual
/-- Number of nodes on the longest downward path from a node. -/
def node.height {H : Type} : node H → Nat
  | ⟨_, _, _, cs, _, _, _⟩ => heightList cs + 1
/-- Largest height among a list of nodes. -/
def heightList {H : Type} : List (node H) → Nat
  | [] => 0
  | c :: cs => max c.height (heightList cs)
end

/-- A number of passes that the loop of `Find` cannot exceed on a tree. -/
def findFuel {H : Type} (t : node H) : Nat :=
  2 * (t.height + 1) * (t.height + 1) + t.height + 3

/-- `Router.Find`. -/
def Find {H : Type} (r : Router H) (method path : Str) (ctx : Context) : Exec (FindResult H) :=
  let cn := r.tree
  if !validMethod method then
    -- if the method is completely invalid
    Exec.ok { h := HandlerFunc.methodNotAllowedHandler (mapKeys cn.handler),
              e := cn.vodka, ctx := ctx }
  else
    let start (path : Str) : Exec (FindResult H) :=
      FindLoop method (findFuel r.tree)
        { cn := cn, search := path, n := 0, nt := ntype.stype, nn := none, ns := [],
          h := HandlerFunc.notFoundHandler, e := cn.vodka, ctx := ctx }
    -- Strip trailing slash
    if r.vodka.stripTrailingSlash then
      match path.getLast? with
      | none =>
        Exec.panic Panic.indexOutOfRange
          { h := HandlerFunc.notFoundHandler, e := cn.vodka, ctx := ctx }
      | some b => if b = slash then start path.dropLast else start path
    else
      start path

/-! ### Vocabulary of the claims -/

/-- The instance built by `New()`: `maxParam` points to a fresh zero; the
flag is the trailing-slash switch chosen by the caller. -/
def New (stripTrailingSlash : Bool) : Vodka :=
  { maxParam := 0, stripTrailingSlash := stripTrailingSlash }

/-- A sequence of `Add` calls, in order; it stops at the first panic. -/
def AddAll {H : Type} : Router H → List (Str × Str × HandlerFunc H) → Exec (Router H)
  | r, [] => Exec.ok r
  | r, (method, path, h) :: rest =>
    match Add r method path h with
    | Exec.ok r' => AddAll r' rest
    | other => other

/-- Pattern semantics in the words of the specification: `:name` stands for
one non-empty segment without `'/'`, a trailing `*` for the remaining path,
every other byte for itself.  The flag tells that the scan is inside a
parameter name. -/
def patMatch : Bool → Str → Str → Bool
  | _, [], q => q.isEmpty
  | true, c :: p, q =>
    if c = slash then
      match q with
      | [] => false
      | d :: q' => d == slash && patMatch false p q'
    else patMatch true p q
  | false, c :: p, q =>
    if c = star && p.isEmpty then true
    else if c = colon then
      let seg := q.takeWhile (fun b => b != slash)
      !seg.isEmpty && patMatch true p (q.drop seg.length)
    else
      match q with
      | [] => false
      | d :: q' => c == d && patMatch false p q'

/-- A concrete path satisfies a route pattern. -/
def Matches (pattern q : Str) : Bool := patMatch false pattern q

/-! ### The trees of the small routers used below -/

/-- A node without children. -/
def leaf {H : Type} (t : ntype) (pfx : Str) (handler : HandlerMap H) (pnames : List Str) :
    node H :=
  { typ := t, label := pfx.headD 0, pfx := pfx, children := [],
    handler := some handler, pnames := pnames, vodka := true }

/-- A static node that `insert` left without handler, names and owner. -/
def branch {H : Type} (pfx : Str) (children : List (node H)) : node H :=
  { typ := ntype.stype, label := pfx.headD 0, pfx := pfx, children := children,
    handler := some [], pnames := [], vodka := false }

/-- Router after GET `/ab` (1), POST `/ac` (2). -/
def routerAbAc : Router Nat :=
  { tree := branch (ascii "/a")
      [leaf ntype.stype (ascii "b") [(ascii "POST", HandlerFunc.nil)] [],
       leaf ntype.stype (ascii "c") [(ascii "POST", HandlerFunc.user 2)] []],
    routes := [], vodka := { maxParam := 0, stripTrailingSlash := false } }

/-- Router after `/users/:id` (`hP`), then `/users/new` (`hS`), under `m`. -/
def routerUsers {H : Type} (m : Str) (hP hS : H) (strip : Bool) : Router H :=
  { tree := branch (ascii "/users/")
      [leaf ntype.ptype (ascii ":") [(m, HandlerFunc.user hP)] [ascii "id"],
       leaf ntype.stype (ascii "new") [(m, HandlerFunc.user hS)] []],
    routes := [], vodka := { maxParam := 1, stripTrailingSlash := strip } }

/-- Router after `/users/new` (`hS`), then `/users/:id` (`hP`), under `m`. -/
def routerUsersRev {H : Type} (m : Str) (hP hS : H) (strip : Bool) : Router H :=
  { tree :=
      { typ := ntype.stype, label := slash, pfx := ascii "/users/",
        children :=
          [leaf ntype.stype (ascii "new") [(m, HandlerFunc.user hS)] [],
           leaf ntype.ptype (ascii ":") [(m, HandlerFunc.user hP)] [ascii "id"]],
        handler := some [(m, HandlerFunc.nil)], pnames := [], vodka := true },
    routes := [], vodka := { maxParam := 1, stripTrailingSlash := strip } }

/-- Router after GET `/files/*` (1), then GET `/files/:name` (2). -/
def routerFiles : Router Nat :=
  { tree := branch (ascii "/files/")
      [leaf ntype.mtype (ascii "*") [(ascii "GET", HandlerFunc.user 1)] [ascii "_name"],
       leaf ntype.ptype (ascii ":") [(ascii "GET", HandlerFunc.user 2)] [ascii "name"]],
    routes := [], vodka := { maxParam := 1, stripTrailingSlash := false } }

/-- Router after GET `/files/:name` (2), then GET `/files/*` (1). -/
def routerFilesRev : Router Nat :=
  { tree := branch (ascii "/files/")
      [leaf ntype.ptype (ascii ":") [(ascii "GET", HandlerFunc.user 2)] [ascii "name"],
       leaf ntype.mtype (ascii "*") [(ascii "GET", HandlerFunc.user 1)] [ascii "_name"]],
    routes := [], vodka := { maxParam := 1, stripTrailingSlash := false } }

/-- Router after GET `/users/:id/files/*` (1). -/
def routerUserFiles : Router Nat :=
  { tree := branch (ascii "/users/")
      [{ leaf ntype.ptype (ascii ":") [(ascii "GET", HandlerFunc.nil)] [ascii "id"] with
         children :=
          [{ leaf ntype.stype (ascii "/files/") [(ascii "GET", HandlerFunc.nil)] [] with
             children :=
              [leaf ntype.mtype (ascii "*") [(ascii "GET", HandlerFunc.user 1)]
                 [ascii "id", ascii "_name"]] }] }],
    routes := [], vodka := { maxParam := 2, stripTrailingSlash := false } }

/-- Router after GET `/ping` (1). -/
def routerPing : Router Nat :=
  { tree := leaf ntype.stype (ascii "/ping") [(ascii "GET", HandlerFunc.user 1)] [],
    routes := [], vodka := { maxParam := 0, stripTrailingSlash := false } }

/-- Router after GET `/ping` (1), GET `/pong` (2). -/
def routerPingPong : Router Nat :=
  { tree := branch (ascii "/p")
      [leaf ntype.stype (ascii "ing") [(ascii "GET", HandlerFunc.user 1)] [],
       leaf ntype.stype (ascii "ong") [(ascii "GET", HandlerFunc.user 2)] []],
    routes := [], vodka := { maxParam := 0, stripTrailingSlash := false } }

/-- Router after GET `/a/:id/b` (1). -/
def routerParamThenStatic : Router Nat :=
  { tree := branch (ascii "/a/")
      [{ leaf ntype.ptype (ascii ":") [(ascii "GET", HandlerFunc.nil)] [ascii "id"] with
         children := [leaf ntype.stype (ascii "/b") [(ascii "GET", HandlerFunc.user 1)]
                        [ascii "id"]] }],
    routes := [], vodka := { maxParam := 1, stripTrailingSlash := false } }

/-! ### Chains: trees in which every node has at most one child -/

/-- The fields of a node other than its label and children. -/
structure Link (H : Type) where
  typ : ntype
  pfx : Str
  handler : Option (HandlerMap H)
  pnames : List Str
  vodka : Bool

/-- The node of a link with the given children; its label is the first byte
of its prefix, as `newNode` and `insert` set it. -/
def Link.toNode {H : Type} (l : Link H) (children : List (node H)) : node H :=
  { typ := l.typ, label := l.pfx.headD 0, pfx := l.pfx, children := children,
    handler := l.handler, pnames := l.pnames, vodka := l.vodka }

/-- The tree made of a first link and the links below it, each node being
the only child of the one before. -/
def chain {H : Type} : Link H → List (Link H) → node H
  | l, [] => l.toNode []
  | l, l' :: ls => l.toNode [chain l' ls]

/-- The concatenated prefixes along a chain. -/
def chainPath {H : Type} : Link H → List (Link H) → Str
  | l, [] => l.pfx
  | l, l' :: ls => l.pfx ++ chainPath l' ls

/-- The root as the first `insert` of a route with parameters leaves it: the
literal text before the first `':'` or `'*'`, no handler, no owner. -/
def rootLink {H : Type} (s0 : Str) : Link H :=
  { typ := ntype.stype, pfx := s0, handler := some [], pnames := [], vodka := false }

/-- The pattern text of a list of segments `(name, text)`: each stands for
`:name` followed by the literal `text`. -/
def segsPattern : List (Str × Str) → Str
  | [] => []
  | (name, st) :: rest => colon :: (name ++ (st ++ segsPattern rest))

/-- The concrete text for a list of segments when the `i`-th `:name` is
replaced by the `i`-th value. -/
def segsPath : List (Str × Str) → List Str → Str
  | (_, st) :: rest, v :: vs => v ++ (st ++ segsPath rest vs)
  | _, _ => []

/-- Well-formed segments: a name has no `'/'`; the literal text has no `':'`
or `'*'` and starts with `'/'`, or is empty in the last segment. -/
def SegsOk : List (Str × Str) → Prop
  | [] => True
  | (name, st) :: rest =>
    slash ∉ name ∧ (∀ b ∈ st, b ≠ colon ∧ b ≠ star) ∧
    (st.head? = some slash ∨ (st = [] ∧ rest = [])) ∧ SegsOk rest

/-- The links that `Add` hangs below a static node for the remaining
segments: a PARAM node per segment, followed by a static node for its
literal text; only the last node of the route carries the handler, the
others the entry `m ↦ nil`. -/
def afterStatic {H : Type} (m : Str) (h : HandlerFunc H) (pn : List Str) :
    List (Str × Str) → List (Link H)
  | [] => []
  | (name, st) :: rest =>
    if st = [] then
      [{ typ := ntype.ptype, pfx := [colon], handler := some [(m, h)],
         pnames := pn ++ [name], vodka := true }]
    else
      { typ := ntype.ptype, pfx := [colon], handler := some [(m, HandlerFunc.nil)],
        pnames := pn ++ [name], vodka := true } ::
      { typ := ntype.stype, pfx := st,
        handler := some [(m, if rest.isEmpty then h else HandlerFunc.nil)],
        pnames := if rest.isEmpty then pn ++ [name] else [], vodka := true } ::
      afterStatic m h (pn ++ [name]) rest

/-! ### Further routers and vocabulary -/

/-- Router after GET `/:p` (1), GET `/s/:x/zz` (2). -/
def routerParamAndDeeper : Router Nat :=
  { tree := branch (ascii "/")
      [leaf ntype.ptype (ascii ":") [(ascii "GET", HandlerFunc.user 1)] [ascii "p"],
       { leaf ntype.stype (ascii "s/") [(ascii "GET", HandlerFunc.nil)] [] with
         children :=
          [{ leaf ntype.ptype (ascii ":") [(ascii "GET", HandlerFunc.nil)] [ascii "x"] with
             children := [leaf ntype.stype (ascii "/zz") [(ascii "GET", HandlerFunc.user 2)]
                            [ascii "x"]] }] }],
    routes := [], vodka := { maxParam := 1, stripTrailingSlash := false } }

/-- Router after GET `/ab` (1). -/
def routerAb : Router Nat :=
  { tree := leaf ntype.stype (ascii "/ab") [(ascii "GET", HandlerFunc.user 1)] [],
    routes := [], vodka := { maxParam := 0, stripTrailingSlash := false } }

/-- Router after GET `/ab` (1), PUT `/a` (2). -/
def routerAbThenA : Router Nat :=
  { tree :=
      { leaf ntype.stype (ascii "/a") [(ascii "PUT", HandlerFunc.user 2)] [] with
        children := [leaf ntype.stype (ascii "b") [(ascii "PUT", HandlerFunc.nil)] []] },
    routes := [], vodka := { maxParam := 0, stripTrailingSlash := false } }

/-- The router with the trailing-slash switch set to `b`. -/
def withStrip {H : Type} (b : Bool) (r : Router H) : Router H :=
  { r with vodka := { r.vodka with stripTrailingSlash := b } }

/-- Router after GET `/files/` (1) and GET `/files/*` (2), in either order. -/
def routerStaticAndCatchAll : Router Nat :=
  { tree :=
      { leaf ntype.stype (ascii "/files/") [(ascii "GET", HandlerFunc.user 1)] [] with
        children := [leaf ntype.mtype (ascii "*") [(ascii "GET", HandlerFunc.user 2)]
                       [ascii "_name"]] },
    routes := [], vodka := { maxParam := 1, stripTrailingSlash := false } }

/-- The number of parameter names in a pattern, in the words of the
specification: one per `:name` segment (a name runs to the next `'/'`), plus
one for a `'*'`, after which nothing counts.  The flag tells that the scan is
inside a name. -/
def paramCount : Bool → Str → Nat
  | _, [] => 0
  | true, c :: p => if c = slash then paramCount false p else paramCount true p
  | false, c :: p =>
    if c = colon then 1 + paramCount true p
    else if c = star then 1
    else paramCount false p

/-- The largest number of parameter names among the registered patterns. -/
def maxParamCount {H : Type} : List (Str × Str × HandlerFunc H) → Nat
  | [] => 0
  | (_, path, _) :: rest => max (paramCount false path) (maxParamCount rest)

/-- A path is present in a tree: walking down from the node as `insert`
does, comparing prefixes and choosing children by label, uses the path up
exactly at the end of the prefix of some node. -/
inductive Present {H : Type} : node H → Str → Prop where
  | atNode (cn : node H) (s : Str) : s ≠ [] → cn.pfx = s → Present cn s
  | under (cn : node H) (s rest : Str) (c : node H) :
      cn.pfx ≠ [] → s = cn.pfx ++ rest → rest ≠ [] →
      findChildWithLabel cn (rest.headD 0) = some c → Present c rest → Present cn s

/-- The kind of a node fits its prefix: a PARAM node has the prefix `":"`,
a match-any node the prefix `"*"`. -/
def kindOk {H : Type} (c : node H) : Prop :=
  (c.typ = ntype.ptype → c.pfx = [colon]) ∧ (c.typ = ntype.mtype → c.pfx = [star])

/-- What holds of every node that is a child: its prefix is not empty, its
label is the first byte of the prefix, and its kind fits the prefix. -/
def NodeOk {H : Type} (c : node H) : Prop :=
  c.pfx ≠ [] ∧ c.label = c.pfx.headD 0 ∧ kindOk c

/-- The invariant of the trees that `Add` builds: in every node the labels
of the children are pairwise distinct and every child is `NodeOk`. -/
inductive WF {H : Type} : node H → Prop where
  | mk (n : node H) : (n.children.map node.label).Nodup →
      (∀ c ∈ n.children, NodeOk c) → (∀ c ∈ n.children, WF c) → WF n

/-- The node that `newNode` returns for a non-empty prefix. -/
def mkNode {H : Type} (t : ntype) (pre : Str) (c : List (node H)) (h : HandlerFunc H)
    (pnames : List Str) (e : Bool) (m : Str) : node H :=
  { typ := t, label := pre.headD 0, pfx := pre, children := c,
    handler := some [(m, h)], pnames := pnames, vodka := e }

/-- The state in which a call ends: the result when it returns, the state
left behind when it panics. -/
def Exec.final {σ : Type} : Exec σ → Option σ
  | Exec.ok s => some s
  | Exec.panic _ s => some s
  | Exec.timeout => none

/-- The root is a static node and all child sets below it are well formed. -/
def TreeOk {H : Type} (t : node H) : Prop :=
  t.typ = ntype.stype ∧ WF t

/-- The routers that `Add` calls with valid methods build from a new router;
a call that panics leaves a router as well (`recovered`). -/
inductive Reachable {H : Type} : Router H → Prop where
  | fresh (e : Vodka) : Reachable (NewRouter e)
  | add (r r' : Router H) (m p : Str) (h : HandlerFunc H) :
      Reachable r → validMethod m = true → Add r m p h = Exec.ok r' → Reachable r'
  | recovered (r r' : Router H) (m p : Str) (h : HandlerFunc H) (q : Panic) :
      Reachable r → validMethod m = true → Add r m p h = Exec.panic q r' → Reachable r'

mutual
/-- All nodes of a tree, the root first. -/
def node.nodes {H : Type} : node H → List (node H)
  | ⟨t, l, p, cs, h, pn, v⟩ => ⟨t, l, p, cs, h, pn, v⟩ :: nodesList cs
/-- All nodes of the trees of a list. -/
def nodesList {H : Type} : List (node H) → List (node H)
  | [] => []
  | c :: cs => c.nodes ++ nodesList cs
end

/-- The children of a node that have the kind `t`. -/
def childrenOfKind {H : Type} (n : node H) (t : ntype) : List (node H) :=
  n.children.filter (fun c => c.typ == t)

mutual
/-- The tree in which `g` is applied to the handler map of every node. -/
def node.mapMaps {H : Type} (g : HandlerMap H → HandlerMap H) : node H → node H
  | ⟨t, l, p, cs, h, pn, v⟩ => ⟨t, l, p, mapMapsList g cs, h.map g, pn, v⟩
/-- The trees of a list with `g` applied to every handler map. -/
def mapMapsList {H : Type} (g : HandlerMap H → HandlerMap H) : List (node H) → List (node H)
  | [] => []
  | c :: cs => c.mapMaps g :: mapMapsList g cs
end

/-- The variables of `Find` over the tree with `g` applied to every map. -/
def FindState.mapMaps {H : Type} (g : HandlerMap H → HandlerMap H) (s : FindState H) :
    FindState H :=
  { s with cn := s.cn.mapMaps g, nn := s.nn.map (node.mapMaps g) }

/-- The outcome of a pass over the tree with `g` applied to every map. -/
def Step.mapMaps {H : Type} (g : HandlerMap H → HandlerMap H) : Step H → Step H
  | Step.next s => Step.next (s.mapMaps g)
  | Step.done r => Step.done r

/-- What a pass leaves of the variable `h`: it is carried on, and it is the
handler of every result other than a panic. -/
def Step.keepsH {H : Type} (h : HandlerFunc H) : Step H → Prop
  | Step.next s => s.h = h
  | Step.done (Exec.ok res) => res.h = h
  | Step.done _ => True

/-- The result of a lookup with `ρ` applied to the handler it returns. -/
def Exec.mapH {H : Type} (ρ : HandlerFunc H → HandlerFunc H) :
    Exec (FindResult H) → Exec (FindResult H)
  | Exec.ok res => Exec.ok { res with h := ρ res.h }
  | Exec.panic p res => Exec.panic p res
  | Exec.timeout => Exec.timeout

/-- The change that a second registration makes to the map of the node of
the route: a map that binds `m` to the handler `h1` gets `m'` bound to `h2`;
every other map is left as it is. -/
def rebind {H : Type} [DecidableEq H] (m : Str) (h1 : H) (m' : Str) (h2 : H)
    (hm : HandlerMap H) : HandlerMap H :=
  if hm.lookup m = some (HandlerFunc.user h1) then mapSet hm m' (HandlerFunc.user h2) else hm

/-- No node of the tree binds the method `m` to the handler `h1`. -/
inductive Unbound {H : Type} (m : Str) (h1 : H) : node H → Prop where
  | mk (n : node H) :
      (∀ hm, n.handler = some hm → hm.lookup m ≠ some (HandlerFunc.user h1)) →
      (∀ c ∈ n.children, Unbound m h1 c) → Unbound m h1 n

/-- Router after GET `/x` (1). -/
def routerX : Router Nat :=
  { tree := leaf ntype.stype (ascii "/x") [(ascii "GET", HandlerFunc.user 1)] [],
    routes := [], vodka := { maxParam := 0, stripTrailingSlash := false } }

/-- Router after GET `/x` (1) and GET `/y` (`hy`). -/
def routerXY (hy : Nat) : Router Nat :=
  { tree := branch (ascii "/")
      [leaf ntype.stype (ascii "x") [(ascii "GET", HandlerFunc.user 1)] [],
       leaf ntype.stype (ascii "y") [(ascii "GET", HandlerFunc.user hy)] []],
    routes := [], vodka := { maxParam := 0, stripTrailingSlash := false } }

/-- Router after GET `/users/:id` (`h`). -/
def routerUser (h : Nat) : Router Nat :=
  { tree := branch (ascii "/users/")
      [leaf ntype.ptype (ascii ":") [(ascii "GET", HandlerFunc.user h)] [ascii "id"]],
    routes := [], vodka := { maxParam := 1, stripTrailingSlash := false } }

/-- The handler a lookup returns after `h1` has been replaced by `h2`. -/
def relabel {H : Type} [DecidableEq H] (h1 h2 : H) (x : HandlerFunc H) : HandlerFunc H :=
  if x = HandlerFunc.user h1 then HandlerFunc.user h2 else x

/-- The links that `Add` hangs below a static node for segments `:name` +
literal text that are followed by a `'*'`: a PARAM node and a static node per
segment, all with the entry `m ↦ nil`, and the CATCH_ALL node with the
handler. -/
def starLinks {H : Type} (m : Str) (h : HandlerFunc H) (pn : List Str) :
    List (Str × Str) → List (Link H)
  | [] =>
    [{ typ := ntype.mtype, pfx := [star], handler := some [(m, h)],
       pnames := pn ++ [ascii "_name"], vodka := true }]
  | (name, st) :: rest =>
    { typ := ntype.ptype, pfx := [colon], handler := some [(m, HandlerFunc.nil)],
      pnames := pn ++ [name], vodka := true } ::
    { typ := ntype.stype, pfx := st, handler := some [(m, HandlerFunc.nil)],
      pnames := [], vodka := true } ::
    starLinks m h (pn ++ [name]) rest

/-- The text that `Add` hands to its last `insert` for a pattern: a name
after `':'` is dropped up to the next `'/'`, and the text ends with the first
`'*'`.  The flag tells that the scan is inside a parameter name. -/
def routeText : Bool → Str → Str
  | _, [] => []
  | true, c :: p => if c = slash then slash :: routeText false p else routeText true p
  | false, c :: p =>
    if c = colon then colon :: routeText true p
    else if c = star then [star]
    else c :: routeText false p

mutual
/-- Every node of a tree together with the text spelled by the prefixes on
the way from the root to it; `pre` is the text above the node. -/
def node.spelled {H : Type} (pre : Str) : node H → List (Str × node H)
  | ⟨t, l, p, cs, h, pn, v⟩ => (pre ++ p, ⟨t, l, p, cs, h, pn, v⟩) :: spelledList (pre ++ p) cs
/-- The nodes of the trees of a list with the text spelled down to them. -/
def spelledList {H : Type} (pre : Str) : List (node H) → List (Str × node H)
  | [] => []
  | c :: cs => c.spelled pre ++ spelledList pre cs
end

/-- The handler-map invariant in the words of the specification: a node has
an entry for a method only if a registered pair (method, pattern) ends
exactly at the node, and the entry is the handler of that pair. -/
def HandlerMapInvariant {H : Type} (routes : List (Str × Str × HandlerFunc H))
    (t : node H) : Prop :=
  ∀ x ∈ t.spelled [], ∀ (m : Str) (v : HandlerFunc H), mapGet? x.2.handler m = some v →
    ∃ p, (m, p, v) ∈ routes ∧ routeText false p = x.1

/-- Router after GET `/x/a/:id` (1), GET `/x/a/new` (2), GET `/x/b` (3). -/
def routerXaXb : Router Nat :=
  { tree := branch (ascii "/x/")
      [{ leaf ntype.stype (ascii "a/") [(ascii "GET", HandlerFunc.nil)] [] with
          vodka := false
          children :=
            [leaf ntype.ptype (ascii ":") [(ascii "GET", HandlerFunc.user 1)] [ascii "id"],
             leaf ntype.stype (ascii "new") [(ascii "GET", HandlerFunc.user 2)] []] },
       leaf ntype.stype (ascii "b") [(ascii "GET", HandlerFunc.user 3)] []],
    routes := [], vodka := { maxParam := 1, stripTrailingSlash := false } }

/-- The variables with which `Find` enters its loop. -/
def startState {H : Type} (r : Router H) (path : Str) (ctx : Context) : FindState H :=
  { cn := r.tree, search := path, n := 0, nt := ntype.stype, nn := none, ns := [],
    h := HandlerFunc.notFoundHandler, e := r.tree.vodka, ctx := ctx }

/-- The pass goes back to the saved point: the search string is not used up,
the comparison `l == pl` fails, and the saved kind `nt` names an alternative
(it is not the zero value). -/
def jumpsBack {H : Type} (s : FindState H) : Bool :=
  decide (s.search ≠ []) &&
  decide ((if s.cn.label ≠ colon then lcp s.search s.cn.pfx else 0) ≠
          (if s.cn.label ≠ colon then s.cn.pfx.length else 0)) &&
  decide (s.nt ≠ ntype.stype)

/-- How many alternatives a saved kind leaves to try: PARAM and then
match-any for `ptype`, match-any only for `mtype`. -/
def altRank : ntype → Nat
  | ntype.stype => 0
  | ntype.mtype => 1
  | ntype.ptype => 2

/-- The pair of a saved point: the length of the saved search string and the
rank of the alternative still to try. -/
def FindState.pair {H : Type} (s : FindState H) : Nat × Nat :=
  (s.ns.length, altRank s.nt)

/-- The pairs of the saved points at the passes of the loop that go back to
the saved point, in the order of the passes. -/
def backtracks {H : Type} (method : Str) : Nat → FindState H → List (Nat × Nat)
  | 0, _ => []
  | fuel + 1, s =>
    let rest := match FindStep method s with
      | Step.next s' => backtracks method fuel s'
      | Step.done _ => []
    if jumpsBack s then s.pair :: rest else rest

/-- Lexicographic order on pairs. -/
def pairLt (a b : Nat × Nat) : Prop :=
  a.1 < b.1 ∨ (a.1 = b.1 ∧ a.2 < b.2)

/-- Lexicographic order on pairs, equality included. -/
def pairLe (a b : Nat × Nat) : Prop :=
  a.1 < b.1 ∨ (a.1 = b.1 ∧ a.2 ≤ b.2)

/-- A bound on the number of jumps back that are still possible: none of the
saved points to come lies above the present one. -/
def budget {H : Type} (D : Nat) (s : FindState H) : Nat :=
  match s.nt, s.nn with
  | ntype.stype, _ => 2 * D + 2
  | ntype.ptype, some n => 2 * n.height + 1
  | ntype.mtype, some n => 2 * n.height
  | _, none => 0

/-- A number that every pass of the loop of `Find` makes smaller, in a tree
of height at most `D`. -/
def potential {H : Type} (D : Nat) (s : FindState H) : Nat :=
  if s.search = [] then 1 else 2 + budget D s * (D + 1) + s.cn.height

/-- What the loop of `Find` keeps true of its saved point: the saved kind is
the zero value, or a node is saved whose label is `'/'` and the current node
lies below it. -/
def Saved {H : Type} (D : Nat) (s : FindState H) : Prop :=
  s.cn.height ≤ D ∧
  (s.nt = ntype.stype ∨
    ∃ n, s.nn = some n ∧ n.label = slash ∧ s.cn.height < n.height ∧ n.height ≤ D)

/-- Every node of the tree whose label is `'/'` has a non-empty prefix. -/
def SlashOk {H : Type} (n : node H) : Prop :=
  ∀ x ∈ n.nodes, x.label = slash → x.pfx ≠ []

/-- What the loop of `Find` keeps true of the saved search string: it is at
least as long as the current one. -/
def Traced {H : Type} (s : FindState H) : Prop :=
  SlashOk s.cn ∧ (∀ n, s.nn = some n → SlashOk n) ∧
  (s.nt ≠ ntype.stype → (∃ n, s.nn = some n ∧ n.label = slash) ∧
    s.search.length ≤ s.ns.length)

/-- The prefix of the node is not empty and its first byte is the label. -/
def Labelled {H : Type} (n : node H) : Prop :=
  n.pfx ≠ [] ∧ n.label = n.pfx.headD 0

/-- The root is as `NewRouter` made it (no prefix, label 0, no children), or
it has a non-empty prefix whose first byte is its label. -/
def RootOk {H : Type} (t : node H) : Prop :=
  (t.pfx = [] ∧ t.label = 0 ∧ t.children = []) ∨ Labelled t

/-- The handler map of every node of the tree is allocated. -/
inductive Alloc {H : Type} : node H → Prop where
  | mk (n : node H) : n.handler ≠ none → (∀ c ∈ n.children, Alloc c) → Alloc n

/-- Router after GET `/a/b` (1), GET `/:x/c` (2), GET `/*` (3). -/
def routerBacktrack : Router Nat :=
  { tree :=
      { leaf ntype.stype (ascii "/") [(ascii "GET", HandlerFunc.nil)] [] with
        children :=
          [leaf ntype.stype (ascii "a/b") [(ascii "GET", HandlerFunc.user 1)] [],
           { leaf ntype.ptype (ascii ":") [(ascii "GET", HandlerFunc.nil)] [ascii "x"] with
             children := [leaf ntype.stype (ascii "/c") [(ascii "GET", HandlerFunc.user 2)]
               [ascii "x"]] },
           leaf ntype.mtype (ascii "*") [(ascii "GET", HandlerFunc.user 3)] [ascii "_name"]] },
    routes := [], vodka := { maxParam := 1, stripTrailingSlash := false } }

/-- The key under which `Vodka.add` files a route: `method+path`. -/
def routeKey (r : Route) : Str := r.Method ++ r.Path

/-- Modelled from the spec: the route table is keyed by method+path and holds
one entry per key.  `Vodka.add` writes it with
`e.router.routes[method+path] = r`, the assignment to a map with string keys,
while router.go declares the field as `[]Route`, which has no such index.  The
entries are kept in the list `routes`, the key of an entry being its method
followed by its path (the only key it is written under), and the assignment
replaces the entry that has the key or, when there is none, adds the entry. -/
def routesSet : List Route → Str → Route → List Route
  | [], _, r => [r]
  | x :: xs, k, r => if routeKey x = k then r :: xs else x :: routesSet xs k r

/-- The list is a table: no two of its entries have the same key. -/
def IsTable (rs : List Route) : Prop := (rs.map routeKey).Nodup

/-- `Vodka.add`: registers the handler with the router and files the route
under `method+path`.  `h` is the closure that chains the middleware around the
handler (a new function value, never nil) and `name` is what `handlerName`
gives for the handler.  A panic of `Router.Add` leaves the table as it is. -/
def Vodka.add {H : Type} (r : Router H) (method path : Str) (h : H) (name : Str) :
    Exec (Router H) :=
  match Add r method path (HandlerFunc.user h) with
  | Exec.ok r' =>
    let route : Route := { Method := method, Path := path, Handler := name }
    Exec.ok { r' with routes := routesSet r'.routes (method ++ path) route }
  | other => other

/-! ### Facts about the fixed method set -/

theorem validMethod_cases {m : Str} (hm : validMethod m = true) :
    m = ascii "CONNECT" ∨ m = ascii "DELETE" ∨ m = ascii "GET" ∨ m = ascii "HEAD" ∨
    m = ascii "OPTIONS" ∨ m = ascii "PATCH" ∨ m = ascii "POST" ∨ m = ascii "PUT" ∨
    m = ascii "TRACE" := by
  simp only [validMethod, methods, List.any_cons, List.any_nil, Bool.or_false, Bool.or_eq_true,
    beq_iff_eq] at hm
  rcases hm with h | h | h | h | h | h | h | h | h <;> simp [h]

/-! ### General lemmas on the loops -/

theorem lcp_append_left (p s : Str) : lcp (p ++ s) p = p.length := by
  induction p with
  | nil => cases s <;> rfl
  | cons a p ih => simp [lcp, ih]

theorem lcp_nil_right (s : Str) : lcp s [] = 0 := by
  cases s <;> rfl

theorem lcp_self (p : Str) : lcp p p = p.length := by
  simpa using lcp_append_left p []

theorem FindLoop_succ {H : Type} (method : Str) (fuel : Nat) (s : FindState H) :
    FindLoop method (fuel + 1) s =
      match FindStep method s with
      | Step.next s' => FindLoop method fuel s'
      | Step.done r => r := rfl

/-- More passes do not change a lookup that has returned. -/
theorem FindLoop_mono {H : Type} (method : Str) (res : FindResult H) :
    ∀ (fuel k : Nat) (s : FindState H),
      FindLoop method fuel s = Exec.ok res → FindLoop method (fuel + k) s = Exec.ok res := by
  intro fuel
  induction fuel with
  | zero => intro k s h; simp [FindLoop] at h
  | succ f ih =>
    intro k s h
    have e : f + 1 + k = (f + k) + 1 := by omega
    rw [e, FindLoop_succ]
    rw [FindLoop_succ] at h
    cases hs : FindStep method s with
    | next s' => rw [hs] at h; simpa using ih k s' h
    | done r => rw [hs] at h; simpa using h

theorem findFuel_ge {H : Type} (t : node H) : t.height + 3 ≤ findFuel t := by
  unfold findFuel
  omega

/-- `Find` on a valid method without trailing-slash stripping is the loop
started at the root. -/
theorem Find_of_FindLoop {H : Type} (r : Router H) (m path : Str) (ctx : Context)
    (res : FindResult H) (fuel : Nat) (hm : validMethod m = true)
    (hstrip : r.vodka.stripTrailingSlash = false) (hfuel : fuel ≤ findFuel r.tree)
    (h : FindLoop m fuel
      { cn := r.tree, search := path, n := 0, nt := ntype.stype, nn := none, ns := [],
        h := HandlerFunc.notFoundHandler, e := r.tree.vodka, ctx := ctx } = Exec.ok res) :
    Find r m path ctx = Exec.ok res := by
  obtain ⟨k, hk⟩ := Nat.exists_eq_add_of_le hfuel
  simp only [Find, hm, hstrip, Bool.not_true, Bool.false_eq_true, if_false]
  rw [hk]
  exact FindLoop_mono m res fuel k _ h

theorem getD_append_cons (pre : Str) (b : Nat) (rest : Str) :
    (pre ++ b :: rest).getD pre.length 0 = b := by
  induction pre with
  | nil => rfl
  | cons a pre ih => simpa using ih

/-- The scan of `Add` steps over bytes that are neither `':'` nor `'*'`. -/
theorem AddLoop_static {H : Type} (m : Str) (h : HandlerFunc H) (st : Str) :
    ∀ (pre rest : Str) (fuel : Nat) (r : Router H) (pn : List Str),
      (∀ b ∈ st, b ≠ colon ∧ b ≠ star) →
      AddLoop m h (fuel + st.length) r (pre ++ (st ++ rest)) pre.length pn =
        AddLoop m h fuel r (pre ++ (st ++ rest)) (pre.length + st.length) pn := by
  induction st with
  | nil => intro pre rest fuel r pn _; rfl
  | cons b st ih =>
    intro pre rest fuel r pn hst
    have hb := hst b (List.mem_cons_self _ _)
    have e1 : fuel + (b :: st).length = (fuel + st.length) + 1 := by simp only [List.length_cons]; omega
    have hlt : pre.length < (pre ++ (b :: st ++ rest)).length := by
      simp only [List.length_append, List.length_cons]; omega
    rw [e1, AddLoop]
    simp only [hlt, if_true]
    have hg : (pre ++ (b :: st ++ rest)).getD pre.length 0 = b := by
      simpa using getD_append_cons pre b (st ++ rest)
    simp only [hg, hb.1, hb.2, if_false]
    have e2 : pre ++ (b :: st ++ rest) = (pre ++ [b]) ++ (st ++ rest) := by simp
    have e3 : pre.length + 1 = (pre ++ [b]).length := by simp
    have e4 : pre.length + (b :: st).length = (pre ++ [b]).length + st.length := by
      simp only [List.length_append, List.length_cons, List.length_nil]; omega
    rw [e2, e3, e4]
    exact ih (pre ++ [b]) rest fuel r pn (fun c hc => hst c (List.mem_cons_of_mem _ hc))

theorem chain_label {H : Type} (l : Link H) (ls : List (Link H)) :
    (chain l ls).label = l.pfx.headD 0 := by
  cases ls <;> rfl

theorem chain_pfx {H : Type} (l : Link H) (ls : List (Link H)) :
    (chain l ls).pfx = l.pfx := by
  cases ls <;> rfl

theorem chainPath_headD {H : Type} (l : Link H) (ls : List (Link H)) (x : Str)
    (hl : l.pfx ≠ []) : (chainPath l ls ++ x).headD 0 = l.pfx.headD 0 := by
  cases hp : l.pfx with
  | nil => exact absurd hp hl
  | cons b p => cases ls <;> simp [chainPath, hp]

theorem chainPath_length_pos {H : Type} (l : Link H) (ls : List (Link H))
    (hl : l.pfx ≠ []) : 0 < (chainPath l ls).length := by
  cases hp : l.pfx with
  | nil => exact absurd hp hl
  | cons b p => cases ls <;> simp [chainPath, hp]

/-- Inserting a path that runs along a whole chain and then goes on with `x`
hangs a new node with prefix `x` below the last node of the chain. -/
theorem insertLoop_chain_append {H : Type} (m : Str) (h : HandlerFunc H) (t : ntype)
    (pn : List Str) (e : Bool) (x : Str) (hx : x ≠ []) :
    ∀ (ls : List (Link H)) (l0 : Link H) (fuel : Nat),
      (∀ l ∈ l0 :: ls, l.pfx ≠ []) →
      (chainPath l0 ls ++ x).length < fuel →
      insertLoop m h t pn e fuel (chain l0 ls) (chainPath l0 ls ++ x) =
        Exec.ok (chain l0 (ls ++ [⟨t, x, some [(m, h)], pn, e⟩])) := by
  intro ls
  induction ls with
  | nil =>
    intro l0 fuel hne hfuel
    obtain ⟨f, rfl⟩ : ∃ f, fuel = f + 1 := ⟨fuel - 1, by omega⟩
    have h0 : l0.pfx ≠ [] := hne l0 (List.mem_cons_self _ _)
    have hlen : 0 < l0.pfx.length := List.length_pos.mpr h0
    obtain ⟨b, x', rfl⟩ : ∃ b x', x = b :: x' := by
      cases x with
      | nil => exact absurd rfl hx
      | cons b x' => exact ⟨b, x', rfl⟩
    simp only [insertLoop, chain, chainPath, Link.toNode, lcp_append_left, List.length_append,
      List.length_cons]
    have h1 : ¬ l0.pfx.length = 0 := by omega
    simp [h1, findChildWithLabel, newNode, addChild]
  | cons l1 ls ih =>
    intro l0 fuel hne hfuel
    obtain ⟨f, rfl⟩ : ∃ f, fuel = f + 1 := ⟨fuel - 1, by omega⟩
    have h0 : l0.pfx ≠ [] := hne l0 (List.mem_cons_self _ _)
    have h1' : l1.pfx ≠ [] := hne l1 (by simp)
    have hlen : 0 < l0.pfx.length := List.length_pos.mpr h0
    have hpos := chainPath_length_pos l1 ls h1'
    have hrec := ih l1 f (fun l hl => hne l (List.mem_cons_of_mem _ hl))
      (by simp only [chainPath, List.length_append] at hfuel ⊢; omega)
    have hhd := chainPath_headD l1 ls x h1'
    simp only [insertLoop, chain, chainPath, Link.toNode, List.append_assoc, lcp_append_left,
      List.length_append]
    have h1 : ¬ l0.pfx.length = 0 := by omega
    have h2 : l0.pfx.length < l0.pfx.length + ((chainPath l1 ls).length + x.length) := by omega
    simp only [h1, if_false, lt_irrefl, h2, if_true, List.drop_left, hhd, findChildWithLabel,
      List.find?, chain_label, beq_self_eq_true, hrec, replaceChildWithLabel, List.cons_append]
    rfl

/-- Inserting, without a handler, exactly the path that runs along a whole
chain leaves the chain as it is. -/
theorem insertLoop_chain_same {H : Type} (m : Str) (t : ntype) (pn : List Str) (e : Bool) :
    ∀ (ls : List (Link H)) (l0 : Link H) (fuel : Nat),
      (∀ l ∈ l0 :: ls, l.pfx ≠ []) →
      (chainPath l0 ls).length < fuel →
      insertLoop m HandlerFunc.nil t pn e fuel (chain l0 ls) (chainPath l0 ls) =
        Exec.ok (chain l0 ls) := by
  intro ls
  induction ls with
  | nil =>
    intro l0 fuel hne hfuel
    obtain ⟨f, rfl⟩ : ∃ f, fuel = f + 1 := ⟨fuel - 1, by omega⟩
    have h0 : l0.pfx ≠ [] := hne l0 (List.mem_cons_self _ _)
    have hlen : 0 < l0.pfx.length := List.length_pos.mpr h0
    have h1 : ¬ l0.pfx.length = 0 := by omega
    simp [insertLoop, chain, chainPath, Link.toNode, lcp_self, h1, HandlerFunc.isNil]
  | cons l1 ls ih =>
    intro l0 fuel hne hfuel
    obtain ⟨f, rfl⟩ : ∃ f, fuel = f + 1 := ⟨fuel - 1, by omega⟩
    have h0 : l0.pfx ≠ [] := hne l0 (List.mem_cons_self _ _)
    have h1' : l1.pfx ≠ [] := hne l1 (by simp)
    have hlen : 0 < l0.pfx.length := List.length_pos.mpr h0
    have hpos := chainPath_length_pos l1 ls h1'
    have hrec := ih l1 f (fun l hl => hne l (List.mem_cons_of_mem _ hl))
      (by simp only [chainPath, List.length_append] at hfuel ⊢; omega)
    have hhd : (chainPath l1 ls).headD 0 = l1.pfx.headD 0 := by
      simpa using chainPath_headD l1 ls [] h1'
    simp only [insertLoop, chain, chainPath, Link.toNode, lcp_append_left, List.length_append]
    have h1 : ¬ l0.pfx.length = 0 := by omega
    have h2 : l0.pfx.length < l0.pfx.length + (chainPath l1 ls).length := by omega
    simp only [h1, if_false, lt_irrefl, h2, if_true, List.drop_left, hhd, findChildWithLabel,
      List.find?, chain_label, beq_self_eq_true, hrec, replaceChildWithLabel]

theorem chainPath_append {H : Type} (l0 : Link H) (ls : List (Link H)) (l : Link H) :
    chainPath l0 (ls ++ [l]) = chainPath l0 ls ++ l.pfx := by
  induction ls generalizing l0 with
  | nil => rfl
  | cons l1 ls ih => simp [chainPath, ih]

/-- `insert` of an extension of the path of a chain. -/
theorem insert_chain_append {H : Type} (m : Str) (hm : validMethod m = true)
    (h : HandlerFunc H) (t : ntype) (pn : List Str) (x : Str) (hx : x ≠ [])
    (l0 : Link H) (ls : List (Link H)) (hne : ∀ l ∈ l0 :: ls, l.pfx ≠ [])
    (routes : List Route) (mp : Nat) (strip : Bool) :
    insert ⟨chain l0 ls, routes, ⟨mp, strip⟩⟩ m (chainPath l0 ls ++ x) h t pn =
      Exec.ok ⟨chain l0 (ls ++ [⟨t, x, some [(m, h)], pn, true⟩]), routes,
        ⟨max mp pn.length, strip⟩⟩ := by
  have hl := insertLoop_chain_append m h t pn true x hx ls l0
    ((chainPath l0 ls ++ x).length + 1) hne (Nat.lt_succ_self _)
  simp only [List.length_append] at hl
  unfold insert
  by_cases hlt : mp < pn.length
  · have : max mp pn.length = pn.length := by omega
    simp [hm, hlt, hl, this]
  · have : max mp pn.length = mp := by omega
    simp [hm, hlt, hl, this]

/-- `insert`, without handler and names, of exactly the path of a chain. -/
theorem insert_chain_same {H : Type} (m : Str) (hm : validMethod m = true) (t : ntype)
    (l0 : Link H) (ls : List (Link H)) (hne : ∀ l ∈ l0 :: ls, l.pfx ≠ [])
    (routes : List Route) (v : Vodka) :
    insert ⟨chain l0 ls, routes, v⟩ m (chainPath l0 ls) HandlerFunc.nil t [] =
      Exec.ok ⟨chain l0 ls, routes, v⟩ := by
  have hl := insertLoop_chain_same m t [] true ls l0
    ((chainPath l0 ls).length + 1) hne (Nat.lt_succ_self _)
  unfold insert
  simp [hm, hl]

/-- The first `insert` into the tree of `NewRouter`, without handler. -/
theorem insert_fresh_root {H : Type} (m : Str) (hm : validMethod m = true) (s0 : Str)
    (hs0 : s0 ≠ []) (v : Vodka) :
    insert (NewRouter v) m s0 HandlerFunc.nil ntype.stype [] =
      (Exec.ok ⟨chain (rootLink s0) [], [], v⟩ : Exec (Router H)) := by
  obtain ⟨b, s', rfl⟩ : ∃ b s', s0 = b :: s' := by
    cases s0 with
    | nil => exact absurd rfl hs0
    | cons b s' => exact ⟨b, s', rfl⟩
  simp [insert, hm, NewRouter, insertLoop, lcp_nil_right, HandlerFunc.isNil, chain,
    Link.toNode, rootLink]

/-- At a `':'`, `Add` first inserts the text before it; when that text is
already in the tree the pass runs as on the tree with the text inserted. -/
theorem AddLoop_colon_congr {H : Type} (m : Str) (h : HandlerFunc H) (fuel : Nat)
    (r r1 : Router H) (path : Str) (i : Nat) (pn : List Str)
    (hi : i < path.length) (hc : path.getD i 0 = colon)
    (h1 : insert r m (path.take i) HandlerFunc.nil ntype.stype [] = Exec.ok r1)
    (h2 : insert r1 m (path.take i) HandlerFunc.nil ntype.stype [] = Exec.ok r1) :
    AddLoop m h (fuel + 1) r path i pn = AddLoop m h (fuel + 1) r1 path i pn := by
  simp only [AddLoop, hi, hc, if_true, h1, h2]

theorem takeWhile_segment (v tail : Str) (hv : slash ∉ v)
    (htail : tail = [] ∨ tail.head? = some slash) :
    (v ++ tail).takeWhile (fun b => b != slash) = v := by
  induction v with
  | nil =>
    rcases htail with rfl | ht
    · rfl
    · cases tail with
      | nil => rfl
      | cons b t =>
        simp only [List.head?_cons, Option.some.injEq] at ht
        subst ht
        simp
  | cons a v ih =>
    have ha : a ≠ slash := fun e => hv (by simp [e])
    have hv' : slash ∉ v := fun e => hv (List.mem_cons_of_mem _ e)
    have hb : (a != slash) = true := by simpa using ha
    rw [List.cons_append, List.takeWhile_cons, hb, if_pos rfl, ih hv']

/-- One pass of `Add` at a `':'`: the text before it is inserted as static,
the name is cut out of the pattern, and a PARAM node is inserted at the
placeholder, with the handler when the pattern ends there. -/
theorem AddLoop_colon {H : Type} (m : Str) (h : HandlerFunc H) (fuel : Nat) (r : Router H)
    (pre name tail : Str) (pn : List Str) (hname : slash ∉ name)
    (htail : tail = [] ∨ tail.head? = some slash) :
    AddLoop m h (fuel + 1) r (pre ++ colon :: (name ++ tail)) pre.length pn =
      match insert r m pre HandlerFunc.nil ntype.stype [] with
      | Exec.ok r1 =>
        if tail = [] then insert r1 m (pre ++ [colon]) h ntype.ptype (pn ++ [name])
        else
          match insert r1 m (pre ++ [colon]) HandlerFunc.nil ntype.ptype (pn ++ [name]) with
          | Exec.ok r2 =>
            AddLoop m h fuel r2 (pre ++ [colon] ++ tail) (pre.length + 1 + 1) (pn ++ [name])
          | other => other
      | other => other := by
  have hlt : pre.length < (pre ++ colon :: (name ++ tail)).length := by
    simp only [List.length_append, List.length_cons]; omega
  have hg := getD_append_cons pre colon (name ++ tail)
  have hskip : skipSegment (pre ++ colon :: (name ++ tail)) pre.length
      = pre.length + (1 + name.length) := by
    have hcs : (colon != slash) = true := by decide
    simp [skipSegment, List.takeWhile, hcs, takeWhile_segment name tail hname htail]
    omega
  have htake1 : (pre ++ colon :: (name ++ tail)).take pre.length = pre := by simp
  have htake2 : (pre ++ colon :: (name ++ tail)).take (pre.length + 1) = pre ++ [colon] := by
    simp [List.take_append_eq_append_take, List.take_of_length_le]
  have hdrop1 : (pre ++ colon :: (name ++ tail)).drop (pre.length + 1) = name ++ tail := by
    simp [List.drop_append_eq_append_drop, List.drop_of_length_le]
  have hdrop2 : (pre ++ colon :: (name ++ tail)).drop (pre.length + (1 + name.length))
      = tail := by
    have e : pre.length + (1 + name.length) = (pre ++ colon :: name).length := by
      simp only [List.length_append, List.length_cons]; omega
    have e2 : pre ++ colon :: (name ++ tail) = (pre ++ colon :: name) ++ tail := by simp
    rw [e, e2, List.drop_left]
  have hsub : pre.length + (1 + name.length) - (pre.length + 1) = name.length := by omega
  rw [AddLoop]
  simp only [hlt, if_true, hg, hskip, htake1, htake2, hdrop1, hdrop2, hsub, List.take_left]
  cases hins : insert r m pre HandlerFunc.nil ntype.stype [] with
  | ok r1 =>
    simp only
    have htake3 : (pre ++ [colon] ++ tail).take (pre.length + 1) = pre ++ [colon] := by
      have : pre.length + 1 = (pre ++ [colon]).length := by simp
      rw [this, List.take_left]
    by_cases ht : tail = []
    · subst ht
      have htake4 : (pre ++ [colon]).take (pre.length + 1) = pre ++ [colon] := by
        simp
      simp [htake4]
    · have hlen : ¬ pre.length + 1 = (pre ++ [colon] ++ tail).length := by
        have : 0 < tail.length := List.length_pos.mpr ht
        simp only [List.length_append, List.length_cons, List.length_nil]; omega
      simp only [hlen, ht, if_false, htake3]
  | panic p r1 => rfl
  | timeout => rfl

theorem chainPath_append_two {H : Type} (l0 : Link H) (ls : List (Link H)) (a b : Link H) :
    chainPath l0 (ls ++ [a, b]) = chainPath l0 ls ++ a.pfx ++ b.pfx := by
  have : ls ++ [a, b] = (ls ++ [a]) ++ [b] := by simp
  rw [this, chainPath_append, chainPath_append]

/-- What `Add` builds for the segments of a pattern once the literal text
before them is in the tree: the chain is prolonged by the links of
`afterStatic`, and `maxParam` covers all names. -/
theorem AddLoop_segs {H : Type} (m : Str) (hm : validMethod m = true) (h : HandlerFunc H) :
    ∀ (segs : List (Str × Str)) (l0 : Link H) (ls : List (Link H)) (pn : List Str)
      (fuel : Nat) (routes : List Route) (mp : Nat) (strip : Bool) (path : Str) (i : Nat),
      segs ≠ [] → SegsOk segs → (∀ l ∈ l0 :: ls, l.pfx ≠ []) →
      (segsPattern segs).length < fuel →
      path = chainPath l0 ls ++ segsPattern segs → i = (chainPath l0 ls).length →
      AddLoop m h fuel ⟨chain l0 ls, routes, ⟨mp, strip⟩⟩ path i pn =
        Exec.ok ⟨chain l0 (ls ++ afterStatic m h pn segs), routes,
          ⟨max mp (pn.length + segs.length), strip⟩⟩ := by
  intro segs
  induction segs with
  | nil => intro _ _ _ _ _ _ _ _ _ hne; exact absurd rfl hne
  | cons seg rest ih =>
    obtain ⟨name, st⟩ := seg
    intro l0 ls pn fuel routes mp strip path i _ hok hne hfuel hpath hi
    obtain ⟨hname, hst, hhead, hrest⟩ := hok
    obtain ⟨f, rfl⟩ : ∃ f, fuel = f + 1 := ⟨fuel - 1, by omega⟩
    subst hpath hi
    have htail : st ++ segsPattern rest = [] ∨ (st ++ segsPattern rest).head? = some slash := by
      rcases hhead with hh | ⟨h1, h2⟩
      · right
        cases st with
        | nil => simp at hh
        | cons b st' => simpa using hh
      · left; subst h1 h2; rfl
    simp only [segsPattern]
    rw [AddLoop_colon m h f _ _ name _ pn hname htail,
      insert_chain_same m hm ntype.stype l0 ls hne]
    simp only
    have hpl : ∀ hx : HandlerFunc H, ∀ l ∈ l0 :: (ls ++
        [(⟨ntype.ptype, [colon], some [(m, hx)], pn ++ [name], true⟩ : Link H)]),
        l.pfx ≠ [] := by
      intro hx l hl
      simp only [List.mem_cons, List.mem_append, List.mem_singleton, List.mem_nil_iff,
        or_false] at hl
      rcases hl with hl | hl | hl
      · exact hne l (by simp [hl])
      · exact hne l (by simp [hl])
      · subst hl; simp
    by_cases hst0 : st = []
    · -- the pattern ends with the name
      have hr : rest = [] := by
        rcases hhead with hh | ⟨_, h2⟩
        · subst hst0; simp at hh
        · exact h2
      subst hst0 hr
      simp only [segsPattern, List.append_nil, if_true]
      rw [insert_chain_append m hm h ntype.ptype (pn ++ [name]) [colon] (by simp) l0 ls hne]
      simp [afterStatic]
    · obtain ⟨st', rfl⟩ : ∃ st', st = slash :: st' := by
        rcases hhead with hh | ⟨h1, _⟩
        · cases st with
          | nil => simp at hh
          | cons b st' =>
            simp only [List.head?_cons, Option.some.injEq] at hh
            exact ⟨st', by rw [hh]⟩
        · exact absurd h1 hst0
      have htne : ¬ (slash :: st' ++ segsPattern rest = []) := by simp
      simp only [htne, if_false]
      rw [insert_chain_append m hm HandlerFunc.nil ntype.ptype (pn ++ [name]) [colon]
        (by simp) l0 ls hne]
      simp only
      -- scan the rest of the literal text
      have hst' : ∀ b ∈ st', b ≠ colon ∧ b ≠ star :=
        fun b hb => hst b (List.mem_cons_of_mem _ hb)
      have hflen : (segsPattern rest).length + st'.length + name.length + 2 ≤ f := by
        simp only [segsPattern, List.length_cons, List.length_append] at hfuel
        omega
      obtain ⟨f', rfl⟩ : ∃ f', f = f' + st'.length := ⟨f - st'.length, by omega⟩
      have hp : chainPath l0 ls ++ [colon] ++ (slash :: st' ++ segsPattern rest)
          = (chainPath l0 ls ++ [colon, slash]) ++ (st' ++ segsPattern rest) := by simp
      have hi : (chainPath l0 ls).length + 1 + 1 = (chainPath l0 ls ++ [colon, slash]).length := by
        simp
      rw [hp, hi, AddLoop_static m h st' _ _ f' _ _ hst']
      set P : Link H := ⟨ntype.ptype, [colon], some [(m, HandlerFunc.nil)], pn ++ [name], true⟩
        with hP
      have hpath1 : chainPath l0 ls ++ [colon, slash] ++ (st' ++ segsPattern rest)
          = chainPath l0 (ls ++ [P]) ++ (slash :: st') ++ segsPattern rest := by
        rw [chainPath_append]; simp [hP]
      have hlen1 : (chainPath l0 ls ++ [colon, slash]).length + st'.length
          = (chainPath l0 (ls ++ [P]) ++ (slash :: st')).length := by
        rw [chainPath_append]; simp [hP]; omega
      cases rest with
      | nil =>
        -- the literal text ends the pattern: the last insert carries the handler
        obtain ⟨f'', rfl⟩ : ∃ f'', f' = f'' + 1 := ⟨f' - 1, by omega⟩
        rw [hpath1, hlen1]
        simp only [segsPattern, List.append_nil]
        rw [AddLoop]
        simp only [lt_irrefl, if_false]
        rw [insert_chain_append m hm h ntype.stype (pn ++ [name]) (slash :: st') (by simp)
          l0 (ls ++ [P]) (hpl _)]
        simp [afterStatic, hP]
      | cons seg2 rest' =>
        obtain ⟨f'', rfl⟩ : ∃ f'', f' = f'' + 1 := ⟨f' - 1, by omega⟩
        set S : Link H := ⟨ntype.stype, slash :: st', some [(m, HandlerFunc.nil)], [], true⟩
          with hS
        have hne2 : ∀ l ∈ l0 :: (ls ++ [P, S]), l.pfx ≠ [] := by
          intro l hl
          simp only [List.mem_cons, List.mem_append, List.mem_singleton, List.mem_nil_iff,
            or_false] at hl
          rcases hl with hl | hl | hl | hl
          · exact hne l (by simp [hl])
          · exact hne l (by simp [hl])
          · subst hl; simp [hP]
          · subst hl; simp [hS]
        have hlt2 : (chainPath l0 (ls ++ [P]) ++ (slash :: st')).length <
            (chainPath l0 (ls ++ [P]) ++ (slash :: st') ++ segsPattern (seg2 :: rest')).length := by
          obtain ⟨n2, s2⟩ := seg2
          simp only [segsPattern, List.length_append, List.length_cons]
          omega
        have hget : (chainPath l0 (ls ++ [P]) ++ (slash :: st') ++
            segsPattern (seg2 :: rest')).getD
              (chainPath l0 (ls ++ [P]) ++ (slash :: st')).length 0 = colon := by
          obtain ⟨n2, s2⟩ := seg2
          exact getD_append_cons _ colon _
        have htk : (chainPath l0 (ls ++ [P]) ++ (slash :: st') ++
            segsPattern (seg2 :: rest')).take
              (chainPath l0 (ls ++ [P]) ++ (slash :: st')).length
            = chainPath l0 (ls ++ [P]) ++ (slash :: st') := List.take_left _ _
        have hcp2 : chainPath l0 (ls ++ [P, S]) = chainPath l0 (ls ++ [P]) ++ (slash :: st') := by
          rw [chainPath_append_two, chainPath_append]
        rw [hpath1, hlen1]
        rw [AddLoop_colon_congr m h f''
          ⟨chain l0 (ls ++ [P]), routes, ⟨max mp (pn ++ [name]).length, strip⟩⟩
          ⟨chain l0 (ls ++ [P, S]), routes, ⟨max mp (pn ++ [name]).length, strip⟩⟩
          _ _ _ hlt2 hget
          (by
            rw [htk, insert_chain_append m hm HandlerFunc.nil ntype.stype [] (slash :: st')
              (by simp) l0 (ls ++ [P]) (hpl _)]
            simp [hS])
          (by
            rw [htk, ← hcp2]
            exact insert_chain_same m hm ntype.stype l0 (ls ++ [P, S]) hne2 routes _)]
        rw [ih l0 (ls ++ [P, S]) (pn ++ [name]) (f'' + 1) routes _ strip _ _ (by simp) hrest
          hne2 (by omega) (by rw [hcp2]) (by rw [hcp2])]
        have e1 : ls ++ [P, S] ++ afterStatic m h (pn ++ [name]) (seg2 :: rest')
            = ls ++ afterStatic m h pn ((name, slash :: st') :: seg2 :: rest') := by
          simp [afterStatic, hP, hS]
        have e2 : max (max mp (pn ++ [name]).length)
              ((pn ++ [name]).length + (seg2 :: rest').length)
            = max mp (pn.length + ((name, slash :: st') :: seg2 :: rest').length) := by
          simp only [List.length_append, List.length_cons, List.length_nil]
          omega
        rw [e1, e2]

/-- `Add` of a pattern with at least one `:name` segment on a fresh router:
the tree is the chain of the literal text before the first `':'` and the
links of `afterStatic`, and `maxParam` is the number of names. -/
theorem Add_segments {H : Type} (m : Str) (hm : validMethod m = true) (h : HandlerFunc H)
    (s0 : Str) (segs : List (Str × Str)) (strip : Bool)
    (hs0 : s0 ≠ []) (hs0c : ∀ b ∈ s0, b ≠ colon ∧ b ≠ star)
    (hsegs : segs ≠ []) (hok : SegsOk segs) :
    Add (NewRouter (New strip)) m (s0 ++ segsPattern segs) h =
      Exec.ok ⟨chain (rootLink s0) (afterStatic m h [] segs), [], ⟨segs.length, strip⟩⟩ := by
  have hne : ∀ l ∈ [(rootLink s0 : Link H)], l.pfx ≠ [] := by
    intro l hl
    simp only [List.mem_singleton] at hl
    subst hl
    exact hs0
  obtain ⟨seg, rest, rfl⟩ : ∃ seg rest, segs = seg :: rest := by
    cases segs with
    | nil => exact absurd rfl hsegs
    | cons seg rest => exact ⟨seg, rest, rfl⟩
  have hlt : s0.length < (s0 ++ segsPattern (seg :: rest)).length := by
    obtain ⟨n, s⟩ := seg
    simp only [segsPattern, List.length_append, List.length_cons]; omega
  have hget : (s0 ++ segsPattern (seg :: rest)).getD s0.length 0 = colon := by
    obtain ⟨n, s⟩ := seg
    exact getD_append_cons _ colon _
  have e1 : (s0 ++ segsPattern (seg :: rest)).length + 1
      = ((segsPattern (seg :: rest)).length + 1) + s0.length := by
    simp only [List.length_append]; omega
  have hstat := AddLoop_static m h s0 [] (segsPattern (seg :: rest))
    ((segsPattern (seg :: rest)).length + 1) (NewRouter (New strip)) [] hs0c
  simp only [List.nil_append, List.length_nil, Nat.zero_add] at hstat
  unfold Add
  rw [e1, hstat]
  rw [AddLoop_colon_congr m h _ (NewRouter (New strip))
    ⟨chain (rootLink s0) [], [], New strip⟩ _ _ _ hlt hget
    (by rw [List.take_left]; exact insert_fresh_root m hm s0 hs0 _)
    (by rw [List.take_left]
        exact insert_chain_same m hm ntype.stype (rootLink s0) [] hne [] _)]
  have := AddLoop_segs m hm h (seg :: rest) (rootLink s0) [] []
    ((segsPattern (seg :: rest)).length + 1) [] 0 strip (s0 ++ segsPattern (seg :: rest))
    s0.length (by simp) hok hne (Nat.lt_succ_self _) rfl rfl
  simpa [New] using this

/-- The children of the first node of a chain. -/
theorem chain_eq_toNode {H : Type} (l : Link H) (ls : List (Link H)) :
    chain l ls = l.toNode (match ls with | [] => [] | l' :: ls' => [chain l' ls']) := by
  cases ls <;> rfl

theorem chain_typ {H : Type} (l : Link H) (ls : List (Link H)) :
    (chain l ls).typ = l.typ := by
  cases ls <;> rfl

theorem setValue_append (done todo : List Str) (v : Str) (htodo : todo ≠ []) :
    setValue (done ++ todo) done.length v = some (done ++ [v] ++ todo.tail) := by
  induction done with
  | nil =>
    cases todo with
    | nil => exact absurd rfl htodo
    | cons t ts => rfl
  | cons d done ih => simp [setValue, ih]

/-- A pass of `Find` at a static node whose only child is a PARAM node: the
segment up to the next `'/'` is stored in slot `n` and the lookup moves to
the PARAM node. -/
theorem FindStep_param {H : Type} (m : Str) (N P : Link H) (cs : List (Link H))
    (v tail : Str) (done todo : List Str) (nt : ntype) (nn : Option (node H)) (ns : Str)
    (hh : HandlerFunc H) (ee : Bool) (names : List Str)
    (hNc : N.pfx.headD 0 ≠ colon) (hP : P.typ = ntype.ptype)
    (hv : v ≠ []) (hvs : slash ∉ v) (htail : tail = [] ∨ tail.head? = some slash)
    (htodo : todo ≠ []) :
    ∃ nt' nn' ns',
      FindStep m { cn := chain N (P :: cs), search := N.pfx ++ (v ++ tail),
                   n := done.length, nt := nt, nn := nn, ns := ns, h := hh, e := ee,
                   ctx := ⟨names, done ++ todo⟩ } =
        Step.next { cn := chain P cs, search := tail, n := (done ++ [v]).length,
                    nt := nt', nn := nn', ns := ns', h := hh, e := ee,
                    ctx := ⟨names, done ++ [v] ++ todo.tail⟩ } := by
  obtain ⟨b, v', rfl⟩ : ∃ b v', v = b :: v' := by
    cases v with
    | nil => exact absurd rfl hv
    | cons b v' => exact ⟨b, v', rfl⟩
  have hs1 : ¬ (N.pfx ++ (b :: v' ++ tail) = []) := by simp
  have htw := takeWhile_segment (b :: v') tail hvs htail
  have hsv := setValue_append done todo (b :: v') htodo
  have hfc : (chain P cs).typ = ntype.ptype := by rw [chain_typ, hP]
  have hNc' : ¬ ((N.pfx.head?).getD 0 = colon) := by simpa using hNc
  have hlcp := lcp_append_left N.pfx (b :: (v' ++ tail))
  have hdrop : List.drop N.pfx.length (N.pfx ++ b :: (v' ++ tail)) = b :: (v' ++ tail) :=
    List.drop_left _ _
  have htw' : List.takeWhile (fun b => b != slash) (b :: (v' ++ tail)) = b :: v' := by
    simpa using htw
  have hps : (ntype.ptype == ntype.stype) = false := by decide
  by_cases hsl : (N.pfx.head?).getD 0 = slash
  · refine ⟨ntype.mtype, some (chain N (P :: cs)), b :: v' ++ tail, ?_⟩
    simp [FindStep, chain, Link.toNode, hNc', hlcp, hdrop, findChild, findChildWithType,
      List.find?, hfc, Param, hsl, htw', hsv, hps]
  · refine ⟨nt, nn, ns, ?_⟩
    simp [FindStep, chain, Link.toNode, hNc', hlcp, hdrop, findChild, findChildWithType,
      List.find?, hfc, Param, hsl, htw', hsv, hps]

/-- A pass of `Find` at a PARAM node whose only child is a static node that
starts with `'/'`: the lookup moves to the static node without consuming. -/
theorem FindStep_after_param {H : Type} (m : Str) (P S : Link H) (cs : List (Link H))
    (search : Str) (n : Nat) (nt : ntype) (nn : Option (node H)) (ns : Str)
    (hh : HandlerFunc H) (ee : Bool) (ctx : Context)
    (hP : P.pfx = [colon]) (hS : S.typ = ntype.stype) (hSp : S.pfx.head? = some slash)
    (hsearch : search.head? = some slash) :
    FindStep m { cn := chain P (S :: cs), search := search, n := n, nt := nt, nn := nn,
                 ns := ns, h := hh, e := ee, ctx := ctx } =
      Step.next { cn := chain S cs, search := search, n := n, nt := nt, nn := nn, ns := ns,
                  h := hh, e := ee, ctx := ctx } := by
  obtain ⟨q, rfl⟩ : ∃ q, search = slash :: q := by
    cases search with
    | nil => simp at hsearch
    | cons b q =>
      simp only [List.head?_cons, Option.some.injEq] at hsearch
      exact ⟨q, by rw [hsearch]⟩
  obtain ⟨p, hp⟩ : ∃ p, S.pfx = slash :: p := by
    cases hq : S.pfx with
    | nil => rw [hq] at hSp; simp at hSp
    | cons b p =>
      rw [hq] at hSp
      simp only [List.head?_cons, Option.some.injEq] at hSp
      exact ⟨p, by rw [hSp]⟩
  have hl : (chain S cs).label = slash := by rw [chain_label, hp]; rfl
  have ht : (chain S cs).typ = ntype.stype := by rw [chain_typ, hS]
  have hcs : ¬ (colon = slash) := by decide
  simp [FindStep, chain, Link.toNode, hP, findChild, List.find?, hl, ht, hcs]

/-- A pass of `Find` at a node without children whose prefix is all that is
left of the path: the prefix is consumed. -/
theorem FindStep_last_static {H : Type} (m : Str) (N : Link H)
    (n : Nat) (nt : ntype) (nn : Option (node H)) (ns : Str)
    (hh : HandlerFunc H) (ee : Bool) (ctx : Context)
    (hN : N.pfx ≠ []) (hNc : N.pfx.headD 0 ≠ colon) :
    FindStep m { cn := chain N [], search := N.pfx, n := n, nt := nt, nn := nn,
                 ns := ns, h := hh, e := ee, ctx := ctx } =
      Step.next { cn := chain N [], search := [], n := n, nt := nt, nn := nn, ns := ns,
                  h := hh, e := ee, ctx := ctx } := by
  have hNc' : ¬ ((N.pfx.head?).getD 0 = colon) := by simpa using hNc
  simp [FindStep, chain, Link.toNode, hN, hNc', lcp_self, findChildWithType]

/-- A pass of `Find` with nothing left of the path, at a node whose map has
an entry for the method: the entry and the names of the node are returned. -/
theorem FindStep_found {H : Type} (m : Str) (cn : node H) (hm : HandlerMap H)
    (h : HandlerFunc H) (n : Nat) (nt : ntype) (nn : Option (node H)) (ns : Str)
    (hh : HandlerFunc H) (ee : Bool) (ctx : Context)
    (hcn : cn.handler = some hm) (hget : hm.lookup m = some h) :
    FindStep m { cn := cn, search := [], n := n, nt := nt, nn := nn,
                 ns := ns, h := hh, e := ee, ctx := ctx } =
      Step.done (Exec.ok ⟨h, cn.vodka, ⟨cn.pnames, ctx.pvalues⟩⟩) := by
  simp [FindStep, hcn, mapGet?, hget]

/-- The lookup along the chain that `Add` builds for a list of segments,
started at the static node above them: every value goes to the next free
slot and the handler and names of the last node are returned. -/
theorem FindLoop_segs {H : Type} (m : Str) (h : HandlerFunc H) :
    ∀ (segs : List (Str × Str)) (vals : List Str) (N : Link H) (pn : List Str)
      (done todo : List Str) (nt : ntype) (nn : Option (node H)) (ns : Str)
      (hh : HandlerFunc H) (ee : Bool) (names : List Str) (fuel : Nat),
      SegsOk segs → vals.length = segs.length → (∀ v ∈ vals, v ≠ [] ∧ slash ∉ v) →
      N.pfx ≠ [] → N.pfx.headD 0 ≠ colon →
      (segs = [] → N.handler = some [(m, h)]) →
      segs.length ≤ todo.length → 2 * segs.length + 2 ≤ fuel →
      FindLoop m fuel
        { cn := chain N (afterStatic m h pn segs), search := N.pfx ++ segsPath segs vals,
          n := done.length, nt := nt, nn := nn, ns := ns, h := hh, e := ee,
          ctx := ⟨names, done ++ todo⟩ } =
        Exec.ok ⟨h, if segs = [] then N.vodka else true,
          ⟨if segs = [] then N.pnames else pn ++ segs.map Prod.fst,
           done ++ vals ++ todo.drop segs.length⟩⟩ := by
  intro segs
  induction segs with
  | nil =>
    intro vals N pn done todo nt nn ns hh ee names fuel _ hlen _ hN hNc hterm _ hfuel
    obtain ⟨f, rfl⟩ : ∃ f, fuel = f + 2 := ⟨fuel - 2, by omega⟩
    have hv : vals = [] := List.length_eq_zero.mp hlen
    subst hv
    have hhandler := hterm rfl
    simp only [afterStatic, segsPath, List.append_nil]
    rw [FindLoop_succ, FindStep_last_static m N _ _ _ _ _ _ _ hN hNc]
    simp only
    rw [FindLoop_succ, FindStep_found m (chain N []) [(m, h)] h _ _ _ _ _ _ _
      (by simpa [chain, Link.toNode] using hhandler) (by simp [HandlerMap.lookup])]
    simp [chain, Link.toNode]
  | cons seg rest ih =>
    obtain ⟨name, st⟩ := seg
    intro vals N pn done todo nt nn ns hh ee names fuel hok hlen hvals hN hNc _ htodo hfuel
    obtain ⟨hname, hst, hhead, hrest⟩ := hok
    obtain ⟨v, vs, rfl⟩ : ∃ v vs, vals = v :: vs := by
      cases vals with
      | nil => simp at hlen
      | cons v vs => exact ⟨v, vs, rfl⟩
    have hv := hvals v (List.mem_cons_self _ _)
    have hvs : ∀ w ∈ vs, w ≠ [] ∧ slash ∉ w := fun w hw => hvals w (List.mem_cons_of_mem _ hw)
    have hlen' : vs.length = rest.length := by simpa using hlen
    obtain ⟨t0, todo', rfl⟩ : ∃ t0 todo', todo = t0 :: todo' := by
      cases todo with
      | nil => simp at htodo
      | cons t0 todo' => exact ⟨t0, todo', rfl⟩
    have htodo' : rest.length ≤ todo'.length := by simpa using htodo
    obtain ⟨f, rfl⟩ : ∃ f, fuel = f + 2 := ⟨fuel - 2, by omega⟩
    have hf : 2 * rest.length + 2 ≤ f := by
      simp only [List.length_cons] at hfuel; omega
    by_cases hst0 : st = []
    · -- the route ends at the PARAM node
      have hr : rest = [] := by
        rcases hhead with hh' | ⟨_, h2⟩
        · subst hst0; simp at hh'
        · exact h2
      subst hst0 hr
      have hvs0 : vs = [] := List.length_eq_zero.mp hlen'
      subst hvs0
      simp only [afterStatic, if_true, segsPath, List.append_nil, List.nil_append]
      obtain ⟨nt', nn', ns', hstep⟩ := FindStep_param m N
        ⟨ntype.ptype, [colon], some [(m, h)], pn ++ [name], true⟩ [] v [] done (t0 :: todo')
        nt nn ns hh ee names hNc rfl hv.1 hv.2 (Or.inl rfl) (by simp)
      simp only [List.append_nil] at hstep
      rw [FindLoop_succ, hstep]
      simp only
      rw [FindLoop_succ, FindStep_found m _ [(m, h)] h _ _ _ _ _ _ _
        (by simp [chain, Link.toNode]) (by simp [HandlerMap.lookup])]
      simp [chain, Link.toNode]
    · obtain ⟨st', rfl⟩ : ∃ st', st = slash :: st' := by
        rcases hhead with hh' | ⟨h1, _⟩
        · cases st with
          | nil => simp at hh'
          | cons b st' =>
            simp only [List.head?_cons, Option.some.injEq] at hh'
            exact ⟨st', by rw [hh']⟩
        · exact absurd h1 hst0
      set S : Link H := ⟨ntype.stype, slash :: st',
        some [(m, if rest.isEmpty then h else HandlerFunc.nil)],
        if rest.isEmpty then pn ++ [name] else [], true⟩ with hS
      set P : Link H := ⟨ntype.ptype, [colon], some [(m, HandlerFunc.nil)], pn ++ [name], true⟩
        with hP
      have haf : afterStatic m h pn ((name, slash :: st') :: rest)
          = P :: S :: afterStatic m h (pn ++ [name]) rest := by
        simp [afterStatic, hP, hS]
      have hsp : segsPath ((name, slash :: st') :: rest) (v :: vs)
          = v ++ (slash :: st' ++ segsPath rest vs) := rfl
      rw [haf, hsp]
      obtain ⟨nt', nn', ns', hstep⟩ := FindStep_param m N P
        (S :: afterStatic m h (pn ++ [name]) rest) v (slash :: st' ++ segsPath rest vs)
        done (t0 :: todo') nt nn ns hh ee names hNc rfl hv.1 hv.2 (Or.inr rfl) (by simp)
      rw [FindLoop_succ, hstep]
      simp only
      rw [FindLoop_succ, FindStep_after_param m P S _ (slash :: st' ++ segsPath rest vs)
        _ _ _ _ _ _ _ rfl rfl rfl rfl]
      simp only
      have hS1 : rest = [] → S.handler = some [(m, h)] := by
        intro hr; subst hr; simp [hS]
      have hrec := ih vs S (pn ++ [name]) (done ++ [v]) todo' nt' nn' ns' hh ee names f
        hrest hlen' hvs (by simp [hS]) (by simp [hS]) hS1 htodo' hf
      simp only [List.tail_cons]
      have hS2 : S.pfx = slash :: st' := rfl
      rw [hS2] at hrec
      rw [hrec]
      cases rest with
      | nil => simp [hS]
      | cons seg2 rest' => simp [hS]

theorem chain_height {H : Type} (l : Link H) (ls : List (Link H)) :
    (chain l ls).height = ls.length + 1 := by
  induction ls generalizing l with
  | nil => simp [chain, Link.toNode, node.height, heightList]
  | cons l' ls ih => simp [chain, Link.toNode, node.height, heightList, ih]

theorem chain_vodka {H : Type} (l : Link H) (ls : List (Link H)) :
    (chain l ls).vodka = l.vodka := by
  cases ls <;> rfl

theorem afterStatic_length {H : Type} (m : Str) (h : HandlerFunc H) (pn : List Str)
    (segs : List (Str × Str)) (hok : SegsOk segs) :
    segs.length ≤ (afterStatic m h pn segs).length := by
  induction segs generalizing pn with
  | nil => simp [afterStatic]
  | cons seg rest ih =>
    obtain ⟨name, st⟩ := seg
    obtain ⟨_, _, hhead, hrest⟩ := hok
    by_cases hst : st = []
    · have hr : rest = [] := by
        rcases hhead with hh | ⟨_, h2⟩
        · subst hst; simp at hh
        · exact h2
      subst hr
      simp [afterStatic, hst]
    · have := ih (pn ++ [name]) hrest
      simp only [afterStatic, hst, if_false, List.length_cons]
      omega

theorem findFuel_ge_two_mul {H : Type} (t : node H) : 2 * t.height + 2 ≤ findFuel t := by
  unfold findFuel
  nlinarith [Nat.zero_le t.height]

/-- One pass of `Add` at a `'*'`: the text before it is inserted as static,
then the catch-all node with the handler and the extra name `_name`. -/
theorem AddLoop_star {H : Type} (m : Str) (h : HandlerFunc H) (fuel : Nat) (r : Router H)
    (pre rest : Str) (pn : List Str) :
    AddLoop m h (fuel + 1) r (pre ++ star :: rest) pre.length pn =
      match insert r m pre HandlerFunc.nil ntype.stype [] with
      | Exec.ok r1 => insert r1 m (pre ++ [star]) h ntype.mtype (pn ++ [ascii "_name"])
      | other => other := by
  have hlt : pre.length < (pre ++ star :: rest).length := by
    simp only [List.length_append, List.length_cons]; omega
  have hg := getD_append_cons pre star rest
  have hsc : ¬ (star = colon) := by decide
  have htake1 : (pre ++ star :: rest).take pre.length = pre := by simp
  have htake2 : (pre ++ star :: rest).take (pre.length + 1) = pre ++ [star] := by
    simp [List.take_append_eq_append_take, List.take_of_length_le]
  rw [AddLoop]
  simp only [hlt, if_true, hg, hsc, if_false, htake1, htake2]

/-- `Add` of a literal text followed by `'*'` on a fresh router. -/
theorem Add_catch_all {H : Type} (m : Str) (hm : validMethod m = true) (h : HandlerFunc H)
    (P : Str) (strip : Bool) (hP : P ≠ []) (hPc : ∀ b ∈ P, b ≠ colon ∧ b ≠ star) :
    Add (NewRouter (New strip)) m (P ++ [star]) h =
      Exec.ok ⟨chain (rootLink P)
          [⟨ntype.mtype, [star], some [(m, h)], [ascii "_name"], true⟩], [], ⟨1, strip⟩⟩ := by
  have hne : ∀ l ∈ [(rootLink P : Link H)], l.pfx ≠ [] := by
    intro l hl
    simp only [List.mem_singleton] at hl
    subst hl
    exact hP
  have e1 : (P ++ [star]).length + 1 = (1 + 1) + P.length := by
    simp only [List.length_append, List.length_cons, List.length_nil]; omega
  have hstat := AddLoop_static m h P [] [star] (1 + 1) (NewRouter (New strip)) [] hPc
  simp only [List.nil_append, List.length_nil, Nat.zero_add] at hstat
  unfold Add
  rw [e1, hstat, AddLoop_star m h 1 _ P [] [], insert_fresh_root m hm P hP]
  simp only [List.nil_append]
  have := insert_chain_append m hm h ntype.mtype [ascii "_name"] [star] (by simp)
    (rootLink P) [] hne [] 0 strip
  simpa [New, chainPath, rootLink] using this

/-- The two passes of `Find` on the tree of `Add_catch_all`: the literal text
is consumed, the rest goes to value slot 0, and the catch-all node answers. -/
theorem FindLoop_catch_all {H : Type} (m : Str) (h : HandlerFunc H) (P s : Str)
    (hP : P ≠ []) (hPc : ∀ b ∈ P, b ≠ colon ∧ b ≠ star)
    (names : List Str) (v0 : Str) (vs : List Str) :
    FindLoop m 2
      { cn := chain (rootLink P) [⟨ntype.mtype, [star], some [(m, h)], [ascii "_name"], true⟩],
        search := P ++ s, n := 0, nt := ntype.stype, nn := none, ns := [],
        h := HandlerFunc.notFoundHandler, e := false, ctx := ⟨names, v0 :: vs⟩ } =
      Exec.ok ⟨h, true, ⟨[ascii "_name"], s :: vs⟩⟩ := by
  obtain ⟨a, p, rfl⟩ : ∃ a p, P = a :: p := by
    cases P with
    | nil => exact absurd rfl hP
    | cons a p => exact ⟨a, p, rfl⟩
  have hac : ¬ (a = colon) := (hPc a (List.mem_cons_self _ _)).1
  have hlcp := lcp_append_left p s
  have hms : (ntype.mtype == ntype.stype) = false := by decide
  have hmp : (ntype.mtype == ntype.ptype) = false := by decide
  have hstep : FindStep m
      { cn := chain (rootLink (a :: p))
          [⟨ntype.mtype, [star], some [(m, h)], [ascii "_name"], true⟩],
        search := a :: p ++ s, n := 0, nt := ntype.stype, nn := none, ns := [],
        h := HandlerFunc.notFoundHandler, e := false, ctx := ⟨names, v0 :: vs⟩ } =
      Step.next
        { cn := chain ⟨ntype.mtype, [star], some [(m, h)], [ascii "_name"], true⟩ [],
          search := [], n := 0, nt := ntype.stype, nn := none, ns := [],
          h := HandlerFunc.notFoundHandler, e := false, ctx := ⟨names, s :: vs⟩ } := by
    cases s with
    | nil =>
      simp [FindStep, chain, Link.toNode, rootLink, hac, lcp, lcp_self, findChildWithType,
        List.find?, MatchAny, setValue]
    | cons c s' =>
      simp [FindStep, chain, Link.toNode, rootLink, hac, lcp, hlcp, findChild,
        findChildWithType, List.find?, Param, MatchAny, setValue, hms, hmp]
  rw [FindLoop_succ, hstep]
  simp only
  rw [FindLoop_succ, FindStep_found m _ [(m, h)] h _ _ _ _ _ _ _
    (by simp [chain, Link.toNode]) (by simp [HandlerMap.lookup])]
  simp [chain, Link.toNode]

/-! ### Further lemmas -/

theorem validMethod_iff (m : Str) : validMethod m = true ↔ m ∈ methods := by
  unfold validMethod
  rw [List.any_eq_true]
  constructor
  · rintro ⟨v, hv, he⟩
    have : v = m := by simpa using he
    rw [← this]; exact hv
  · intro hm
    exact ⟨m, hm, by simp⟩

/-- `insert` with an invalid method and no names panics before any change. -/
theorem insert_invalid {H : Type} (r : Router H) (m path : Str) (h : HandlerFunc H)
    (t : ntype) (hm : validMethod m = false) :
    insert r m path h t [] = Exec.panic Panic.invalidMethod r := by
  simp [insert, hm]

/-- With an invalid method every run of the loop of `Add` that starts without
names ends in the panic of its first `insert`. -/
theorem AddLoop_invalid {H : Type} (m : Str) (h : HandlerFunc H)
    (hm : validMethod m = false) :
    ∀ (fuel : Nat) (r : Router H) (path : Str) (i : Nat), path.length - i < fuel →
      AddLoop m h fuel r path i [] = Exec.panic Panic.invalidMethod r := by
  intro fuel
  induction fuel with
  | zero => intro r path i hf; omega
  | succ f ih =>
    intro r path i hf
    rw [AddLoop]
    by_cases hi : i < path.length
    · rw [if_pos hi]
      by_cases hc : path.getD i 0 = colon
      · rw [if_pos hc, insert_invalid r m _ _ _ hm]
      · rw [if_neg hc]
        by_cases hs : path.getD i 0 = star
        · rw [if_pos hs, insert_invalid r m _ _ _ hm]
        · rw [if_neg hs]
          exact ih r path (i + 1) (by omega)
    · rw [if_neg hi]
      exact insert_invalid r m path h ntype.stype hm

/-- The loop of `insert` never raises the invalid-method panic. -/
theorem insertLoop_not_invalid {H : Type} (m : Str) (h : HandlerFunc H) (t : ntype)
    (pn : List Str) (e : Bool) :
    ∀ (fuel : Nat) (cn : node H) (search : Str) (p : Panic) (c : node H),
      insertLoop m h t pn e fuel cn search = Exec.panic p c → p ≠ Panic.invalidMethod := by
  intro fuel
  induction fuel with
  | zero => intro cn search p c hres; simp [insertLoop] at hres
  | succ f ih =>
    intro cn search p c hres
    unfold insertLoop at hres
    simp only at hres
    repeat' split at hres
    all_goals first
      | (simp only [Exec.panic.injEq] at hres; rw [← hres.1]; decide)
      | (simp at hres; done)
      | (rename_i p' c' hrec
         simp only [Exec.panic.injEq] at hres
         rw [← hres.1]
         exact ih _ _ _ _ hrec)

/-- `insert` with a valid method never raises the invalid-method panic. -/
theorem insert_not_invalid {H : Type} (r : Router H) (m path : Str) (h : HandlerFunc H)
    (t : ntype) (pn : List Str) (hm : validMethod m = true) (p : Panic) (r' : Router H)
    (hres : insert r m path h t pn = Exec.panic p r') : p ≠ Panic.invalidMethod := by
  unfold insert at hres
  simp only [hm, Bool.not_true, Bool.false_eq_true, if_false] at hres
  split at hres
  · simp at hres
  · rename_i p' cn hrec
    simp only [Exec.panic.injEq] at hres
    rw [← hres.1]
    exact insertLoop_not_invalid m h t pn true _ _ _ _ _ hrec
  · simp at hres

/-- With a valid method `Add` never raises the invalid-method panic. -/
theorem AddLoop_not_invalid {H : Type} (m : Str) (h : HandlerFunc H)
    (hm : validMethod m = true) :
    ∀ (fuel : Nat) (r : Router H) (path : Str) (i : Nat) (pn : List Str) (p : Panic)
      (r' : Router H),
      AddLoop m h fuel r path i pn = Exec.panic p r' → p ≠ Panic.invalidMethod := by
  intro fuel
  induction fuel with
  | zero => intro r path i pn p r' hres; simp [AddLoop] at hres
  | succ f ih =>
    intro r path i pn p r' hres
    rw [AddLoop] at hres
    simp only at hres
    repeat' split at hres
    all_goals first
      | exact insert_not_invalid _ m _ _ _ _ hm _ _ hres
      | exact ih _ _ _ _ _ _ hres

/-- A pattern without `':'` and `'*'` is inserted in one piece. -/
theorem AddLoop_literal {H : Type} (m : Str) (h : HandlerFunc H) (r : Router H)
    (path : Str) (pn : List Str) (hlit : ∀ b ∈ path, b ≠ colon ∧ b ≠ star) :
    AddLoop m h (path.length + 1) r path 0 pn = insert r m path h ntype.stype pn := by
  have hstat := AddLoop_static m h path [] [] 1 r pn hlit
  simp only [List.nil_append, List.append_nil, List.length_nil, Nat.zero_add] at hstat
  rw [Nat.add_comm, hstat, AddLoop]
  simp

theorem lcp_append_diverge (P s t : Str) (hst : t.head? ≠ s.head?) :
    lcp (P ++ t) (P ++ s) = P.length := by
  induction P with
  | nil =>
    cases t with
    | nil => rfl
    | cons a t =>
      cases s with
      | nil => rfl
      | cons b s =>
        have : ¬ a = b := fun e => hst (by simp [e])
        simp [lcp, this]
  | cons a P ih => simp [lcp, ih]

/-- The first `insert` into the tree of `NewRouter`, with a handler. -/
theorem insert_fresh_root_handler {H : Type} (m : Str) (hm : validMethod m = true) (s0 : Str)
    (hs0 : s0 ≠ []) (h : H) (v : Vodka) :
    insert (NewRouter v) m s0 (HandlerFunc.user h) ntype.stype [] =
      (Exec.ok ⟨leaf ntype.stype s0 [(m, HandlerFunc.user h)] [], [], v⟩ : Exec (Router H)) := by
  obtain ⟨b, s', rfl⟩ : ∃ b s', s0 = b :: s' := by
    cases s0 with
    | nil => exact absurd rfl hs0
    | cons b s' => exact ⟨b, s', rfl⟩
  simp [insert, hm, NewRouter, insertLoop, lcp_nil_right, HandlerFunc.isNil, leaf]

/-- `insert` of a literal path that leaves the root in the middle of its
prefix, on a root without children: the root is split in two. -/
theorem insert_split_root {H : Type} (m : Str) (hm : validMethod m = true) (P s t : Str)
    (hP : P ≠ []) (hs : s ≠ []) (ht : t ≠ []) (hst : t.head? ≠ s.head?)
    (hs' ht' : H) (v : Vodka) :
    insert ⟨leaf ntype.stype (P ++ s) [(m, HandlerFunc.user hs')] [], [], v⟩ m (P ++ t)
        (HandlerFunc.user ht') ntype.stype [] =
      Exec.ok ⟨branch P [leaf ntype.stype s [(m, HandlerFunc.user hs')] [],
                         leaf ntype.stype t [(m, HandlerFunc.user ht')] []], [], v⟩ := by
  obtain ⟨a, P', rfl⟩ : ∃ a P', P = a :: P' := by
    cases P with
    | nil => exact absurd rfl hP
    | cons a P' => exact ⟨a, P', rfl⟩
  obtain ⟨b, s1, rfl⟩ : ∃ b s1, s = b :: s1 := by
    cases s with
    | nil => exact absurd rfl hs
    | cons b s1 => exact ⟨b, s1, rfl⟩
  obtain ⟨c, t1, rfl⟩ : ∃ c t1, t = c :: t1 := by
    cases t with
    | nil => exact absurd rfl ht
    | cons c t1 => exact ⟨c, t1, rfl⟩
  have hl := lcp_append_diverge (a :: P') (b :: s1) (c :: t1) hst
  have h1 : (a :: P').length < (a :: P' ++ b :: s1).length := by
    simp only [List.length_append, List.length_cons]; omega
  have h2 : ¬ ((a :: P').length = (a :: P' ++ c :: t1).length) := by
    simp only [List.length_append, List.length_cons]; omega
  have hd1 : List.drop (a :: P').length (a :: P' ++ b :: s1) = b :: s1 := List.drop_left _ _
  have hd2 : List.drop (a :: P').length (a :: P' ++ c :: t1) = c :: t1 := List.drop_left _ _
  have ht1 : List.take (a :: P').length (a :: P' ++ b :: s1) = a :: P' := List.take_left _ _
  unfold insert
  simp only [List.length_nil, Nat.not_lt_zero, if_false, hm, Bool.not_true, Bool.false_eq_true]
  unfold insertLoop
  simp only [leaf, hl, h1, h2, hd1, hd2, ht1, if_true, if_false]
  simp [newNode, addChild, mapGet, mapGet?, HandlerMap.lookup, branch, leaf]

/-- Three passes of `Find`: the prefix of the current node is consumed, the
static child for the next byte is a node without children whose prefix is
the rest of the path, and that node answers for the method. -/
theorem FindLoop_static_leaf {H : Type} (m : Str) (cn : node H) (x : Str)
    (hmap : HandlerMap H) (pn : List Str) (h : HandlerFunc H)
    (hh : HandlerFunc H) (ee : Bool) (ctx : Context)
    (hx : x ≠ []) (hxc : x.headD 0 ≠ colon) (hlabel : cn.label ≠ colon)
    (hchild : findChild cn (x.headD 0) ntype.stype = some (leaf ntype.stype x hmap pn))
    (hget : hmap.lookup m = some h) :
    FindLoop m 3
      { cn := cn, search := cn.pfx ++ x, n := 0, nt := ntype.stype, nn := none, ns := [],
        h := hh, e := ee, ctx := ctx } =
      Exec.ok ⟨h, true, ⟨pn, ctx.pvalues⟩⟩ := by
  obtain ⟨b, x', rfl⟩ : ∃ b x', x = b :: x' := by
    cases x with
    | nil => exact absurd rfl hx
    | cons b x' => exact ⟨b, x', rfl⟩
  have hb : ¬ (b = colon) := by simpa using hxc
  have hne : ¬ (cn.pfx ++ b :: x' = []) := by simp
  have hlcp := lcp_append_left cn.pfx (b :: x')
  have hdrop : List.drop cn.pfx.length (cn.pfx ++ b :: x') = b :: x' := List.drop_left _ _
  have hchild' : findChild cn b ntype.stype = some (leaf ntype.stype (b :: x') hmap pn) := by
    simpa using hchild
  have hstep2 : ∀ (nt : ntype) (nn : Option (node H)) (ns : Str),
      FindLoop m 2
        { cn := leaf ntype.stype (b :: x') hmap pn, search := b :: x', n := 0, nt := nt,
          nn := nn, ns := ns, h := hh, e := ee, ctx := ctx } =
        Exec.ok ⟨h, true, ⟨pn, ctx.pvalues⟩⟩ := by
    intro nt nn ns
    rw [FindLoop_succ]
    have : FindStep m
        { cn := leaf ntype.stype (b :: x') hmap pn, search := b :: x', n := 0, nt := nt,
          nn := nn, ns := ns, h := hh, e := ee, ctx := ctx } =
        Step.next
          { cn := leaf ntype.stype (b :: x') hmap pn, search := [], n := 0, nt := nt,
            nn := nn, ns := ns, h := hh, e := ee, ctx := ctx } := by
      simp [FindStep, leaf, hb, lcp, lcp_self, findChildWithType]
    rw [this]
    simp only
    rw [FindLoop_succ, FindStep_found m _ hmap h _ _ _ _ _ _ _ (by simp [leaf]) hget]
    simp [leaf]
  rw [FindLoop_succ]
  by_cases hsl : cn.label = slash
  · have : FindStep m
        { cn := cn, search := cn.pfx ++ b :: x', n := 0, nt := ntype.stype, nn := none,
          ns := [], h := hh, e := ee, ctx := ctx } =
        Step.next
          { cn := leaf ntype.stype (b :: x') hmap pn, search := b :: x', n := 0,
            nt := ntype.ptype, nn := some cn, ns := b :: x', h := hh, e := ee, ctx := ctx } := by
      simp [FindStep, hne, hlabel, hlcp, hdrop, hchild', hsl]
    rw [this]
    exact hstep2 _ _ _
  · have : FindStep m
        { cn := cn, search := cn.pfx ++ b :: x', n := 0, nt := ntype.stype, nn := none,
          ns := [], h := hh, e := ee, ctx := ctx } =
        Step.next
          { cn := leaf ntype.stype (b :: x') hmap pn, search := b :: x', n := 0,
            nt := ntype.stype, nn := none, ns := [], h := hh, e := ee, ctx := ctx } := by
      simp [FindStep, hne, hlabel, hlcp, hdrop, hchild', hsl]
    rw [this]
    exact hstep2 _ _ _

/-- `Add` of a literal pattern on a fresh router. -/
theorem Add_literal_fresh {H : Type} (m : Str) (hm : validMethod m = true) (h : H)
    (P : Str) (v : Vodka) (hP : P ≠ []) (hPc : ∀ b ∈ P, b ≠ colon ∧ b ≠ star) :
    Add (NewRouter v) m P (HandlerFunc.user h) =
      Exec.ok ⟨leaf ntype.stype P [(m, HandlerFunc.user h)] [], [], v⟩ := by
  unfold Add
  rw [AddLoop_literal m _ _ _ _ hPc]
  exact insert_fresh_root_handler m hm P hP h _

/-- `insert` with a handler of exactly the prefix of the root: the entry of
the method, the names and the owner of the root are overwritten. -/
theorem insert_root_exists {H : Type} (m : Str) (hm : validMethod m = true) (h : H)
    (cn : node H) (hmap : HandlerMap H) (pn : List Str) (routes : List Route) (mp : Nat)
    (strip : Bool) (hP : cn.pfx ≠ []) (hmapeq : cn.handler = some hmap) :
    insert ⟨cn, routes, ⟨mp, strip⟩⟩ m cn.pfx (HandlerFunc.user h) ntype.stype pn =
      Exec.ok ⟨{ cn with handler := some (mapSet hmap m (HandlerFunc.user h)), pnames := pn,
                         vodka := true }, routes, ⟨max mp pn.length, strip⟩⟩ := by
  have hlen : 0 < cn.pfx.length := List.length_pos.mpr hP
  have h1 : ¬ cn.pfx.length = 0 := by omega
  have hl : insertLoop m (HandlerFunc.user h) ntype.stype pn true (cn.pfx.length + 1) cn cn.pfx
      = Exec.ok { cn with handler := some (mapSet hmap m (HandlerFunc.user h)), pnames := pn,
                          vodka := true } := by
    simp [insertLoop, lcp_self, h1, HandlerFunc.isNil, hmapeq]
  unfold insert
  by_cases hlt : mp < pn.length
  · have : max mp pn.length = pn.length := by omega
    simp [hm, hlt, hl, this]
  · have : max mp pn.length = mp := by omega
    simp [hm, hlt, hl, this]

/-- The tree after a literal route `P` and the catch-all route `P ++ "*"`
under one method, whichever was registered first. -/
theorem AddAll_static_and_catch_all {H : Type} (m : Str) (hm : validMethod m = true)
    (P : Str) (hS hC : H) (strip : Bool)
    (routes : List (Str × Str × HandlerFunc H))
    (hroutes :
      routes = [(m, P, HandlerFunc.user hS), (m, P ++ [star], HandlerFunc.user hC)] ∨
      routes = [(m, P ++ [star], HandlerFunc.user hC), (m, P, HandlerFunc.user hS)])
    (hP : P ≠ []) (hPc : ∀ b ∈ P, b ≠ colon ∧ b ≠ star) :
    AddAll (NewRouter (New strip)) routes =
      Exec.ok ⟨chain ⟨ntype.stype, P, some [(m, HandlerFunc.user hS)], [], true⟩
          [⟨ntype.mtype, [star], some [(m, HandlerFunc.user hC)], [ascii "_name"], true⟩],
        [], ⟨1, strip⟩⟩ := by
  rcases hroutes with h | h <;> subst h
  · -- the literal route first
    have hne : ∀ l ∈ [(⟨ntype.stype, P, some [(m, HandlerFunc.user hS)], [], true⟩ : Link H)],
        l.pfx ≠ [] := by
      intro l hl
      simp only [List.mem_singleton] at hl
      subst hl
      exact hP
    have e1 : (P ++ [star]).length + 1 = (1 + 1) + P.length := by
      simp only [List.length_append, List.length_cons, List.length_nil]; omega
    have hstat := AddLoop_static m (HandlerFunc.user hC) P [] [star] (1 + 1)
      (⟨leaf ntype.stype P [(m, HandlerFunc.user hS)] [], [], New strip⟩ : Router H) [] hPc
    simp only [List.nil_append, List.length_nil, Nat.zero_add] at hstat
    have hsame := insert_chain_same m hm ntype.stype
      (⟨ntype.stype, P, some [(m, HandlerFunc.user hS)], [], true⟩ : Link H) [] hne []
      (New strip)
    have happ := insert_chain_append m hm (HandlerFunc.user hC) ntype.mtype [ascii "_name"]
      [star] (by simp) (⟨ntype.stype, P, some [(m, HandlerFunc.user hS)], [], true⟩ : Link H)
      [] hne [] 0 strip
    simp only [AddAll, Add_literal_fresh m hm hS P _ hP hPc]
    unfold Add
    rw [e1, hstat, AddLoop_star m _ 1 _ P [] []]
    have hleaf : leaf ntype.stype P [(m, HandlerFunc.user hS)] []
        = chain (⟨ntype.stype, P, some [(m, HandlerFunc.user hS)], [], true⟩ : Link H) [] := rfl
    rw [hleaf]
    simp only [chainPath] at hsame happ
    rw [hsame]
    simp only [List.nil_append, New] at happ ⊢
    rw [happ]
    simp
  · -- the catch-all route first
    simp only [AddAll, Add_catch_all m hm (HandlerFunc.user hC) P strip hP hPc]
    unfold Add
    rw [AddLoop_literal m _ _ _ _ hPc]
    have := insert_root_exists m hm hS
      (chain (rootLink P)
        [(⟨ntype.mtype, [star], some [(m, HandlerFunc.user hC)], [ascii "_name"], true⟩ :
          Link H)]) [] [] [] 1 strip hP rfl
    simp only [chain, Link.toNode, rootLink] at this ⊢
    rw [this]
    simp [mapSet]

/-- The lookup of exactly the prefix of a node whose only child is a
catch-all node: the empty rest goes to value slot 0 and the catch-all node
answers, whatever the node itself holds. -/
theorem FindLoop_exact_prefix_catch_all {H : Type} (m : Str) (N : Link H)
    (hmap : HandlerMap H) (pn : List Str) (h : HandlerFunc H)
    (hN : N.pfx ≠ []) (hNc : N.pfx.headD 0 ≠ colon) (hget : hmap.lookup m = some h)
    (hh : HandlerFunc H) (ee : Bool) (names : List Str) (v0 : Str) (vs : List Str) :
    FindLoop m 2
      { cn := chain N [⟨ntype.mtype, [star], some hmap, pn, true⟩],
        search := N.pfx, n := 0, nt := ntype.stype, nn := none, ns := [],
        h := hh, e := ee, ctx := ⟨names, v0 :: vs⟩ } =
      Exec.ok ⟨h, true, ⟨pn, [] :: vs⟩⟩ := by
  have hNc' : ¬ ((N.pfx.head?).getD 0 = colon) := by simpa using hNc
  have hstep : FindStep m
      { cn := chain N [⟨ntype.mtype, [star], some hmap, pn, true⟩],
        search := N.pfx, n := 0, nt := ntype.stype, nn := none, ns := [],
        h := hh, e := ee, ctx := ⟨names, v0 :: vs⟩ } =
      Step.next
        { cn := chain ⟨ntype.mtype, [star], some hmap, pn, true⟩ [],
          search := [], n := 0, nt := ntype.stype, nn := none, ns := [],
          h := hh, e := ee, ctx := ⟨names, [] :: vs⟩ } := by
    simp [FindStep, chain, Link.toNode, hN, hNc', lcp_self, findChildWithType,
      List.find?, MatchAny, setValue]
  rw [FindLoop_succ, hstep]
  simp only
  rw [FindLoop_succ, FindStep_found m _ hmap h _ _ _ _ _ _ _
    (by simp [chain, Link.toNode]) hget]
  simp [chain, Link.toNode]

theorem paramCount_name (name tail : Str) (hname : slash ∉ name) :
    paramCount true (name ++ tail) = paramCount true tail := by
  induction name with
  | nil => rfl
  | cons a name ih =>
    have ha : ¬ a = slash := fun e => hname (by simp [e])
    have hn : slash ∉ name := fun e => hname (List.mem_cons_of_mem _ e)
    simp [paramCount, ha, ih hn]

/-- What `insert` does to the framework instance and the route table. -/
theorem insert_vodka {H : Type} (r r' : Router H) (m path : Str) (h : HandlerFunc H)
    (t : ntype) (pn : List Str) (hres : insert r m path h t pn = Exec.ok r') :
    r'.vodka = ⟨max r.vodka.maxParam pn.length, r.vodka.stripTrailingSlash⟩ ∧
    r'.routes = r.routes := by
  unfold insert at hres
  simp only at hres
  split at hres
  · simp at hres
  · split at hres
    · simp only [Exec.ok.injEq] at hres
      subst hres
      by_cases hlt : r.vodka.maxParam < pn.length
      · have : max r.vodka.maxParam pn.length = pn.length := by omega
        simp [hlt, this]
      · have : max r.vodka.maxParam pn.length = r.vodka.maxParam := by omega
        simp [hlt, this]
    · simp at hres
    · simp at hres

/-- A pattern is cut at a `':'` into the text before it, the name and the
rest, which is empty or starts with `'/'`. -/
theorem split_at_colon (path : Str) (i : Nat) (hi : i < path.length)
    (hc : path.getD i 0 = colon) :
    ∃ pre name tail, path = pre ++ colon :: (name ++ tail) ∧ pre.length = i ∧
      slash ∉ name ∧ (tail = [] ∨ tail.head? = some slash) := by
  refine ⟨path.take i, (path.drop (i + 1)).takeWhile (fun b => b != slash),
    (path.drop (i + 1)).dropWhile (fun b => b != slash), ?_, ?_, ?_, ?_⟩
  · rw [List.takeWhile_append_dropWhile]
    have hget : path[i]? = some colon := by
      rw [List.getD_eq_getElem?_getD] at hc
      rw [List.getElem?_eq_getElem hi] at hc ⊢
      simpa using hc
    have : path.drop i = colon :: path.drop (i + 1) := by
      rw [List.drop_eq_getElem_cons hi]
      rw [List.getElem?_eq_getElem hi] at hget
      simp only [Option.some.injEq] at hget
      rw [hget]
    rw [← this, List.take_append_drop]
  · simp [List.length_take]; omega
  · intro hmem
    have := List.mem_takeWhile_imp hmem
    simp at this
  · cases hd : (path.drop (i + 1)).dropWhile (fun b => b != slash) with
    | nil => left; rfl
    | cons b rest =>
      right
      have := List.head_dropWhile_not (fun b => b != slash) (path.drop (i + 1))
        (by rw [hd]; simp)
      simp only [hd, List.head_cons] at this
      have hb : b = slash := by simpa using this
      simp [hb]

/-- A pattern is cut at a `'*'`. -/
theorem split_at_star (path : Str) (i : Nat) (hi : i < path.length)
    (hc : path.getD i 0 = star) :
    ∃ pre rest, path = pre ++ star :: rest ∧ pre.length = i := by
  refine ⟨path.take i, path.drop (i + 1), ?_, ?_⟩
  · have hget : path[i]? = some star := by
      rw [List.getD_eq_getElem?_getD] at hc
      rw [List.getElem?_eq_getElem hi] at hc ⊢
      simpa using hc
    have : path.drop i = star :: path.drop (i + 1) := by
      rw [List.drop_eq_getElem_cons hi]
      rw [List.getElem?_eq_getElem hi] at hget
      simp only [Option.some.injEq] at hget
      rw [hget]
    rw [← this, List.take_append_drop]
  · simp [List.length_take]; omega

theorem paramCount_drop_literal (path : Str) (i : Nat) (hi : i < path.length)
    (hc : ¬ path.getD i 0 = colon) (hs : ¬ path.getD i 0 = star) :
    paramCount false (path.drop i) = paramCount false (path.drop (i + 1)) := by
  have hget : path.getD i 0 = path[i] := by
    rw [List.getD_eq_getElem?_getD, List.getElem?_eq_getElem hi]; rfl
  rw [hget] at hc hs
  rw [List.drop_eq_getElem_cons hi]
  simp [paramCount, hc, hs]

/-- After a run of the loop of `Add` that returns, `maxParam` is the larger of
its old value and the number of names: those collected so far plus those of
the rest of the pattern.  The switch and the route table are untouched. -/
theorem AddLoop_maxParam {H : Type} (m : Str) (h : HandlerFunc H) :
    ∀ (fuel : Nat) (r : Router H) (path : Str) (i : Nat) (pn : List Str) (r' : Router H),
      AddLoop m h fuel r path i pn = Exec.ok r' →
      r'.vodka = ⟨max r.vodka.maxParam (pn.length + paramCount false (path.drop i)),
                  r.vodka.stripTrailingSlash⟩ ∧ r'.routes = r.routes := by
  intro fuel
  induction fuel with
  | zero => intro r path i pn r' hres; simp [AddLoop] at hres
  | succ f ih =>
    intro r path i pn r' hres
    by_cases hi : i < path.length
    · by_cases hc : path.getD i 0 = colon
      · obtain ⟨pre, name, tail, rfl, rfl, hname, htail⟩ := split_at_colon path i hi hc
        rw [AddLoop_colon m h f r pre name tail pn hname htail] at hres
        have hcount : paramCount false ((pre ++ colon :: (name ++ tail)).drop pre.length)
            = 1 + paramCount true tail := by
          rw [List.drop_left]
          simp [paramCount, paramCount_name name tail hname]
        rw [hcount]
        cases h1 : insert r m pre HandlerFunc.nil ntype.stype [] with
        | ok r1 =>
          rw [h1] at hres
          simp only at hres
          obtain ⟨hv1, hr1⟩ := insert_vodka _ _ _ _ _ _ _ h1
          by_cases ht : tail = []
          · subst ht
            simp only [if_true] at hres
            obtain ⟨hv2, hr2⟩ := insert_vodka _ _ _ _ _ _ _ hres
            rw [hv2, hr2, hv1, hr1]
            simp [paramCount]
          · simp only [ht, if_false] at hres
            cases h2 : insert r1 m (pre ++ [colon]) HandlerFunc.nil ntype.ptype (pn ++ [name])
              with
            | ok r2 =>
              rw [h2] at hres
              simp only at hres
              obtain ⟨hv2, hr2⟩ := insert_vodka _ _ _ _ _ _ _ h2
              obtain ⟨hv3, hr3⟩ := ih _ _ _ _ _ hres
              obtain ⟨rest, rfl⟩ : ∃ rest, tail = slash :: rest := by
                rcases htail with h0 | h0
                · exact absurd h0 ht
                · cases tail with
                  | nil => exact absurd rfl ht
                  | cons b rest =>
                    simp only [List.head?_cons, Option.some.injEq] at h0
                    exact ⟨rest, by rw [h0]⟩
              have hd : (pre ++ [colon] ++ slash :: rest).drop (pre.length + 1 + 1) = rest := by
                have e : pre ++ [colon] ++ slash :: rest = (pre ++ [colon, slash]) ++ rest := by
                  simp
                have e2 : pre.length + 1 + 1 = (pre ++ [colon, slash]).length := by simp
                rw [e, e2, List.drop_left]
              rw [hd] at hv3
              rw [hv3, hr3, hv2, hr2, hv1, hr1]
              simp only [paramCount, if_true, List.length_append, List.length_cons,
                List.length_nil, Vodka.mk.injEq, and_true]
              omega
            | panic p r2 => rw [h2] at hres; simp at hres
            | timeout => rw [h2] at hres; simp at hres
        | panic p r1 => rw [h1] at hres; simp at hres
        | timeout => rw [h1] at hres; simp at hres
      · by_cases hs : path.getD i 0 = star
        · obtain ⟨pre, rest, rfl, rfl⟩ := split_at_star path i hi hs
          rw [AddLoop_star m h f r pre rest pn] at hres
          have hcount : paramCount false ((pre ++ star :: rest).drop pre.length) = 1 := by
            rw [List.drop_left]
            simp [paramCount]
          rw [hcount]
          cases h1 : insert r m pre HandlerFunc.nil ntype.stype [] with
          | ok r1 =>
            rw [h1] at hres
            simp only at hres
            obtain ⟨hv1, hr1⟩ := insert_vodka _ _ _ _ _ _ _ h1
            obtain ⟨hv2, hr2⟩ := insert_vodka _ _ _ _ _ _ _ hres
            rw [hv2, hr2, hv1, hr1]
            simp
          | panic p r1 => rw [h1] at hres; simp at hres
          | timeout => rw [h1] at hres; simp at hres
        · rw [AddLoop] at hres
          simp only [hi, hc, hs, if_true, if_false] at hres
          rw [paramCount_drop_literal path i hi hc hs]
          exact ih _ _ _ _ _ hres
    · rw [AddLoop] at hres
      simp only [hi, if_false] at hres
      obtain ⟨hv, hr⟩ := insert_vodka _ _ _ _ _ _ _ hres
      have : path.drop i = [] := List.drop_eq_nil_of_le (by omega)
      rw [hv, hr, this]
      simp [paramCount]

theorem AddAll_maxParam {H : Type} :
    ∀ (routes : List (Str × Str × HandlerFunc H)) (r r' : Router H),
      AddAll r routes = Exec.ok r' →
      r'.vodka.maxParam = max r.vodka.maxParam (maxParamCount routes) := by
  intro routes
  induction routes with
  | nil =>
    intro r r' hres
    simp only [AddAll, Exec.ok.injEq] at hres
    subst hres
    simp [maxParamCount]
  | cons route rest ih =>
    obtain ⟨m, p, h⟩ := route
    intro r r' hres
    simp only [AddAll] at hres
    cases h1 : Add r m p h with
    | ok r1 =>
      rw [h1] at hres
      simp only at hres
      have hv := (AddLoop_maxParam m h _ _ _ _ _ _ h1).1
      have := ih r1 r' hres
      rw [this, hv]
      simp only [List.length_nil, Nat.zero_add, List.drop_zero, maxParamCount]
      omega
    | panic q r1 => rw [h1] at hres; simp at hres
    | timeout => rw [h1] at hres; simp at hres

theorem lcp_le_left : ∀ (s p : Str), lcp s p ≤ s.length
  | [], _ => by simp [lcp]
  | _ :: _, [] => by simp [lcp]
  | a :: s, b :: p => by
    by_cases h : a = b
    · simp [lcp, h]; exact lcp_le_left s p
    · simp [lcp, h]

theorem lcp_le_right : ∀ (s p : Str), lcp s p ≤ p.length
  | [], _ => by simp [lcp]
  | _ :: _, [] => by simp [lcp]
  | a :: s, b :: p => by
    by_cases h : a = b
    · simp [lcp, h]; exact lcp_le_right s p
    · simp [lcp, h]

/-- The two strings agree on the common prefix. -/
theorem lcp_take : ∀ (s p : Str), s.take (lcp s p) = p.take (lcp s p)
  | [], _ => by simp [lcp]
  | _ :: _, [] => by simp [lcp]
  | a :: s, b :: p => by
    by_cases h : a = b
    · simp [lcp, h]; exact lcp_take s p
    · simp [lcp, h]

/-- Right after the common prefix the two strings differ. -/
theorem lcp_diverge : ∀ (s p : Str), lcp s p < s.length → lcp s p < p.length →
    (s.drop (lcp s p)).headD 0 ≠ (p.drop (lcp s p)).headD 0
  | [], _ => by simp [lcp]
  | _ :: _, [] => by simp [lcp]
  | a :: s, b :: p => by
    by_cases h : a = b
    · simp only [lcp, h, if_true, List.length_cons, Nat.add_lt_add_iff_right, List.drop_succ_cons]
      exact lcp_diverge s p
    · simp [lcp, h]

theorem lcp_ne_zero_head (s p : Str) (h : lcp s p ≠ 0) :
    s ≠ [] ∧ p ≠ [] ∧ s.headD 0 = p.headD 0 := by
  cases s with
  | nil => simp [lcp] at h
  | cons a s =>
    cases p with
    | nil => simp [lcp] at h
    | cons b p =>
      by_cases hab : a = b
      · simp [hab]
      · simp [lcp, hab] at h

theorem lcp_head_ne_zero (s p : Str) (hs : s ≠ []) (hp : p ≠ [])
    (h : s.headD 0 = p.headD 0) : lcp s p ≠ 0 := by
  cases s with
  | nil => exact absurd rfl hs
  | cons a s =>
    cases p with
    | nil => exact absurd rfl hp
    | cons b p =>
      simp only [List.headD_cons] at h
      simp [lcp, h]

/-- When the whole of `p` is common, `s` starts with `p`. -/
theorem lcp_full (s p : Str) (h : lcp s p = p.length) : s = p ++ s.drop p.length := by
  have := lcp_take s p
  rw [h, List.take_length] at this
  conv_lhs => rw [← List.take_append_drop p.length s, this]

theorem lcp_take_right (s p : Str) : lcp s (p.take (lcp s p)) = lcp s p := by
  have h1 := lcp_take s p
  have h2 := lcp_le_left s p
  have : s = p.take (lcp s p) ++ s.drop (lcp s p) := by
    conv_lhs => rw [← List.take_append_drop (lcp s p) s, h1]
  have hlen : (p.take (lcp s p)).length = lcp s p := by
    rw [List.length_take]; exact Nat.min_eq_left (lcp_le_right s p)
  have e : lcp s (p.take (lcp s p))
      = lcp (p.take (lcp s p) ++ s.drop (lcp s p)) (p.take (lcp s p)) := by rw [← this]
  rw [e, lcp_append_left, hlen]

theorem lcp_append_of_full (s p x : Str) (h : lcp s p = p.length) :
    lcp (s ++ x) p = p.length := by
  have := lcp_full s p h
  rw [this, List.append_assoc, lcp_append_left]

theorem newNode_eq {H : Type} (t : ntype) (pre : Str) (c : List (node H)) (h : HandlerFunc H)
    (pnames : List Str) (e : Bool) (m : Str) (hpre : pre ≠ []) :
    newNode t pre c h pnames e m = some (mkNode t pre c h pnames e m) := by
  cases pre with
  | nil => exact absurd rfl hpre
  | cons b p => rfl

theorem insertLoop_root {H : Type} (m : Str) (h : HandlerFunc H) (t : ntype)
    (pn : List Str) (e : Bool) (f : Nat) (cn : node H) (s : Str)
    (hl : lcp s cn.pfx = 0) (hs : s ≠ []) :
    insertLoop m h t pn e (f + 1) cn s =
      Exec.ok (if h.isNil then { cn with label := s.headD 0, pfx := s }
        else { cn with label := s.headD 0, pfx := s, typ := t,
                       handler := some [(m, h)], pnames := pn, vodka := e }) := by
  cases s with
  | nil => exact absurd rfl hs
  | cons b s' =>
    unfold insertLoop
    cases hn : h.isNil <;> simp [hl, hn]

theorem insertLoop_split_parent {H : Type} (m : Str) (h : HandlerFunc H) (t : ntype)
    (pn : List Str) (e : Bool) (f : Nat) (cn : node H) (s : Str)
    (hl0 : lcp s cn.pfx ≠ 0) (hl1 : lcp s cn.pfx < cn.pfx.length)
    (hl2 : lcp s cn.pfx = s.length) :
    insertLoop m h t pn e (f + 1) cn s =
      Exec.ok { typ := t, label := cn.pfx.headD 0, pfx := cn.pfx.take (lcp s cn.pfx),
                children := [mkNode cn.typ (cn.pfx.drop (lcp s cn.pfx)) cn.children
                  (mapGet cn.handler m) cn.pnames cn.vodka m],
                handler := some (mapSet [] m h), pnames := pn, vodka := e } := by
  have hne : cn.pfx.drop (lcp s cn.pfx) ≠ [] := by
    intro hd
    have := congrArg List.length hd
    simp only [List.length_drop, List.length_nil] at this
    omega
  unfold insertLoop
  simp only [hl0, hl1, if_true, if_false, newNode_eq _ _ _ _ _ _ _ hne]
  rw [if_pos hl2]
  simp [addChild]

theorem insertLoop_split_child {H : Type} (m : Str) (h : HandlerFunc H) (t : ntype)
    (pn : List Str) (e : Bool) (f : Nat) (cn : node H) (s : Str)
    (hl0 : lcp s cn.pfx ≠ 0) (hl1 : lcp s cn.pfx < cn.pfx.length)
    (hl2 : lcp s cn.pfx ≠ s.length) :
    insertLoop m h t pn e (f + 1) cn s =
      Exec.ok { typ := ntype.stype, label := cn.pfx.headD 0,
                pfx := cn.pfx.take (lcp s cn.pfx),
                children := [mkNode cn.typ (cn.pfx.drop (lcp s cn.pfx)) cn.children
                  (mapGet cn.handler m) cn.pnames cn.vodka m,
                  mkNode t (s.drop (lcp s cn.pfx)) [] h pn e m],
                handler := some [], pnames := [], vodka := false } := by
  have hne : cn.pfx.drop (lcp s cn.pfx) ≠ [] := by
    intro hd
    have := congrArg List.length hd
    simp only [List.length_drop, List.length_nil] at this
    omega
  have hne2 : s.drop (lcp s cn.pfx) ≠ [] := by
    intro hd
    have := congrArg List.length hd
    have hle := lcp_le_left s cn.pfx
    simp only [List.length_drop, List.length_nil] at this
    omega
  unfold insertLoop
  simp only [hl0, hl1, if_true, if_false, newNode_eq _ _ _ _ _ _ _ hne]
  rw [if_neg hl2]
  simp [addChild, newNode_eq _ _ _ _ _ _ _ hne2]

theorem insertLoop_descend {H : Type} (m : Str) (h : HandlerFunc H) (t : ntype)
    (pn : List Str) (e : Bool) (f : Nat) (cn : node H) (s : Str)
    (hl0 : lcp s cn.pfx ≠ 0) (hl1 : ¬ lcp s cn.pfx < cn.pfx.length)
    (hl2 : lcp s cn.pfx < s.length) :
    insertLoop m h t pn e (f + 1) cn s =
      match findChildWithLabel cn ((s.drop (lcp s cn.pfx)).headD 0) with
      | some c =>
        match insertLoop m h t pn e f c (s.drop (lcp s cn.pfx)) with
        | Exec.ok c' =>
          Exec.ok { cn with children :=
            replaceChildWithLabel ((s.drop (lcp s cn.pfx)).headD 0) c' cn.children }
        | Exec.panic p c' =>
          Exec.panic p { cn with children :=
            replaceChildWithLabel ((s.drop (lcp s cn.pfx)).headD 0) c' cn.children }
        | Exec.timeout => Exec.timeout
      | none =>
        Exec.ok (addChild cn (mkNode t (s.drop (lcp s cn.pfx)) [] h pn e m)) := by
  have hne2 : s.drop (lcp s cn.pfx) ≠ [] := by
    intro hd
    have := congrArg List.length hd
    simp only [List.length_drop, List.length_nil] at this
    omega
  conv_lhs => unfold insertLoop
  simp only [hl0, hl1, hl2, if_true, if_false, newNode_eq _ _ _ _ _ _ _ hne2]

theorem insertLoop_exists {H : Type} (m : Str) (h : HandlerFunc H) (t : ntype)
    (pn : List Str) (e : Bool) (f : Nat) (cn : node H) (s : Str)
    (hl0 : lcp s cn.pfx ≠ 0) (hl1 : ¬ lcp s cn.pfx < cn.pfx.length)
    (hl2 : ¬ lcp s cn.pfx < s.length) :
    insertLoop m h t pn e (f + 1) cn s =
      if h.isNil then Exec.ok cn
      else
        match cn.handler with
        | none => Exec.panic Panic.nilMap cn
        | some hm =>
          Exec.ok { cn with handler := some (mapSet hm m h), pnames := pn, vodka := e } := by
  conv_lhs => unfold insertLoop
  cases hn : h.isNil <;> cases hh : cn.handler <;> simp [hl0, hl1, hl2, hn, hh]

theorem find_label_some {H : Type} (cs : List (node H)) (l : Nat) (c : node H)
    (hf : cs.find? (fun c => c.label == l) = some c) : c ∈ cs ∧ c.label = l := by
  refine ⟨List.mem_of_find?_eq_some hf, ?_⟩
  have := List.find?_some hf
  simpa using this

theorem find_label_none {H : Type} (cs : List (node H)) (l : Nat)
    (hf : cs.find? (fun c => c.label == l) = none) : l ∉ cs.map node.label := by
  intro hmem
  rw [List.mem_map] at hmem
  obtain ⟨c, hc, hl⟩ := hmem
  rw [List.find?_eq_none] at hf
  have := hf c hc
  simp [hl] at this

theorem replace_self {H : Type} (l : Nat) (c : node H) :
    ∀ cs : List (node H), cs.find? (fun c => c.label == l) = some c →
      replaceChildWithLabel l c cs = cs := by
  intro cs
  induction cs with
  | nil => intro hf; rfl
  | cons a cs ih =>
    intro hf
    by_cases ha : a.label = l
    · have hb : (a.label == l) = true := by simp [ha]
      simp only [List.find?, hb, Option.some.injEq] at hf
      subst hf
      simp [replaceChildWithLabel, ha]
    · have hb : (a.label == l) = false := by simp [ha]
      simp only [List.find?, hb] at hf
      simp [replaceChildWithLabel, hb, ih hf]

theorem replace_map_label {H : Type} (l : Nat) (c' : node H) (hl : c'.label = l) :
    ∀ cs : List (node H),
      (replaceChildWithLabel l c' cs).map node.label = cs.map node.label := by
  intro cs
  induction cs with
  | nil => rfl
  | cons a cs ih =>
    by_cases ha : a.label = l
    · have hb : (a.label == l) = true := by simp [ha]
      simp [replaceChildWithLabel, hb, hl, ha]
    · have hb : (a.label == l) = false := by simp [ha]
      simp [replaceChildWithLabel, hb, ih]

theorem mem_replace {H : Type} (l : Nat) (c' x : node H) :
    ∀ cs : List (node H), x ∈ replaceChildWithLabel l c' cs → x = c' ∨ x ∈ cs := by
  intro cs
  induction cs with
  | nil => intro hx; simp [replaceChildWithLabel] at hx
  | cons a cs ih =>
    intro hx
    by_cases ha : a.label = l
    · have hb : (a.label == l) = true := by simp [ha]
      simp only [replaceChildWithLabel, hb, if_true, List.mem_cons] at hx
      rcases hx with hx | hx
      · exact Or.inl hx
      · exact Or.inr (List.mem_cons_of_mem _ hx)
    · have hb : (a.label == l) = false := by simp [ha]
      have hx2 : x = a ∨ x ∈ replaceChildWithLabel l c' cs := by
        simpa [replaceChildWithLabel, hb] using hx
      rcases hx2 with h0 | h0
      · exact Or.inr (by rw [h0]; exact List.mem_cons_self _ _)
      · rcases ih h0 with h1 | h1
        · exact Or.inl h1
        · exact Or.inr (List.mem_cons_of_mem _ h1)

theorem find_replace {H : Type} (l : Nat) (c c' : node H) (hl : c'.label = l) :
    ∀ cs : List (node H), cs.find? (fun c => c.label == l) = some c →
      (replaceChildWithLabel l c' cs).find? (fun c => c.label == l) = some c' := by
  intro cs
  induction cs with
  | nil => intro hf; simp at hf
  | cons a cs ih =>
    intro hf
    by_cases ha : a.label = l
    · have hb : (a.label == l) = true := by simp [ha]
      simp [replaceChildWithLabel, hb, hl]
    · have hb : (a.label == l) = false := by simp [ha]
      simp only [List.find?, hb] at hf
      simp [replaceChildWithLabel, hb, List.find?, ih hf]

theorem find_replace_ne {H : Type} (l k : Nat) (c' : node H) (hl : c'.label = l)
    (hk : k ≠ l) :
    ∀ cs : List (node H),
      (replaceChildWithLabel l c' cs).find? (fun c => c.label == k)
        = cs.find? (fun c => c.label == k) := by
  intro cs
  induction cs with
  | nil => rfl
  | cons a cs ih =>
    by_cases ha : a.label = l
    · have hb : (a.label == l) = true := by simp [ha]
      have h1 : (a.label == k) = false := by simp [ha, Ne.symm hk]
      have h2 : (c'.label == k) = false := by simp [hl, Ne.symm hk]
      simp [replaceChildWithLabel, hb, List.find?, h1, h2]
    · have hb : (a.label == l) = false := by simp [ha]
      simp only [replaceChildWithLabel, hb, List.find?]
      cases a.label == k
      · simpa using ih
      · rfl

theorem find_append_new {H : Type} (l : Nat) (n : node H) (hl : n.label = l)
    (cs : List (node H)) (hf : cs.find? (fun c => c.label == l) = none) :
    (cs ++ [n]).find? (fun c => c.label == l) = some n := by
  rw [List.find?_append, hf]
  simp [List.find?, hl]

theorem find_append_ne {H : Type} (k : Nat) (n : node H) (hk : n.label ≠ k)
    (cs : List (node H)) :
    (cs ++ [n]).find? (fun c => c.label == k) = cs.find? (fun c => c.label == k) := by
  rw [List.find?_append]
  have : (n.label == k) = false := by simp [hk]
  cases cs.find? (fun c => c.label == k) <;> simp [List.find?, this]

/-- A pass of `insert` that panics leaves the node as it was. -/
theorem insertLoop_panic {H : Type} (m : Str) (h : HandlerFunc H) (t : ntype)
    (pn : List Str) (e : Bool) :
    ∀ (fuel : Nat) (cn : node H) (s : Str) (p : Panic) (cn' : node H),
      insertLoop m h t pn e fuel cn s = Exec.panic p cn' → cn' = cn := by
  intro fuel
  induction fuel with
  | zero => intro cn s p cn' hres; simp [insertLoop] at hres
  | succ f ih =>
    intro cn s p cn' hres
    by_cases hl0 : lcp s cn.pfx = 0
    · cases s with
      | nil =>
        unfold insertLoop at hres
        simp only [hl0, if_true, Exec.panic.injEq] at hres
        exact hres.2.symm
      | cons b s' =>
        rw [insertLoop_root m h t pn e f cn _ hl0 (by simp)] at hres
        simp at hres
    · by_cases hl1 : lcp s cn.pfx < cn.pfx.length
      · by_cases hl2 : lcp s cn.pfx = s.length
        · rw [insertLoop_split_parent m h t pn e f cn s hl0 hl1 hl2] at hres
          simp at hres
        · rw [insertLoop_split_child m h t pn e f cn s hl0 hl1 hl2] at hres
          simp at hres
      · by_cases hl2 : lcp s cn.pfx < s.length
        · rw [insertLoop_descend m h t pn e f cn s hl0 hl1 hl2] at hres
          cases hf : findChildWithLabel cn ((s.drop (lcp s cn.pfx)).headD 0) with
          | none => rw [hf] at hres; simp at hres
          | some c =>
            rw [hf] at hres
            simp only at hres
            cases hrec : insertLoop m h t pn e f c (s.drop (lcp s cn.pfx)) with
            | ok c' => rw [hrec] at hres; simp at hres
            | timeout => rw [hrec] at hres; simp at hres
            | panic q c' =>
              rw [hrec] at hres
              simp only [Exec.panic.injEq] at hres
              have hc := ih _ _ _ _ hrec
              subst hc
              rw [← hres.2, replace_self _ _ _ hf]
              cases cn
              rfl
        · rw [insertLoop_exists m h t pn e f cn s hl0 hl1 hl2] at hres
          cases hn : h.isNil
          · cases hh : cn.handler with
            | none =>
              simp only [hn, hh, Bool.false_eq_true, if_false, Exec.panic.injEq] at hres
              exact hres.2.symm
            | some hm => simp [hn, hh] at hres
          · simp [hn] at hres

/-- The six ways in which a pass of `insert` returns. -/
theorem insertLoop_ok_cases {H : Type} (m : Str) (h : HandlerFunc H) (t : ntype)
    (pn : List Str) (e : Bool) (f : Nat) (cn : node H) (s : Str) (cn' : node H)
    (hres : insertLoop m h t pn e (f + 1) cn s = Exec.ok cn') :
    (lcp s cn.pfx = 0 ∧ s ≠ [] ∧
      cn' = (if h.isNil then { cn with label := s.headD 0, pfx := s }
        else { cn with label := s.headD 0, pfx := s, typ := t,
                       handler := some [(m, h)], pnames := pn, vodka := e })) ∨
    (lcp s cn.pfx ≠ 0 ∧ lcp s cn.pfx < cn.pfx.length ∧ lcp s cn.pfx = s.length ∧
      cn' = { typ := t, label := cn.pfx.headD 0, pfx := cn.pfx.take (lcp s cn.pfx),
              children := [mkNode cn.typ (cn.pfx.drop (lcp s cn.pfx)) cn.children
                (mapGet cn.handler m) cn.pnames cn.vodka m],
              handler := some (mapSet [] m h), pnames := pn, vodka := e }) ∨
    (lcp s cn.pfx ≠ 0 ∧ lcp s cn.pfx < cn.pfx.length ∧ lcp s cn.pfx < s.length ∧
      cn' = { typ := ntype.stype, label := cn.pfx.headD 0,
              pfx := cn.pfx.take (lcp s cn.pfx),
              children := [mkNode cn.typ (cn.pfx.drop (lcp s cn.pfx)) cn.children
                (mapGet cn.handler m) cn.pnames cn.vodka m,
                mkNode t (s.drop (lcp s cn.pfx)) [] h pn e m],
              handler := some [], pnames := [], vodka := false }) ∨
    (lcp s cn.pfx ≠ 0 ∧ lcp s cn.pfx = cn.pfx.length ∧ lcp s cn.pfx < s.length ∧
      ∃ c c', findChildWithLabel cn ((s.drop (lcp s cn.pfx)).headD 0) = some c ∧
        insertLoop m h t pn e f c (s.drop (lcp s cn.pfx)) = Exec.ok c' ∧
        cn' = { cn with children :=
          replaceChildWithLabel ((s.drop (lcp s cn.pfx)).headD 0) c' cn.children }) ∨
    (lcp s cn.pfx ≠ 0 ∧ lcp s cn.pfx = cn.pfx.length ∧ lcp s cn.pfx < s.length ∧
      findChildWithLabel cn ((s.drop (lcp s cn.pfx)).headD 0) = none ∧
      cn' = addChild cn (mkNode t (s.drop (lcp s cn.pfx)) [] h pn e m)) ∨
    (lcp s cn.pfx ≠ 0 ∧ lcp s cn.pfx = cn.pfx.length ∧ lcp s cn.pfx = s.length ∧
      ((h.isNil = true ∧ cn' = cn) ∨
       (h.isNil = false ∧ ∃ hm, cn.handler = some hm ∧
          cn' = { cn with handler := some (mapSet hm m h), pnames := pn, vodka := e }))) := by
  have hle1 := lcp_le_left s cn.pfx
  have hle2 := lcp_le_right s cn.pfx
  by_cases hl0 : lcp s cn.pfx = 0
  · cases s with
    | nil =>
      unfold insertLoop at hres
      simp [hl0] at hres
    | cons b s' =>
      rw [insertLoop_root m h t pn e f cn _ hl0 (by simp)] at hres
      simp only [Exec.ok.injEq] at hres
      exact Or.inl ⟨hl0, by simp, hres.symm⟩
  · by_cases hl1 : lcp s cn.pfx < cn.pfx.length
    · by_cases hl2 : lcp s cn.pfx = s.length
      · rw [insertLoop_split_parent m h t pn e f cn s hl0 hl1 hl2] at hres
        simp only [Exec.ok.injEq] at hres
        exact Or.inr (Or.inl ⟨hl0, hl1, hl2, hres.symm⟩)
      · rw [insertLoop_split_child m h t pn e f cn s hl0 hl1 hl2] at hres
        simp only [Exec.ok.injEq] at hres
        exact Or.inr (Or.inr (Or.inl ⟨hl0, hl1, by omega, hres.symm⟩))
    · by_cases hl2 : lcp s cn.pfx < s.length
      · rw [insertLoop_descend m h t pn e f cn s hl0 hl1 hl2] at hres
        cases hf : findChildWithLabel cn ((s.drop (lcp s cn.pfx)).headD 0) with
        | none =>
          rw [hf] at hres
          simp only [Exec.ok.injEq] at hres
          exact Or.inr (Or.inr (Or.inr (Or.inr (Or.inl
            ⟨hl0, by omega, hl2, rfl, hres.symm⟩))))
        | some c =>
          rw [hf] at hres
          simp only at hres
          cases hrec : insertLoop m h t pn e f c (s.drop (lcp s cn.pfx)) with
          | panic q c' => rw [hrec] at hres; simp at hres
          | timeout => rw [hrec] at hres; simp at hres
          | ok c' =>
            rw [hrec] at hres
            simp only [Exec.ok.injEq] at hres
            exact Or.inr (Or.inr (Or.inr (Or.inl
              ⟨hl0, by omega, hl2, c, c', rfl, hrec, hres.symm⟩)))
      · rw [insertLoop_exists m h t pn e f cn s hl0 hl1 hl2] at hres
        refine Or.inr (Or.inr (Or.inr (Or.inr (Or.inr ⟨hl0, by omega, by omega, ?_⟩))))
        cases hn : h.isNil
        · cases hh : cn.handler with
          | none => simp [hn, hh] at hres
          | some hm =>
            simp only [hn, hh, Bool.false_eq_true, if_false, Exec.ok.injEq] at hres
            exact Or.inr ⟨rfl, hm, rfl, hres.symm⟩
        · simp only [hn, if_true, Exec.ok.injEq] at hres
          exact Or.inl ⟨rfl, hres.symm⟩

theorem drop_lcp_ne_nil (s p : Str) (h : lcp s p < s.length) : s.drop (lcp s p) ≠ [] := by
  intro hd
  have := congrArg List.length hd
  simp only [List.length_drop, List.length_nil] at this
  omega

/-- After `insert` has returned, the text it was given ends at a node of the
tree; the first byte of the node it started at is kept. -/
theorem insertLoop_present {H : Type} (m : Str) (h : HandlerFunc H) (t : ntype)
    (pn : List Str) (e : Bool) :
    ∀ (fuel : Nat) (cn : node H) (s : Str) (cn' : node H),
      insertLoop m h t pn e fuel cn s = Exec.ok cn' →
      Present cn' s ∧ (cn.label = s.headD 0 → cn'.label = s.headD 0) := by
  intro fuel
  induction fuel with
  | zero => intro cn s cn' hres; simp [insertLoop] at hres
  | succ f ih =>
    intro cn s cn' hres
    rcases insertLoop_ok_cases m h t pn e f cn s cn' hres with
      ⟨_, hs, rfl⟩ | ⟨hl0, hl1, hl2, rfl⟩ | ⟨hl0, hl1, hl2, rfl⟩ |
      ⟨hl0, hl1, hl2, c, c', hf, hrec, rfl⟩ | ⟨hl0, hl1, hl2, hf, rfl⟩ |
      ⟨hl0, hl1, hl2, hcase⟩
    · constructor
      · apply Present.atNode _ _ hs
        cases h.isNil <;> rfl
      · intro _
        cases h.isNil <;> rfl
    · have hhead := lcp_ne_zero_head s cn.pfx hl0
      constructor
      · apply Present.atNode _ _ hhead.1
        show cn.pfx.take (lcp s cn.pfx) = s
        rw [← lcp_take, hl2, List.take_length]
      · intro _
        exact hhead.2.2.symm
    · have hhead := lcp_ne_zero_head s cn.pfx hl0
      have hrest := drop_lcp_ne_nil s cn.pfx hl2
      have hdiv := lcp_diverge s cn.pfx hl2 hl1
      constructor
      · refine Present.under _ s (s.drop (lcp s cn.pfx))
          (mkNode t (s.drop (lcp s cn.pfx)) [] h pn e m) ?_ ?_ hrest ?_ ?_
        · show cn.pfx.take (lcp s cn.pfx) ≠ []
          intro h0
          have := congrArg List.length h0
          simp only [List.length_take, List.length_nil] at this
          omega
        · show s = cn.pfx.take (lcp s cn.pfx) ++ s.drop (lcp s cn.pfx)
          rw [← lcp_take, List.take_append_drop]
        · have h1 : ((mkNode cn.typ (cn.pfx.drop (lcp s cn.pfx)) cn.children
              (mapGet cn.handler m) cn.pnames cn.vodka m).label
                == (s.drop (lcp s cn.pfx)).headD 0) = false := by
            simp only [mkNode, beq_eq_false_iff_ne]
            exact fun h0 => hdiv h0.symm
          simp only [findChildWithLabel, List.find?, h1]
          simp [mkNode]
        · exact Present.atNode _ _ hrest rfl
      · intro _
        exact hhead.2.2.symm
    · have hhead := lcp_ne_zero_head s cn.pfx hl0
      have hrest := drop_lcp_ne_nil s cn.pfx hl2
      obtain ⟨hc1, hc2⟩ := find_label_some _ _ _ hf
      obtain ⟨hp, hlab⟩ := ih _ _ _ hrec
      have hlab2 := hlab hc2
      constructor
      · refine Present.under _ s (s.drop (lcp s cn.pfx)) c' hhead.2.1 ?_ hrest ?_ hp
        · show s = cn.pfx ++ s.drop (lcp s cn.pfx)
          rw [hl1]
          exact lcp_full s cn.pfx hl1
        · exact find_replace _ c c' hlab2 _ hf
      · intro h0
        exact h0
    · have hhead := lcp_ne_zero_head s cn.pfx hl0
      have hrest := drop_lcp_ne_nil s cn.pfx hl2
      constructor
      · refine Present.under _ s (s.drop (lcp s cn.pfx))
          (mkNode t (s.drop (lcp s cn.pfx)) [] h pn e m) hhead.2.1 ?_ hrest ?_ ?_
        · show s = cn.pfx ++ s.drop (lcp s cn.pfx)
          rw [hl1]
          exact lcp_full s cn.pfx hl1
        · exact find_append_new ((s.drop (lcp s cn.pfx)).headD 0)
            (mkNode t (s.drop (lcp s cn.pfx)) [] h pn e m) rfl cn.children hf
        · exact Present.atNode _ _ hrest rfl
      · intro h0
        exact h0
    · have hhead := lcp_ne_zero_head s cn.pfx hl0
      have hs : cn.pfx = s := by
        have h1 := lcp_full s cn.pfx hl1
        have h2 : s.drop cn.pfx.length = [] := List.drop_eq_nil_of_le (by omega)
        rw [h2, List.append_nil] at h1
        exact h1.symm
      rcases hcase with ⟨_, rfl⟩ | ⟨_, hm, _, rfl⟩
      · exact ⟨Present.atNode _ _ hhead.1 hs, fun h0 => h0⟩
      · exact ⟨Present.atNode _ _ hhead.1 hs, fun h0 => h0⟩

theorem WF.nodup {H : Type} {n : node H} (hw : WF n) : (n.children.map node.label).Nodup := by
  cases hw with
  | mk _ h1 _ _ => exact h1

theorem WF.nodeOk {H : Type} {n : node H} (hw : WF n) : ∀ c ∈ n.children, NodeOk c := by
  cases hw with
  | mk _ _ h2 _ => exact h2

theorem WF.child {H : Type} {n : node H} (hw : WF n) : ∀ c ∈ n.children, WF c := by
  cases hw with
  | mk _ _ _ h3 => exact h3

theorem WF_of_children {H : Type} (a b : node H) (hw : WF a) (hc : b.children = a.children) :
    WF b := by
  apply WF.mk
  · rw [hc]; exact hw.nodup
  · rw [hc]; exact hw.nodeOk
  · rw [hc]; exact hw.child

theorem WF_no_children {H : Type} (b : node H) (hc : b.children = []) : WF b := by
  apply WF.mk
  · rw [hc]; exact List.nodup_nil
  · rw [hc]; intro c hcm; cases hcm
  · rw [hc]; intro c hcm; cases hcm

theorem kindOk_of {H : Type} (a b : node H) (ht : b.typ = a.typ) (hp : b.pfx = a.pfx)
    (hk : kindOk a) : kindOk b := by
  unfold kindOk at *
  rw [ht, hp]
  exact hk

theorem kindOk_static {H : Type} (b : node H) (ht : b.typ = ntype.stype) : kindOk b := by
  unfold kindOk
  rw [ht]
  exact ⟨fun h => (by cases h), fun h => (by cases h)⟩

theorem kindOk_long_static {H : Type} (a : node H) (hk : kindOk a) (hl : 1 < a.pfx.length) :
    a.typ = ntype.stype := by
  unfold kindOk at hk
  cases ht : a.typ with
  | stype => rfl
  | ptype =>
    have := hk.1 ht
    rw [this] at hl
    simp at hl
  | mtype =>
    have := hk.2 ht
    rw [this] at hl
    simp at hl

theorem NodeOk_of {H : Type} (a b : node H) (ht : b.typ = a.typ) (hp : b.pfx = a.pfx)
    (hl : b.label = a.label) (hk : NodeOk a) : NodeOk b := by
  unfold NodeOk at *
  rw [hp, hl]
  exact ⟨hk.1, hk.2.1, kindOk_of a b ht hp hk.2.2⟩

theorem headD_take (p : Str) (l : Nat) (hl : l ≠ 0) : (p.take l).headD 0 = p.headD 0 := by
  cases p with
  | nil => simp
  | cons a p =>
    cases l with
    | zero => exact absurd rfl hl
    | succ l => rfl

theorem take_ne_nil (p : Str) (l : Nat) (hl : l ≠ 0) (hp : p ≠ []) : p.take l ≠ [] := by
  cases p with
  | nil => exact absurd rfl hp
  | cons a p =>
    cases l with
    | zero => exact absurd rfl hl
    | succ l => simp

theorem WF_replace {H : Type} (cn : node H) (l : Nat) (c' : node H) (hw : WF cn)
    (hl : c'.label = l) (hok : NodeOk c') (hw' : WF c') (b : node H)
    (hb : b.children = replaceChildWithLabel l c' cn.children) : WF b := by
  apply WF.mk
  · rw [hb, replace_map_label l c' hl]
    exact hw.nodup
  · rw [hb]
    intro x hx
    rcases mem_replace l c' x _ hx with h0 | h0
    · rw [h0]; exact hok
    · exact hw.nodeOk x h0
  · rw [hb]
    intro x hx
    rcases mem_replace l c' x _ hx with h0 | h0
    · rw [h0]; exact hw'
    · exact hw.child x h0

theorem WF_addChild {H : Type} (cn : node H) (l : Nat) (n : node H) (hw : WF cn)
    (hf : findChildWithLabel cn l = none) (hl : n.label = l) (hok : NodeOk n) (hw' : WF n)
    (b : node H) (hb : b.children = cn.children ++ [n]) : WF b := by
  have hnot := find_label_none _ _ hf
  apply WF.mk
  · rw [hb, List.map_append, List.nodup_append]
    refine ⟨hw.nodup, by simp, ?_⟩
    intro x hx1 hx2
    simp only [List.map_cons, List.map_nil, List.mem_singleton] at hx2
    rw [hx2, hl] at hx1
    exact hnot hx1
  · rw [hb]
    intro x hx
    rw [List.mem_append, List.mem_singleton] at hx
    rcases hx with h0 | h0
    · exact hw.nodeOk x h0
    · rw [h0]; exact hok
  · rw [hb]
    intro x hx
    rw [List.mem_append, List.mem_singleton] at hx
    rcases hx with h0 | h0
    · exact hw.child x h0
    · rw [h0]; exact hw'

theorem NodeOk_mkNode {H : Type} (t : ntype) (pre : Str) (c : List (node H))
    (h : HandlerFunc H) (pn : List Str) (e : Bool) (m : Str) (hpre : pre ≠ [])
    (hk : (t = ntype.ptype → pre = [colon]) ∧ (t = ntype.mtype → pre = [star])) :
    NodeOk (mkNode t pre c h pn e m) :=
  ⟨hpre, rfl, hk⟩

theorem kind_static (s : Str) : (ntype.stype = ntype.ptype → s = [colon]) ∧
    (ntype.stype = ntype.mtype → s = [star]) :=
  ⟨fun h => (by cases h), fun h => (by cases h)⟩

/-- A static `insert` keeps the child sets well formed.  It is started at a
static node, or at a node whose prefix shares the first byte of the text. -/
theorem insertLoop_static_wf {H : Type} (m : Str) (h : HandlerFunc H)
    (pn : List Str) (e : Bool) :
    ∀ (fuel : Nat) (cn : node H) (s : Str) (cn' : node H),
      WF cn → kindOk cn → (cn.typ = ntype.stype ∨ lcp s cn.pfx ≠ 0) →
      insertLoop m h ntype.stype pn e fuel cn s = Exec.ok cn' →
      WF cn' ∧ kindOk cn' ∧ cn'.typ = cn.typ ∧
        (NodeOk cn → lcp s cn.pfx ≠ 0 → NodeOk cn' ∧ cn'.label = cn.label) := by
  intro fuel
  induction fuel with
  | zero => intro cn s cn' _ _ _ hres; simp [insertLoop] at hres
  | succ f ih =>
    intro cn s cn' hw hk hstart hres
    rcases insertLoop_ok_cases m h ntype.stype pn e f cn s cn' hres with
      ⟨hl0, hs, rfl⟩ | ⟨hl0, hl1, hl2, rfl⟩ | ⟨hl0, hl1, hl2, rfl⟩ |
      ⟨hl0, hl1, hl2, c, c', hf, hrec, rfl⟩ | ⟨hl0, hl1, hl2, hf, rfl⟩ |
      ⟨hl0, hl1, hl2, hcase⟩
    · have ht : cn.typ = ntype.stype := by
        rcases hstart with h0 | h0
        · exact h0
        · exact absurd hl0 h0
      cases hn : h.isNil
      · rw [if_neg (by simp)]
        exact ⟨WF_of_children cn _ hw rfl, kindOk_static _ rfl, ht.symm,
          fun _ h0 => absurd hl0 h0⟩
      · rw [if_pos rfl]
        exact ⟨WF_of_children cn _ hw rfl, kindOk_static _ ht, rfl,
          fun _ h0 => absurd hl0 h0⟩
    · have ht : cn.typ = ntype.stype := kindOk_long_static cn hk (by omega)
      have hhead := lcp_ne_zero_head s cn.pfx hl0
      have hdrop : cn.pfx.drop (lcp s cn.pfx) ≠ [] := by
        intro hd
        have := congrArg List.length hd
        simp only [List.length_drop, List.length_nil] at this
        omega
      refine ⟨?_, kindOk_static _ rfl, ht.symm, ?_⟩
      · apply WF.mk
        · simp
        · intro x hx
          simp only [List.mem_singleton] at hx
          rw [hx]
          exact NodeOk_mkNode _ _ _ _ _ _ _ hdrop (by rw [ht]; exact kind_static _)
        · intro x hx
          simp only [List.mem_singleton] at hx
          rw [hx]
          exact WF_of_children cn _ hw rfl
      · intro hok _
        exact ⟨⟨take_ne_nil _ _ hl0 hhead.2.1, (headD_take _ _ hl0).symm, kindOk_static _ rfl⟩,
          hok.2.1.symm⟩
    · have ht : cn.typ = ntype.stype := kindOk_long_static cn hk (by omega)
      have hhead := lcp_ne_zero_head s cn.pfx hl0
      have hdrop : cn.pfx.drop (lcp s cn.pfx) ≠ [] := by
        intro hd
        have := congrArg List.length hd
        simp only [List.length_drop, List.length_nil] at this
        omega
      have hrest := drop_lcp_ne_nil s cn.pfx hl2
      have hdiv := lcp_diverge s cn.pfx hl2 hl1
      refine ⟨?_, kindOk_static _ rfl, ht.symm, ?_⟩
      · apply WF.mk
        · simp only [List.map_cons, List.map_nil, mkNode, List.nodup_cons, List.mem_singleton,
            List.not_mem_nil, not_false_eq_true, List.nodup_nil, and_true]
          exact fun h0 => hdiv h0.symm
        · intro x hx
          simp only [List.mem_cons, List.mem_singleton, List.not_mem_nil, or_false] at hx
          rcases hx with hx | hx
          · rw [hx]
            exact NodeOk_mkNode _ _ _ _ _ _ _ hdrop (by rw [ht]; exact kind_static _)
          · rw [hx]
            exact NodeOk_mkNode _ _ _ _ _ _ _ hrest (kind_static _)
        · intro x hx
          simp only [List.mem_cons, List.mem_singleton, List.not_mem_nil, or_false] at hx
          rcases hx with hx | hx
          · rw [hx]
            exact WF_of_children cn _ hw rfl
          · rw [hx]
            exact WF_no_children _ rfl
      · intro hok _
        exact ⟨⟨take_ne_nil _ _ hl0 hhead.2.1, (headD_take _ _ hl0).symm, kindOk_static _ rfl⟩,
          hok.2.1.symm⟩
    · have hrest := drop_lcp_ne_nil s cn.pfx hl2
      obtain ⟨hc1, hc2⟩ := find_label_some _ _ _ hf
      have hcok := hw.nodeOk c hc1
      have hlc : lcp (s.drop (lcp s cn.pfx)) c.pfx ≠ 0 :=
        lcp_head_ne_zero _ _ hrest hcok.1 (by rw [← hc2, hcok.2.1])
      obtain ⟨hw', _, _, hlast⟩ := ih c _ c' (hw.child c hc1) hcok.2.2 (Or.inr hlc) hrec
      obtain ⟨hok', hlab'⟩ := hlast hcok hlc
      refine ⟨WF_replace cn _ c' hw (by rw [hlab', hc2]) hok' hw' _ rfl,
        kindOk_of cn _ rfl rfl hk, rfl, ?_⟩
      intro hok _
      exact ⟨NodeOk_of cn _ rfl rfl rfl hok, rfl⟩
    · have hrest := drop_lcp_ne_nil s cn.pfx hl2
      refine ⟨WF_addChild cn _ _ hw hf rfl
          (NodeOk_mkNode _ _ _ _ _ _ _ hrest (kind_static _)) (WF_no_children _ rfl) _ rfl,
        kindOk_of cn _ rfl rfl hk, rfl, ?_⟩
      intro hok _
      exact ⟨NodeOk_of cn _ rfl rfl rfl hok, rfl⟩
    · rcases hcase with ⟨_, rfl⟩ | ⟨_, hm, _, rfl⟩
      · exact ⟨hw, hk, rfl, fun hok _ => ⟨hok, rfl⟩⟩
      · exact ⟨WF_of_children cn _ hw rfl, kindOk_of cn _ rfl rfl hk, rfl,
          fun hok _ => ⟨NodeOk_of cn _ rfl rfl rfl hok, rfl⟩⟩

/-- Inserting the one-byte text of a `:` or `*` node at a child that carries
that byte as its label. -/
theorem insertLoop_byte_wf {H : Type} (m : Str) (h : HandlerFunc H) (t : ntype)
    (pn : List Str) (e : Bool) (c0 : Nat)
    (hk : (t = ntype.ptype → c0 = colon) ∧ (t = ntype.mtype → c0 = star))
    (fuel : Nat) (c c' : node H) (hw : WF c) (hok : NodeOk c) (hc0 : c.pfx.headD 0 = c0)
    (hres : insertLoop m h t pn e fuel c [c0] = Exec.ok c') :
    WF c' ∧ NodeOk c' ∧ c'.label = c.label := by
  cases fuel with
  | zero => simp [insertLoop] at hres
  | succ f =>
    have hl : lcp [c0] c.pfx ≠ 0 :=
      lcp_head_ne_zero _ _ (by simp) hok.1 (by rw [hc0]; rfl)
    have hlen : ([c0] : Str).length = 1 := rfl
    rcases insertLoop_ok_cases m h t pn e f c [c0] c' hres with
      ⟨hl0, _, _⟩ | ⟨hl0, hl1, hl2, rfl⟩ | ⟨hl0, hl1, hl2, _⟩ |
      ⟨hl0, hl1, hl2, _⟩ | ⟨hl0, hl1, hl2, _⟩ | ⟨hl0, hl1, hl2, hcase⟩
    · exact absurd hl0 hl
    · rw [hlen] at hl2
      have ht : c.typ = ntype.stype := kindOk_long_static c hok.2.2 (by omega)
      have hdrop : c.pfx.drop (lcp [c0] c.pfx) ≠ [] := by
        intro hd
        have := congrArg List.length hd
        simp only [List.length_drop, List.length_nil] at this
        omega
      have htake : c.pfx.take (lcp [c0] c.pfx) = [c0] := by
        rw [← lcp_take, hl2]
        rfl
      refine ⟨?_, ⟨take_ne_nil _ _ hl0 hok.1, (headD_take _ _ hl0).symm, ?_⟩, hok.2.1.symm⟩
      · apply WF.mk
        · simp
        · intro x hx
          simp only [List.mem_singleton] at hx
          rw [hx]
          exact NodeOk_mkNode _ _ _ _ _ _ _ hdrop (by rw [ht]; exact kind_static _)
        · intro x hx
          simp only [List.mem_singleton] at hx
          rw [hx]
          exact WF_of_children c _ hw rfl
      · show (t = ntype.ptype → c.pfx.take (lcp [c0] c.pfx) = [colon]) ∧
          (t = ntype.mtype → c.pfx.take (lcp [c0] c.pfx) = [star])
        rw [htake]
        exact ⟨fun h0 => by rw [hk.1 h0], fun h0 => by rw [hk.2 h0]⟩
    · rw [hlen] at hl2; omega
    · rw [hlen] at hl2; omega
    · rw [hlen] at hl2; omega
    · rcases hcase with ⟨_, rfl⟩ | ⟨_, hm, _, rfl⟩
      · exact ⟨hw, hok, rfl⟩
      · exact ⟨WF_of_children c _ hw rfl, NodeOk_of c _ rfl rfl rfl hok, rfl⟩

/-- Inserting a `:` or `*` node right after a text that ends at a node keeps
the child sets well formed and leaves the start node's kind, prefix and label. -/
theorem insertLoop_typed_wf {H : Type} (m : Str) (h : HandlerFunc H) (t : ntype)
    (pn : List Str) (e : Bool) (c0 : Nat)
    (hk : (t = ntype.ptype → c0 = colon) ∧ (t = ntype.mtype → c0 = star))
    (cn : node H) (pre : Str) (hp : Present cn pre) :
    ∀ (fuel : Nat) (cn' : node H), WF cn →
      insertLoop m h t pn e fuel cn (pre ++ [c0]) = Exec.ok cn' →
      WF cn' ∧ cn'.typ = cn.typ ∧ cn'.pfx = cn.pfx ∧ cn'.label = cn.label := by
  induction hp with
  | atNode cn s hs hpfx =>
    intro fuel cn' hw hres
    cases fuel with
    | zero => simp [insertLoop] at hres
    | succ f =>
      have hl : lcp (s ++ [c0]) cn.pfx = s.length := by rw [hpfx, lcp_append_left]
      have hpl : cn.pfx.length = s.length := by rw [hpfx]
      have hsl : (s ++ [c0]).length = s.length + 1 := by simp
      have hspos : s.length ≠ 0 := fun h0 => hs (List.length_eq_zero.mp h0)
      have hdrop : (s ++ [c0]).drop s.length = [c0] := List.drop_left _ _
      rcases insertLoop_ok_cases m h t pn e f cn (s ++ [c0]) cn' hres with
        ⟨hl0, _, _⟩ | ⟨hl0, hl1, hl2, _⟩ | ⟨hl0, hl1, hl2, _⟩ |
        ⟨hl0, hl1, hl2, c, c', hf, hrec, rfl⟩ | ⟨hl0, hl1, hl2, hf, rfl⟩ |
        ⟨hl0, hl1, hl2, _⟩
      · rw [hl] at hl0; exact absurd hl0 hspos
      · rw [hl, hpl] at hl1; omega
      · rw [hl, hpl] at hl1; omega
      · rw [hl, hdrop] at hf hrec
        obtain ⟨hc1, hc2⟩ := find_label_some _ _ _ hf
        have hcok := hw.nodeOk c hc1
        have hc0 : c.pfx.headD 0 = c0 := by
          rw [← hcok.2.1, hc2]; rfl
        obtain ⟨hw', hok', hlab'⟩ :=
          insertLoop_byte_wf m h t pn e c0 hk f c c' (hw.child c hc1) hcok hc0 hrec
        refine ⟨WF_replace cn _ c' hw ?_ hok' hw' _ rfl, rfl, rfl, rfl⟩
        rw [hl, hdrop, hlab', hc2]
      · rw [hl, hdrop] at hf
        refine ⟨WF_addChild cn _ _ hw hf ?_ ?_ (WF_no_children _ rfl) _ rfl, rfl, rfl, rfl⟩
        · rw [hl, hdrop]; rfl
        · rw [hl, hdrop]
          exact NodeOk_mkNode _ _ _ _ _ _ _ (by simp)
            ⟨fun h0 => (by rw [hk.1 h0]), fun h0 => (by rw [hk.2 h0])⟩
      · rw [hl, hsl] at hl2; omega
  | under cn s rest c hpfx hs hrest hf hp ih =>
    intro fuel cn' hw hres
    cases fuel with
    | zero => simp [insertLoop] at hres
    | succ f =>
      have hl : lcp (s ++ [c0]) cn.pfx = cn.pfx.length := by
        rw [hs, List.append_assoc, lcp_append_left]
      have hsl : (s ++ [c0]).length = cn.pfx.length + rest.length + 1 := by
        rw [hs]; simp only [List.length_append, List.length_cons, List.length_nil]
      have hspos : cn.pfx.length ≠ 0 := fun h0 => hpfx (List.length_eq_zero.mp h0)
      have hdrop : (s ++ [c0]).drop cn.pfx.length = rest ++ [c0] := by
        rw [hs, List.append_assoc, List.drop_left]
      have hhead : (rest ++ [c0]).headD 0 = rest.headD 0 := by
        cases rest with
        | nil => exact absurd rfl hrest
        | cons b rest => rfl
      rcases insertLoop_ok_cases m h t pn e f cn (s ++ [c0]) cn' hres with
        ⟨hl0, _, _⟩ | ⟨hl0, hl1, hl2, _⟩ | ⟨hl0, hl1, hl2, _⟩ |
        ⟨hl0, hl1, hl2, c2, c', hf2, hrec, rfl⟩ | ⟨hl0, hl1, hl2, hf2, rfl⟩ |
        ⟨hl0, hl1, hl2, _⟩
      · rw [hl] at hl0; exact absurd hl0 hspos
      · rw [hl] at hl1; omega
      · rw [hl] at hl1; omega
      · rw [hl, hdrop, hhead] at hf2
        rw [hl, hdrop] at hrec
        rw [hf] at hf2
        simp only [Option.some.injEq] at hf2
        subst hf2
        obtain ⟨hc1, hc2⟩ := find_label_some _ _ _ hf
        have hcok := hw.nodeOk c hc1
        obtain ⟨hw', ht', hp', hlab'⟩ := ih f c' (hw.child c hc1) hrec
        refine ⟨WF_replace cn _ c' hw ?_ (NodeOk_of c c' ht' hp' hlab' hcok) hw' _ rfl,
          rfl, rfl, rfl⟩
        rw [hl, hdrop, hhead, hlab', hc2]
      · rw [hl, hdrop, hhead, hf] at hf2
        cases hf2
      · rw [hl, hsl] at hl2; omega

theorem insert_ok_tree {H : Type} (r r' : Router H) (m p : Str) (h : HandlerFunc H)
    (t : ntype) (pn : List Str) (hres : insert r m p h t pn = Exec.ok r') :
    insertLoop m h t pn true (p.length + 1) r.tree p = Exec.ok r'.tree := by
  unfold insert at hres
  simp only at hres
  split at hres
  · simp at hres
  · split at hres
    · rename_i cn hcn
      simp only [Exec.ok.injEq] at hres
      subst hres
      split at hcn <;> exact hcn
    · simp at hres
    · simp at hres

theorem insert_panic_tree {H : Type} (r r' : Router H) (m p : Str) (h : HandlerFunc H)
    (t : ntype) (pn : List Str) (q : Panic) (hres : insert r m p h t pn = Exec.panic q r') :
    r'.tree = r.tree := by
  unfold insert at hres
  simp only at hres
  split at hres
  · simp only [Exec.panic.injEq] at hres
    rw [← hres.2]
    split <;> rfl
  · split at hres
    · simp at hres
    · rename_i q' cn hcn
      simp only [Exec.panic.injEq] at hres
      rw [← hres.2]
      have := insertLoop_panic m h t pn true _ _ _ _ _ hcn
      rw [this]
      split <;> rfl
    · simp at hres

theorem insert_static_ok {H : Type} (r r' : Router H) (m p : Str) (h : HandlerFunc H)
    (pn : List Str) (hr : TreeOk r.tree)
    (hres : insert r m p h ntype.stype pn = Exec.ok r') :
    TreeOk r'.tree ∧ Present r'.tree p := by
  have h1 := insert_ok_tree r r' m p h ntype.stype pn hres
  obtain ⟨hw, _, ht, _⟩ := insertLoop_static_wf m h pn true _ _ _ _ hr.2
    (kindOk_static _ hr.1) (Or.inl hr.1) h1
  exact ⟨⟨by rw [ht]; exact hr.1, hw⟩, (insertLoop_present m h ntype.stype pn true _ _ _ _ h1).1⟩

theorem insert_typed_ok {H : Type} (r r' : Router H) (m pre : Str) (h : HandlerFunc H)
    (t : ntype) (c0 : Nat) (pn : List Str)
    (hk : (t = ntype.ptype → c0 = colon) ∧ (t = ntype.mtype → c0 = star))
    (hr : TreeOk r.tree) (hp : Present r.tree pre)
    (hres : insert r m (pre ++ [c0]) h t pn = Exec.ok r') :
    TreeOk r'.tree := by
  have h1 := insert_ok_tree r r' m _ h t pn hres
  obtain ⟨hw, ht, _, _⟩ := insertLoop_typed_wf m h t pn true c0 hk r.tree pre hp _ _ hr.2 h1
  exact ⟨by rw [ht]; exact hr.1, hw⟩

theorem insert_static_final {H : Type} (r r' : Router H) (m p : Str) (h : HandlerFunc H)
    (pn : List Str) (hr : TreeOk r.tree)
    (hres : (insert r m p h ntype.stype pn).final = some r') : TreeOk r'.tree := by
  cases h1 : insert r m p h ntype.stype pn with
  | ok r1 =>
    rw [h1] at hres
    simp only [Exec.final, Option.some.injEq] at hres
    subst hres
    exact (insert_static_ok r r1 m p h pn hr h1).1
  | panic q r1 =>
    rw [h1] at hres
    simp only [Exec.final, Option.some.injEq] at hres
    subst hres
    rw [insert_panic_tree r r1 m p h _ pn q h1]
    exact hr
  | timeout => rw [h1] at hres; simp [Exec.final] at hres

theorem insert_typed_final {H : Type} (r r' : Router H) (m pre : Str) (h : HandlerFunc H)
    (t : ntype) (c0 : Nat) (pn : List Str)
    (hk : (t = ntype.ptype → c0 = colon) ∧ (t = ntype.mtype → c0 = star))
    (hr : TreeOk r.tree) (hp : Present r.tree pre)
    (hres : (insert r m (pre ++ [c0]) h t pn).final = some r') : TreeOk r'.tree := by
  cases h1 : insert r m (pre ++ [c0]) h t pn with
  | ok r1 =>
    rw [h1] at hres
    simp only [Exec.final, Option.some.injEq] at hres
    subst hres
    exact insert_typed_ok r r1 m pre h t c0 pn hk hr hp h1
  | panic q r1 =>
    rw [h1] at hres
    simp only [Exec.final, Option.some.injEq] at hres
    subst hres
    rw [insert_panic_tree r r1 m _ h _ pn q h1]
    exact hr
  | timeout => rw [h1] at hres; simp [Exec.final] at hres

theorem kind_param : (ntype.ptype = ntype.ptype → colon = colon) ∧
    (ntype.ptype = ntype.mtype → colon = star) :=
  ⟨fun _ => rfl, fun h => (by cases h)⟩

theorem kind_catch_all : (ntype.mtype = ntype.ptype → star = colon) ∧
    (ntype.mtype = ntype.mtype → star = star) :=
  ⟨fun h => (by cases h), fun _ => rfl⟩

/-- The loop of `Add` keeps the tree well formed, whether it returns or
panics on the way. -/
theorem AddLoop_treeOk {H : Type} (m : Str) (h : HandlerFunc H) :
    ∀ (fuel : Nat) (r : Router H) (path : Str) (i : Nat) (pn : List Str) (r' : Router H),
      TreeOk r.tree → (AddLoop m h fuel r path i pn).final = some r' → TreeOk r'.tree := by
  intro fuel
  induction fuel with
  | zero => intro r path i pn r' _ hres; simp [AddLoop, Exec.final] at hres
  | succ f ih =>
    intro r path i pn r' hr hres
    by_cases hi : i < path.length
    · by_cases hc : path.getD i 0 = colon
      · obtain ⟨pre, name, tail, rfl, rfl, hname, htail⟩ := split_at_colon path i hi hc
        rw [AddLoop_colon m h f r pre name tail pn hname htail] at hres
        cases h1 : insert r m pre HandlerFunc.nil ntype.stype [] with
        | ok r1 =>
          rw [h1] at hres
          simp only at hres
          obtain ⟨hr1, hp1⟩ := insert_static_ok r r1 m pre _ _ hr h1
          by_cases ht : tail = []
          · simp only [ht, if_true] at hres
            exact insert_typed_final r1 r' m pre h _ colon _ kind_param hr1 hp1 hres
          · simp only [ht, if_false] at hres
            cases h2 : insert r1 m (pre ++ [colon]) HandlerFunc.nil ntype.ptype (pn ++ [name])
              with
            | ok r2 =>
              rw [h2] at hres
              simp only at hres
              have hr2 := insert_typed_ok r1 r2 m pre _ _ colon _ kind_param hr1 hp1 h2
              exact ih _ _ _ _ _ hr2 hres
            | panic q r2 =>
              rw [h2] at hres
              simp only [Exec.final, Option.some.injEq] at hres
              subst hres
              rw [insert_panic_tree r1 r2 m _ _ _ _ q h2]
              exact hr1
            | timeout => rw [h2] at hres; simp [Exec.final] at hres
        | panic q r1 =>
          rw [h1] at hres
          simp only [Exec.final, Option.some.injEq] at hres
          subst hres
          rw [insert_panic_tree r r1 m _ _ _ _ q h1]
          exact hr
        | timeout => rw [h1] at hres; simp [Exec.final] at hres
      · by_cases hs : path.getD i 0 = star
        · obtain ⟨pre, rest, rfl, rfl⟩ := split_at_star path i hi hs
          rw [AddLoop_star m h f r pre rest pn] at hres
          cases h1 : insert r m pre HandlerFunc.nil ntype.stype [] with
          | ok r1 =>
            rw [h1] at hres
            simp only at hres
            obtain ⟨hr1, hp1⟩ := insert_static_ok r r1 m pre _ _ hr h1
            exact insert_typed_final r1 r' m pre h _ star _ kind_catch_all hr1 hp1 hres
          | panic q r1 =>
            rw [h1] at hres
            simp only [Exec.final, Option.some.injEq] at hres
            subst hres
            rw [insert_panic_tree r r1 m _ _ _ _ q h1]
            exact hr
          | timeout => rw [h1] at hres; simp [Exec.final] at hres
        · rw [AddLoop] at hres
          simp only [hi, hc, hs, if_true, if_false] at hres
          exact ih _ _ _ _ _ hr hres
    · rw [AddLoop] at hres
      simp only [hi, if_false] at hres
      exact insert_static_final r r' m path h pn hr hres

theorem NewRouter_treeOk {H : Type} (e : Vodka) : TreeOk (NewRouter e : Router H).tree :=
  ⟨rfl, WF_no_children _ rfl⟩

theorem Reachable_treeOk {H : Type} (r : Router H) (hr : Reachable r) : TreeOk r.tree := by
  induction hr with
  | fresh e => exact NewRouter_treeOk e
  | add r r' m p h _ _ hadd ih =>
    apply AddLoop_treeOk m h (p.length + 1) r p 0 [] r' ih
    unfold Add at hadd
    rw [hadd]
    rfl
  | recovered r r' m p h q _ _ hadd ih =>
    apply AddLoop_treeOk m h (p.length + 1) r p 0 [] r' ih
    unfold Add at hadd
    rw [hadd]
    rfl

theorem mem_nodesList {H : Type} (n : node H) :
    ∀ cs : List (node H), n ∈ nodesList cs → ∃ c ∈ cs, n ∈ c.nodes := by
  intro cs
  induction cs with
  | nil => intro hn; simp [nodesList] at hn
  | cons c cs ih =>
    intro hn
    rw [nodesList, List.mem_append] at hn
    rcases hn with h0 | h0
    · exact ⟨c, List.mem_cons_self _ _, h0⟩
    · obtain ⟨c2, hc2, hn2⟩ := ih h0
      exact ⟨c2, List.mem_cons_of_mem _ hc2, hn2⟩

theorem nodes_eq {H : Type} (t : node H) : t.nodes = t :: nodesList t.children := by
  cases t
  rfl

/-- Every node of a well-formed tree is well formed. -/
theorem WF_nodes {H : Type} (t : node H) (hw : WF t) : ∀ n ∈ t.nodes, WF n := by
  induction hw with
  | mk t h1 h2 h3 ih =>
    intro n hn
    rw [nodes_eq, List.mem_cons] at hn
    rcases hn with h0 | h0
    · rw [h0]
      exact WF.mk t h1 h2 h3
    · obtain ⟨c, hc, hnc⟩ := mem_nodesList n _ h0
      exact ih c hc n hnc

/-- In a well-formed child set, the children of kind `:` (or `*`) all carry
the same label, so there is at most one. -/
theorem WF_kind_le_one {H : Type} (n : node H) (hw : WF n) (t : ntype) (b : Nat)
    (hb : ∀ c ∈ n.children, c.typ = t → c.label = b) :
    (childrenOfKind n t).length ≤ 1 := by
  have hnd : ((childrenOfKind n t).map node.label).Nodup :=
    (hw.nodup).sublist (List.Sublist.map _ (List.filter_sublist _))
  have hall : ∀ x ∈ (childrenOfKind n t).map node.label, x = b := by
    intro x hx
    rw [List.mem_map] at hx
    obtain ⟨c, hc, rfl⟩ := hx
    unfold childrenOfKind at hc
    rw [List.mem_filter] at hc
    exact hb c hc.1 (by simpa using hc.2)
  have : ((childrenOfKind n t).map node.label).length ≤ 1 := by
    cases hl : (childrenOfKind n t).map node.label with
    | nil => simp
    | cons x xs =>
      cases xs with
      | nil => simp
      | cons y ys =>
        rw [hl] at hnd hall
        have hx := hall x (by simp)
        have hy := hall y (by simp)
        rw [List.nodup_cons] at hnd
        exact absurd (by rw [hx, hy]; simp) hnd.1
  simpa using this

theorem mapMapsList_eq {H : Type} (g : HandlerMap H → HandlerMap H) :
    ∀ cs : List (node H), mapMapsList g cs = cs.map (node.mapMaps g) := by
  intro cs
  induction cs with
  | nil => rfl
  | cons c cs ih => simp [mapMapsList, ih]

theorem mapMaps_typ {H : Type} (g : HandlerMap H → HandlerMap H) (n : node H) :
    (n.mapMaps g).typ = n.typ := by
  cases n; rfl

theorem mapMaps_label {H : Type} (g : HandlerMap H → HandlerMap H) (n : node H) :
    (n.mapMaps g).label = n.label := by
  cases n; rfl

theorem mapMaps_pfx {H : Type} (g : HandlerMap H → HandlerMap H) (n : node H) :
    (n.mapMaps g).pfx = n.pfx := by
  cases n; rfl

theorem mapMaps_pnames {H : Type} (g : HandlerMap H → HandlerMap H) (n : node H) :
    (n.mapMaps g).pnames = n.pnames := by
  cases n; rfl

theorem mapMaps_vodka {H : Type} (g : HandlerMap H → HandlerMap H) (n : node H) :
    (n.mapMaps g).vodka = n.vodka := by
  cases n; rfl

theorem mapMaps_handler {H : Type} (g : HandlerMap H → HandlerMap H) (n : node H) :
    (n.mapMaps g).handler = n.handler.map g := by
  cases n; rfl

theorem mapMaps_children {H : Type} (g : HandlerMap H → HandlerMap H) (n : node H) :
    (n.mapMaps g).children = n.children.map (node.mapMaps g) := by
  cases n
  simp [node.mapMaps, mapMapsList_eq]

theorem findChild_mapMaps {H : Type} (g : HandlerMap H → HandlerMap H) (n : node H)
    (l : Nat) (t : ntype) :
    findChild (n.mapMaps g) l t = (findChild n l t).map (node.mapMaps g) := by
  unfold findChild
  rw [mapMaps_children, List.find?_map]
  congr 1
  apply congrArg (fun p => List.find? p n.children)
  funext c
  simp [mapMaps_label, mapMaps_typ]

theorem findChildWithType_mapMaps {H : Type} (g : HandlerMap H → HandlerMap H) (n : node H)
    (t : ntype) :
    findChildWithType (n.mapMaps g) t = (findChildWithType n t).map (node.mapMaps g) := by
  unfold findChildWithType
  rw [mapMaps_children, List.find?_map]
  congr 1
  apply congrArg (fun p => List.find? p n.children)
  funext c
  simp [mapMaps_typ]

theorem findChildWithLabel_mapMaps {H : Type} (g : HandlerMap H → HandlerMap H) (n : node H)
    (l : Nat) :
    findChildWithLabel (n.mapMaps g) l = (findChildWithLabel n l).map (node.mapMaps g) := by
  unfold findChildWithLabel
  rw [mapMaps_children, List.find?_map]
  congr 1
  apply congrArg (fun p => List.find? p n.children)
  funext c
  simp [mapMaps_label]

mutual
theorem mapMaps_height {H : Type} (g : HandlerMap H → HandlerMap H) :
    ∀ n : node H, (n.mapMaps g).height = n.height
  | ⟨t, l, p, cs, h, pn, v⟩ => by
    simp only [node.mapMaps, node.height, mapMapsList_height g cs]
theorem mapMapsList_height {H : Type} (g : HandlerMap H → HandlerMap H) :
    ∀ cs : List (node H), heightList (mapMapsList g cs) = heightList cs
  | [] => rfl
  | c :: cs => by
    simp only [mapMapsList, heightList, mapMaps_height g c, mapMapsList_height g cs]
end

theorem MatchAny_mapMaps {H : Type} (g : HandlerMap H → HandlerMap H) (s : FindState H) :
    MatchAny (s.mapMaps g) = (MatchAny s).mapMaps g := by
  unfold MatchAny
  simp only [FindState.mapMaps, findChildWithType_mapMaps]
  cases findChildWithType s.cn ntype.mtype with
  | none => rfl
  | some c =>
    simp only [Option.map_some']
    cases setValue s.ctx.pvalues 0 s.search with
    | none => rfl
    | some pv => rfl

theorem Param_mapMaps {H : Type} (g : HandlerMap H → HandlerMap H) (s : FindState H) :
    Param (s.mapMaps g) = (Param s).mapMaps g := by
  unfold Param
  have hm := MatchAny_mapMaps g s
  simp only [FindState.mapMaps] at hm
  simp only [FindState.mapMaps, findChildWithType_mapMaps, mapMaps_label]
  cases findChildWithType s.cn ntype.ptype with
  | none => exact hm
  | some c =>
    simp only [Option.map_some']
    by_cases hl : s.cn.label = slash
    · simp only [hl, if_true]
      cases setValue s.ctx.pvalues s.n
          (s.search.take (s.search.takeWhile (fun b => b != slash)).length) with
      | none => rfl
      | some pv => rfl
    · simp only [hl, if_false]
      cases setValue s.ctx.pvalues s.n
          (s.search.take (s.search.takeWhile (fun b => b != slash)).length) with
      | none => rfl
      | some pv => rfl

/-- A pass of `Find` with something left of the path reads no handler map:
it runs in the same way over the tree with `g` applied to every map, for any
method. -/
theorem FindStep_mapMaps {H : Type} (g : HandlerMap H → HandlerMap H) (m m' : Str)
    (s : FindState H) (hs : s.search ≠ []) :
    FindStep m' (s.mapMaps g) = (FindStep m s).mapMaps g := by
  unfold FindStep
  simp only [FindState.mapMaps, mapMaps_label, mapMaps_pfx, if_neg hs]
  generalize (if s.cn.label ≠ colon then lcp s.search s.cn.pfx else 0) = L
  generalize (if s.cn.label ≠ colon then s.cn.pfx.length else 0) = P
  by_cases hlp : L = P
  · rw [if_pos hlp, if_pos hlp]
    by_cases hd : s.search.drop L = []
    · rw [if_pos hd, if_pos hd]
      rw [findChildWithType_mapMaps]
      cases hf : findChildWithType s.cn ntype.mtype with
      | none => rfl
      | some c =>
        simp only [Option.map_some', Option.isNone_some, Bool.false_eq_true, if_false]
        exact MatchAny_mapMaps g { s with search := s.search.drop L }
    · rw [if_neg hd, if_neg hd]
      rw [findChild_mapMaps]
      cases hf : findChild s.cn ((s.search.drop L).headD 0) ntype.stype with
      | none => exact Param_mapMaps g { s with search := s.search.drop L }
      | some c =>
        simp only [Option.map_some']
        by_cases hsl : s.cn.label = slash
        · simp only [hsl, if_true]
          rfl
        · simp only [hsl, if_false]
          rfl
  · rw [if_neg hlp, if_neg hlp]
    have hP := Param_mapMaps g { s with cn := s.nn.getD s.cn, search := s.ns }
    have hM := MatchAny_mapMaps g { s with cn := s.nn.getD s.cn, search := s.ns }
    simp only [FindState.mapMaps] at hP hM
    cases hnn : s.nn with
    | none =>
      cases hnt : s.nt <;> rfl
    | some nn =>
      rw [hnn] at hP hM
      cases hnt : s.nt with
      | stype => rfl
      | ptype =>
        rw [hnt] at hP
        exact hP
      | mtype =>
        rw [hnt] at hM
        exact hM

theorem MatchAny_keepsH {H : Type} (s : FindState H) : (MatchAny s).keepsH s.h := by
  unfold MatchAny
  cases findChildWithType s.cn ntype.mtype with
  | none => rfl
  | some c =>
    cases setValue s.ctx.pvalues 0 s.search with
    | none => trivial
    | some pv => rfl

theorem Param_keepsH {H : Type} (s : FindState H) : (Param s).keepsH s.h := by
  unfold Param
  cases findChildWithType s.cn ntype.ptype with
  | none => exact MatchAny_keepsH s
  | some c =>
    by_cases hl : s.cn.label = slash
    · simp only [hl, if_true]
      cases setValue s.ctx.pvalues s.n
          (s.search.take (s.search.takeWhile (fun b => b != slash)).length) with
      | none => trivial
      | some pv => rfl
    · simp only [hl, if_false]
      cases setValue s.ctx.pvalues s.n
          (s.search.take (s.search.takeWhile (fun b => b != slash)).length) with
      | none => trivial
      | some pv => rfl

/-- A pass of `Find` with something left of the path does not set `h`. -/
theorem FindStep_keepsH {H : Type} (m : Str) (s : FindState H) (hs : s.search ≠ []) :
    (FindStep m s).keepsH s.h := by
  unfold FindStep
  simp only [if_neg hs]
  generalize (if s.cn.label ≠ colon then lcp s.search s.cn.pfx else 0) = L
  generalize (if s.cn.label ≠ colon then s.cn.pfx.length else 0) = P
  by_cases hlp : L = P
  · rw [if_pos hlp]
    by_cases hd : s.search.drop L = []
    · rw [if_pos hd]
      cases hf : findChildWithType s.cn ntype.mtype with
      | none => rfl
      | some c =>
        simp only [Option.isNone_some, Bool.false_eq_true, if_false]
        exact MatchAny_keepsH { s with search := s.search.drop L }
    · rw [if_neg hd]
      cases hf : findChild s.cn ((s.search.drop L).headD 0) ntype.stype with
      | none => exact Param_keepsH { s with search := s.search.drop L }
      | some c =>
        by_cases hsl : s.cn.label = slash
        · simp only [hsl, if_true]
          rfl
        · simp only [hsl, if_false]
          rfl
  · rw [if_neg hlp]
    have hP := Param_keepsH { s with cn := s.nn.getD s.cn, search := s.ns }
    have hM := MatchAny_keepsH { s with cn := s.nn.getD s.cn, search := s.ns }
    cases hnn : s.nn with
    | none =>
      cases hnt : s.nt
      · rfl
      · trivial
      · trivial
    | some nn =>
      rw [hnn] at hP hM
      cases hnt : s.nt with
      | stype => rfl
      | ptype =>
        rw [hnt] at hP
        exact hP
      | mtype =>
        rw [hnt] at hM
        exact hM

/-- The lookup that ends at a node whose map binds `m` to the handler `h`
ends, over the tree with `g` applied to every map and under the method `m'`,
with the handler `h'`, when `g` turns every such map into one that binds `m'`
to `h'`. -/
theorem FindLoop_mapMaps_found {H : Type} (g : HandlerMap H → HandlerMap H) (m m' : Str)
    (h h' : H)
    (hg : ∀ hm : HandlerMap H, hm.lookup m = some (HandlerFunc.user h) →
      (g hm).lookup m' = some (HandlerFunc.user h')) :
    ∀ (fuel : Nat) (s : FindState H) (e : Bool) (ctx : Context),
      s.h = HandlerFunc.notFoundHandler →
      FindLoop m fuel s = Exec.ok ⟨HandlerFunc.user h, e, ctx⟩ →
      FindLoop m' fuel (s.mapMaps g) = Exec.ok ⟨HandlerFunc.user h', e, ctx⟩ := by
  intro fuel
  induction fuel with
  | zero => intro s e ctx _ hres; simp [FindLoop] at hres
  | succ f ih =>
    intro s e ctx hsh hres
    rw [FindLoop] at hres ⊢
    by_cases hs : s.search = []
    · have hs' : (s.mapMaps g).search = [] := hs
      unfold FindStep at hres ⊢
      rw [if_pos hs] at hres
      rw [if_pos hs']
      simp only [FindState.mapMaps, mapMaps_handler, mapMaps_vodka, mapMaps_pnames]
      cases hh : s.cn.handler with
      | none =>
        rw [hh] at hres
        simp only [FindState.result, Exec.ok.injEq, FindResult.mk.injEq] at hres
        rw [hsh] at hres
        exact absurd hres.1 (by simp)
      | some hm =>
        rw [hh] at hres
        simp only [Option.map_some', mapGet?] at hres ⊢
        cases hl : hm.lookup m with
        | none =>
          rw [hl] at hres
          simp at hres
        | some x =>
          rw [hl] at hres
          simp only [Exec.ok.injEq, FindResult.mk.injEq] at hres
          obtain ⟨hx, he, hctx⟩ := hres
          subst hx
          rw [hg hm hl]
          simp only [Exec.ok.injEq, FindResult.mk.injEq, true_and]
          exact ⟨he, hctx⟩
    · rw [FindStep_mapMaps g m m' s hs]
      have hk := FindStep_keepsH m s hs
      cases hstep : FindStep m s with
      | next s1 =>
        rw [hstep] at hres hk
        simp only [Step.mapMaps]
        exact ih s1 e ctx (by rw [← hsh]; exact hk) hres
      | done r =>
        rw [hstep] at hres hk
        simp only at hres
        subst hres
        simp only [Step.keepsH] at hk
        rw [hsh] at hk
        exact absurd hk (by simp)

/-- When `g` changes, under `m`, only the handlers that the maps bind, by
`ρ`, every lookup under `m` over the tree with `g` applied to every map
returns what it returned before, with `ρ` applied to the handler. -/
theorem FindLoop_mapMaps_exact {H : Type} (g : HandlerMap H → HandlerMap H) (m : Str)
    (ρ : HandlerFunc H → HandlerFunc H)
    (h1 : ∀ hm : HandlerMap H, (g hm).lookup m = (hm.lookup m).map ρ)
    (h2 : ∀ hm : HandlerMap H, hm.lookup m = none → mapKeys (some (g hm)) = mapKeys (some hm))
    (h3 : ∀ ks, ρ (HandlerFunc.methodNotAllowedHandler ks) =
      HandlerFunc.methodNotAllowedHandler ks) :
    ∀ (fuel : Nat) (s : FindState H), ρ s.h = s.h →
      FindLoop m fuel (s.mapMaps g) = (FindLoop m fuel s).mapH ρ := by
  intro fuel
  induction fuel with
  | zero => intro s _; rfl
  | succ f ih =>
    intro s hsh
    rw [FindLoop, FindLoop]
    by_cases hs : s.search = []
    · have hs' : (s.mapMaps g).search = [] := hs
      unfold FindStep
      rw [if_pos hs, if_pos hs']
      simp only [FindState.mapMaps, mapMaps_handler, mapMaps_vodka, mapMaps_pnames]
      cases hh : s.cn.handler with
      | none =>
        simp only [Option.map_none', Exec.mapH, FindState.result, hsh]
      | some hm =>
        simp only [Option.map_some', mapGet?, h1 hm]
        cases hl : hm.lookup m with
        | none => simp only [Option.map_none', Exec.mapH, h2 hm hl, h3]
        | some x => simp only [Option.map_some', Exec.mapH]
    · rw [FindStep_mapMaps g m m s hs]
      have hk := FindStep_keepsH m s hs
      cases hstep : FindStep m s with
      | next s1 =>
        rw [hstep] at hk
        simp only [Step.mapMaps]
        exact ih s1 (by rw [hk]; exact hsh)
      | done r =>
        rw [hstep] at hk
        simp only [Step.mapMaps]
        cases r with
        | ok res =>
          simp only [Step.keepsH] at hk
          simp only [Exec.mapH, hk, hsh]
          rw [← hk]
        | panic p res => rfl
        | timeout => rfl

theorem findFuel_mapMaps {H : Type} (g : HandlerMap H → HandlerMap H) (t : node H) :
    findFuel (t.mapMaps g) = findFuel t := by
  unfold findFuel
  rw [mapMaps_height]

/-- `Find` under `m'` on the router whose tree is that of `r` with `g`
applied to every map, for a lookup that `r` answers under `m` with the
handler `h`. -/
theorem Find_mapMaps_found {H : Type} (g : HandlerMap H → HandlerMap H) (m m' : Str)
    (h h' : H)
    (hg : ∀ hm : HandlerMap H, hm.lookup m = some (HandlerFunc.user h) →
      (g hm).lookup m' = some (HandlerFunc.user h'))
    (hm : validMethod m = true) (hm' : validMethod m' = true)
    (r r' : Router H) (htree : r'.tree = r.tree.mapMaps g)
    (hstrip : r'.vodka.stripTrailingSlash = r.vodka.stripTrailingSlash)
    (q : Str) (ctx ctx' : Context) (e : Bool)
    (hres : Find r m q ctx = Exec.ok ⟨HandlerFunc.user h, e, ctx'⟩) :
    Find r' m' q ctx = Exec.ok ⟨HandlerFunc.user h', e, ctx'⟩ := by
  have key : ∀ path : Str,
      FindLoop m (findFuel r.tree)
        { cn := r.tree, search := path, n := 0, nt := ntype.stype, nn := none, ns := [],
          h := HandlerFunc.notFoundHandler, e := r.tree.vodka, ctx := ctx }
        = Exec.ok ⟨HandlerFunc.user h, e, ctx'⟩ →
      FindLoop m' (findFuel r'.tree)
        { cn := r'.tree, search := path, n := 0, nt := ntype.stype, nn := none, ns := [],
          h := HandlerFunc.notFoundHandler, e := r'.tree.vodka, ctx := ctx }
        = Exec.ok ⟨HandlerFunc.user h', e, ctx'⟩ := by
    intro path hp
    have := FindLoop_mapMaps_found g m m' h h' hg _ _ e ctx' rfl hp
    rw [htree, findFuel_mapMaps, mapMaps_vodka]
    exact this
  unfold Find at hres ⊢
  simp only [hm, hm', Bool.not_true, Bool.false_eq_true, if_false, hstrip] at hres ⊢
  by_cases hst : r.vodka.stripTrailingSlash = true
  · simp only [hst, if_true] at hres ⊢
    cases hq : q.getLast? with
    | none => rw [hq] at hres; simp at hres
    | some b =>
      rw [hq] at hres
      simp only at hres ⊢
      by_cases hb : b = slash
      · simp only [hb, if_true] at hres ⊢
        exact key _ hres
      · simp only [hb, if_false] at hres ⊢
        exact key _ hres
  · simp only [hst, if_false] at hres ⊢
    exact key _ hres

/-- `Find` under `m` on the router whose tree is that of `r` with `g`
applied to every map, when `g` changes under `m` only the handlers, by `ρ`. -/
theorem Find_mapMaps_exact {H : Type} (g : HandlerMap H → HandlerMap H) (m : Str)
    (ρ : HandlerFunc H → HandlerFunc H)
    (h1 : ∀ hm : HandlerMap H, (g hm).lookup m = (hm.lookup m).map ρ)
    (h2 : ∀ hm : HandlerMap H, hm.lookup m = none → mapKeys (some (g hm)) = mapKeys (some hm))
    (h3 : ∀ ks, ρ (HandlerFunc.methodNotAllowedHandler ks) =
      HandlerFunc.methodNotAllowedHandler ks)
    (h4 : ρ HandlerFunc.notFoundHandler = HandlerFunc.notFoundHandler)
    (hm : validMethod m = true)
    (r r' : Router H) (htree : r'.tree = r.tree.mapMaps g)
    (hstrip : r'.vodka.stripTrailingSlash = r.vodka.stripTrailingSlash)
    (q : Str) (ctx : Context) :
    Find r' m q ctx = (Find r m q ctx).mapH ρ := by
  have key : ∀ path : Str,
      FindLoop m (findFuel r'.tree)
        { cn := r'.tree, search := path, n := 0, nt := ntype.stype, nn := none, ns := [],
          h := HandlerFunc.notFoundHandler, e := r'.tree.vodka, ctx := ctx }
      = (FindLoop m (findFuel r.tree)
        { cn := r.tree, search := path, n := 0, nt := ntype.stype, nn := none, ns := [],
          h := HandlerFunc.notFoundHandler, e := r.tree.vodka, ctx := ctx }).mapH ρ := by
    intro path
    have := FindLoop_mapMaps_exact g m ρ h1 h2 h3 (findFuel r.tree)
      { cn := r.tree, search := path, n := 0, nt := ntype.stype, nn := none, ns := [],
        h := HandlerFunc.notFoundHandler, e := r.tree.vodka, ctx := ctx } h4
    rw [htree, findFuel_mapMaps, mapMaps_vodka]
    exact this
  unfold Find
  simp only [hm, Bool.not_true, Bool.false_eq_true, if_false, hstrip]
  by_cases hst : r.vodka.stripTrailingSlash = true
  · simp only [hst, if_true]
    cases hq : q.getLast? with
    | none => simp only [Exec.mapH, htree, mapMaps_vodka]
    | some b =>
      simp only
      by_cases hb : b = slash
      · simp only [hb, if_true]
        exact key _
      · simp only [hb, if_false]
        exact key _
  · simp only [hst, if_false]
    exact key _

theorem lookup_mapSet_self {H : Type} (k : Str) (v : HandlerFunc H) :
    ∀ hm : HandlerMap H, (mapSet hm k v).lookup k = some v := by
  intro hm
  induction hm with
  | nil => simp [mapSet, HandlerMap.lookup]
  | cons a hm ih =>
    obtain ⟨k', v'⟩ := a
    by_cases hk : k' = k
    · simp [mapSet, HandlerMap.lookup, hk]
    · simp [mapSet, HandlerMap.lookup, hk, ih]

theorem lookup_mapSet_ne {H : Type} (k k2 : Str) (v : HandlerFunc H) (hne : k2 ≠ k) :
    ∀ hm : HandlerMap H, (mapSet hm k v).lookup k2 = hm.lookup k2 := by
  intro hm
  induction hm with
  | nil => simp [mapSet, HandlerMap.lookup, Ne.symm hne]
  | cons a hm ih =>
    obtain ⟨k', v'⟩ := a
    by_cases hk : k' = k
    · subst hk
      simp [mapSet, HandlerMap.lookup, Ne.symm hne]
    · by_cases hk2 : k' = k2
      · subst hk2
        simp [mapSet, HandlerMap.lookup, hk]
      · simp [mapSet, HandlerMap.lookup, hk, hk2, ih]

theorem mapSet_keys {H : Type} (k : Str) (v x : HandlerFunc H) :
    ∀ hm : HandlerMap H, hm.lookup k = some x →
      (mapSet hm k v).map Prod.fst = hm.map Prod.fst := by
  intro hm
  induction hm with
  | nil => intro h; simp [HandlerMap.lookup] at h
  | cons a hm ih =>
    obtain ⟨k', v'⟩ := a
    intro h
    by_cases hk : k' = k
    · simp [mapSet, hk]
    · simp only [HandlerMap.lookup, if_neg hk] at h
      simp [mapSet, hk, ih h]

theorem rebind_bound {H : Type} [DecidableEq H] (m : Str) (h1 : H) (m' : Str) (h2 : H)
    (hm : HandlerMap H) (hb : hm.lookup m = some (HandlerFunc.user h1)) :
    rebind m h1 m' h2 hm = mapSet hm m' (HandlerFunc.user h2) := by
  unfold rebind
  rw [if_pos hb]

theorem rebind_unbound {H : Type} [DecidableEq H] (m : Str) (h1 : H) (m' : Str) (h2 : H)
    (hm : HandlerMap H) (hb : hm.lookup m ≠ some (HandlerFunc.user h1)) :
    rebind m h1 m' h2 hm = hm := by
  unfold rebind
  rw [if_neg hb]

theorem Unbound.handler {H : Type} {m : Str} {h1 : H} {n : node H} (hu : Unbound m h1 n) :
    ∀ hm, n.handler = some hm → hm.lookup m ≠ some (HandlerFunc.user h1) := by
  cases hu with
  | mk _ h1 _ => exact h1

theorem Unbound.ofChild {H : Type} {m : Str} {h1 : H} {n : node H} (hu : Unbound m h1 n) :
    ∀ c ∈ n.children, Unbound m h1 c := by
  cases hu with
  | mk _ _ h2 => exact h2

theorem mapMaps_mk {H : Type} (g : HandlerMap H → HandlerMap H) (t : ntype) (l : Nat)
    (p : Str) (cs : List (node H)) (h : Option (HandlerMap H)) (pn : List Str) (v : Bool) :
    (⟨t, l, p, cs, h, pn, v⟩ : node H).mapMaps g
      = ⟨t, l, p, cs.map (node.mapMaps g), h.map g, pn, v⟩ := by
  simp [node.mapMaps, mapMapsList_eq]

theorem map_handler_unbound {H : Type} [DecidableEq H] (m : Str) (h1 : H) (m' : Str) (h2 : H)
    (ho : Option (HandlerMap H))
    (hb : ∀ hm, ho = some hm → hm.lookup m ≠ some (HandlerFunc.user h1)) :
    ho.map (rebind m h1 m' h2) = ho := by
  cases ho with
  | none => rfl
  | some hm => simp [rebind_unbound m h1 m' h2 hm (hb hm rfl)]

/-- A tree in which `m` is nowhere bound to `h1` is left as it is. -/
theorem mapMaps_unbound {H : Type} [DecidableEq H] (m : Str) (h1 : H) (m' : Str) (h2 : H)
    (t : node H) (hu : Unbound m h1 t) : t.mapMaps (rebind m h1 m' h2) = t := by
  induction hu with
  | mk n hh hc ih =>
    cases n with
    | mk t l p cs h pn v =>
      rw [mapMaps_mk, map_handler_unbound m h1 m' h2 h hh]
      have : cs.map (node.mapMaps (rebind m h1 m' h2)) = cs := by
        conv_rhs => rw [← List.map_id cs]
        apply List.map_congr_left
        intro c hc'
        exact ih c hc'
      rw [this]

theorem map_children_unbound {H : Type} [DecidableEq H] (m : Str) (h1 : H) (m' : Str)
    (h2 : H) (cs : List (node H)) (hu : ∀ c ∈ cs, Unbound m h1 c) :
    cs.map (node.mapMaps (rebind m h1 m' h2)) = cs := by
  conv_rhs => rw [← List.map_id cs]
  apply List.map_congr_left
  intro c hc
  exact mapMaps_unbound m h1 m' h2 c (hu c hc)

theorem Present.ne_nil {H : Type} {cn : node H} {s : Str} (hp : Present cn s) : s ≠ [] := by
  cases hp with
  | atNode _ _ hs _ => exact hs
  | under _ _ rest c hpfx hs _ _ _ =>
    rw [hs]
    intro h0
    exact hpfx (List.append_eq_nil.mp h0).1

theorem Present.pfx_ne_nil {H : Type} {cn : node H} {s : Str} (hp : Present cn s) :
    cn.pfx ≠ [] := by
  cases hp with
  | atNode _ _ hs hpfx => rw [hpfx]; exact hs
  | under _ _ rest c hpfx _ _ _ _ => exact hpfx

theorem Present.head {H : Type} {cn : node H} {s : Str} (hp : Present cn s) :
    s.headD 0 = cn.pfx.headD 0 := by
  cases hp with
  | atNode _ _ hs hpfx => rw [hpfx]
  | under _ _ rest c hpfx hs _ _ _ =>
    rw [hs]
    cases hq : cn.pfx with
    | nil => exact absurd hq hpfx
    | cons b p => rfl

theorem Present.lcp {H : Type} {cn : node H} {s : Str} (hp : Present cn s) (x : Str) :
    lcp (s ++ x) cn.pfx = cn.pfx.length := by
  cases hp with
  | atNode _ _ hs hpfx => rw [hpfx, lcp_append_left]
  | under _ _ rest c hpfx hs _ _ _ => rw [hs, List.append_assoc, lcp_append_left]

theorem drop_ne_nil_of_lt (p : Str) (l : Nat) (h : l < p.length) : p.drop l ≠ [] := by
  intro hd
  have := congrArg List.length hd
  simp only [List.length_drop, List.length_nil] at this
  omega

theorem headD_append (a b : Str) (ha : a ≠ []) : (a ++ b).headD 0 = a.headD 0 := by
  cases a with
  | nil => exact absurd rfl ha
  | cons x a => rfl

/-- A text that ends at a node still does so after an `insert` of a text
with the same first byte. -/
theorem insertLoop_keeps_present {H : Type} (m : Str) (h : HandlerFunc H) (t : ntype)
    (pn : List Str) (e : Bool) (cn : node H) (s : Str) (hp : Present cn s) :
    ∀ (fuel : Nat) (s' : Str) (cn' : node H),
      insertLoop m h t pn e fuel cn s' = Exec.ok cn' → s'.headD 0 = s.headD 0 →
      Present cn' s := by
  induction hp with
  | atNode cn s hs hpfx =>
    intro fuel s' cn' hres hhead
    cases fuel with
    | zero => simp [insertLoop] at hres
    | succ f =>
      have hpne : cn.pfx ≠ [] := by rw [hpfx]; exact hs
      rcases insertLoop_ok_cases m h t pn e f cn s' cn' hres with
        ⟨hl0, hs', _⟩ | ⟨hl0, hl1, hl2, rfl⟩ | ⟨hl0, hl1, hl2, rfl⟩ |
        ⟨hl0, hl1, hl2, c, c', hf, hrec, rfl⟩ | ⟨hl0, hl1, hl2, hf, rfl⟩ |
        ⟨hl0, hl1, hl2, hcase⟩
      · exact absurd hl0 (lcp_head_ne_zero _ _ hs' hpne (by rw [hhead, hpfx]))
      · have hd := drop_ne_nil_of_lt cn.pfx _ hl1
        refine Present.under _ s (cn.pfx.drop (lcp s' cn.pfx)) _ (take_ne_nil _ _ hl0 hpne)
          ?_ hd ?_ (Present.atNode (mkNode cn.typ (cn.pfx.drop (lcp s' cn.pfx)) cn.children
            (mapGet cn.handler m) cn.pnames cn.vodka m) _ hd rfl)
        · show s = cn.pfx.take (lcp s' cn.pfx) ++ cn.pfx.drop (lcp s' cn.pfx)
          rw [List.take_append_drop, hpfx]
        · simp [findChildWithLabel, List.find?, mkNode]
      · have hd := drop_ne_nil_of_lt cn.pfx _ hl1
        refine Present.under _ s (cn.pfx.drop (lcp s' cn.pfx)) _ (take_ne_nil _ _ hl0 hpne)
          ?_ hd ?_ (Present.atNode (mkNode cn.typ (cn.pfx.drop (lcp s' cn.pfx)) cn.children
            (mapGet cn.handler m) cn.pnames cn.vodka m) _ hd rfl)
        · show s = cn.pfx.take (lcp s' cn.pfx) ++ cn.pfx.drop (lcp s' cn.pfx)
          rw [List.take_append_drop, hpfx]
        · simp [findChildWithLabel, List.find?, mkNode]
      · exact Present.atNode _ _ hs hpfx
      · exact Present.atNode _ _ hs hpfx
      · rcases hcase with ⟨_, rfl⟩ | ⟨_, hm, _, rfl⟩
        · exact Present.atNode _ _ hs hpfx
        · exact Present.atNode _ _ hs hpfx
  | under cn s rest c hpfx hs hrest hf hp ih =>
    intro fuel s' cn' hres hhead
    cases fuel with
    | zero => simp [insertLoop] at hres
    | succ f =>
      have hsh : s.headD 0 = cn.pfx.headD 0 := by rw [hs]; exact headD_append _ _ hpfx
      rcases insertLoop_ok_cases m h t pn e f cn s' cn' hres with
        ⟨hl0, hs', _⟩ | ⟨hl0, hl1, hl2, rfl⟩ | ⟨hl0, hl1, hl2, rfl⟩ |
        ⟨hl0, hl1, hl2, c2, c2', hf2, hrec, rfl⟩ | ⟨hl0, hl1, hl2, hf2, rfl⟩ |
        ⟨hl0, hl1, hl2, hcase⟩
      · exact absurd hl0 (lcp_head_ne_zero _ _ hs' hpfx (by rw [hhead, hsh]))
      · have hd := drop_ne_nil_of_lt cn.pfx _ hl1
        refine Present.under _ s (cn.pfx.drop (lcp s' cn.pfx) ++ rest) _
          (take_ne_nil _ _ hl0 hpfx) ?_ (by simp [hrest]) ?_
          (Present.under (mkNode cn.typ (cn.pfx.drop (lcp s' cn.pfx)) cn.children
            (mapGet cn.handler m) cn.pnames cn.vodka m) _ rest c hd rfl hrest hf hp)
        · show s = cn.pfx.take (lcp s' cn.pfx) ++ (cn.pfx.drop (lcp s' cn.pfx) ++ rest)
          rw [← List.append_assoc, List.take_append_drop, hs]
        · rw [headD_append _ _ hd]
          simp [findChildWithLabel, List.find?, mkNode]
      · have hd := drop_ne_nil_of_lt cn.pfx _ hl1
        refine Present.under _ s (cn.pfx.drop (lcp s' cn.pfx) ++ rest) _
          (take_ne_nil _ _ hl0 hpfx) ?_ (by simp [hrest]) ?_
          (Present.under (mkNode cn.typ (cn.pfx.drop (lcp s' cn.pfx)) cn.children
            (mapGet cn.handler m) cn.pnames cn.vodka m) _ rest c hd rfl hrest hf hp)
        · show s = cn.pfx.take (lcp s' cn.pfx) ++ (cn.pfx.drop (lcp s' cn.pfx) ++ rest)
          rw [← List.append_assoc, List.take_append_drop, hs]
        · rw [headD_append _ _ hd]
          simp [findChildWithLabel, List.find?, mkNode]
      · obtain ⟨hc1, hc2⟩ := find_label_some _ _ _ hf2
        have hlab := (insertLoop_present m h t pn e _ _ _ _ hrec).2 hc2
        by_cases hk : (s'.drop (lcp s' cn.pfx)).headD 0 = rest.headD 0
        · rw [hk] at hf2
          rw [hf] at hf2
          simp only [Option.some.injEq] at hf2
          subst hf2
          refine Present.under _ s rest c2' hpfx hs hrest ?_ (ih _ _ _ hrec hk)
          rw [← hk]
          exact find_replace _ c c2' hlab _ (by rw [hk]; exact hf)
        · refine Present.under _ s rest c hpfx hs hrest ?_ hp
          have := find_replace_ne _ (rest.headD 0) c2' hlab (fun h0 => hk h0.symm) cn.children
          show List.find? _ _ = some c
          rw [this]
          exact hf
      · refine Present.under _ s rest c hpfx hs hrest ?_ hp
        have hk : (s'.drop (lcp s' cn.pfx)).headD 0 ≠ rest.headD 0 := by
          intro h0
          rw [h0, hf] at hf2
          cases hf2
        have := find_append_ne (rest.headD 0) (mkNode t (s'.drop (lcp s' cn.pfx)) [] h pn e m)
          hk cn.children
        show List.find? _ _ = some c
        simp only [addChild]
        rw [this]
        exact hf
      · rcases hcase with ⟨_, rfl⟩ | ⟨_, hm, _, rfl⟩
        · exact Present.under _ s rest c hpfx hs hrest hf hp
        · exact Present.under _ s rest c hpfx hs hrest hf hp

/-- Inserting, without a handler, a text that ends at a node changes nothing. -/
theorem insertLoop_present_nil {H : Type} (m : Str) (t : ntype) (pn : List Str) (e : Bool)
    (cn : node H) (s : Str) (hp : Present cn s) :
    ∀ fuel : Nat, s.length < fuel →
      insertLoop m HandlerFunc.nil t pn e fuel cn s = Exec.ok cn := by
  induction hp with
  | atNode cn s hs hpfx =>
    intro fuel hfuel
    obtain ⟨f, rfl⟩ : ∃ f, fuel = f + 1 := ⟨fuel - 1, by omega⟩
    have hspos : s.length ≠ 0 := fun h0 => hs (List.length_eq_zero.mp h0)
    have hl : lcp s cn.pfx = s.length := by rw [hpfx, lcp_self]
    rw [insertLoop_exists m _ t pn e f cn s (by rw [hl]; exact hspos)
      (by rw [hl, hpfx]; omega) (by rw [hl]; omega)]
    rfl
  | under cn s rest c hpfx hs hrest hf hp ih =>
    intro fuel hfuel
    obtain ⟨f, rfl⟩ : ∃ f, fuel = f + 1 := ⟨fuel - 1, by omega⟩
    have hppos : cn.pfx.length ≠ 0 := fun h0 => hpfx (List.length_eq_zero.mp h0)
    have hrpos : rest.length ≠ 0 := fun h0 => hrest (List.length_eq_zero.mp h0)
    have hl : lcp s cn.pfx = cn.pfx.length := by rw [hs, lcp_append_left]
    have hsl : s.length = cn.pfx.length + rest.length := by rw [hs, List.length_append]
    have hdrop : s.drop cn.pfx.length = rest := by rw [hs, List.drop_left]
    rw [insertLoop_descend m _ t pn e f cn s (by rw [hl]; exact hppos)
      (by rw [hl]; omega) (by rw [hl, hsl]; omega)]
    rw [hl, hdrop, hf]
    simp only
    rw [ih f (by omega)]
    simp only
    rw [replace_self _ _ _ hf]
    cases cn
    rfl

theorem unbound_mkNode_old {H : Type} (m : Str) (h1 : H) (cn : node H) (pre : Str)
    (hu : Unbound m h1 cn) :
    Unbound m h1 (mkNode cn.typ pre cn.children (mapGet cn.handler m) cn.pnames cn.vodka m) := by
  apply Unbound.mk
  · intro hm hh
    simp only [mkNode, Option.some.injEq] at hh
    subst hh
    simp only [HandlerMap.lookup, if_true]
    intro h0
    simp only [Option.some.injEq] at h0
    unfold mapGet mapGet? at h0
    cases hc : cn.handler with
    | none => rw [hc] at h0; simp at h0
    | some hm0 =>
      rw [hc] at h0
      simp only at h0
      cases hl : hm0.lookup m with
      | none => rw [hl] at h0; simp at h0
      | some x =>
        rw [hl] at h0
        simp only [Option.getD_some] at h0
        exact hu.handler hm0 hc (by rw [hl, h0])
  · exact hu.ofChild

theorem unbound_mkNode_nil {H : Type} (m : Str) (h1 : H) (t : ntype) (pre : Str)
    (pn : List Str) (e : Bool) :
    Unbound m h1 (mkNode t pre ([] : List (node H)) HandlerFunc.nil pn e m) := by
  apply Unbound.mk
  · intro hm hh
    simp only [mkNode, Option.some.injEq] at hh
    subst hh
    simp [HandlerMap.lookup]
  · intro c hc
    cases hc

/-- An `insert` without a handler binds `m` to no handler. -/
theorem insertLoop_nil_unbound {H : Type} (m : Str) (h1 : H) (t : ntype)
    (pn : List Str) (e : Bool) :
    ∀ (fuel : Nat) (cn : node H) (s : Str) (cn' : node H), Unbound m h1 cn →
      insertLoop m HandlerFunc.nil t pn e fuel cn s = Exec.ok cn' → Unbound m h1 cn' := by
  intro fuel
  induction fuel with
  | zero => intro cn s cn' _ hres; simp [insertLoop] at hres
  | succ f ih =>
    intro cn s cn' hu hres
    rcases insertLoop_ok_cases m _ t pn e f cn s cn' hres with
      ⟨hl0, hs, rfl⟩ | ⟨hl0, hl1, hl2, rfl⟩ | ⟨hl0, hl1, hl2, rfl⟩ |
      ⟨hl0, hl1, hl2, c, c', hf, hrec, rfl⟩ | ⟨hl0, hl1, hl2, hf, rfl⟩ |
      ⟨hl0, hl1, hl2, hcase⟩
    · simp only [HandlerFunc.isNil, if_true]
      exact Unbound.mk _ hu.handler hu.ofChild
    · apply Unbound.mk
      · intro hm hh
        simp only [Option.some.injEq] at hh
        subst hh
        simp [mapSet, HandlerMap.lookup]
      · intro x hx
        simp only [List.mem_singleton] at hx
        rw [hx]
        exact unbound_mkNode_old m h1 cn _ hu
    · apply Unbound.mk
      · intro hm hh
        simp only [Option.some.injEq] at hh
        subst hh
        simp [HandlerMap.lookup]
      · intro x hx
        simp only [List.mem_cons, List.mem_singleton, List.not_mem_nil, or_false] at hx
        rcases hx with hx | hx
        · rw [hx]
          exact unbound_mkNode_old m h1 cn _ hu
        · rw [hx]
          exact unbound_mkNode_nil m h1 _ _ _ _
    · obtain ⟨hc1, _⟩ := find_label_some _ _ _ hf
      have hc' := ih c _ c' (hu.ofChild c hc1) hrec
      apply Unbound.mk
      · exact hu.handler
      · intro x hx
        rcases mem_replace _ c' x _ hx with h0 | h0
        · rw [h0]; exact hc'
        · exact hu.ofChild x h0
    · apply Unbound.mk
      · exact hu.handler
      · intro x hx
        simp only [addChild, List.mem_append, List.mem_singleton] at hx
        rcases hx with h0 | h0
        · exact hu.ofChild x h0
        · rw [h0]
          exact unbound_mkNode_nil m h1 _ _ _ _
    · rcases hcase with ⟨_, rfl⟩ | ⟨hn, _⟩
      · exact hu
      · simp [HandlerFunc.isNil] at hn

/-- The branch `Node already exists` of `insert` with a handler. -/
theorem insertLoop_at_node {H : Type} (m : Str) (h : H) (t : ntype) (pn : List Str)
    (e : Bool) (f : Nat) (cn : node H) (s : Str) (hm : HandlerMap H)
    (hs : s ≠ []) (hpfx : cn.pfx = s) (hh : cn.handler = some hm) :
    insertLoop m (HandlerFunc.user h) t pn e (f + 1) cn s =
      Exec.ok { cn with handler := some (mapSet hm m (HandlerFunc.user h)),
                        pnames := pn, vodka := e } := by
  have hspos : s.length ≠ 0 := fun h0 => hs (List.length_eq_zero.mp h0)
  have hl : lcp s cn.pfx = s.length := by rw [hpfx, lcp_self]
  rw [insertLoop_exists m _ t pn e f cn s (by rw [hl]; exact hspos)
    (by rw [hl, hpfx]; omega) (by rw [hl]; omega)]
  simp [HandlerFunc.isNil, hh]

theorem rebind_nil {H : Type} [DecidableEq H] (m : Str) (h1 : H) (m' : Str) (h2 : H) :
    rebind m h1 m' h2 ([] : HandlerMap H) = [] := by
  simp [rebind, HandlerMap.lookup]

theorem rebind_mapSet {H : Type} [DecidableEq H] (m : Str) (h1 : H) (m' : Str) (h2 : H)
    (hm : HandlerMap H) :
    rebind m h1 m' h2 (mapSet hm m (HandlerFunc.user h1))
      = mapSet (mapSet hm m (HandlerFunc.user h1)) m' (HandlerFunc.user h2) :=
  rebind_bound m h1 m' h2 _ (lookup_mapSet_self m _ hm)

/-- Inserting again, with another handler, at the leaf that the first
`insert` has made. -/
theorem insertLoop_again_leaf {H : Type} [DecidableEq H] (m m' : Str) (h1 h2 : H)
    (t : ntype) (pn : List Str) (e : Bool) (f : Nat) (x : Str) (hx : x ≠ []) :
    insertLoop m' (HandlerFunc.user h2) t pn e (f + 1)
        (mkNode t x ([] : List (node H)) (HandlerFunc.user h1) pn e m) x =
      Exec.ok ((mkNode t x [] (HandlerFunc.user h1) pn e m).mapMaps (rebind m h1 m' h2)) := by
  rw [insertLoop_at_node m' h2 t pn e f _ x [(m, HandlerFunc.user h1)] hx rfl rfl]
  have h0 : mapSet ([] : HandlerMap H) m (HandlerFunc.user h1) = [(m, HandlerFunc.user h1)] :=
    rfl
  have := rebind_mapSet m h1 m' h2 []
  rw [h0] at this
  simp only [mkNode, mapMaps_mk, List.map_nil, Option.map_some', this]

theorem replace_replace_map {H : Type} (f : node H → node H) (l : Nat) (c' : node H)
    (hl : c'.label = l) :
    ∀ cs : List (node H), (∀ x ∈ cs, f x = x) →
      replaceChildWithLabel l (f c') (replaceChildWithLabel l c' cs)
        = (replaceChildWithLabel l c' cs).map f := by
  intro cs
  induction cs with
  | nil => intro _; rfl
  | cons a cs ih =>
    intro hid
    have ha := hid a (List.mem_cons_self _ _)
    have hcs : ∀ x ∈ cs, f x = x := fun x hx => hid x (List.mem_cons_of_mem _ hx)
    by_cases hal : a.label = l
    · have hb : (a.label == l) = true := by simp [hal]
      have hb' : (c'.label == l) = true := by simp [hl]
      simp only [replaceChildWithLabel, hb, hb', if_true, List.map_cons, List.cons.injEq,
        true_and]
      conv_lhs => rw [← List.map_id cs]
      apply List.map_congr_left
      intro x hx
      exact (hcs x hx).symm
    · have hb : (a.label == l) = false := by simp [hal]
      simp only [replaceChildWithLabel, hb, Bool.false_eq_true, if_false, List.map_cons, ha,
        ih hcs]

theorem replace_append_new {H : Type} (l : Nat) (n n' : node H) (hn : n.label = l) :
    ∀ cs : List (node H), cs.find? (fun c => c.label == l) = none →
      replaceChildWithLabel l n' (cs ++ [n]) = cs ++ [n'] := by
  intro cs
  induction cs with
  | nil =>
    intro _
    have hb : (n.label == l) = true := by simp [hn]
    simp [replaceChildWithLabel, hb]
  | cons a cs ih =>
    intro hf
    by_cases hal : a.label = l
    · have hb : (a.label == l) = true := by simp [hal]
      simp [List.find?, hb] at hf
    · have hb : (a.label == l) = false := by simp [hal]
      simp only [List.find?, hb] at hf
      have := ih hf
      simp only [List.cons_append, replaceChildWithLabel, hb, Bool.false_eq_true, if_false,
        List.cons.injEq, true_and]
      exact this

/-- Registering again at the place of the first `insert`: when the first
`insert` ran on a tree that binds `m` nowhere to `h1`, the same `insert` with
the method `m'` and the handler `h2` finds the node of the first one and sets
`m'` in its map; all other nodes are left as they are. -/
theorem insertLoop_again {H : Type} [DecidableEq H] (m m' : Str) (h1 h2 : H)
    (t : ntype) (pn : List Str) (e : Bool) :
    ∀ (fuel : Nat) (cn : node H) (s : Str) (cn' : node H),
      s.length < fuel → Unbound m h1 cn →
      insertLoop m (HandlerFunc.user h1) t pn e fuel cn s = Exec.ok cn' →
      insertLoop m' (HandlerFunc.user h2) t pn e fuel cn' s =
        Exec.ok (cn'.mapMaps (rebind m h1 m' h2)) := by
  intro fuel
  induction fuel with
  | zero => intro cn s cn' _ _ hres; simp [insertLoop] at hres
  | succ f ih =>
    intro cn s cn' hfuel hu hres
    have hchild := map_children_unbound m h1 m' h2 cn.children hu.ofChild
    have hold : ∀ pre, (mkNode cn.typ pre cn.children (mapGet cn.handler m) cn.pnames
        cn.vodka m).mapMaps (rebind m h1 m' h2)
        = mkNode cn.typ pre cn.children (mapGet cn.handler m) cn.pnames cn.vodka m :=
      fun pre => mapMaps_unbound m h1 m' h2 _ (unbound_mkNode_old m h1 cn pre hu)
    rcases insertLoop_ok_cases m _ t pn e f cn s cn' hres with
      ⟨hl0, hs, rfl⟩ | ⟨hl0, hl1, hl2, rfl⟩ | ⟨hl0, hl1, hl2, rfl⟩ |
      ⟨hl0, hl1, hl2, c, c', hf, hrec, rfl⟩ | ⟨hl0, hl1, hl2, hf, rfl⟩ |
      ⟨hl0, hl1, hl2, hcase⟩
    · simp only [HandlerFunc.isNil, Bool.false_eq_true, if_false]
      rw [insertLoop_at_node m' h2 t pn e f _ s [(m, HandlerFunc.user h1)] hs rfl rfl]
      have h0 : mapSet ([] : HandlerMap H) m (HandlerFunc.user h1)
          = [(m, HandlerFunc.user h1)] := rfl
      have := rebind_mapSet m h1 m' h2 []
      rw [h0] at this
      simp only [mapMaps_mk, Option.map_some', this, hchild]
    · have hhead := lcp_ne_zero_head s cn.pfx hl0
      have htake : cn.pfx.take (lcp s cn.pfx) = s := by
        rw [← lcp_take, hl2, List.take_length]
      rw [insertLoop_at_node m' h2 t pn e f _ s (mapSet [] m (HandlerFunc.user h1)) hhead.1
        htake rfl]
      simp only [mapMaps_mk, Option.map_some', rebind_mapSet, List.map_cons, List.map_nil,
        hold]
    · have hhead := lcp_ne_zero_head s cn.pfx hl0
      have hrest := drop_lcp_ne_nil s cn.pfx hl2
      have hdiv := lcp_diverge s cn.pfx hl2 hl1
      obtain ⟨f', rfl⟩ : ∃ f', f = f' + 1 := by
        have := lcp_le_left s cn.pfx
        exact ⟨f - 1, by omega⟩
      have hlt : (cn.pfx.take (lcp s cn.pfx)).length = lcp s cn.pfx := by
        rw [List.length_take]; omega
      have hA : lcp s (cn.pfx.take (lcp s cn.pfx)) ≠ 0 := by
        rw [lcp_take_right]; exact hl0
      have hB : ¬ lcp s (cn.pfx.take (lcp s cn.pfx)) < (cn.pfx.take (lcp s cn.pfx)).length := by
        rw [lcp_take_right, hlt]; omega
      have hC : lcp s (cn.pfx.take (lcp s cn.pfx)) < s.length := by
        rw [lcp_take_right]; exact hl2
      rw [insertLoop_descend m' _ t pn e _ _ s hA hB hC]
      simp only [lcp_take_right]
      have hfind : findChildWithLabel
          ({ typ := ntype.stype, label := cn.pfx.headD 0, pfx := cn.pfx.take (lcp s cn.pfx),
             children := [mkNode cn.typ (cn.pfx.drop (lcp s cn.pfx)) cn.children
                (mapGet cn.handler m) cn.pnames cn.vodka m,
                mkNode t (s.drop (lcp s cn.pfx)) [] (HandlerFunc.user h1) pn e m],
             handler := some [], pnames := [], vodka := false } : node H)
          ((s.drop (lcp s cn.pfx)).headD 0)
          = some (mkNode t (s.drop (lcp s cn.pfx)) [] (HandlerFunc.user h1) pn e m) := by
        have h1' : ((mkNode cn.typ (cn.pfx.drop (lcp s cn.pfx)) cn.children
              (mapGet cn.handler m) cn.pnames cn.vodka m).label
                == (s.drop (lcp s cn.pfx)).headD 0) = false := by
          simp only [mkNode, beq_eq_false_iff_ne]
          exact fun h0 => hdiv h0.symm
        simp only [findChildWithLabel, List.find?, h1']
        simp [mkNode]
      rw [hfind]
      simp only
      rw [insertLoop_again_leaf m m' h1 h2 t pn e f' _ hrest]
      simp only
      have h1' : ((mkNode cn.typ (cn.pfx.drop (lcp s cn.pfx)) cn.children
            (mapGet cn.handler m) cn.pnames cn.vodka m).label
              == (s.drop (lcp s cn.pfx)).headD 0) = false := by
        simp only [mkNode, beq_eq_false_iff_ne]
        exact fun h0 => hdiv h0.symm
      have h2' : ((mkNode t (s.drop (lcp s cn.pfx)) ([] : List (node H))
            (HandlerFunc.user h1) pn e m).label
              == (s.drop (lcp s cn.pfx)).headD 0) = true := by
        simp [mkNode]
      simp only [replaceChildWithLabel, h1', h2', Bool.false_eq_true, if_false, if_true,
        mapMaps_mk, List.map_cons, List.map_nil, hold, Option.map_some', rebind_nil]
    · have hhead := lcp_ne_zero_head s cn.pfx hl0
      have hrest := drop_lcp_ne_nil s cn.pfx hl2
      obtain ⟨hc1, hc2⟩ := find_label_some _ _ _ hf
      have hlab := (insertLoop_present m _ t pn e _ _ _ _ hrec).2 hc2
      have hlen : (s.drop (lcp s cn.pfx)).length < f := by
        rw [List.length_drop]; omega
      have hrec2 := ih c _ c' hlen (hu.ofChild c hc1) hrec
      have hB : ¬ lcp s cn.pfx < cn.pfx.length := by omega
      rw [insertLoop_descend m' _ t pn e f
        (⟨cn.typ, cn.label, cn.pfx,
          replaceChildWithLabel ((s.drop (lcp s cn.pfx)).headD 0) c' cn.children,
          cn.handler, cn.pnames, cn.vodka⟩ : node H) s hl0 hB hl2]
      have hfind : findChildWithLabel
          (⟨cn.typ, cn.label, cn.pfx,
            replaceChildWithLabel ((s.drop (lcp s cn.pfx)).headD 0) c' cn.children,
            cn.handler, cn.pnames, cn.vodka⟩ : node H)
          ((s.drop (lcp s cn.pfx)).headD 0) = some c' :=
        find_replace _ c c' hlab _ hf
      simp only [hfind, hrec2]
      have := replace_replace_map (node.mapMaps (rebind m h1 m' h2))
        ((s.drop (lcp s cn.pfx)).headD 0) c' hlab cn.children
        (fun x hx => mapMaps_unbound m h1 m' h2 x (hu.ofChild x hx))
      simp only [mapMaps_mk, this, map_handler_unbound m h1 m' h2 cn.handler hu.handler]
    · have hhead := lcp_ne_zero_head s cn.pfx hl0
      have hrest := drop_lcp_ne_nil s cn.pfx hl2
      obtain ⟨f', rfl⟩ : ∃ f', f = f' + 1 := by
        have := lcp_le_left s cn.pfx
        exact ⟨f - 1, by omega⟩
      have hB : ¬ lcp s cn.pfx < cn.pfx.length := by omega
      rw [insertLoop_descend m' _ t pn e _
        (addChild cn (mkNode t (s.drop (lcp s cn.pfx)) [] (HandlerFunc.user h1) pn e m))
        s hl0 hB hl2]
      have hfind : findChildWithLabel
          (addChild cn (mkNode t (s.drop (lcp s cn.pfx)) [] (HandlerFunc.user h1) pn e m))
          ((s.drop (lcp s cn.pfx)).headD 0)
          = some (mkNode t (s.drop (lcp s cn.pfx)) [] (HandlerFunc.user h1) pn e m) :=
        find_append_new ((s.drop (lcp s cn.pfx)).headD 0)
          (mkNode t (s.drop (lcp s cn.pfx)) [] (HandlerFunc.user h1) pn e m) rfl cn.children hf
      have e1 : (addChild cn (mkNode t (s.drop (lcp s cn.pfx)) []
          (HandlerFunc.user h1) pn e m)).pfx = cn.pfx := rfl
      simp only [e1, hfind]
      rw [insertLoop_again_leaf m m' h1 h2 t pn e f' _ hrest]
      simp only [addChild]
      rw [replace_append_new ((s.drop (lcp s cn.pfx)).headD 0)
        (mkNode t (s.drop (lcp s cn.pfx)) [] (HandlerFunc.user h1) pn e m) _ rfl cn.children hf]
      simp only [mapMaps_mk, List.map_append, List.map_cons, List.map_nil, hchild,
        map_handler_unbound m h1 m' h2 cn.handler hu.handler]
    · have hhead := lcp_ne_zero_head s cn.pfx hl0
      have hs : cn.pfx = s := by
        have h1' := lcp_full s cn.pfx hl1
        have h2' : s.drop cn.pfx.length = [] := List.drop_eq_nil_of_le (by omega)
        rw [h2', List.append_nil] at h1'
        exact h1'.symm
      rcases hcase with ⟨hn, _⟩ | ⟨_, hm, hh, rfl⟩
      · simp [HandlerFunc.isNil] at hn
      · rw [insertLoop_at_node m' h2 t pn e f
          (⟨cn.typ, cn.label, cn.pfx, cn.children, some (mapSet hm m (HandlerFunc.user h1)),
            pn, e⟩ : node H) s (mapSet hm m (HandlerFunc.user h1)) hhead.1 hs rfl]
        simp only [mapMaps_mk, Option.map_some', rebind_mapSet, hchild]

theorem insert_of_loop {H : Type} (r : Router H) (m s : Str) (h : HandlerFunc H) (t : ntype)
    (pn : List Str) (cn : node H) (hm : validMethod m = true)
    (hl : insertLoop m h t pn true (s.length + 1) r.tree s = Exec.ok cn) :
    insert r m s h t pn =
      Exec.ok ⟨cn, r.routes, ⟨max r.vodka.maxParam pn.length, r.vodka.stripTrailingSlash⟩⟩ := by
  unfold insert
  by_cases hlt : r.vodka.maxParam < pn.length
  · have : max r.vodka.maxParam pn.length = pn.length := by omega
    simp [hm, hlt, hl, this]
  · have : max r.vodka.maxParam pn.length = r.vodka.maxParam := by omega
    simp [hm, hlt, hl, this]

theorem insert_ok_valid {H : Type} (r r' : Router H) (m s : Str) (h : HandlerFunc H)
    (t : ntype) (pn : List Str) (hres : insert r m s h t pn = Exec.ok r') :
    validMethod m = true := by
  unfold insert at hres
  cases hv : validMethod m with
  | true => rfl
  | false => simp [hv] at hres

theorem insertLoop_ok_ne_nil {H : Type} (m : Str) (h : HandlerFunc H) (t : ntype)
    (pn : List Str) (e : Bool) (fuel : Nat) (cn cn' : node H) (s : Str)
    (hres : insertLoop m h t pn e fuel cn s = Exec.ok cn') : s ≠ [] := by
  cases fuel with
  | zero => simp [insertLoop] at hres
  | succ f =>
    rcases insertLoop_ok_cases m h t pn e f cn s cn' hres with
      ⟨_, hs, _⟩ | ⟨hl0, _⟩ | ⟨hl0, _⟩ | ⟨hl0, _⟩ | ⟨hl0, _⟩ | ⟨hl0, _⟩
    · exact hs
    all_goals exact (lcp_ne_zero_head s cn.pfx hl0).1

theorem insert_ok_ne_nil {H : Type} (r r' : Router H) (m s : Str) (h : HandlerFunc H)
    (t : ntype) (pn : List Str) (hres : insert r m s h t pn = Exec.ok r') : s ≠ [] :=
  insertLoop_ok_ne_nil m h t pn true _ _ _ s (insert_ok_tree r r' m s h t pn hres)

theorem insert_present {H : Type} (r r' : Router H) (m s : Str) (h : HandlerFunc H)
    (t : ntype) (pn : List Str) (hres : insert r m s h t pn = Exec.ok r') :
    Present r'.tree s :=
  (insertLoop_present m h t pn true _ _ _ _ (insert_ok_tree r r' m s h t pn hres)).1

theorem insert_keeps_present {H : Type} (r r' : Router H) (m s' : Str) (h : HandlerFunc H)
    (t : ntype) (pn : List Str) (s : Str) (hres : insert r m s' h t pn = Exec.ok r')
    (hp : Present r.tree s) (hhead : s'.headD 0 = s.headD 0) : Present r'.tree s :=
  insertLoop_keeps_present m h t pn true r.tree s hp _ _ _
    (insert_ok_tree r r' m s' h t pn hres) hhead

theorem insert_nil_unbound {H : Type} (r r' : Router H) (m s : Str) (h1 : H)
    (t : ntype) (pn : List Str) (hres : insert r m s HandlerFunc.nil t pn = Exec.ok r')
    (hu : Unbound m h1 r.tree) : Unbound m h1 r'.tree :=
  insertLoop_nil_unbound m h1 t pn true _ _ _ _ hu (insert_ok_tree r r' m s _ t pn hres)

/-- `insert`, without a handler, of a text that ends at a node, with no more
names than `maxParam`, leaves the router as it is. -/
theorem insert_present_nil {H : Type} (r : Router H) (m s : Str) (t : ntype)
    (pn : List Str) (hm : validMethod m = true) (hp : Present r.tree s)
    (hpn : pn.length ≤ r.vodka.maxParam) :
    insert r m s HandlerFunc.nil t pn = Exec.ok r := by
  rw [insert_of_loop r m s _ t pn r.tree hm
    (insertLoop_present_nil m t pn true r.tree s hp _ (Nat.lt_succ_self _))]
  have : max r.vodka.maxParam pn.length = r.vodka.maxParam := by omega
  rw [this]

/-- The second registration at the place of a first `insert`, see
`insertLoop_again`. -/
theorem insert_again {H : Type} [DecidableEq H] (m m' : Str) (h1 h2 : H) (t : ntype)
    (pn : List Str) (r r1 : Router H) (s : Str) (hm' : validMethod m' = true)
    (hu : Unbound m h1 r.tree)
    (hres : insert r m s (HandlerFunc.user h1) t pn = Exec.ok r1) :
    insert r1 m' s (HandlerFunc.user h2) t pn =
      Exec.ok ⟨r1.tree.mapMaps (rebind m h1 m' h2), r1.routes, r1.vodka⟩ := by
  have h1' := insert_ok_tree r r1 m s _ t pn hres
  have h2' := insertLoop_again m m' h1 h2 t pn true _ _ _ _ (Nat.lt_succ_self _) hu h1'
  obtain ⟨hv, _⟩ := insert_vodka _ _ _ _ _ _ _ hres
  rw [insert_of_loop r1 m' s _ t pn _ hm' h2']
  have : max r1.vodka.maxParam pn.length = r1.vodka.maxParam := by
    rw [hv]
    simp
  rw [this]

theorem headD_append_cons (pre : Str) (b : Nat) (rest : Str) (hpre : pre ≠ []) :
    (pre ++ b :: rest).headD 0 = pre.headD 0 :=
  headD_append pre _ hpre

/-- A text that ends at a node still does so after a run of the loop of
`Add` on a pattern with the same first byte. -/
theorem AddLoop_keeps_present {H : Type} (m : Str) (h : HandlerFunc H) (s : Str) :
    ∀ (fuel : Nat) (r : Router H) (path : Str) (i : Nat) (pn : List Str) (r' : Router H),
      AddLoop m h fuel r path i pn = Exec.ok r' → Present r.tree s →
      path.headD 0 = s.headD 0 → Present r'.tree s := by
  intro fuel
  induction fuel with
  | zero => intro r path i pn r' hres; simp [AddLoop] at hres
  | succ f ih =>
    intro r path i pn r' hres hp hhead
    by_cases hi : i < path.length
    · by_cases hc : path.getD i 0 = colon
      · obtain ⟨pre, name, tail, rfl, rfl, hname, htail⟩ := split_at_colon path i hi hc
        rw [AddLoop_colon m h f r pre name tail pn hname htail] at hres
        cases h1 : insert r m pre HandlerFunc.nil ntype.stype [] with
        | ok r1 =>
          rw [h1] at hres
          simp only at hres
          have hpre := insert_ok_ne_nil _ _ _ _ _ _ _ h1
          have hh1 : pre.headD 0 = s.headD 0 := by
            rw [← hhead, headD_append_cons pre _ _ hpre]
          have hh2 : (pre ++ [colon]).headD 0 = s.headD 0 := by
            rw [← hh1, headD_append pre _ hpre]
          have hp1 := insert_keeps_present _ _ _ _ _ _ _ s h1 hp hh1
          by_cases ht : tail = []
          · simp only [ht, if_true] at hres
            exact insert_keeps_present _ _ _ _ _ _ _ s hres hp1 hh2
          · simp only [ht, if_false] at hres
            cases h2 : insert r1 m (pre ++ [colon]) HandlerFunc.nil ntype.ptype (pn ++ [name])
              with
            | ok r2 =>
              rw [h2] at hres
              simp only at hres
              have hp2 := insert_keeps_present _ _ _ _ _ _ _ s h2 hp1 hh2
              refine ih _ _ _ _ _ hres hp2 ?_
              rw [← hh1, List.append_assoc, headD_append pre _ hpre]
            | panic p r2 => rw [h2] at hres; simp at hres
            | timeout => rw [h2] at hres; simp at hres
        | panic p r1 => rw [h1] at hres; simp at hres
        | timeout => rw [h1] at hres; simp at hres
      · by_cases hs : path.getD i 0 = star
        · obtain ⟨pre, rest, rfl, rfl⟩ := split_at_star path i hi hs
          rw [AddLoop_star m h f r pre rest pn] at hres
          cases h1 : insert r m pre HandlerFunc.nil ntype.stype [] with
          | ok r1 =>
            rw [h1] at hres
            simp only at hres
            have hpre := insert_ok_ne_nil _ _ _ _ _ _ _ h1
            have hh1 : pre.headD 0 = s.headD 0 := by
              rw [← hhead, headD_append_cons pre _ _ hpre]
            have hh2 : (pre ++ [star]).headD 0 = s.headD 0 := by
              rw [← hh1, headD_append pre _ hpre]
            have hp1 := insert_keeps_present _ _ _ _ _ _ _ s h1 hp hh1
            exact insert_keeps_present _ _ _ _ _ _ _ s hres hp1 hh2
          | panic p r1 => rw [h1] at hres; simp at hres
          | timeout => rw [h1] at hres; simp at hres
        · rw [AddLoop] at hres
          simp only [hi, hc, hs, if_true, if_false] at hres
          exact ih _ _ _ _ _ hres hp hhead
    · rw [AddLoop] at hres
      simp only [hi, if_false] at hres
      exact insert_keeps_present _ _ _ _ _ _ _ s hres hp hhead

theorem AddLoop_maxParam_ge {H : Type} (m : Str) (h : HandlerFunc H) (fuel : Nat)
    (r : Router H) (path : Str) (i : Nat) (pn : List Str) (r' : Router H)
    (hres : AddLoop m h fuel r path i pn = Exec.ok r') :
    r.vodka.maxParam ≤ r'.vodka.maxParam := by
  obtain ⟨hv, _⟩ := AddLoop_maxParam m h fuel r path i pn r' hres
  rw [hv]
  exact Nat.le_max_left _ _

/-- Registering the same pattern again: when the first run of the loop of
`Add` started on a tree that binds `m` nowhere to `h1`, the run with the method
`m'` and the handler `h2` on its result changes only the map of the node of
the route, where it sets `m'`. -/
theorem AddLoop_again {H : Type} [DecidableEq H] (m m' : Str) (h1 h2 : H)
    (hm' : validMethod m' = true) :
    ∀ (fuel : Nat) (r : Router H) (path : Str) (i : Nat) (pn : List Str) (r1 : Router H),
      Unbound m h1 r.tree →
      AddLoop m (HandlerFunc.user h1) fuel r path i pn = Exec.ok r1 →
      AddLoop m' (HandlerFunc.user h2) fuel r1 path i pn =
        Exec.ok ⟨r1.tree.mapMaps (rebind m h1 m' h2), r1.routes, r1.vodka⟩ := by
  intro fuel
  induction fuel with
  | zero => intro r path i pn r1 _ hres; simp [AddLoop] at hres
  | succ f ih =>
    intro r path i pn r1 hu hres
    by_cases hi : i < path.length
    · by_cases hc : path.getD i 0 = colon
      · obtain ⟨pre, name, tail, rfl, rfl, hname, htail⟩ := split_at_colon path i hi hc
        rw [AddLoop_colon m _ f r pre name tail pn hname htail] at hres
        rw [AddLoop_colon m' _ f r1 pre name tail pn hname htail]
        cases ha : insert r m pre HandlerFunc.nil ntype.stype [] with
        | ok ra =>
          rw [ha] at hres
          simp only at hres
          have hpre := insert_ok_ne_nil _ _ _ _ _ _ _ ha
          have hpa := insert_present _ _ _ _ _ _ _ ha
          have hua := insert_nil_unbound _ _ _ _ h1 _ _ ha hu
          have hh2 : (pre ++ [colon]).headD 0 = pre.headD 0 := headD_append pre _ hpre
          by_cases ht : tail = []
          · simp only [ht, if_true] at hres ⊢
            have hp1 := insert_keeps_present _ _ _ _ _ _ _ pre hres hpa hh2
            rw [insert_present_nil r1 m' pre _ [] hm' hp1 (Nat.zero_le _)]
            simp only
            exact insert_again m m' h1 h2 _ _ ra r1 _ hm' hua hres
          · simp only [ht, if_false] at hres ⊢
            cases hb : insert ra m (pre ++ [colon]) HandlerFunc.nil ntype.ptype (pn ++ [name])
              with
            | ok rb =>
              rw [hb] at hres
              simp only at hres
              have hpb := insert_keeps_present _ _ _ _ _ _ _ pre hb hpa hh2
              have hpb2 := insert_present _ _ _ _ _ _ _ hb
              have hub := insert_nil_unbound _ _ _ _ h1 _ _ hb hua
              have hhp : (pre ++ [colon] ++ tail).headD 0 = pre.headD 0 := by
                rw [List.append_assoc, headD_append pre _ hpre]
              have hp1 := AddLoop_keeps_present m _ pre _ _ _ _ _ _ hres hpb hhp
              have hp2 := AddLoop_keeps_present m _ (pre ++ [colon]) _ _ _ _ _ _ hres hpb2
                (by rw [hhp, hh2])
              have hmax : (pn ++ [name]).length ≤ r1.vodka.maxParam := by
                have h3 := AddLoop_maxParam_ge m _ _ _ _ _ _ _ hres
                obtain ⟨hv, _⟩ := insert_vodka _ _ _ _ _ _ _ hb
                rw [hv] at h3
                simp only at h3
                omega
              rw [insert_present_nil r1 m' pre _ [] hm' hp1 (Nat.zero_le _)]
              simp only
              rw [insert_present_nil r1 m' (pre ++ [colon]) _ _ hm' hp2 hmax]
              simp only
              exact ih _ _ _ _ _ hub hres
            | panic p rb => rw [hb] at hres; simp at hres
            | timeout => rw [hb] at hres; simp at hres
        | panic p ra => rw [ha] at hres; simp at hres
        | timeout => rw [ha] at hres; simp at hres
      · by_cases hs : path.getD i 0 = star
        · obtain ⟨pre, rest, rfl, rfl⟩ := split_at_star path i hi hs
          rw [AddLoop_star m _ f r pre rest pn] at hres
          rw [AddLoop_star m' _ f r1 pre rest pn]
          cases ha : insert r m pre HandlerFunc.nil ntype.stype [] with
          | ok ra =>
            rw [ha] at hres
            simp only at hres
            have hpre := insert_ok_ne_nil _ _ _ _ _ _ _ ha
            have hpa := insert_present _ _ _ _ _ _ _ ha
            have hua := insert_nil_unbound _ _ _ _ h1 _ _ ha hu
            have hh2 : (pre ++ [star]).headD 0 = pre.headD 0 := headD_append pre _ hpre
            have hp1 := insert_keeps_present _ _ _ _ _ _ _ pre hres hpa hh2
            rw [insert_present_nil r1 m' pre _ [] hm' hp1 (Nat.zero_le _)]
            simp only
            exact insert_again m m' h1 h2 _ _ ra r1 _ hm' hua hres
          | panic p ra => rw [ha] at hres; simp at hres
          | timeout => rw [ha] at hres; simp at hres
        · rw [AddLoop] at hres ⊢
          simp only [hi, hc, hs, if_true, if_false] at hres ⊢
          exact ih _ _ _ _ _ hu hres
    · rw [AddLoop] at hres ⊢
      simp only [hi, if_false] at hres ⊢
      exact insert_again m m' h1 h2 _ _ r r1 _ hm' hu hres

mutual
theorem unbound_of_nodes {H : Type} (m : Str) (h1 : H) :
    ∀ t : node H,
      (∀ n ∈ t.nodes, ∀ hm, n.handler = some hm → hm.lookup m ≠ some (HandlerFunc.user h1)) →
      Unbound m h1 t
  | ⟨t, l, p, cs, h, pn, v⟩, hall =>
    Unbound.mk _ (hall _ (by simp [node.nodes]))
      (unbound_of_nodesList m h1 cs (fun n hn => hall n (by simp [node.nodes, hn])))
theorem unbound_of_nodesList {H : Type} (m : Str) (h1 : H) :
    ∀ cs : List (node H),
      (∀ n ∈ nodesList cs, ∀ hm, n.handler = some hm →
        hm.lookup m ≠ some (HandlerFunc.user h1)) →
      ∀ c ∈ cs, Unbound m h1 c
  | [], _ => fun c hc => nomatch hc
  | c :: cs, hall => fun x hx =>
    match List.mem_cons.mp hx with
    | Or.inl h0 => h0 ▸ unbound_of_nodes m h1 c (fun n hn => hall n (by simp [nodesList, hn]))
    | Or.inr h0 =>
      unbound_of_nodesList m h1 cs (fun n hn => hall n (by simp [nodesList, hn])) x h0
end

theorem rebind_lookup_same {H : Type} [DecidableEq H] (m : Str) (h1 h2 : H)
    (hm : HandlerMap H) :
    (rebind m h1 m h2 hm).lookup m = (hm.lookup m).map (relabel h1 h2) := by
  by_cases hb : hm.lookup m = some (HandlerFunc.user h1)
  · rw [rebind_bound m h1 m h2 hm hb, lookup_mapSet_self, hb]
    simp [relabel]
  · rw [rebind_unbound m h1 m h2 hm hb]
    cases hl : hm.lookup m with
    | none => rfl
    | some x =>
      rw [hl] at hb
      have : x ≠ HandlerFunc.user h1 := fun h0 => hb (by rw [h0])
      simp [relabel, this]

theorem rebind_keys_same {H : Type} [DecidableEq H] (m : Str) (h1 h2 : H)
    (hm : HandlerMap H) (hl : hm.lookup m = none) :
    mapKeys (some (rebind m h1 m h2 hm)) = mapKeys (some hm) := by
  rw [rebind_unbound m h1 m h2 hm (by rw [hl]; simp)]

/-- At a `'*'`, `Add` first inserts the text before it; when that text is
already in the tree the pass runs as on the tree with the text inserted. -/
theorem AddLoop_star_congr {H : Type} (m : Str) (h : HandlerFunc H) (fuel : Nat)
    (r r1 : Router H) (path : Str) (i : Nat) (pn : List Str)
    (hi : i < path.length) (hc : path.getD i 0 = star)
    (h1 : insert r m (path.take i) HandlerFunc.nil ntype.stype [] = Exec.ok r1)
    (h2 : insert r1 m (path.take i) HandlerFunc.nil ntype.stype [] = Exec.ok r1) :
    AddLoop m h (fuel + 1) r path i pn = AddLoop m h (fuel + 1) r1 path i pn := by
  have hsc : ¬ (star = colon) := by decide
  simp only [AddLoop, hi, hc, hsc, if_true, if_false, h1, h2]

/-- What `Add` builds for segments followed by a `'*'` once the literal text
before them is in the tree. -/
theorem AddLoop_segs_star {H : Type} (m : Str) (hm : validMethod m = true)
    (h : HandlerFunc H) (junk : Str) :
    ∀ (segs : List (Str × Str)) (l0 : Link H) (ls : List (Link H)) (pn : List Str)
      (fuel : Nat) (routes : List Route) (mp : Nat) (strip : Bool) (path : Str) (i : Nat),
      SegsOk segs → (∀ seg ∈ segs, seg.2 ≠ []) → (∀ l ∈ l0 :: ls, l.pfx ≠ []) →
      (segsPattern segs).length + 1 < fuel →
      path = chainPath l0 ls ++ (segsPattern segs ++ star :: junk) →
      i = (chainPath l0 ls).length →
      AddLoop m h fuel ⟨chain l0 ls, routes, ⟨mp, strip⟩⟩ path i pn =
        Exec.ok ⟨chain l0 (ls ++ starLinks m h pn segs), routes,
          ⟨max mp (pn.length + segs.length + 1), strip⟩⟩ := by
  intro segs
  induction segs with
  | nil =>
    intro l0 ls pn fuel routes mp strip path i _ _ hne hfuel hpath hi
    obtain ⟨f, rfl⟩ : ∃ f, fuel = f + 1 := ⟨fuel - 1, by omega⟩
    subst hpath hi
    simp only [segsPattern, List.nil_append]
    rw [AddLoop_star m h f _ _ junk pn, insert_chain_same m hm ntype.stype l0 ls hne]
    simp only
    rw [insert_chain_append m hm h ntype.mtype (pn ++ [ascii "_name"]) [star] (by simp)
      l0 ls hne]
    simp [starLinks]
  | cons seg rest ih =>
    obtain ⟨name, st⟩ := seg
    intro l0 ls pn fuel routes mp strip path i hok hst0 hne hfuel hpath hi
    obtain ⟨hname, hst, hhead, hrest⟩ := hok
    obtain ⟨f, rfl⟩ : ∃ f, fuel = f + 1 := ⟨fuel - 1, by omega⟩
    subst hpath hi
    have hstne : st ≠ [] := hst0 (name, st) (List.mem_cons_self _ _)
    obtain ⟨st', rfl⟩ : ∃ st', st = slash :: st' := by
      rcases hhead with hh | ⟨h1, _⟩
      · cases st with
        | nil => simp at hh
        | cons b st' =>
          simp only [List.head?_cons, Option.some.injEq] at hh
          exact ⟨st', by rw [hh]⟩
      · exact absurd h1 hstne
    have htail : slash :: st' ++ (segsPattern rest ++ star :: junk) = [] ∨
        (slash :: st' ++ (segsPattern rest ++ star :: junk)).head? = some slash :=
      Or.inr rfl
    have e0 : chainPath l0 ls ++ (segsPattern ((name, slash :: st') :: rest) ++ star :: junk)
        = chainPath l0 ls ++ colon :: (name ++ (slash :: st' ++
            (segsPattern rest ++ star :: junk))) := by
      simp [segsPattern]
    rw [e0, AddLoop_colon m h f _ _ name _ pn hname htail,
      insert_chain_same m hm ntype.stype l0 ls hne]
    simp only
    have htne : ¬ (slash :: st' ++ (segsPattern rest ++ star :: junk) = []) := by simp
    rw [if_neg htne]
    rw [insert_chain_append m hm HandlerFunc.nil ntype.ptype (pn ++ [name]) [colon]
      (by simp) l0 ls hne]
    simp only
    have hst' : ∀ b ∈ st', b ≠ colon ∧ b ≠ star :=
      fun b hb => hst b (List.mem_cons_of_mem _ hb)
    have hflen : (segsPattern rest).length + st'.length + name.length + 3 ≤ f := by
      simp only [segsPattern, List.length_cons, List.length_append] at hfuel
      omega
    obtain ⟨f', rfl⟩ : ∃ f', f = f' + st'.length := ⟨f - st'.length, by omega⟩
    have hp : chainPath l0 ls ++ [colon] ++ (slash :: st' ++ (segsPattern rest ++ star :: junk))
        = (chainPath l0 ls ++ [colon, slash]) ++ (st' ++ (segsPattern rest ++ star :: junk)) := by
      simp
    have hi : (chainPath l0 ls).length + 1 + 1 = (chainPath l0 ls ++ [colon, slash]).length := by
      simp
    rw [hp, hi, AddLoop_static m h st' _ _ f' _ _ hst']
    set P : Link H := ⟨ntype.ptype, [colon], some [(m, HandlerFunc.nil)], pn ++ [name], true⟩
      with hP
    set S : Link H := ⟨ntype.stype, slash :: st', some [(m, HandlerFunc.nil)], [], true⟩
      with hS
    have hpl : ∀ l ∈ l0 :: (ls ++ [P]), l.pfx ≠ [] := by
      intro l hl
      simp only [List.mem_cons, List.mem_append, List.mem_singleton, List.mem_nil_iff,
        or_false] at hl
      rcases hl with hl | hl | hl
      · exact hne l (by simp [hl])
      · exact hne l (by simp [hl])
      · subst hl; simp [hP]
    have hne2 : ∀ l ∈ l0 :: (ls ++ [P, S]), l.pfx ≠ [] := by
      intro l hl
      simp only [List.mem_cons, List.mem_append, List.mem_singleton, List.mem_nil_iff,
        or_false] at hl
      rcases hl with hl | hl | hl | hl
      · exact hne l (by simp [hl])
      · exact hne l (by simp [hl])
      · subst hl; simp [hP]
      · subst hl; simp [hS]
    have hcp2 : chainPath l0 (ls ++ [P, S]) = chainPath l0 (ls ++ [P]) ++ (slash :: st') := by
      rw [chainPath_append_two, chainPath_append]
    have hpath1 : chainPath l0 ls ++ [colon, slash] ++ (st' ++ (segsPattern rest ++ star :: junk))
        = chainPath l0 (ls ++ [P, S]) ++ (segsPattern rest ++ star :: junk) := by
      rw [hcp2, chainPath_append]; simp [hP]
    have hlen1 : (chainPath l0 ls ++ [colon, slash]).length + st'.length
        = (chainPath l0 (ls ++ [P, S])).length := by
      rw [hcp2, chainPath_append]; simp [hP]; omega
    obtain ⟨f'', rfl⟩ : ∃ f'', f' = f'' + 1 := ⟨f' - 1, by omega⟩
    rw [hpath1, hlen1]
    have hlt2 : (chainPath l0 (ls ++ [P, S])).length <
        (chainPath l0 (ls ++ [P, S]) ++ (segsPattern rest ++ star :: junk)).length := by
      simp only [List.length_append, List.length_cons]
      omega
    have htk : (chainPath l0 (ls ++ [P, S]) ++ (segsPattern rest ++ star :: junk)).take
          (chainPath l0 (ls ++ [P, S])).length
        = chainPath l0 (ls ++ [P, S]) := List.take_left _ _
    have hins1 : insert ⟨chain l0 (ls ++ [P]), routes, ⟨max mp (pn ++ [name]).length, strip⟩⟩ m
        ((chainPath l0 (ls ++ [P, S]) ++ (segsPattern rest ++ star :: junk)).take
          (chainPath l0 (ls ++ [P, S])).length) HandlerFunc.nil ntype.stype []
        = Exec.ok ⟨chain l0 (ls ++ [P, S]), routes, ⟨max mp (pn ++ [name]).length, strip⟩⟩ := by
      rw [htk, hcp2, insert_chain_append m hm HandlerFunc.nil ntype.stype [] (slash :: st')
        (by simp) l0 (ls ++ [P]) hpl]
      simp [hS]
    have hins2 : insert ⟨chain l0 (ls ++ [P, S]), routes,
          ⟨max mp (pn ++ [name]).length, strip⟩⟩ m
        ((chainPath l0 (ls ++ [P, S]) ++ (segsPattern rest ++ star :: junk)).take
          (chainPath l0 (ls ++ [P, S])).length) HandlerFunc.nil ntype.stype []
        = Exec.ok ⟨chain l0 (ls ++ [P, S]), routes, ⟨max mp (pn ++ [name]).length, strip⟩⟩ := by
      rw [htk]
      exact insert_chain_same m hm ntype.stype l0 (ls ++ [P, S]) hne2 routes _
    have hstep : AddLoop m h (f'' + 1)
        ⟨chain l0 (ls ++ [P]), routes, ⟨max mp (pn ++ [name]).length, strip⟩⟩
        (chainPath l0 (ls ++ [P, S]) ++ (segsPattern rest ++ star :: junk))
        (chainPath l0 (ls ++ [P, S])).length (pn ++ [name])
        = AddLoop m h (f'' + 1)
        ⟨chain l0 (ls ++ [P, S]), routes, ⟨max mp (pn ++ [name]).length, strip⟩⟩
        (chainPath l0 (ls ++ [P, S]) ++ (segsPattern rest ++ star :: junk))
        (chainPath l0 (ls ++ [P, S])).length (pn ++ [name]) := by
      cases rest with
      | nil =>
        have hget : (chainPath l0 (ls ++ [P, S]) ++ (segsPattern [] ++ star :: junk)).getD
            (chainPath l0 (ls ++ [P, S])).length 0 = star :=
          getD_append_cons _ star _
        exact AddLoop_star_congr m h f'' _ _ _ _ _ hlt2 hget hins1 hins2
      | cons seg2 rest' =>
        have hget : (chainPath l0 (ls ++ [P, S]) ++
            (segsPattern (seg2 :: rest') ++ star :: junk)).getD
              (chainPath l0 (ls ++ [P, S])).length 0 = colon := by
          obtain ⟨n2, s2⟩ := seg2
          exact getD_append_cons _ colon _
        exact AddLoop_colon_congr m h f'' _ _ _ _ _ hlt2 hget hins1 hins2
    rw [hstep]
    rw [ih l0 (ls ++ [P, S]) (pn ++ [name]) (f'' + 1) routes _ strip _ _ hrest
      (fun seg hseg => hst0 seg (List.mem_cons_of_mem _ hseg)) hne2 (by omega) rfl rfl]
    have e1 : ls ++ [P, S] ++ starLinks m h (pn ++ [name]) rest
        = ls ++ starLinks m h pn ((name, slash :: st') :: rest) := by
      simp [starLinks, hP, hS]
    have e2 : max (max mp (pn ++ [name]).length)
          ((pn ++ [name]).length + rest.length + 1)
        = max mp (pn.length + ((name, slash :: st') :: rest).length + 1) := by
      simp only [List.length_append, List.length_cons, List.length_nil]
      omega
    rw [e1, e2]

/-- `Add` on a fresh router of a pattern with a `'*'`: a non-empty literal
text, segments `:name` + literal text, the `'*'`, and whatever follows it
(which `Add` does not read). -/
theorem Add_segments_star {H : Type} (m : Str) (hm : validMethod m = true)
    (h : HandlerFunc H) (s0 : Str) (segs : List (Str × Str)) (junk : Str) (strip : Bool)
    (hs0 : s0 ≠ []) (hs0c : ∀ b ∈ s0, b ≠ colon ∧ b ≠ star)
    (hok : SegsOk segs) (hst : ∀ seg ∈ segs, seg.2 ≠ []) :
    Add (NewRouter (New strip)) m (s0 ++ (segsPattern segs ++ star :: junk)) h =
      Exec.ok ⟨chain (rootLink s0) (starLinks m h [] segs), [],
        ⟨segs.length + 1, strip⟩⟩ := by
  have hne : ∀ l ∈ [(rootLink s0 : Link H)], l.pfx ≠ [] := by
    intro l hl
    simp only [List.mem_singleton] at hl
    subst hl
    exact hs0
  have hlt : s0.length < (s0 ++ (segsPattern segs ++ star :: junk)).length := by
    simp only [List.length_append, List.length_cons]; omega
  have e1 : (s0 ++ (segsPattern segs ++ star :: junk)).length + 1
      = ((segsPattern segs ++ star :: junk).length + 1) + s0.length := by
    simp only [List.length_append]; omega
  have hstat := AddLoop_static m h s0 [] (segsPattern segs ++ star :: junk)
    ((segsPattern segs ++ star :: junk).length + 1) (NewRouter (New strip)) [] hs0c
  simp only [List.nil_append, List.length_nil, Nat.zero_add] at hstat
  have hins1 : insert (NewRouter (New strip)) m
      ((s0 ++ (segsPattern segs ++ star :: junk)).take s0.length) HandlerFunc.nil
      ntype.stype [] = (Exec.ok ⟨chain (rootLink s0) [], [], New strip⟩ : Exec (Router H)) := by
    rw [List.take_left]; exact insert_fresh_root m hm s0 hs0 _
  have hins2 : insert (⟨chain (rootLink s0) [], [], New strip⟩ : Router H) m
      ((s0 ++ (segsPattern segs ++ star :: junk)).take s0.length) HandlerFunc.nil
      ntype.stype [] = Exec.ok ⟨chain (rootLink s0) [], [], New strip⟩ := by
    rw [List.take_left]
    exact insert_chain_same m hm ntype.stype (rootLink s0) [] hne [] _
  have hstep : AddLoop m h ((segsPattern segs ++ star :: junk).length + 1)
      (NewRouter (New strip)) (s0 ++ (segsPattern segs ++ star :: junk)) s0.length []
      = AddLoop m h ((segsPattern segs ++ star :: junk).length + 1)
      ⟨chain (rootLink s0) [], [], New strip⟩ (s0 ++ (segsPattern segs ++ star :: junk))
      s0.length [] := by
    cases segs with
    | nil =>
      have hget : (s0 ++ (segsPattern [] ++ star :: junk)).getD s0.length 0 = star :=
        getD_append_cons _ star _
      exact AddLoop_star_congr m h _ _ _ _ _ _ hlt hget hins1 hins2
    | cons seg rest =>
      have hget : (s0 ++ (segsPattern (seg :: rest) ++ star :: junk)).getD s0.length 0
          = colon := by
        obtain ⟨n, s⟩ := seg
        exact getD_append_cons _ colon _
      exact AddLoop_colon_congr m h _ _ _ _ _ _ hlt hget hins1 hins2
  unfold Add
  rw [e1, hstat, hstep]
  have := AddLoop_segs_star m hm h junk segs (rootLink s0) [] []
    ((segsPattern segs ++ star :: junk).length + 1) [] 0 strip
    (s0 ++ (segsPattern segs ++ star :: junk)) s0.length hok hst hne
    (by simp only [List.length_append, List.length_cons]; omega) rfl rfl
  simpa [New] using this

theorem setValue_zero (pv : List Str) (s : Str) (hpv : pv ≠ []) :
    setValue pv 0 s = some (s :: pv.tail) := by
  cases pv with
  | nil => exact absurd rfl hpv
  | cons x pv => rfl

/-- A pass of `Find` at a static node whose only child is a CATCH_ALL node:
the prefix is consumed, what is left of the path goes to value slot 0 and the
lookup moves to the CATCH_ALL node with nothing left. -/
theorem FindStep_star {H : Type} (m : Str) (N M : Link H) (s : Str) (n : Nat)
    (nt : ntype) (nn : Option (node H)) (ns : Str) (hh : HandlerFunc H) (ee : Bool)
    (names pv : List Str)
    (hN : N.pfx ≠ []) (hNc : N.pfx.headD 0 ≠ colon) (hM : M.typ = ntype.mtype)
    (hpv : pv ≠ []) :
    FindStep m { cn := chain N [M], search := N.pfx ++ s, n := n, nt := nt, nn := nn,
                 ns := ns, h := hh, e := ee, ctx := ⟨names, pv⟩ } =
      Step.next { cn := chain M [], search := [], n := n, nt := nt, nn := nn, ns := ns,
                  h := hh, e := ee, ctx := ⟨names, s :: pv.tail⟩ } := by
  have hNc' : ¬ ((N.pfx.head?).getD 0 = colon) := by simpa using hNc
  have hs1 : ¬ (N.pfx ++ s = []) := by simp [hN]
  have hlcp := lcp_append_left N.pfx s
  have hms : (ntype.mtype == ntype.stype) = false := by decide
  have hmp : (ntype.mtype == ntype.ptype) = false := by decide
  have hsv := setValue_zero pv s hpv
  have hct : (chain M ([] : List (Link H))).typ = ntype.mtype := by rw [chain_typ, hM]
  cases s with
  | nil =>
    have hsv0 := setValue_zero pv [] hpv
    simp [FindStep, chain, Link.toNode, hN, hNc', lcp_self, findChildWithType,
      List.find?, MatchAny, hsv0, hM]
  | cons c s' =>
    simp [FindStep, chain, Link.toNode, hs1, hNc', hlcp, findChild,
      findChildWithType, List.find?, Param, MatchAny, hsv, hms, hmp, hM]

/-- The lookup along the chain that `Add` builds for segments followed by a
`'*'`, started at the static node above them: the CATCH_ALL node answers. -/
theorem FindLoop_segs_star {H : Type} (m : Str) (h : HandlerFunc H) (s : Str) :
    ∀ (segs : List (Str × Str)) (vals : List Str) (N : Link H) (pn : List Str)
      (done todo : List Str) (nt : ntype) (nn : Option (node H)) (ns : Str)
      (hh : HandlerFunc H) (ee : Bool) (names : List Str) (fuel : Nat),
      SegsOk segs → (∀ seg ∈ segs, seg.2 ≠ []) → vals.length = segs.length →
      (∀ v ∈ vals, v ≠ [] ∧ slash ∉ v) →
      N.pfx ≠ [] → N.pfx.headD 0 ≠ colon →
      segs.length + 1 ≤ todo.length → 2 * segs.length + 2 ≤ fuel →
      ∃ pv, FindLoop m fuel
        { cn := chain N (starLinks m h pn segs),
          search := N.pfx ++ (segsPath segs vals ++ s),
          n := done.length, nt := nt, nn := nn, ns := ns, h := hh, e := ee,
          ctx := ⟨names, done ++ todo⟩ } =
        Exec.ok ⟨h, true, ⟨pn ++ segs.map Prod.fst ++ [ascii "_name"], pv⟩⟩ := by
  intro segs
  induction segs with
  | nil =>
    intro vals N pn done todo nt nn ns hh ee names fuel _ _ hlen _ hN hNc htodo hfuel
    obtain ⟨f, rfl⟩ : ∃ f, fuel = f + 2 := ⟨fuel - 2, by omega⟩
    have hv : vals = [] := List.length_eq_zero.mp hlen
    subst hv
    have hpv : done ++ todo ≠ [] := by
      intro h0
      have := congrArg List.length h0
      simp only [List.length_append, List.length_nil] at this htodo
      omega
    refine ⟨s :: (done ++ todo).tail, ?_⟩
    simp only [starLinks, segsPath, List.nil_append]
    rw [FindLoop_succ, FindStep_star m N _ s _ _ _ _ _ _ _ _ hN hNc rfl hpv]
    simp only
    rw [FindLoop_succ, FindStep_found m _ [(m, h)] h _ _ _ _ _ _ _
      (by simp [chain, Link.toNode]) (by simp [HandlerMap.lookup])]
    simp [chain, Link.toNode]
  | cons seg rest ih =>
    obtain ⟨name, st⟩ := seg
    intro vals N pn done todo nt nn ns hh ee names fuel hok hst0 hlen hvals hN hNc htodo hfuel
    obtain ⟨hname, hst, hhead, hrest⟩ := hok
    obtain ⟨v, vs, rfl⟩ : ∃ v vs, vals = v :: vs := by
      cases vals with
      | nil => simp at hlen
      | cons v vs => exact ⟨v, vs, rfl⟩
    have hv := hvals v (List.mem_cons_self _ _)
    have hvs : ∀ w ∈ vs, w ≠ [] ∧ slash ∉ w := fun w hw => hvals w (List.mem_cons_of_mem _ hw)
    have hlen' : vs.length = rest.length := by simpa using hlen
    obtain ⟨t0, todo', rfl⟩ : ∃ t0 todo', todo = t0 :: todo' := by
      cases todo with
      | nil => simp at htodo
      | cons t0 todo' => exact ⟨t0, todo', rfl⟩
    have htodo' : rest.length + 1 ≤ todo'.length := by simpa using htodo
    obtain ⟨f, rfl⟩ : ∃ f, fuel = f + 2 := ⟨fuel - 2, by omega⟩
    have hf : 2 * rest.length + 2 ≤ f := by
      simp only [List.length_cons] at hfuel; omega
    have hstne : st ≠ [] := hst0 (name, st) (List.mem_cons_self _ _)
    obtain ⟨st', rfl⟩ : ∃ st', st = slash :: st' := by
      rcases hhead with hh' | ⟨h1, _⟩
      · cases st with
        | nil => simp at hh'
        | cons b st' =>
          simp only [List.head?_cons, Option.some.injEq] at hh'
          exact ⟨st', by rw [hh']⟩
      · exact absurd h1 hstne
    set S : Link H := ⟨ntype.stype, slash :: st', some [(m, HandlerFunc.nil)], [], true⟩
      with hS
    set P : Link H := ⟨ntype.ptype, [colon], some [(m, HandlerFunc.nil)], pn ++ [name], true⟩
      with hP
    have haf : starLinks m h pn ((name, slash :: st') :: rest)
        = P :: S :: starLinks m h (pn ++ [name]) rest := by
      simp [starLinks, hP, hS]
    have hsp : segsPath ((name, slash :: st') :: rest) (v :: vs) ++ s
        = v ++ (slash :: st' ++ (segsPath rest vs ++ s)) := by
      simp [segsPath]
    rw [haf, hsp]
    obtain ⟨nt', nn', ns', hstep⟩ := FindStep_param m N P
      (S :: starLinks m h (pn ++ [name]) rest) v (slash :: st' ++ (segsPath rest vs ++ s))
      done (t0 :: todo') nt nn ns hh ee names hNc rfl hv.1 hv.2 (Or.inr rfl) (by simp)
    obtain ⟨pv, hrec⟩ := ih vs S (pn ++ [name]) (done ++ [v]) todo' nt' nn' ns' hh ee names f
      hrest (fun seg hseg => hst0 seg (List.mem_cons_of_mem _ hseg)) hlen' hvs
      (by simp [hS]) (by simp [hS]) htodo' hf
    refine ⟨pv, ?_⟩
    rw [FindLoop_succ, hstep]
    simp only
    rw [FindLoop_succ, FindStep_after_param m P S _
      (slash :: st' ++ (segsPath rest vs ++ s)) _ _ _ _ _ _ _ rfl rfl rfl rfl]
    simp only [List.tail_cons]
    have hS2 : S.pfx = slash :: st' := rfl
    rw [hS2] at hrec
    rw [hrec]
    simp

theorem patMatch_lit_nil (c : Nat) (p : Str) (hc1 : c ≠ colon) (hc2 : c ≠ star) :
    patMatch false (c :: p) [] = false := by
  rw [patMatch]
  simp [hc1, hc2]

theorem patMatch_lit_cons (c d : Nat) (p q : Str) (hc1 : c ≠ colon) (hc2 : c ≠ star) :
    patMatch false (c :: p) (d :: q) = (c == d && patMatch false p q) := by
  rw [patMatch]
  simp [hc1, hc2]

theorem patMatch_colon (p q : Str) :
    patMatch false (colon :: p) q =
      (!(q.takeWhile (fun b => b != slash)).isEmpty &&
        patMatch true p (q.drop (q.takeWhile (fun b => b != slash)).length)) := by
  have hcs : ¬ (colon = star) := by decide
  conv_lhs => unfold patMatch
  simp [hcs]

theorem patMatch_slash_nil (p : Str) : patMatch true (slash :: p) [] = false := by
  rw [patMatch]
  simp

theorem patMatch_slash_cons (d : Nat) (p q : Str) :
    patMatch true (slash :: p) (d :: q) = (d == slash && patMatch false p q) := by
  rw [patMatch]
  simp

theorem patMatch_skip (c : Nat) (p q : Str) (hc : c ≠ slash) :
    patMatch true (c :: p) q = patMatch true p q := by
  conv_lhs => unfold patMatch
  simp [hc]

theorem patMatch_nil (b : Bool) (q : Str) : patMatch b [] q = q.isEmpty := by
  cases b <;> rw [patMatch]

theorem patMatch_literal (s : Str) (hs : ∀ b ∈ s, b ≠ colon ∧ b ≠ star) :
    ∀ (rest q : Str), patMatch false (s ++ rest) q = true →
      ∃ q', q = s ++ q' ∧ patMatch false rest q' = true := by
  induction s with
  | nil => intro rest q hq; exact ⟨q, rfl, hq⟩
  | cons c s ih =>
    intro rest q hq
    have hc := hs c (List.mem_cons_self _ _)
    have hs' : ∀ b ∈ s, b ≠ colon ∧ b ≠ star := fun b hb => hs b (List.mem_cons_of_mem _ hb)
    cases q with
    | nil =>
      rw [List.cons_append, patMatch_lit_nil c _ hc.1 hc.2] at hq
      cases hq
    | cons d q' =>
      rw [List.cons_append, patMatch_lit_cons c d _ _ hc.1 hc.2] at hq
      simp only [Bool.and_eq_true, beq_iff_eq] at hq
      obtain ⟨q'', hq1, hq2⟩ := ih hs' rest q' hq.2
      exact ⟨q'', by rw [hq.1, hq1]; rfl, hq2⟩

theorem patMatch_name (name : Str) (hname : slash ∉ name) (tail q : Str) :
    patMatch true (name ++ tail) q = patMatch true tail q := by
  induction name with
  | nil => rfl
  | cons a name ih =>
    have ha : a ≠ slash := fun e => hname (by simp [e])
    have hn : slash ∉ name := fun e => hname (List.mem_cons_of_mem _ e)
    rw [List.cons_append, patMatch_skip a _ _ ha]
    exact ih hn

theorem takeWhile_no_slash (q : Str) : slash ∉ q.takeWhile (fun b => b != slash) := by
  intro hmem
  have := List.mem_takeWhile_imp hmem
  simp at this

theorem split_at_slash (q : Str) :
    ∃ v q1, q = v ++ q1 ∧ v = q.takeWhile (fun b => b != slash) ∧
      q1 = q.drop (q.takeWhile (fun b => b != slash)).length ∧ slash ∉ v := by
  refine ⟨_, _, ?_, rfl, rfl, takeWhile_no_slash q⟩
  have h1 : q.takeWhile (fun b => b != slash)
      = q.take (q.takeWhile (fun b => b != slash)).length := by
    conv_lhs => rw [← List.takeWhile_append_dropWhile (fun b => b != slash) q]
    induction q with
    | nil => rfl
    | cons a q ih =>
      by_cases ha : (a != slash) = true
      · simp only [List.takeWhile, List.dropWhile, ha, List.cons_append, List.length_cons,
          List.take_succ_cons, List.cons.injEq, true_and]
        exact ih
      · simp only [Bool.not_eq_true] at ha
        simp [List.takeWhile, List.dropWhile, ha]
  conv_lhs => rw [← List.take_append_drop (q.takeWhile (fun b => b != slash)).length q]
  rw [← h1]

/-- What the pattern semantics of the specification says about a path that
satisfies segments `:name` + literal text followed by `K`: it is made of one
non-empty value without `'/'` per name, the literal texts, and a rest that
satisfies `K`. -/
theorem patMatch_segs (K : Str) :
    ∀ (segs : List (Str × Str)) (q : Str), SegsOk segs →
      (K ≠ [] → ∀ seg ∈ segs, seg.2 ≠ []) →
      patMatch false (segsPattern segs ++ K) q = true →
      ∃ vals s, q = segsPath segs vals ++ s ∧ vals.length = segs.length ∧
        (∀ v ∈ vals, v ≠ [] ∧ slash ∉ v) ∧ patMatch false K s = true := by
  intro segs
  induction segs with
  | nil =>
    intro q _ _ hq
    refine ⟨[], q, rfl, rfl, ?_, hq⟩
    intro v hv
    cases hv
  | cons seg rest ih =>
    obtain ⟨name, st⟩ := seg
    intro q hok hK hq
    obtain ⟨hname, hst, hhead, hrest⟩ := hok
    have e0 : segsPattern ((name, st) :: rest) ++ K
        = colon :: (name ++ (st ++ (segsPattern rest ++ K))) := by
      simp [segsPattern]
    rw [e0, patMatch_colon] at hq
    obtain ⟨v, q1, hq0, hv, hq1, hvs⟩ := split_at_slash q
    rw [← hv] at hq1
    rw [← hv, ← hq1, patMatch_name name hname] at hq
    simp only [Bool.and_eq_true, Bool.not_eq_true', List.isEmpty_eq_false] at hq
    obtain ⟨hvne, hm⟩ := hq
    have hvne' : v ≠ [] := by
      intro h0
      rw [h0] at hvne
      simp at hvne
    by_cases hst0 : st = []
    · have hr : rest = [] := by
        rcases hhead with hh | ⟨_, h2⟩
        · subst hst0; simp at hh
        · exact h2
      have hK0 : K = [] := by
        by_contra hne
        exact hK hne (name, st) (List.mem_cons_self _ _) hst0
      subst hst0 hr hK0
      simp only [segsPattern, List.append_nil, List.nil_append] at hm
      rw [patMatch_nil] at hm
      have hq1e : q1 = [] := by simpa using hm
      refine ⟨[v], [], ?_, rfl, ?_, rfl⟩
      · rw [hq0, hq1e]
        simp [segsPath]
      · intro w hw
        simp only [List.mem_singleton] at hw
        subst hw
        exact ⟨hvne', hvs⟩
    · obtain ⟨st', rfl⟩ : ∃ st', st = slash :: st' := by
        rcases hhead with hh | ⟨h1, _⟩
        · cases st with
          | nil => simp at hh
          | cons b st' =>
            simp only [List.head?_cons, Option.some.injEq] at hh
            exact ⟨st', by rw [hh]⟩
        · exact absurd h1 hst0
      have hst' : ∀ b ∈ st', b ≠ colon ∧ b ≠ star :=
        fun b hb => hst b (List.mem_cons_of_mem _ hb)
      cases q1 with
      | nil =>
        rw [List.cons_append, patMatch_slash_nil] at hm
        cases hm
      | cons d q2 =>
        rw [List.cons_append, patMatch_slash_cons] at hm
        simp only [Bool.and_eq_true, beq_iff_eq] at hm
        obtain ⟨hd, hm2⟩ := hm
        obtain ⟨q3, hq3, hm3⟩ := patMatch_literal st' hst' _ _ hm2
        obtain ⟨vs, s, hq4, hlen, hvals, hKs⟩ := ih q3 hrest
          (fun hne seg hseg => hK hne seg (List.mem_cons_of_mem _ hseg)) hm3
        refine ⟨v :: vs, s, ?_, by simp [hlen], ?_, hKs⟩
        · rw [hq0, hd, hq3, hq4]
          simp [segsPath]
        · intro w hw
          rcases List.mem_cons.mp hw with h0 | h0
          · rw [h0]; exact ⟨hvne', hvs⟩
          · exact hvals w h0

theorem split_literal (w : Str) :
    ∃ st v, w = st ++ v ∧ (∀ b ∈ st, b ≠ colon ∧ b ≠ star) ∧
      (v = [] ∨ v.head? = some colon ∨ v.head? = some star) := by
  induction w with
  | nil => exact ⟨[], [], rfl, (fun b hb => nomatch hb), Or.inl rfl⟩
  | cons a w ih =>
    by_cases hc : a = colon
    · exact ⟨[], a :: w, rfl, (fun b hb => nomatch hb), Or.inr (Or.inl (by simp [hc]))⟩
    · by_cases hs : a = star
      · exact ⟨[], a :: w, rfl, (fun b hb => nomatch hb), Or.inr (Or.inr (by simp [hs]))⟩
      · obtain ⟨st, v, hw, hst, hv⟩ := ih
        refine ⟨a :: st, v, by rw [hw]; rfl, ?_, hv⟩
        intro b hb
        rcases List.mem_cons.mp hb with h0 | h0
        · rw [h0]; exact ⟨hc, hs⟩
        · exact hst b h0

theorem split_name (u : Str) :
    ∃ name u', u = name ++ u' ∧ slash ∉ name ∧ (u' = [] ∨ u'.head? = some slash) := by
  induction u with
  | nil => exact ⟨[], [], rfl, (fun hb => nomatch hb), Or.inl rfl⟩
  | cons a u ih =>
    by_cases ha : a = slash
    · exact ⟨[], a :: u, rfl, (fun hb => nomatch hb), Or.inr (by simp [ha])⟩
    · obtain ⟨name, u', hu, hname, hu'⟩ := ih
      refine ⟨a :: name, u', by rw [hu]; rfl, ?_, hu'⟩
      intro hb
      rcases List.mem_cons.mp hb with h0 | h0
      · exact ha h0.symm
      · exact hname h0

/-- Every text that is empty or starts with `':'` or `'*'` is a list of
segments `:name` + literal text, alone or followed by a `'*'` and more. -/
theorem tail_shape :
    ∀ (n : Nat) (t : Str), t.length ≤ n →
      (t = [] ∨ t.head? = some colon ∨ t.head? = some star) →
      ∃ segs, SegsOk segs ∧
        (t = segsPattern segs ∨
         ∃ junk, t = segsPattern segs ++ star :: junk ∧ ∀ seg ∈ segs, seg.2 ≠ []) := by
  intro n
  induction n with
  | zero =>
    intro t ht _
    have : t = [] := List.length_eq_zero.mp (Nat.le_zero.mp ht)
    exact ⟨[], trivial, Or.inl (by rw [this]; rfl)⟩
  | succ n ih =>
    intro t ht hhead
    cases t with
    | nil => exact ⟨[], trivial, Or.inl rfl⟩
    | cons a u =>
      rcases hhead with h0 | h0 | h0
      · cases h0
      · simp only [List.head?_cons, Option.some.injEq] at h0
        subst h0
        obtain ⟨name, u', hu, hname, hu'⟩ := split_name u
        cases u' with
        | nil =>
          refine ⟨[(name, [])], ⟨hname, (fun b hb => nomatch hb), Or.inr ⟨rfl, rfl⟩, trivial⟩,
            Or.inl ?_⟩
          rw [hu]
          simp [segsPattern]
        | cons b w =>
          have hb : b = slash := by
            rcases hu' with h1 | h1
            · cases h1
            · simpa using h1
          subst hb
          obtain ⟨st', v, hw, hst', hv⟩ := split_literal w
          have hvlen : v.length ≤ n := by
            have h1 := congrArg List.length hu
            have h2 := congrArg List.length hw
            simp only [List.length_append, List.length_cons] at h1 h2 ht
            omega
          obtain ⟨segs', hok', hshape⟩ := ih v hvlen hv
          have hlit : ∀ b ∈ slash :: st', b ≠ colon ∧ b ≠ star := by
            intro b hb
            rcases List.mem_cons.mp hb with h1 | h1
            · rw [h1]; exact ⟨by decide, by decide⟩
            · exact hst' b h1
          refine ⟨(name, slash :: st') :: segs', ⟨hname, hlit, Or.inl rfl, hok'⟩, ?_⟩
          rcases hshape with h1 | ⟨junk, h1, h2⟩
          · left
            rw [hu, hw, h1]
            simp [segsPattern]
          · right
            refine ⟨junk, ?_, ?_⟩
            · rw [hu, hw, h1]
              simp [segsPattern]
            · intro seg hseg
              rcases List.mem_cons.mp hseg with h3 | h3
              · rw [h3]; simp
              · exact h2 seg h3
      · simp only [List.head?_cons, Option.some.injEq] at h0
        subst h0
        exact ⟨[], trivial, Or.inr ⟨u, rfl, (fun seg hseg => nomatch hseg)⟩⟩

/-- Every non-empty pattern that does not start with `':'` or `'*'` is a
non-empty literal text followed by segments `:name` + literal text, alone or
followed by a `'*'` and more. -/
theorem pattern_shape (p : Str) (hp : p ≠ []) (hc : p.headD 0 ≠ colon)
    (hs : p.headD 0 ≠ star) :
    ∃ s0 segs, s0 ≠ [] ∧ (∀ b ∈ s0, b ≠ colon ∧ b ≠ star) ∧ SegsOk segs ∧
      (p = s0 ++ segsPattern segs ∨
       ∃ junk, p = s0 ++ (segsPattern segs ++ star :: junk) ∧ ∀ seg ∈ segs, seg.2 ≠ []) := by
  obtain ⟨s0, t, hpt, hs0, ht⟩ := split_literal p
  have hs0ne : s0 ≠ [] := by
    intro h0
    subst h0
    simp only [List.nil_append] at hpt
    subst hpt
    cases p with
    | nil => exact hp rfl
    | cons a p =>
      rcases ht with h1 | h1 | h1
      · cases h1
      · simp only [List.head?_cons, Option.some.injEq] at h1
        exact hc (by rw [h1]; rfl)
      · simp only [List.head?_cons, Option.some.injEq] at h1
        exact hs (by rw [h1]; rfl)
  obtain ⟨segs, hok, hshape⟩ := tail_shape t.length t (le_refl _) ht
  refine ⟨s0, segs, hs0ne, hs0, hok, ?_⟩
  rcases hshape with h1 | ⟨junk, h1, h2⟩
  · left; rw [hpt, h1]
  · right; exact ⟨junk, by rw [hpt, h1], h2⟩

theorem starLinks_length {H : Type} (m : Str) (h : HandlerFunc H) (pn : List Str)
    (segs : List (Str × Str)) : (starLinks m h pn segs).length = 2 * segs.length + 1 := by
  induction segs generalizing pn with
  | nil => rfl
  | cons seg rest ih =>
    obtain ⟨name, st⟩ := seg
    simp only [starLinks, List.length_cons, ih]
    omega

theorem head_not_colon (s0 : Str) (hs0 : s0 ≠ []) (hs0c : ∀ b ∈ s0, b ≠ colon ∧ b ≠ star) :
    s0.headD 0 ≠ colon := by
  cases s0 with
  | nil => exact absurd rfl hs0
  | cons b s' => exact (hs0c b (List.mem_cons_self _ _)).1

/-- A single route on a fresh router answers every path that satisfies its
pattern: for every non-empty pattern that does not start with `':'` or `'*'`,
`Add` returns, and `Find` under the same method returns the handler for every
path that the pattern semantics of the specification accepts, when the value
buffer has `maxParam` slots. -/
theorem single_route {H : Type} (m : Str) (hm : validMethod m = true) (h : H) (p : Str)
    (hp : p ≠ []) (hc : p.headD 0 ≠ colon) (hs : p.headD 0 ≠ star) :
    ∃ r1, Add (NewRouter (New false)) m p (HandlerFunc.user h) = Exec.ok r1 ∧
      ∀ q names buf, Matches p q = true → r1.vodka.maxParam ≤ buf.length →
        ∃ e ctx', Find r1 m q ⟨names, buf⟩ = Exec.ok ⟨HandlerFunc.user h, e, ctx'⟩ := by
  obtain ⟨s0, segs, hs0, hs0c, hok, hshape⟩ := pattern_shape p hp hc hs
  have hNc := head_not_colon s0 hs0 hs0c
  rcases hshape with hpeq | ⟨junk, hpeq, hst⟩
  · by_cases hsegs : segs = []
    · subst hsegs
      simp only [segsPattern, List.append_nil] at hpeq
      subst hpeq
      refine ⟨_, Add_literal_fresh m hm h p (New false) hp hs0c, ?_⟩
      intro q names buf hq _
      unfold Matches at hq
      obtain ⟨q', hq1, hq2⟩ := patMatch_literal p hs0c [] q (by rw [List.append_nil]; exact hq)
      rw [patMatch_nil] at hq2
      have hq' : q' = [] := by simpa using hq2
      subst hq'
      rw [List.append_nil] at hq1
      subst hq1
      have hloop := FindLoop_segs m (HandlerFunc.user h) [] []
        ⟨ntype.stype, q, some [(m, HandlerFunc.user h)], [], true⟩ [] [] buf
        ntype.stype none [] HandlerFunc.notFoundHandler true names 2
        trivial rfl (fun v hv => nomatch hv) hp hNc (fun _ => rfl) (Nat.zero_le _) (le_refl _)
      refine ⟨true, ⟨[], buf⟩, Find_of_FindLoop _ m _ _ _ 2 hm rfl ?_ ?_⟩
      · have := findFuel_ge (leaf ntype.stype q [(m, HandlerFunc.user h)] [] : node H)
        simp only at this ⊢
        omega
      · simpa [segsPath, afterStatic, chain, Link.toNode, leaf] using hloop
    · subst hpeq
      refine ⟨_, Add_segments m hm (HandlerFunc.user h) s0 segs false hs0 hs0c hsegs hok, ?_⟩
      intro q names buf hq hbuf
      unfold Matches at hq
      obtain ⟨q', hq1, hq2⟩ := patMatch_literal s0 hs0c _ q hq
      obtain ⟨vals, s, hq3, hlen, hvals, hKs⟩ := patMatch_segs [] segs q' hok
        (fun hne => absurd rfl hne) (by rw [List.append_nil]; exact hq2)
      rw [patMatch_nil] at hKs
      have hs' : s = [] := by simpa using hKs
      subst hs'
      rw [List.append_nil] at hq3
      subst hq3 hq1
      have hloop := FindLoop_segs m (HandlerFunc.user h) segs vals (rootLink s0) [] [] buf
        ntype.stype none [] HandlerFunc.notFoundHandler false names (2 * segs.length + 2)
        hok hlen hvals hs0 hNc (fun e => absurd e hsegs) hbuf (le_refl _)
      simp only [hsegs, if_false, List.nil_append, List.length_nil] at hloop
      refine ⟨true, ⟨segs.map Prod.fst, vals ++ buf.drop segs.length⟩,
        Find_of_FindLoop _ m _ _ _ (2 * segs.length + 2) hm rfl ?_ ?_⟩
      · have h1 := findFuel_ge_two_mul (chain (rootLink s0)
          (afterStatic m (HandlerFunc.user h) [] segs))
        have h2 := afterStatic_length m (HandlerFunc.user h) [] segs hok
        rw [chain_height] at h1
        simp only at h1 ⊢
        omega
      · have hv : (chain (rootLink s0) (afterStatic m (HandlerFunc.user h) [] segs)).vodka
            = false := by
          rw [chain_vodka]; rfl
        simp only [hv]
        exact hloop
  · subst hpeq
    refine ⟨_, Add_segments_star m hm (HandlerFunc.user h) s0 segs junk false hs0 hs0c hok hst,
      ?_⟩
    intro q names buf hq hbuf
    unfold Matches at hq
    obtain ⟨q', hq1, hq2⟩ := patMatch_literal s0 hs0c _ q hq
    obtain ⟨vals, s, hq3, hlen, hvals, _⟩ := patMatch_segs (star :: junk) segs q' hok
      (fun _ => hst) hq2
    subst hq3 hq1
    obtain ⟨pv, hloop⟩ := FindLoop_segs_star m (HandlerFunc.user h) s segs vals (rootLink s0)
      [] [] buf ntype.stype none [] HandlerFunc.notFoundHandler false names
      (2 * segs.length + 2) hok hst hlen hvals hs0 hNc hbuf (le_refl _)
    simp only [List.nil_append, List.length_nil] at hloop
    refine ⟨true, ⟨segs.map Prod.fst ++ [ascii "_name"], pv⟩,
      Find_of_FindLoop _ m _ _ _ (2 * segs.length + 2) hm rfl ?_ ?_⟩
    · have h1 := findFuel_ge (chain (rootLink s0) (starLinks m (HandlerFunc.user h) [] segs))
      rw [chain_height, starLinks_length] at h1
      simp only at h1 ⊢
      omega
    · have hv : (chain (rootLink s0) (starLinks m (HandlerFunc.user h) [] segs)).vodka
          = false := by
        rw [chain_vodka]; rfl
      simp only [hv]
      exact hloop

theorem height_le_heightList {H : Type} (c : node H) :
    ∀ cs : List (node H), c ∈ cs → c.height ≤ heightList cs := by
  intro cs
  induction cs with
  | nil => intro h; cases h
  | cons d ds ih =>
    intro h
    rw [heightList]
    rcases List.mem_cons.mp h with h0 | h0
    · rw [h0]; exact Nat.le_max_left _ _
    · exact Nat.le_trans (ih h0) (Nat.le_max_right _ _)

theorem height_eq {H : Type} (n : node H) : n.height = heightList n.children + 1 := by
  cases n
  rfl

theorem child_height_lt {H : Type} (n c : node H) (hc : c ∈ n.children) :
    c.height < n.height := by
  rw [height_eq n]
  exact Nat.lt_succ_of_le (height_le_heightList c _ hc)

theorem findChild_mem {H : Type} (n : node H) (b : Nat) (t : ntype) (c : node H)
    (h : findChild n b t = some c) : c ∈ n.children :=
  List.mem_of_find?_eq_some h

theorem findChildWithType_mem {H : Type} (n : node H) (t : ntype) (c : node H)
    (h : findChildWithType n t = some c) : c ∈ n.children :=
  List.mem_of_find?_eq_some h

/-- What `MatchAny` leaves when the loop goes on. -/
theorem MatchAny_next {H : Type} (t s' : FindState H) (h : MatchAny t = Step.next s') :
    s'.search = [] ∧ s'.nt = t.nt ∧ s'.nn = t.nn ∧ s'.ns = t.ns ∧ s'.cn ∈ t.cn.children := by
  unfold MatchAny at h
  cases hf : findChildWithType t.cn ntype.mtype with
  | none => rw [hf] at h; simp at h
  | some c =>
    rw [hf] at h
    simp only at h
    cases hv : setValue t.ctx.pvalues 0 t.search with
    | none => rw [hv] at h; simp at h
    | some pv =>
      rw [hv] at h
      simp only [Step.next.injEq] at h
      subst h
      exact ⟨rfl, rfl, rfl, rfl, findChildWithType_mem _ _ _ hf⟩

/-- What `Param` leaves when the loop goes on. -/
theorem Param_next {H : Type} (t s' : FindState H) (h : Param t = Step.next s') :
    s'.cn ∈ t.cn.children ∧
    ((s'.search = [] ∧ s'.nt = t.nt ∧ s'.nn = t.nn ∧ s'.ns = t.ns) ∨
     (s'.search.length ≤ t.search.length ∧
      ((t.cn.label = slash ∧ s'.nt = ntype.mtype ∧ s'.nn = some t.cn ∧ s'.ns = t.search) ∨
       (t.cn.label ≠ slash ∧ s'.nt = t.nt ∧ s'.nn = t.nn ∧ s'.ns = t.ns)))) := by
  unfold Param at h
  cases hf : findChildWithType t.cn ntype.ptype with
  | none =>
    rw [hf] at h
    obtain ⟨h1, h2, h3, h4, h5⟩ := MatchAny_next t s' h
    exact ⟨h5, Or.inl ⟨h1, h2, h3, h4⟩⟩
  | some c =>
    rw [hf] at h
    simp only at h
    have hmem := findChildWithType_mem _ _ _ hf
    by_cases hl : t.cn.label = slash
    · simp only [hl, if_true] at h
      cases hv : setValue t.ctx.pvalues t.n
          (t.search.take (t.search.takeWhile (fun b => b != slash)).length) with
      | none => rw [hv] at h; simp at h
      | some pv =>
        rw [hv] at h
        simp only [Step.next.injEq] at h
        subst h
        refine ⟨hmem, Or.inr ⟨?_, Or.inl ⟨hl, rfl, rfl, rfl⟩⟩⟩
        simp only [List.length_drop]
        omega
    · simp only [hl, if_false] at h
      cases hv : setValue t.ctx.pvalues t.n
          (t.search.take (t.search.takeWhile (fun b => b != slash)).length) with
      | none => rw [hv] at h; simp at h
      | some pv =>
        rw [hv] at h
        simp only [Step.next.injEq] at h
        subst h
        refine ⟨hmem, Or.inr ⟨?_, Or.inr ⟨hl, rfl, rfl, rfl⟩⟩⟩
        simp only [List.length_drop]
        omega

theorem slash_ne_colon : (slash : Nat) ≠ colon := by decide

/-- The ways in which a pass of the loop of `Find` goes on to another pass:
the search string is used up; or the lookup descends from the current node,
saving it when its label is `'/'`; or it goes back to the saved node. -/
theorem FindStep_next_cases {H : Type} (m : Str) (s s' : FindState H)
    (h : FindStep m s = Step.next s') :
    s.search ≠ [] ∧
    ((jumpsBack s = false ∧ s'.search = [] ∧ s'.nt = s.nt ∧ s'.nn = s.nn ∧ s'.ns = s.ns ∧
        (s'.cn = s.cn ∨ s'.cn ∈ s.cn.children)) ∨
     (jumpsBack s = false ∧ s'.cn ∈ s.cn.children ∧ s'.search.length ≤ s.search.length ∧
        ((s.cn.label = slash ∧ lcp s.search s.cn.pfx = s.cn.pfx.length ∧
            (s'.nt = ntype.ptype ∨ s'.nt = ntype.mtype) ∧ s'.nn = some s.cn ∧
            s'.ns = s.search.drop s.cn.pfx.length ∧ s'.search.length ≤ s'.ns.length) ∨
         (s.cn.label ≠ slash ∧ s'.nt = s.nt ∧ s'.nn = s.nn ∧ s'.ns = s.ns))) ∨
     (jumpsBack s = true ∧ ∃ n, s.nn = some n ∧ s'.cn ∈ n.children ∧
        ((s'.search = [] ∧ s'.nt = s.nt ∧ s'.nn = s.nn ∧ s'.ns = s.ns) ∨
         (s.nt = ntype.ptype ∧ s'.search.length ≤ s.ns.length ∧
           ((n.label = slash ∧ s'.nt = ntype.mtype ∧ s'.nn = some n ∧ s'.ns = s.ns) ∨
            (n.label ≠ slash ∧ s'.nt = s.nt ∧ s'.nn = s.nn ∧ s'.ns = s.ns)))))) := by
  by_cases hs : s.search = []
  · unfold FindStep at h
    rw [if_pos hs] at h
    cases hh : s.cn.handler with
    | none => rw [hh] at h; simp at h
    | some hm =>
      rw [hh] at h
      simp only at h
      cases hg : mapGet? (some hm) m <;> rw [hg] at h <;> simp at h
  refine ⟨hs, ?_⟩
  obtain ⟨L, hL⟩ : ∃ L, L = (if s.cn.label ≠ colon then lcp s.search s.cn.pfx else 0) :=
    ⟨_, rfl⟩
  obtain ⟨P, hP⟩ : ∃ P, P = (if s.cn.label ≠ colon then s.cn.pfx.length else 0) :=
    ⟨_, rfl⟩
  have hjb : jumpsBack s = (decide (L ≠ P) && decide (s.nt ≠ ntype.stype)) := by
    unfold jumpsBack
    rw [← hL, ← hP]
    simp [hs]
  unfold FindStep at h
  rw [if_neg hs] at h
  simp only at h
  rw [← hL, ← hP] at h
  by_cases hlp : L = P
  · have hj : jumpsBack s = false := by rw [hjb]; simp [hlp]
    rw [if_pos hlp] at h
    have hlen : (s.search.drop L).length ≤ s.search.length := by
      simp only [List.length_drop]; omega
    have hslash : s.cn.label = slash →
        lcp s.search s.cn.pfx = s.cn.pfx.length ∧ L = s.cn.pfx.length := by
      intro hl
      have hne : s.cn.label ≠ colon := by rw [hl]; exact slash_ne_colon
      rw [if_pos hne] at hL hP
      rw [← hL, ← hP]
      exact ⟨hlp, hlp ▸ rfl⟩
    by_cases hd : s.search.drop L = []
    · rw [if_pos hd] at h
      cases hf : findChildWithType s.cn ntype.mtype with
      | none =>
        simp only [hf, Option.isNone_none, if_true, Step.next.injEq] at h
        subst h
        exact Or.inl ⟨hj, hd, rfl, rfl, rfl, Or.inl rfl⟩
      | some c =>
        simp only [hf, Option.isNone_some, Bool.false_eq_true, if_false] at h
        obtain ⟨h1, h2, h3, h4, h5⟩ := MatchAny_next _ s' h
        exact Or.inl ⟨hj, h1, h2, h3, h4, Or.inr h5⟩
    · rw [if_neg hd] at h
      cases hf : findChild s.cn ((s.search.drop L).headD 0) ntype.stype with
      | some c =>
        simp only [hf, Step.next.injEq] at h
        have hmem := findChild_mem _ _ _ _ hf
        by_cases hl : s.cn.label = slash
        · simp only [hl, if_true] at h
          subst h
          obtain ⟨h1, h2⟩ := hslash hl
          refine Or.inr (Or.inl ⟨hj, hmem, hlen, Or.inl ⟨hl, h1, Or.inl rfl, rfl, ?_, ?_⟩⟩)
          · show s.search.drop L = _
            rw [h2]
          · exact Nat.le_refl _
        · simp only [hl, if_false] at h
          subst h
          exact Or.inr (Or.inl ⟨hj, hmem, hlen, Or.inr ⟨hl, rfl, rfl, rfl⟩⟩)
      | none =>
        simp only [hf] at h
        obtain ⟨h1, h2⟩ := Param_next _ s' h
        rcases h2 with ⟨h3, h4, h5, h6⟩ | ⟨h3, h4⟩
        · exact Or.inl ⟨hj, h3, h4, h5, h6, Or.inr h1⟩
        · refine Or.inr (Or.inl ⟨hj, h1, Nat.le_trans h3 hlen, ?_⟩)
          rcases h4 with ⟨hl, h5, h6, h7⟩ | ⟨hl, h5, h6, h7⟩
          · obtain ⟨h8, h9⟩ := hslash hl
            refine Or.inl ⟨hl, h8, Or.inr h5, h6, ?_, ?_⟩
            · rw [h7, ← h9]
            · rw [h7]; exact h3
          · exact Or.inr ⟨hl, h5, h6, h7⟩
  · rw [if_neg hlp] at h
    cases hnn : s.nn with
    | none =>
      rw [hnn] at h
      cases hnt : s.nt <;> rw [hnt] at h <;> simp at h
    | some n =>
      rw [hnn] at h
      cases hnt : s.nt with
      | stype => rw [hnt] at h; simp at h
      | ptype =>
        rw [hnt] at h
        simp only at h
        have hj : jumpsBack s = true := by rw [hjb]; simp [hlp, hnt]
        obtain ⟨h1, h2⟩ := Param_next _ s' h
        refine Or.inr (Or.inr ⟨hj, n, rfl, h1, ?_⟩)
        rcases h2 with ⟨h3, h4, h5, h6⟩ | ⟨h3, h4⟩
        · exact Or.inl ⟨h3, h4, h5, h6⟩
        · refine Or.inr ⟨rfl, h3, ?_⟩
          rcases h4 with ⟨hl, h5, h6, h7⟩ | ⟨hl, h5, h6, h7⟩
          · exact Or.inl ⟨hl, h5, h6, h7⟩
          · exact Or.inr ⟨hl, h5, h6, h7⟩
      | mtype =>
        rw [hnt] at h
        simp only at h
        have hj : jumpsBack s = true := by rw [hjb]; simp [hlp, hnt]
        obtain ⟨h1, h2, h3, h4, h5⟩ := MatchAny_next _ s' h
        exact Or.inr (Or.inr ⟨hj, n, rfl, h5, Or.inl ⟨h1, h2, h3, h4⟩⟩)

/-- The ways in which a pass of the loop of `Find` leaves the function: it
returns, or `pvalues[...]` is out of range, or the saved node is nil although
the saved kind names an alternative. -/
theorem FindStep_done_cases {H : Type} (m : Str) (s : FindState H)
    (r : Exec (FindResult H)) (h : FindStep m s = Step.done r) :
    (∃ res, r = Exec.ok res) ∨ (∃ res, r = Exec.panic Panic.indexOutOfRange res) ∨
    (s.nt ≠ ntype.stype ∧ s.nn = none) := by
  have hM : ∀ t : FindState H, MatchAny t = Step.done r →
      (∃ res, r = Exec.ok res) ∨ (∃ res, r = Exec.panic Panic.indexOutOfRange res) := by
    intro t ht
    unfold MatchAny at ht
    cases hf : findChildWithType t.cn ntype.mtype with
    | none =>
      rw [hf] at ht
      simp only [Step.done.injEq] at ht
      exact Or.inl ⟨_, ht.symm⟩
    | some c =>
      rw [hf] at ht
      simp only at ht
      cases hv : setValue t.ctx.pvalues 0 t.search with
      | none =>
        rw [hv] at ht
        simp only [Step.done.injEq] at ht
        exact Or.inr ⟨_, ht.symm⟩
      | some pv => rw [hv] at ht; simp at ht
  have hPa : ∀ t : FindState H, Param t = Step.done r →
      (∃ res, r = Exec.ok res) ∨ (∃ res, r = Exec.panic Panic.indexOutOfRange res) := by
    intro t ht
    unfold Param at ht
    cases hf : findChildWithType t.cn ntype.ptype with
    | none => rw [hf] at ht; exact hM t ht
    | some c =>
      rw [hf] at ht
      simp only at ht
      split at ht
      · simp at ht
      · simp only [Step.done.injEq] at ht
        exact Or.inr ⟨_, ht.symm⟩
  unfold FindStep at h
  by_cases hs : s.search = []
  · rw [if_pos hs] at h
    cases hh : s.cn.handler with
    | none =>
      rw [hh] at h
      simp only [Step.done.injEq] at h
      exact Or.inl ⟨_, h.symm⟩
    | some hm =>
      rw [hh] at h
      simp only at h
      cases hg : mapGet? (some hm) m <;> rw [hg] at h <;>
        simp only [Step.done.injEq] at h <;> exact Or.inl ⟨_, h.symm⟩
  · rw [if_neg hs] at h
    simp only at h
    obtain ⟨L, hL⟩ : ∃ L, L = (if s.cn.label ≠ colon then lcp s.search s.cn.pfx else 0) :=
      ⟨_, rfl⟩
    obtain ⟨P, hP⟩ : ∃ P, P = (if s.cn.label ≠ colon then s.cn.pfx.length else 0) :=
      ⟨_, rfl⟩
    rw [← hL, ← hP] at h
    by_cases hlp : L = P
    · rw [if_pos hlp] at h
      by_cases hd : s.search.drop L = []
      · rw [if_pos hd] at h
        cases hf : findChildWithType s.cn ntype.mtype with
        | none => rw [hf] at h; simp at h
        | some c =>
          simp only [hf, Option.isNone_some, Bool.false_eq_true, if_false] at h
          rcases hM _ h with h1 | h1
          · exact Or.inl h1
          · exact Or.inr (Or.inl h1)
      · rw [if_neg hd] at h
        cases hf : findChild s.cn ((s.search.drop L).headD 0) ntype.stype with
        | some c => rw [hf] at h; simp at h
        | none =>
          simp only [hf] at h
          rcases hPa _ h with h1 | h1
          · exact Or.inl h1
          · exact Or.inr (Or.inl h1)
    · rw [if_neg hlp] at h
      cases hnt : s.nt with
      | stype =>
        rw [hnt] at h
        simp only [Step.done.injEq] at h
        exact Or.inl ⟨_, h.symm⟩
      | ptype =>
        cases hnn : s.nn with
        | none => exact Or.inr (Or.inr ⟨by simp, rfl⟩)
        | some n =>
          rw [hnt, hnn] at h
          rcases hPa _ h with h1 | h1
          · exact Or.inl h1
          · exact Or.inr (Or.inl h1)
      | mtype =>
        cases hnn : s.nn with
        | none => exact Or.inr (Or.inr ⟨by simp, rfl⟩)
        | some n =>
          rw [hnt, hnn] at h
          rcases hM _ h with h1 | h1
          · exact Or.inl h1
          · exact Or.inr (Or.inl h1)

theorem jumpsBack_nt {H : Type} (s : FindState H) (h : jumpsBack s = true) :
    s.nt ≠ ntype.stype := by
  unfold jumpsBack at h
  simp only [Bool.and_eq_true, decide_eq_true_eq] at h
  exact h.2

theorem budget_congr {H : Type} (D : Nat) (s s' : FindState H) (h1 : s'.nt = s.nt)
    (h2 : s'.nn = s.nn) : budget D s' = budget D s := by
  unfold budget
  rw [h1, h2]

theorem budget_ptype {H : Type} (D : Nat) (s : FindState H) (n : node H)
    (h1 : s.nt = ntype.ptype) (h2 : s.nn = some n) : budget D s = 2 * n.height + 1 := by
  unfold budget
  rw [h1, h2]

theorem budget_mtype {H : Type} (D : Nat) (s : FindState H) (n : node H)
    (h1 : s.nt = ntype.mtype) (h2 : s.nn = some n) : budget D s = 2 * n.height := by
  unfold budget
  rw [h1, h2]

theorem budget_stype {H : Type} (D : Nat) (s : FindState H)
    (h1 : s.nt = ntype.stype) : budget D s = 2 * D + 2 := by
  unfold budget
  rw [h1]
  cases s.nn <;> rfl

/-- The budget of a state whose saved node lies above the current node
covers a save at the current node. -/
theorem budget_ge {H : Type} (D : Nat) (s : FindState H) (hinv : Saved D s) :
    2 * s.cn.height + 1 ≤ budget D s := by
  obtain ⟨hc, hn⟩ := hinv
  rcases hn with hn | ⟨n, hnn, _, hlt, _⟩
  · rw [budget_stype D s hn]; omega
  · cases hnt : s.nt with
    | stype => rw [budget_stype D s hnt]; omega
    | ptype => rw [budget_ptype D s n hnt hnn]; omega
    | mtype => rw [budget_mtype D s n hnt hnn]; omega

theorem potential_le {H : Type} (D : Nat) (s : FindState H) :
    potential D s ≤ 2 + budget D s * (D + 1) + s.cn.height := by
  unfold potential
  split <;> omega

theorem potential_pos {H : Type} (D : Nat) (s : FindState H) : 1 ≤ potential D s := by
  unfold potential
  split <;> omega

theorem potential_of_search {H : Type} (D : Nat) (s : FindState H) (h : s.search ≠ []) :
    potential D s = 2 + budget D s * (D + 1) + s.cn.height := by
  unfold potential
  rw [if_neg h]

theorem potential_nil {H : Type} (D : Nat) (s : FindState H) (h : s.search = []) :
    potential D s = 1 := by
  unfold potential
  rw [if_pos h]

/-- A pass of the loop of `Find` that goes on keeps the saved point above
the current node and makes the potential smaller. -/
theorem FindStep_potential {H : Type} (m : Str) (D : Nat) (s s' : FindState H)
    (hinv : Saved D s) (h : FindStep m s = Step.next s') :
    Saved D s' ∧ potential D s' < potential D s := by
  obtain ⟨hs, hcases⟩ := FindStep_next_cases m s s' h
  have hΦ := potential_of_search D s hs
  have hle := potential_le D s'
  have hbg := budget_ge D s hinv
  obtain ⟨hc, hn⟩ := hinv
  rcases hcases with ⟨_, h1, h2, h3, _, h5⟩ | ⟨_, hmem, _, hsave⟩ | ⟨hj, n, hnn, hmem, hsub⟩
  · have hh : s'.cn.height ≤ s.cn.height := by
      rcases h5 with h5 | h5
      · rw [h5]
      · exact Nat.le_of_lt (child_height_lt _ _ h5)
    refine ⟨⟨Nat.le_trans hh hc, ?_⟩, ?_⟩
    · rcases hn with hn | ⟨n, hnn, hl, hlt, hD⟩
      · exact Or.inl (h2.trans hn)
      · exact Or.inr ⟨n, h3.trans hnn, hl, Nat.lt_of_le_of_lt hh hlt, hD⟩
    · rw [potential_nil D s' h1, hΦ]; omega
  · have hh := child_height_lt _ _ hmem
    rcases hsave with ⟨hl, _, hnt, hnn', _, _⟩ | ⟨_, h2, h3, _⟩
    · refine ⟨⟨by omega, Or.inr ⟨s.cn, hnn', hl, hh, hc⟩⟩, ?_⟩
      have hb : budget D s' ≤ budget D s := by
        rcases hnt with hnt | hnt
        · rw [budget_ptype D s' s.cn hnt hnn']; exact hbg
        · rw [budget_mtype D s' s.cn hnt hnn']; omega
      have := Nat.mul_le_mul_right (D + 1) hb
      rw [hΦ]
      omega
    · refine ⟨⟨by omega, ?_⟩, ?_⟩
      · rcases hn with hn | ⟨n, hnn, hl, hlt, hD⟩
        · exact Or.inl (h2.trans hn)
        · exact Or.inr ⟨n, h3.trans hnn, hl, by omega, hD⟩
      · rw [hΦ, ← budget_congr D s s' h2 h3]
        omega
  · have hnt := jumpsBack_nt s hj
    rcases hn with hn | ⟨n0, hnn0, hl, hlt, hD⟩
    · exact absurd hn hnt
    · rw [hnn] at hnn0
      cases hnn0
      have hh := child_height_lt _ _ hmem
      rcases hsub with ⟨h1, h2, h3, _⟩ | ⟨hp, _, hsave⟩
      · refine ⟨⟨by omega, Or.inr ⟨n, h3.trans hnn, hl, hh, hD⟩⟩, ?_⟩
        rw [potential_nil D s' h1, hΦ]; omega
      · rcases hsave with ⟨_, h2, h3, _⟩ | ⟨hl', _⟩
        · refine ⟨⟨by omega, Or.inr ⟨n, h3, hl, hh, hD⟩⟩, ?_⟩
          rw [hΦ, budget_ptype D s n hp hnn]
          rw [budget_mtype D s' n h2 h3] at hle
          rw [Nat.add_mul, Nat.one_mul]
          omega
        · exact absurd hl hl'

/-- The loop of `Find` is over after as many passes as the potential says: it
returns, or it panics on `pvalues[...]`. -/
theorem FindLoop_halts {H : Type} (m : Str) (D : Nat) :
    ∀ (fuel : Nat) (s : FindState H), Saved D s → potential D s ≤ fuel →
      ∃ res, FindLoop m fuel s = Exec.ok res ∨
        FindLoop m fuel s = Exec.panic Panic.indexOutOfRange res := by
  intro fuel
  induction fuel with
  | zero =>
    intro s _ hp
    have := potential_pos D s
    omega
  | succ f ih =>
    intro s hinv hp
    rw [FindLoop_succ]
    cases hstep : FindStep m s with
    | next s' =>
      obtain ⟨h1, h2⟩ := FindStep_potential m D s s' hinv hstep
      exact ih s' h1 (by omega)
    | done r =>
      rcases FindStep_done_cases m s r hstep with ⟨res, hr⟩ | ⟨res, hr⟩ | ⟨hnt, hnn⟩
      · exact ⟨res, Or.inl hr⟩
      · exact ⟨res, Or.inr hr⟩
      · rcases hinv.2 with h1 | ⟨n, h1, _⟩
        · exact absurd h1 hnt
        · rw [hnn] at h1; cases h1

theorem Saved_start {H : Type} (r : Router H) (q : Str) (ctx : Context) :
    Saved r.tree.height (startState r q ctx) :=
  ⟨Nat.le_refl _, Or.inl rfl⟩

theorem potential_start {H : Type} (r : Router H) (q : Str) (ctx : Context) :
    potential r.tree.height (startState r q ctx) < findFuel r.tree := by
  have h1 := potential_le r.tree.height (startState r q ctx)
  rw [budget_stype _ _ rfl] at h1
  have h2 : (startState r q ctx).cn.height = r.tree.height := rfl
  rw [h2] at h1
  unfold findFuel
  have h3 : 2 * (r.tree.height + 1) * (r.tree.height + 1)
      = (2 * r.tree.height + 2) * (r.tree.height + 1) := by ring
  omega

/-- More passes do not change a lookup that is over. -/
theorem FindLoop_stable {H : Type} (method : Str) :
    ∀ (fuel k : Nat) (s : FindState H),
      FindLoop method fuel s ≠ Exec.timeout →
      FindLoop method (fuel + k) s = FindLoop method fuel s := by
  intro fuel
  induction fuel with
  | zero => intro k s h; exact absurd rfl h
  | succ f ih =>
    intro k s h
    have e : f + 1 + k = (f + k) + 1 := by omega
    rw [e, FindLoop_succ, FindLoop_succ]
    rw [FindLoop_succ] at h
    cases hs : FindStep method s with
    | next s' => rw [hs] at h; exact ih k s' h
    | done r => rfl

/-- The loop of `Find`, started at the root, is over within `findFuel`
passes. -/
theorem FindLoop_start_halts {H : Type} (r : Router H) (m q : Str) (ctx : Context) :
    ∃ res, FindLoop m (findFuel r.tree) (startState r q ctx) = Exec.ok res ∨
      FindLoop m (findFuel r.tree) (startState r q ctx)
        = Exec.panic Panic.indexOutOfRange res :=
  FindLoop_halts m r.tree.height _ _ (Saved_start r q ctx)
    (Nat.le_of_lt (potential_start r q ctx))

/-- `Find` returns or panics with an index out of range; it does not run out
of passes. -/
theorem Find_halts {H : Type} (r : Router H) (m path : Str) (ctx : Context) :
    ∃ res, Find r m path ctx = Exec.ok res ∨
      Find r m path ctx = Exec.panic Panic.indexOutOfRange res := by
  unfold Find
  cases hv : validMethod m with
  | false =>
    simp only [Bool.not_false, if_true]
    exact ⟨_, Or.inl rfl⟩
  | true =>
    simp only [Bool.not_true, Bool.false_eq_true, if_false]
    cases hst : r.vodka.stripTrailingSlash with
    | false =>
      simp only [Bool.false_eq_true, if_false]
      exact FindLoop_start_halts r m path ctx
    | true =>
      simp only [if_true]
      cases hl : path.getLast? with
      | none => exact ⟨_, Or.inr rfl⟩
      | some b =>
        simp only
        by_cases hb : b = slash
        · rw [if_pos hb]
          exact FindLoop_start_halts r m path.dropLast ctx
        · rw [if_neg hb]
          exact FindLoop_start_halts r m path ctx

theorem self_mem_nodes {H : Type} (n : node H) : n ∈ n.nodes := by
  rw [nodes_eq]
  exact List.mem_cons_self _ _

theorem nodesList_of_mem {H : Type} (x c : node H) :
    ∀ cs : List (node H), c ∈ cs → x ∈ c.nodes → x ∈ nodesList cs := by
  intro cs
  induction cs with
  | nil => intro h; cases h
  | cons d ds ih =>
    intro h hx
    rw [nodesList, List.mem_append]
    rcases List.mem_cons.mp h with h0 | h0
    · left; rw [← h0]; exact hx
    · right; exact ih h0 hx

theorem nodes_of_child {H : Type} (n c x : node H) (hc : c ∈ n.children)
    (hx : x ∈ c.nodes) : x ∈ n.nodes := by
  rw [nodes_eq]
  exact List.mem_cons_of_mem _ (nodesList_of_mem x c _ hc hx)

theorem SlashOk_child {H : Type} (n c : node H) (h : SlashOk n) (hc : c ∈ n.children) :
    SlashOk c :=
  fun x hx => h x (nodes_of_child n c x hc hx)

theorem pairLe_refl (a : Nat × Nat) : pairLe a a := Or.inr ⟨rfl, Nat.le_refl _⟩

theorem pairLe_of_lt (a b : Nat × Nat) (h : pairLt a b) : pairLe a b := by
  rcases h with h | ⟨h1, h2⟩
  · exact Or.inl h
  · exact Or.inr ⟨h1, Nat.le_of_lt h2⟩

theorem pairLe_trans (a b c : Nat × Nat) (h1 : pairLe a b) (h2 : pairLe b c) :
    pairLe a c := by
  unfold pairLe at *
  omega

theorem pairLt_of_le_of_lt (a b c : Nat × Nat) (h1 : pairLe a b) (h2 : pairLt b c) :
    pairLt a c := by
  unfold pairLe at h1
  unfold pairLt at *
  omega

theorem pair_congr {H : Type} (s s' : FindState H) (h1 : s'.nt = s.nt) (h2 : s'.ns = s.ns) :
    s'.pair = s.pair := by
  unfold FindState.pair
  rw [h1, h2]

theorem backtracks_succ {H : Type} (m : Str) (fuel : Nat) (s : FindState H) :
    backtracks m (fuel + 1) s =
      if jumpsBack s then
        s.pair :: (match FindStep m s with
          | Step.next s' => backtracks m fuel s'
          | Step.done _ => [])
      else (match FindStep m s with
          | Step.next s' => backtracks m fuel s'
          | Step.done _ => []) := rfl

theorem jumpsBack_nil {H : Type} (s : FindState H) (h : s.search = []) :
    jumpsBack s = false := by
  unfold jumpsBack
  simp [h]

/-- Once the search string is used up, the loop does not go back. -/
theorem backtracks_nil {H : Type} (m : Str) (fuel : Nat) (s : FindState H)
    (h : s.search = []) : backtracks m fuel s = [] := by
  cases fuel with
  | zero => rfl
  | succ f =>
    rw [backtracks_succ, jumpsBack_nil s h]
    simp only [Bool.false_eq_true, if_false]
    cases hstep : FindStep m s with
    | next s' => exact absurd h (FindStep_next_cases m s s' hstep).1
    | done r => rfl

/-- A pass of the loop of `Find` that goes on keeps the saved search string
at least as long as the current one; the pair of the saved point does not
grow, and it shrinks when the pass goes back to the saved point. -/
theorem FindStep_traced {H : Type} (m : Str) (s s' : FindState H) (ht : Traced s)
    (h : FindStep m s = Step.next s') :
    Traced s' ∧ (s.nt ≠ ntype.stype → s'.nt ≠ ntype.stype ∧ pairLe s'.pair s.pair) ∧
    (jumpsBack s = true → s'.search = [] ∨ pairLt s'.pair s.pair) := by
  obtain ⟨hs, hcases⟩ := FindStep_next_cases m s s' h
  obtain ⟨hok, hnnok, hsv⟩ := ht
  rcases hcases with ⟨hj, h1, h2, h3, h4, h5⟩ | ⟨hj, hmem, hlen, hsave⟩ |
    ⟨hj, n, hnn, hmem, hsub⟩
  · have hok' : SlashOk s'.cn := by
      rcases h5 with h5 | h5
      · rw [h5]; exact hok
      · exact SlashOk_child _ _ hok h5
    refine ⟨⟨hok', ?_, ?_⟩, ?_, ?_⟩
    · intro n hn; rw [h3] at hn; exact hnnok n hn
    · intro hnt
      rw [h2] at hnt
      rw [h3, h1]
      exact ⟨(hsv hnt).1, Nat.zero_le _⟩
    · intro hnt
      rw [h2, pair_congr s s' h2 h4]
      exact ⟨hnt, pairLe_refl _⟩
    · intro hj'; rw [hj] at hj'; cases hj'
  · have hok' : SlashOk s'.cn := SlashOk_child _ _ hok hmem
    rcases hsave with ⟨hl, hlcp, hnt', hnn', hns', hlen'⟩ | ⟨_, h2, h3, h4⟩
    · have hnt2 : s'.nt ≠ ntype.stype := by
        rcases hnt' with h0 | h0 <;> rw [h0] <;> decide
      refine ⟨⟨hok', ?_, ?_⟩, ?_, ?_⟩
      · intro n hn
        rw [hnn'] at hn
        cases hn
        exact hok
      · intro _
        exact ⟨⟨s.cn, hnn', hl⟩, hlen'⟩
      · intro hnt
        refine ⟨hnt2, Or.inl ?_⟩
        have hp : s.cn.pfx ≠ [] := hok s.cn (self_mem_nodes _) hl
        have hp1 : 0 < s.cn.pfx.length := List.length_pos.mpr hp
        have hs1 : 0 < s.search.length := List.length_pos.mpr hs
        have h6 := (hsv hnt).2
        show s'.ns.length < s.ns.length
        rw [hns', List.length_drop]
        omega
      · intro hj'; rw [hj] at hj'; cases hj'
    · refine ⟨⟨hok', ?_, ?_⟩, ?_, ?_⟩
      · intro n hn; rw [h3] at hn; exact hnnok n hn
      · intro hnt
        rw [h2] at hnt
        rw [h3, h4]
        exact ⟨(hsv hnt).1, Nat.le_trans hlen (hsv hnt).2⟩
      · intro hnt
        rw [h2, pair_congr s s' h2 h4]
        exact ⟨hnt, pairLe_refl _⟩
      · intro hj'; rw [hj] at hj'; cases hj'
  · have hnt := jumpsBack_nt s hj
    have hokn : SlashOk n := hnnok n hnn
    have hok' : SlashOk s'.cn := SlashOk_child _ _ hokn hmem
    obtain ⟨⟨n0, hnn0, hl⟩, hlen0⟩ := hsv hnt
    rw [hnn] at hnn0
    cases hnn0
    rcases hsub with ⟨h1, h2, h3, h4⟩ | ⟨hp, hlen, hsave⟩
    · refine ⟨⟨hok', ?_, ?_⟩, ?_, ?_⟩
      · intro n1 hn; rw [h3] at hn; exact hnnok n1 hn
      · intro _
        rw [h3, h1]
        exact ⟨⟨n, hnn, hl⟩, Nat.zero_le _⟩
      · intro _
        rw [h2, pair_congr s s' h2 h4]
        exact ⟨hnt, pairLe_refl _⟩
      · intro _; exact Or.inl h1
    · rcases hsave with ⟨_, h2, h3, h4⟩ | ⟨hl', _⟩
      · have hlt : pairLt s'.pair s.pair := by
          unfold pairLt FindState.pair
          rw [h2, h4, hp]
          exact Or.inr ⟨rfl, (by decide : altRank ntype.mtype < altRank ntype.ptype)⟩
        refine ⟨⟨hok', ?_, ?_⟩, ?_, ?_⟩
        · intro n1 hn
          rw [h3] at hn
          cases hn
          exact hokn
        · intro _
          rw [h4]
          exact ⟨⟨n, h3, hl⟩, hlen⟩
        · intro _
          refine ⟨?_, pairLe_of_lt _ _ hlt⟩
          rw [h2]; decide
        · intro _; exact Or.inr hlt
      · exact absurd hl hl'

/-- No later jump back has a larger pair than the present saved point. -/
theorem backtracks_bound {H : Type} (m : Str) :
    ∀ (fuel : Nat) (s : FindState H), Traced s → s.nt ≠ ntype.stype →
      ∀ x ∈ backtracks m fuel s, pairLe x s.pair := by
  intro fuel
  induction fuel with
  | zero => intro s _ _ x hx; cases hx
  | succ f ih =>
    intro s ht hnt x hx
    rw [backtracks_succ] at hx
    have hrest : ∀ y ∈ (match FindStep m s with
          | Step.next s' => backtracks m f s'
          | Step.done _ => []), pairLe y s.pair := by
      intro y hy
      cases hstep : FindStep m s with
      | done r => rw [hstep] at hy; cases hy
      | next s' =>
        rw [hstep] at hy
        obtain ⟨ht', h2, _⟩ := FindStep_traced m s s' ht hstep
        obtain ⟨hnt', hle⟩ := h2 hnt
        exact pairLe_trans _ _ _ (ih s' ht' hnt' y hy) hle
    cases hj : jumpsBack s with
    | false =>
      rw [hj] at hx
      exact hrest x hx
    | true =>
      rw [hj] at hx
      simp only [if_true, List.mem_cons] at hx
      rcases hx with hx | hx
      · rw [hx]; exact pairLe_refl _
      · exact hrest x hx

/-- The pairs of the saved points at successive jumps back strictly
decrease. -/
theorem backtracks_chain {H : Type} (m : Str) :
    ∀ (fuel : Nat) (s : FindState H), Traced s →
      (backtracks m fuel s).Chain' (fun a b => pairLt b a) := by
  intro fuel
  induction fuel with
  | zero => intro s _; exact List.chain'_nil
  | succ f ih =>
    intro s ht
    rw [backtracks_succ]
    cases hstep : FindStep m s with
    | done r =>
      simp only
      cases hj : jumpsBack s
      · simp
      · simp
    | next s' =>
      simp only
      obtain ⟨ht', h2, h3⟩ := FindStep_traced m s s' ht hstep
      cases hj : jumpsBack s with
      | false =>
        simp only [Bool.false_eq_true, if_false]
        exact ih s' ht'
      | true =>
        simp only [if_true]
        rw [List.chain'_cons']
        refine ⟨?_, ih s' ht'⟩
        intro y hy
        have hy' : y ∈ backtracks m f s' := List.mem_of_mem_head? hy
        have hnt := jumpsBack_nt s hj
        rcases h3 hj with h4 | h4
        · rw [backtracks_nil m f s' h4] at hy'
          cases hy'
        · exact pairLt_of_le_of_lt _ _ _ (backtracks_bound m f s' ht' (h2 hnt).1 y hy') h4

theorem Alloc.hasMap {H : Type} {n : node H} (h : Alloc n) : n.handler ≠ none := by
  cases h with
  | mk _ h1 _ => exact h1

theorem Alloc.kids {H : Type} {n : node H} (h : Alloc n) :
    ∀ c ∈ n.children, Alloc c := by
  cases h with
  | mk _ _ h2 => exact h2

theorem Labelled_rootOk {H : Type} (t : node H) (h : Labelled t) : RootOk t := Or.inr h

/-- After a pass of `insert` that returns, the node it started at has a
non-empty prefix whose first byte is its label. -/
theorem insertLoop_labelled {H : Type} (m : Str) (h : HandlerFunc H) (t : ntype)
    (pn : List Str) (e : Bool) (f : Nat) (cn : node H) (s : Str) (cn' : node H)
    (hr : RootOk cn) (hres : insertLoop m h t pn e (f + 1) cn s = Exec.ok cn') :
    Labelled cn' := by
  have hlab : lcp s cn.pfx ≠ 0 → Labelled cn := by
    intro hl
    rcases hr with ⟨hp, _⟩ | hr
    · rw [hp, lcp_nil_right] at hl
      exact absurd rfl hl
    · exact hr
  rcases insertLoop_ok_cases m h t pn e f cn s cn' hres with
    ⟨_, hs, rfl⟩ | ⟨hl0, _, _, rfl⟩ | ⟨hl0, _, _, rfl⟩ | ⟨hl0, _, _, c, c', _, _, rfl⟩ |
    ⟨hl0, _, _, _, rfl⟩ | ⟨hl0, _, _, hex⟩
  · cases h.isNil
    · exact ⟨hs, rfl⟩
    · exact ⟨hs, rfl⟩
  · exact ⟨take_ne_nil _ _ hl0 (hlab hl0).1, (headD_take _ _ hl0).symm⟩
  · exact ⟨take_ne_nil _ _ hl0 (hlab hl0).1, (headD_take _ _ hl0).symm⟩
  · exact hlab hl0
  · exact hlab hl0
  · rcases hex with ⟨_, rfl⟩ | ⟨_, hm, _, rfl⟩
    · exact hlab hl0
    · exact hlab hl0

theorem insert_labelled {H : Type} (r r' : Router H) (m s : Str) (h : HandlerFunc H)
    (t : ntype) (pn : List Str) (hr : RootOk r.tree)
    (hres : insert r m s h t pn = Exec.ok r') : Labelled r'.tree :=
  insertLoop_labelled m h t pn true _ r.tree s r'.tree hr (insert_ok_tree r r' m s h t pn hres)

theorem Alloc_mkNode {H : Type} (t : ntype) (pre : Str) (cs : List (node H))
    (h : HandlerFunc H) (pn : List Str) (e : Bool) (m : Str)
    (hcs : ∀ c ∈ cs, Alloc c) : Alloc (mkNode t pre cs h pn e m) :=
  Alloc.mk _ (by simp [mkNode]) hcs

/-- A pass of `insert` leaves every handler map allocated. -/
theorem insertLoop_alloc {H : Type} (m : Str) (h : HandlerFunc H) (t : ntype)
    (pn : List Str) (e : Bool) :
    ∀ (fuel : Nat) (cn : node H) (s : Str) (cn' : node H), Alloc cn →
      insertLoop m h t pn e fuel cn s = Exec.ok cn' → Alloc cn' := by
  intro fuel
  induction fuel with
  | zero => intro cn s cn' _ hres; simp [insertLoop] at hres
  | succ f ih =>
    intro cn s cn' ha hres
    rcases insertLoop_ok_cases m h t pn e f cn s cn' hres with
      ⟨_, hs, rfl⟩ | ⟨hl0, _, _, rfl⟩ | ⟨hl0, _, _, rfl⟩ | ⟨hl0, _, _, c, c', hf, hrec, rfl⟩ |
      ⟨hl0, _, _, _, rfl⟩ | ⟨hl0, _, _, hex⟩
    · cases h.isNil
      · exact Alloc.mk _ (by simp) ha.kids
      · exact Alloc.mk _ ha.hasMap ha.kids
    · refine Alloc.mk _ (by simp) ?_
      intro c hc
      simp only [List.mem_singleton] at hc
      rw [hc]
      exact Alloc_mkNode _ _ _ _ _ _ _ ha.kids
    · refine Alloc.mk _ (by simp) ?_
      intro c hc
      simp only [List.mem_cons, List.mem_singleton, List.not_mem_nil, or_false] at hc
      rcases hc with hc | hc
      · rw [hc]
        exact Alloc_mkNode _ _ _ _ _ _ _ ha.kids
      · rw [hc]
        exact Alloc_mkNode _ _ _ _ _ _ _ (fun c hc => by cases hc)
    · refine Alloc.mk _ ha.hasMap ?_
      intro x hx
      rcases mem_replace _ _ _ _ hx with h0 | h0
      · rw [h0]
        exact ih c _ c' (ha.kids c (find_label_some _ _ _ hf).1) hrec
      · exact ha.kids x h0
    · refine Alloc.mk _ ha.hasMap ?_
      intro x hx
      simp only [addChild, List.mem_append, List.mem_singleton] at hx
      rcases hx with h0 | h0
      · exact ha.kids x h0
      · rw [h0]
        exact Alloc_mkNode _ _ _ _ _ _ _ (fun c hc => by cases hc)
    · rcases hex with ⟨_, rfl⟩ | ⟨_, hm, _, rfl⟩
      · exact ha
      · exact Alloc.mk _ (by simp) ha.kids

theorem insert_alloc {H : Type} (r r' : Router H) (m s : Str) (h : HandlerFunc H)
    (t : ntype) (pn : List Str) (hr : Alloc r.tree)
    (hres : insert r m s h t pn = Exec.ok r') : Alloc r'.tree :=
  insertLoop_alloc m h t pn true _ r.tree s r'.tree hr (insert_ok_tree r r' m s h t pn hres)

/-- A pass of `insert` on a tree whose maps are allocated, with a non-empty
search string and enough passes left, returns: it reads no first byte of an
empty string and writes to no nil map. -/
theorem insertLoop_total {H : Type} (m : Str) (h : HandlerFunc H) (t : ntype)
    (pn : List Str) (e : Bool) :
    ∀ (fuel : Nat) (cn : node H) (s : Str), Alloc cn → s ≠ [] → s.length < fuel →
      ∃ cn', insertLoop m h t pn e fuel cn s = Exec.ok cn' := by
  intro fuel
  induction fuel with
  | zero => intro cn s _ _ hf; omega
  | succ f ih =>
    intro cn s ha hs hf
    by_cases hl0 : lcp s cn.pfx = 0
    · exact ⟨_, insertLoop_root m h t pn e f cn s hl0 hs⟩
    · by_cases hl1 : lcp s cn.pfx < cn.pfx.length
      · by_cases hl2 : lcp s cn.pfx = s.length
        · exact ⟨_, insertLoop_split_parent m h t pn e f cn s hl0 hl1 hl2⟩
        · exact ⟨_, insertLoop_split_child m h t pn e f cn s hl0 hl1 hl2⟩
      · by_cases hl2 : lcp s cn.pfx < s.length
        · rw [insertLoop_descend m h t pn e f cn s hl0 hl1 hl2]
          cases hfc : findChildWithLabel cn ((s.drop (lcp s cn.pfx)).headD 0) with
          | none => exact ⟨_, rfl⟩
          | some c =>
            simp only
            have hlen : (s.drop (lcp s cn.pfx)).length < f := by
              simp only [List.length_drop]
              omega
            obtain ⟨c', hc'⟩ := ih c (s.drop (lcp s cn.pfx))
              (ha.kids c (find_label_some _ _ _ hfc).1) (drop_lcp_ne_nil s cn.pfx hl2) hlen
            rw [hc']
            exact ⟨_, rfl⟩
        · rw [insertLoop_exists m h t pn e f cn s hl0 hl1 hl2]
          cases hn : h.isNil
          · cases hh : cn.handler with
            | none => exact absurd hh ha.hasMap
            | some hm =>
              simp only [Bool.false_eq_true, if_false]
              exact ⟨_, rfl⟩
          · simp only [if_true]
            exact ⟨_, rfl⟩

/-- `insert` with a valid method and a non-empty path returns on a tree
whose maps are allocated. -/
theorem insert_total {H : Type} (r : Router H) (m s : Str) (h : HandlerFunc H) (t : ntype)
    (pn : List Str) (hm : validMethod m = true) (ha : Alloc r.tree) (hs : s ≠ []) :
    ∃ r', insert r m s h t pn = Exec.ok r' := by
  obtain ⟨cn, hcn⟩ := insertLoop_total m h t pn true (s.length + 1) r.tree s ha hs
    (Nat.lt_succ_self _)
  exact ⟨_, insert_of_loop r m s h t pn cn hm hcn⟩

theorem insert_final_preserves {H : Type} (P : node H → Prop)
    (hP : ∀ (r r' : Router H) (m s : Str) (h : HandlerFunc H) (t : ntype) (pn : List Str),
      P r.tree → insert r m s h t pn = Exec.ok r' → P r'.tree)
    (r r' : Router H) (m s : Str) (h : HandlerFunc H) (t : ntype) (pn : List Str)
    (hr : P r.tree) (hres : (insert r m s h t pn).final = some r') : P r'.tree := by
  cases h1 : insert r m s h t pn with
  | ok r1 =>
    rw [h1] at hres
    simp only [Exec.final, Option.some.injEq] at hres
    subst hres
    exact hP r r1 m s h t pn hr h1
  | panic q r1 =>
    rw [h1] at hres
    simp only [Exec.final, Option.some.injEq] at hres
    subst hres
    rw [insert_panic_tree r r1 m s h t pn q h1]
    exact hr
  | timeout => rw [h1] at hres; simp [Exec.final] at hres

/-- What every `insert` that returns keeps true of the tree, the loop of
`Add` keeps true, whether it returns or panics on the way. -/
theorem AddLoop_preserves {H : Type} (P : node H → Prop)
    (hP : ∀ (r r' : Router H) (m s : Str) (h : HandlerFunc H) (t : ntype) (pn : List Str),
      P r.tree → insert r m s h t pn = Exec.ok r' → P r'.tree)
    (m : Str) (h : HandlerFunc H) :
    ∀ (fuel : Nat) (r : Router H) (path : Str) (i : Nat) (pn : List Str) (r' : Router H),
      P r.tree → (AddLoop m h fuel r path i pn).final = some r' → P r'.tree := by
  intro fuel
  induction fuel with
  | zero => intro r path i pn r' _ hres; simp [AddLoop, Exec.final] at hres
  | succ f ih =>
    intro r path i pn r' hr hres
    by_cases hi : i < path.length
    · by_cases hc : path.getD i 0 = colon
      · obtain ⟨pre, name, tail, rfl, rfl, hname, htail⟩ := split_at_colon path i hi hc
        rw [AddLoop_colon m h f r pre name tail pn hname htail] at hres
        cases h1 : insert r m pre HandlerFunc.nil ntype.stype [] with
        | ok r1 =>
          rw [h1] at hres
          simp only at hres
          have hr1 := hP r r1 m pre _ _ _ hr h1
          by_cases ht : tail = []
          · simp only [ht, if_true] at hres
            exact insert_final_preserves P hP r1 r' m _ h _ _ hr1 hres
          · simp only [ht, if_false] at hres
            cases h2 : insert r1 m (pre ++ [colon]) HandlerFunc.nil ntype.ptype (pn ++ [name])
              with
            | ok r2 =>
              rw [h2] at hres
              simp only at hres
              exact ih _ _ _ _ _ (hP r1 r2 m _ _ _ _ hr1 h2) hres
            | panic q r2 =>
              rw [h2] at hres
              simp only [Exec.final, Option.some.injEq] at hres
              subst hres
              rw [insert_panic_tree r1 r2 m _ _ _ _ q h2]
              exact hr1
            | timeout => rw [h2] at hres; simp [Exec.final] at hres
        | panic q r1 =>
          rw [h1] at hres
          simp only [Exec.final, Option.some.injEq] at hres
          subst hres
          rw [insert_panic_tree r r1 m _ _ _ _ q h1]
          exact hr
        | timeout => rw [h1] at hres; simp [Exec.final] at hres
      · by_cases hs : path.getD i 0 = star
        · obtain ⟨pre, rest, rfl, rfl⟩ := split_at_star path i hi hs
          rw [AddLoop_star m h f r pre rest pn] at hres
          cases h1 : insert r m pre HandlerFunc.nil ntype.stype [] with
          | ok r1 =>
            rw [h1] at hres
            simp only at hres
            exact insert_final_preserves P hP r1 r' m _ h _ _ (hP r r1 m pre _ _ _ hr h1) hres
          | panic q r1 =>
            rw [h1] at hres
            simp only [Exec.final, Option.some.injEq] at hres
            subst hres
            rw [insert_panic_tree r r1 m _ _ _ _ q h1]
            exact hr
          | timeout => rw [h1] at hres; simp [Exec.final] at hres
        · rw [AddLoop] at hres
          simp only [hi, hc, hs, if_true, if_false] at hres
          exact ih _ _ _ _ _ hr hres
    · rw [AddLoop] at hres
      simp only [hi, if_false] at hres
      exact insert_final_preserves P hP r r' m _ h _ _ hr hres

/-- What every `insert` that returns establishes, holds after a loop of
`Add` that returns: the loop ends with an `insert`. -/
theorem AddLoop_establishes {H : Type} (P Q : node H → Prop)
    (hPQ : ∀ (r r' : Router H) (m s : Str) (h : HandlerFunc H) (t : ntype) (pn : List Str),
      P r.tree → insert r m s h t pn = Exec.ok r' → Q r'.tree)
    (hQP : ∀ t, Q t → P t) (m : Str) (h : HandlerFunc H) :
    ∀ (fuel : Nat) (r : Router H) (path : Str) (i : Nat) (pn : List Str) (r' : Router H),
      P r.tree → AddLoop m h fuel r path i pn = Exec.ok r' → Q r'.tree := by
  intro fuel
  induction fuel with
  | zero => intro r path i pn r' _ hres; simp [AddLoop] at hres
  | succ f ih =>
    intro r path i pn r' hr hres
    by_cases hi : i < path.length
    · by_cases hc : path.getD i 0 = colon
      · obtain ⟨pre, name, tail, rfl, rfl, hname, htail⟩ := split_at_colon path i hi hc
        rw [AddLoop_colon m h f r pre name tail pn hname htail] at hres
        cases h1 : insert r m pre HandlerFunc.nil ntype.stype [] with
        | ok r1 =>
          rw [h1] at hres
          simp only at hres
          have hr1 := hQP _ (hPQ r r1 m pre _ _ _ hr h1)
          by_cases ht : tail = []
          · simp only [ht, if_true] at hres
            exact hPQ r1 r' m _ h _ _ hr1 hres
          · simp only [ht, if_false] at hres
            cases h2 : insert r1 m (pre ++ [colon]) HandlerFunc.nil ntype.ptype (pn ++ [name])
              with
            | ok r2 =>
              rw [h2] at hres
              simp only at hres
              exact ih _ _ _ _ _ (hQP _ (hPQ r1 r2 m _ _ _ _ hr1 h2)) hres
            | panic q r2 => rw [h2] at hres; simp at hres
            | timeout => rw [h2] at hres; simp at hres
        | panic q r1 => rw [h1] at hres; simp at hres
        | timeout => rw [h1] at hres; simp at hres
      · by_cases hs : path.getD i 0 = star
        · obtain ⟨pre, rest, rfl, rfl⟩ := split_at_star path i hi hs
          rw [AddLoop_star m h f r pre rest pn] at hres
          cases h1 : insert r m pre HandlerFunc.nil ntype.stype [] with
          | ok r1 =>
            rw [h1] at hres
            simp only at hres
            exact hPQ r1 r' m _ h _ _ (hQP _ (hPQ r r1 m pre _ _ _ hr h1)) hres
          | panic q r1 => rw [h1] at hres; simp at hres
          | timeout => rw [h1] at hres; simp at hres
        · rw [AddLoop] at hres
          simp only [hi, hc, hs, if_true, if_false] at hres
          exact ih _ _ _ _ _ hr hres
    · rw [AddLoop] at hres
      simp only [hi, if_false] at hres
      exact hPQ r r' m _ h _ _ hr hres

/-- The loop of `Add` returns when the method is valid, the maps of the tree
are allocated, and the pattern is not empty and does not start with `':'` or
`'*'`: every `insert` it calls gets a non-empty path. -/
theorem AddLoop_total {H : Type} (m : Str) (hm : validMethod m = true) (h : HandlerFunc H) :
    ∀ (fuel : Nat) (r : Router H) (path : Str) (i : Nat) (pn : List Str),
      Alloc r.tree → path ≠ [] →
      (0 < i ∨ (path.getD 0 0 ≠ colon ∧ path.getD 0 0 ≠ star)) →
      path.length - i < fuel →
      ∃ r', AddLoop m h fuel r path i pn = Exec.ok r' := by
  intro fuel
  induction fuel with
  | zero => intro r path i pn _ _ _ hf; omega
  | succ f ih =>
    intro r path i pn ha hp h0 hf
    by_cases hi : i < path.length
    · by_cases hc : path.getD i 0 = colon
      · obtain ⟨pre, name, tail, rfl, rfl, hname, htail⟩ := split_at_colon path i hi hc
        have hpre : pre ≠ [] := by
          intro hpre
          subst hpre
          rcases h0 with h0 | h0
          · simp at h0
          · exact h0.1 rfl
        rw [AddLoop_colon m h f r pre name tail pn hname htail]
        obtain ⟨r1, h1⟩ := insert_total r m pre HandlerFunc.nil ntype.stype [] hm ha hpre
        have ha1 := insert_alloc r r1 m pre _ _ _ ha h1
        rw [h1]
        simp only
        by_cases ht : tail = []
        · simp only [ht, if_true]
          exact insert_total r1 m _ h _ _ hm ha1 (by simp)
        · simp only [ht, if_false]
          obtain ⟨r2, h2⟩ := insert_total r1 m (pre ++ [colon]) HandlerFunc.nil ntype.ptype
            (pn ++ [name]) hm ha1 (by simp)
          have ha2 := insert_alloc r1 r2 m _ _ _ _ ha1 h2
          rw [h2]
          simp only
          apply ih _ _ _ _ ha2 (by simp) (Or.inl (by omega))
          simp only [List.length_append, List.length_cons, List.length_nil] at hf ⊢
          omega
      · by_cases hs : path.getD i 0 = star
        · obtain ⟨pre, rest, rfl, rfl⟩ := split_at_star path i hi hs
          have hpre : pre ≠ [] := by
            intro hpre
            subst hpre
            rcases h0 with h0 | h0
            · simp at h0
            · exact h0.2 rfl
          rw [AddLoop_star m h f r pre rest pn]
          obtain ⟨r1, h1⟩ := insert_total r m pre HandlerFunc.nil ntype.stype [] hm ha hpre
          have ha1 := insert_alloc r r1 m pre _ _ _ ha h1
          rw [h1]
          simp only
          exact insert_total r1 m _ h _ _ hm ha1 (by simp)
        · rw [AddLoop]
          simp only [hi, hc, hs, if_true, if_false]
          exact ih _ _ _ _ ha hp (Or.inl (by omega)) (by omega)
    · rw [AddLoop]
      simp only [hi, if_false]
      exact insert_total r m path h _ _ hm ha hp

theorem NewRouter_alloc {H : Type} (e : Vodka) : Alloc (NewRouter e : Router H).tree :=
  Alloc.mk _ (by simp [NewRouter]) (fun c hc => by cases hc)

theorem NewRouter_rootOk {H : Type} (e : Vodka) : RootOk (NewRouter e : Router H).tree :=
  Or.inl ⟨rfl, rfl, rfl⟩

/-- In every router that `Add` calls build, all handler maps are allocated. -/
theorem Reachable_alloc {H : Type} (r : Router H) (hr : Reachable r) : Alloc r.tree := by
  induction hr with
  | fresh e => exact NewRouter_alloc e
  | add r r' m p h _ _ hadd ih =>
    apply AddLoop_preserves Alloc insert_alloc m h (p.length + 1) r p 0 [] r' ih
    unfold Add at hadd
    rw [hadd]
    rfl
  | recovered r r' m p h q _ _ hadd ih =>
    apply AddLoop_preserves Alloc insert_alloc m h (p.length + 1) r p 0 [] r' ih
    unfold Add at hadd
    rw [hadd]
    rfl

theorem insert_rootOk {H : Type} (r r' : Router H) (m s : Str) (h : HandlerFunc H)
    (t : ntype) (pn : List Str) (hr : RootOk r.tree)
    (hres : insert r m s h t pn = Exec.ok r') : RootOk r'.tree :=
  Or.inr (insert_labelled r r' m s h t pn hr hres)

/-- In every router that `Add` calls build, the root is as `NewRouter` made
it or has a non-empty prefix whose first byte is its label. -/
theorem Reachable_rootOk {H : Type} (r : Router H) (hr : Reachable r) : RootOk r.tree := by
  induction hr with
  | fresh e => exact NewRouter_rootOk e
  | add r r' m p h _ _ hadd ih =>
    apply AddLoop_preserves RootOk insert_rootOk m h (p.length + 1) r p 0 [] r' ih
    unfold Add at hadd
    rw [hadd]
    rfl
  | recovered r r' m p h q _ _ hadd ih =>
    apply AddLoop_preserves RootOk insert_rootOk m h (p.length + 1) r p 0 [] r' ih
    unfold Add at hadd
    rw [hadd]
    rfl

/-- After an `Add` that returns, the root has a non-empty prefix whose first
byte is its label. -/
theorem Add_labelled {H : Type} (r r' : Router H) (m p : Str) (h : HandlerFunc H)
    (hr : RootOk r.tree) (hadd : Add r m p h = Exec.ok r') : Labelled r'.tree :=
  AddLoop_establishes RootOk Labelled insert_labelled Labelled_rootOk m h (p.length + 1)
    r p 0 [] r' hr hadd

/-- Below the root of a well-formed tree every node has a non-empty prefix
whose first byte is its label. -/
theorem WF_labelled {H : Type} (t : node H) (hw : WF t) :
    ∀ n ∈ nodesList t.children, Labelled n := by
  induction hw with
  | mk t _ h2 _ ih =>
    intro n hn
    obtain ⟨c, hc, hnc⟩ := mem_nodesList n _ hn
    rw [nodes_eq, List.mem_cons] at hnc
    rcases hnc with h0 | h0
    · rw [h0]
      exact ⟨(h2 c hc).1, (h2 c hc).2.1⟩
    · exact ih c hc n h0

theorem SlashOk_of {H : Type} (t : node H) (hr : RootOk t) (hw : WF t) : SlashOk t := by
  intro x hx hl
  rw [nodes_eq, List.mem_cons] at hx
  rcases hx with h0 | h0
  · rw [h0]
    rcases hr with ⟨_, h1, _⟩ | hr
    · rw [h0, h1] at hl
      exact absurd hl (by decide)
    · exact hr.1
  · exact (WF_labelled t hw x h0).1

theorem Reachable_slashOk {H : Type} (r : Router H) (hr : Reachable r) : SlashOk r.tree :=
  SlashOk_of r.tree (Reachable_rootOk r hr) (Reachable_treeOk r hr).2

theorem Traced_start {H : Type} (r : Router H) (hr : Reachable r) (q : Str) (ctx : Context) :
    Traced (startState r q ctx) :=
  ⟨Reachable_slashOk r hr, fun n hn => (by cases hn), fun hnt => absurd rfl hnt⟩

theorem routerBacktrack_reachable : Reachable routerBacktrack :=
  Reachable.add
    ⟨{ leaf ntype.stype (ascii "/") [(ascii "GET", HandlerFunc.nil)] [] with
        children :=
          [leaf ntype.stype (ascii "a/b") [(ascii "GET", HandlerFunc.user 1)] [],
           { leaf ntype.ptype (ascii ":") [(ascii "GET", HandlerFunc.nil)] [ascii "x"] with
             children := [leaf ntype.stype (ascii "/c") [(ascii "GET", HandlerFunc.user 2)]
               [ascii "x"]] }] },
      [], ⟨1, false⟩⟩
    routerBacktrack (ascii "GET") (ascii "/*") (HandlerFunc.user 3)
    (Reachable.add
      ⟨leaf ntype.stype (ascii "/a/b") [(ascii "GET", HandlerFunc.user 1)] [], [], ⟨0, false⟩⟩
      _ (ascii "GET") (ascii "/:x/c") (HandlerFunc.user 2)
      (Reachable.add (NewRouter (New false)) _ (ascii "GET") (ascii "/a/b")
        (HandlerFunc.user 1) (Reachable.fresh (New false)) rfl rfl)
      rfl rfl)
    rfl rfl

theorem insert_with_routes {H : Type} (R : List Route) (r r' : Router H) (m s : Str)
    (h : HandlerFunc H) (t : ntype) (pn : List Str)
    (hres : insert r m s h t pn = Exec.ok r') :
    insert ⟨r.tree, R, r.vodka⟩ m s h t pn = Exec.ok ⟨r'.tree, R, r'.vodka⟩ := by
  have hv := insert_ok_valid r r' m s h t pn hres
  have hl := insert_ok_tree r r' m s h t pn hres
  have h1 := insert_of_loop r m s h t pn r'.tree hv hl
  rw [hres] at h1
  simp only [Exec.ok.injEq] at h1
  have h2 := insert_of_loop ⟨r.tree, R, r.vodka⟩ m s h t pn r'.tree hv hl
  rw [h2]
  have h3 : r'.vodka = ⟨max r.vodka.maxParam pn.length, r.vodka.stripTrailingSlash⟩ := by
    rw [h1]
  rw [h3]

/-- The loop of `Add` does not read the route table: with another table it
returns the same tree and instance. -/
theorem AddLoop_with_routes {H : Type} (R : List Route) (m : Str) (h : HandlerFunc H) :
    ∀ (fuel : Nat) (r : Router H) (path : Str) (i : Nat) (pn : List Str) (r' : Router H),
      AddLoop m h fuel r path i pn = Exec.ok r' →
      AddLoop m h fuel ⟨r.tree, R, r.vodka⟩ path i pn = Exec.ok ⟨r'.tree, R, r'.vodka⟩ := by
  intro fuel
  induction fuel with
  | zero => intro r path i pn r' hres; simp [AddLoop] at hres
  | succ f ih =>
    intro r path i pn r' hres
    by_cases hi : i < path.length
    · by_cases hc : path.getD i 0 = colon
      · obtain ⟨pre, name, tail, rfl, rfl, hname, htail⟩ := split_at_colon path i hi hc
        rw [AddLoop_colon m h f r pre name tail pn hname htail] at hres
        rw [AddLoop_colon m h f _ pre name tail pn hname htail]
        cases h1 : insert r m pre HandlerFunc.nil ntype.stype [] with
        | ok r1 =>
          rw [h1] at hres
          simp only at hres
          rw [insert_with_routes R r r1 m pre _ _ _ h1]
          simp only
          by_cases ht : tail = []
          · simp only [ht, if_true] at hres ⊢
            exact insert_with_routes R r1 r' m _ h _ _ hres
          · simp only [ht, if_false] at hres ⊢
            cases h2 : insert r1 m (pre ++ [colon]) HandlerFunc.nil ntype.ptype (pn ++ [name])
              with
            | ok r2 =>
              rw [h2] at hres
              simp only at hres
              rw [insert_with_routes R r1 r2 m _ _ _ _ h2]
              simp only
              exact ih _ _ _ _ _ hres
            | panic q r2 => rw [h2] at hres; simp at hres
            | timeout => rw [h2] at hres; simp at hres
        | panic q r1 => rw [h1] at hres; simp at hres
        | timeout => rw [h1] at hres; simp at hres
      · by_cases hs : path.getD i 0 = star
        · obtain ⟨pre, rest, rfl, rfl⟩ := split_at_star path i hi hs
          rw [AddLoop_star m h f r pre rest pn] at hres
          rw [AddLoop_star m h f _ pre rest pn]
          cases h1 : insert r m pre HandlerFunc.nil ntype.stype [] with
          | ok r1 =>
            rw [h1] at hres
            simp only at hres
            rw [insert_with_routes R r r1 m pre _ _ _ h1]
            simp only
            exact insert_with_routes R r1 r' m _ h _ _ hres
          | panic q r1 => rw [h1] at hres; simp at hres
          | timeout => rw [h1] at hres; simp at hres
        · rw [AddLoop] at hres ⊢
          simp only [hi, hc, hs, if_true, if_false] at hres ⊢
          exact ih _ _ _ _ _ hres
    · rw [AddLoop] at hres ⊢
      simp only [hi, if_false] at hres ⊢
      exact insert_with_routes R r r' m _ h _ _ hres

theorem routesSet_keys_mem (x : Route) (k : Str) (hx : routeKey x = k) :
    ∀ rs : List Route, k ∈ rs.map routeKey →
      (routesSet rs k x).map routeKey = rs.map routeKey := by
  intro rs
  induction rs with
  | nil => intro h; cases h
  | cons y ys ih =>
    intro h
    by_cases hy : routeKey y = k
    · simp [routesSet, hy, hx]
    · have h2 : k ∈ ys.map routeKey := by
        rcases List.mem_cons.mp h with h0 | h0
        · exact absurd h0.symm hy
        · exact h0
      simp [routesSet, hy, ih h2]

theorem routesSet_not_mem (x : Route) (k : Str) :
    ∀ rs : List Route, k ∉ rs.map routeKey → routesSet rs k x = rs ++ [x] := by
  intro rs
  induction rs with
  | nil => intro _; rfl
  | cons y ys ih =>
    intro h
    have hy : routeKey y ≠ k := by
      intro e
      apply h
      simp [e]
    have h2 : k ∉ ys.map routeKey := by
      intro e
      apply h
      exact List.mem_cons_of_mem _ e
    simp [routesSet, hy, ih h2]

theorem routesSet_mem_key (x : Route) (k : Str) (hx : routeKey x = k) (rs : List Route) :
    k ∈ (routesSet rs k x).map routeKey := by
  by_cases h : k ∈ rs.map routeKey
  · rw [routesSet_keys_mem x k hx rs h]; exact h
  · rw [routesSet_not_mem x k rs h]
    simp [hx]

/-- A keyed write keeps a table a table. -/
theorem routesSet_isTable (x : Route) (k : Str) (hx : routeKey x = k) (rs : List Route)
    (ht : IsTable rs) : IsTable (routesSet rs k x) := by
  unfold IsTable at *
  by_cases h : k ∈ rs.map routeKey
  · rw [routesSet_keys_mem x k hx rs h]; exact ht
  · rw [routesSet_not_mem x k rs h, List.map_append, List.map_singleton, hx]
    exact List.Nodup.append ht (List.nodup_singleton _)
      (by simpa [List.Disjoint] using h)

/-- After a keyed write the table holds exactly the written entry under the
key. -/
theorem routesSet_filter (x : Route) (k : Str) (hx : routeKey x = k) :
    ∀ rs : List Route, IsTable rs →
      (routesSet rs k x).filter (fun y => decide (routeKey y = k)) = [x] := by
  intro rs
  induction rs with
  | nil => intro _; simp [routesSet, hx]
  | cons y ys ih =>
    intro ht
    have ht' : (routeKey y ∉ ys.map routeKey) ∧ IsTable ys := by
      unfold IsTable at ht ⊢
      simpa using ht
    by_cases hy : routeKey y = k
    · have hnone : ys.filter (fun z => decide (routeKey z = k)) = [] := by
        rw [List.filter_eq_nil_iff]
        intro z hz hk
        apply ht'.1
        rw [hy]
        simp only [decide_eq_true_eq] at hk
        rw [← hk]
        exact List.mem_map_of_mem _ hz
      simp [routesSet, hy, hx, hnone]
    · simp [routesSet, hy, ih ht'.2]

/-- A keyed write under a key that the table holds keeps the number of
entries. -/
theorem routesSet_length (x : Route) (k : Str) (hx : routeKey x = k) (rs : List Route)
    (h : k ∈ rs.map routeKey) : (routesSet rs k x).length = rs.length := by
  have := congrArg List.length (routesSet_keys_mem x k hx rs h)
  simpa using this

/-! ### The claims -/

/-- C1: with the distinct registrations GET `/ab` (handler 1) and POST `/ac`
(handler 2), the path `/ab` satisfies exactly one registered pattern, `/ab`,
which was registered under GET; yet `Find(GET, "/ab")` does not return
handler 1: the split made by the second `Add` kept only the POST entry of the
node, and the lookup answers method-not-allowed listing POST. -/
theorem find_after_split_loses_other_method :
    Matches (ascii "/ab") (ascii "/ab") = true ∧
    Matches (ascii "/ac") (ascii "/ab") = false ∧
    AddAll (NewRouter (New false))
      [(ascii "GET", ascii "/ab", HandlerFunc.user 1),
       (ascii "POST", ascii "/ac", HandlerFunc.user 2)] = Exec.ok routerAbAc ∧
    Find routerAbAc (ascii "GET") (ascii "/ab") ⟨[], []⟩ =
      Exec.ok ⟨HandlerFunc.methodNotAllowedHandler [ascii "POST"], true, ⟨[], []⟩⟩ :=
  ⟨by decide, by decide, rfl, rfl⟩

/-- C2: on the router holding exactly `/users/:id` (handler `hP`) and
`/users/new` (handler `hS`) under one valid method, registered in either
order, `/users/new` resolves to `hS` and `/users/42` resolves to `hP` with
parameter names `["id"]` and `"42"` in value slot 0. -/
theorem static_beats_param {H : Type} (m : Str) (hm : validMethod m = true) (hP hS : H)
    (strip : Bool) (ctx : Context) (names : List Str) (v0 : Str) (vs : List Str)
    (routes : List (Str × Str × HandlerFunc H))
    (hroutes :
      routes = [(m, ascii "/users/:id", HandlerFunc.user hP),
                (m, ascii "/users/new", HandlerFunc.user hS)] ∨
      routes = [(m, ascii "/users/new", HandlerFunc.user hS),
                (m, ascii "/users/:id", HandlerFunc.user hP)]) :
    ∃ r, AddAll (NewRouter (New strip)) routes = Exec.ok r ∧
      Find r m (ascii "/users/new") ctx =
        Exec.ok ⟨HandlerFunc.user hS, true, ⟨[], ctx.pvalues⟩⟩ ∧
      Find r m (ascii "/users/42") ⟨names, v0 :: vs⟩ =
        Exec.ok ⟨HandlerFunc.user hP, true, ⟨[ascii "id"], ascii "42" :: vs⟩⟩ := by
  rcases hroutes with h | h <;> subst h
  · refine ⟨routerUsers m hP hS strip, ?_, ?_, ?_⟩ <;>
      rcases validMethod_cases hm with h | h | h | h | h | h | h | h | h <;> subst h <;>
      cases strip <;> rfl
  · refine ⟨routerUsersRev m hP hS strip, ?_, ?_, ?_⟩ <;>
      rcases validMethod_cases hm with h | h | h | h | h | h | h | h | h <;> subst h <;>
      cases strip <;> rfl

theorem static_beats_param_witness :
    validMethod (ascii "GET") = true ∧
    ∃ r : Router Nat,
      AddAll (NewRouter (New false))
        [(ascii "GET", ascii "/users/:id", HandlerFunc.user 1),
         (ascii "GET", ascii "/users/new", HandlerFunc.user 2)] = Exec.ok r ∧
      Find r (ascii "GET") (ascii "/users/new") ⟨[], [[]]⟩ =
        Exec.ok ⟨HandlerFunc.user 2, true, ⟨[], [[]]⟩⟩ ∧
      Find r (ascii "GET") (ascii "/users/42") ⟨[], [[]]⟩ =
        Exec.ok ⟨HandlerFunc.user 1, true, ⟨[ascii "id"], [ascii "42"]⟩⟩ :=
  ⟨by decide,
   static_beats_param (ascii "GET") (by decide) 1 2 false ⟨[], [[]]⟩ [] [] [] _ (Or.inl rfl)⟩

/-- C3: on the router holding `/users/:id` (handler 1) and `/users/new`
(handler 2) under GET, the segment `newer` is non-empty, has no `'/'` and is
not `new`, yet `Find(GET, "/users/newer")` returns the not-found handler:
the static child `new` matches in full, nothing below it continues, and the
final return does not go back to the saved PARAM alternative. -/
theorem param_fallback_missing_after_full_static_match :
    AddAll (NewRouter (New false))
      [(ascii "GET", ascii "/users/:id", HandlerFunc.user 1),
       (ascii "GET", ascii "/users/new", HandlerFunc.user 2)] =
      Exec.ok (routerUsers (ascii "GET") 1 2 false) ∧
    Find (routerUsers (ascii "GET") 1 2 false) (ascii "GET")
        (ascii "/users/" ++ ascii "newer") ⟨[], [[]]⟩ =
      Exec.ok ⟨HandlerFunc.notFoundHandler, false, ⟨[], [[]]⟩⟩ :=
  ⟨rfl, rfl⟩

/-- C4: on the router holding `/files/*` (handler 1) and `/files/:name`
(handler 2) under GET, in either order, `Find(GET, "/files/a/b/c")` returns
the not-found handler and leaves `"a"` in value slot 0: the PARAM child takes
`a`, nothing below it continues with `/b/c`, and the final return does not go
back to the saved catch-all alternative. -/
theorem catch_all_not_reached_after_param :
    (AddAll (NewRouter (New false))
      [(ascii "GET", ascii "/files/*", HandlerFunc.user 1),
       (ascii "GET", ascii "/files/:name", HandlerFunc.user 2)] = Exec.ok routerFiles ∧
     Find routerFiles (ascii "GET") (ascii "/files/" ++ ascii "a/b/c") ⟨[], [[]]⟩ =
      Exec.ok ⟨HandlerFunc.notFoundHandler, false, ⟨[], [ascii "a"]⟩⟩) ∧
    (AddAll (NewRouter (New false))
      [(ascii "GET", ascii "/files/:name", HandlerFunc.user 2),
       (ascii "GET", ascii "/files/*", HandlerFunc.user 1)] = Exec.ok routerFilesRev ∧
     Find routerFilesRev (ascii "GET") (ascii "/files/" ++ ascii "a/b/c") ⟨[], [[]]⟩ =
      Exec.ok ⟨HandlerFunc.notFoundHandler, false, ⟨[], [ascii "a"]⟩⟩) :=
  ⟨⟨rfl, rfl⟩, ⟨rfl, rfl⟩⟩

/-- C5: on a fresh router (trailing-slash stripping off, as `New()` leaves
it) whose only route is `P ++ "*"`, with `P` a non-empty literal text without
`':'` and `'*'`, `Find(m, P ++ s)` returns the handler for every `s`, empty
or with any number of `'/'`, sets the parameter names to `["_name"]` and
writes `s` to value slot 0 of a buffer that has a slot 0. -/
theorem catch_all_captures_rest {H : Type} (m : Str) (hm : validMethod m = true) (h : H)
    (P s : Str) (hP : P ≠ []) (hPc : ∀ b ∈ P, b ≠ colon ∧ b ≠ star)
    (names : List Str) (v0 : Str) (vs : List Str) :
    ∃ r, Add (NewRouter (New false)) m (P ++ [star]) (HandlerFunc.user h) = Exec.ok r ∧
      Find r m (P ++ s) ⟨names, v0 :: vs⟩ =
        Exec.ok ⟨HandlerFunc.user h, true, ⟨[ascii "_name"], s :: vs⟩⟩ := by
  refine ⟨_, Add_catch_all m hm (HandlerFunc.user h) P false hP hPc, ?_⟩
  refine Find_of_FindLoop _ m _ _ _ 2 hm rfl ?_ ?_
  · have := findFuel_ge (chain (rootLink P)
      [(⟨ntype.mtype, [star], some [(m, HandlerFunc.user h)], [ascii "_name"], true⟩ : Link H)])
    simp only at this ⊢
    omega
  · exact FindLoop_catch_all m (HandlerFunc.user h) P s hP hPc names v0 vs

theorem catch_all_captures_rest_witness :
    validMethod (ascii "GET") = true ∧
    ∃ r : Router Nat,
      Add (NewRouter (New false)) (ascii "GET") (ascii "/files/" ++ [star])
        (HandlerFunc.user 1) = Exec.ok r ∧
      Find r (ascii "GET") (ascii "/files/" ++ ascii "a/b/c") ⟨[], [[]]⟩ =
        Exec.ok ⟨HandlerFunc.user 1, true, ⟨[ascii "_name"], [ascii "a/b/c"]⟩⟩ :=
  ⟨by decide,
   catch_all_captures_rest (ascii "GET") (by decide) 1 (ascii "/files/") (ascii "a/b/c")
     (by decide) (by decide) [] [] []⟩

/-- C6: on a fresh router (trailing-slash stripping off, as `New()` leaves
it) whose only route is the pattern made of a
non-empty literal text `s0` without `':'` and `'*'` followed by `k >= 1`
segments `:name` + literal text, `Find` on the path obtained by putting a
non-empty value without `'/'` in place of every `:name` returns the
registered handler, sets the parameter names to the `k` names in pattern
order and writes the `i`-th value to value slot `i`; the slots from `k` on
keep their content.  `Add` has set `maxParam` to `k`. -/
theorem positional_capture {H : Type} (m : Str) (hm : validMethod m = true) (h : H)
    (s0 : Str) (segs : List (Str × Str)) (vals : List Str) (names buf : List Str)
    (hs0 : s0 ≠ []) (hs0c : ∀ b ∈ s0, b ≠ colon ∧ b ≠ star)
    (hsegs : segs ≠ []) (hok : SegsOk segs)
    (hlen : vals.length = segs.length) (hvals : ∀ v ∈ vals, v ≠ [] ∧ slash ∉ v)
    (hbuf : segs.length ≤ buf.length) :
    ∃ r, Add (NewRouter (New false)) m (s0 ++ segsPattern segs) (HandlerFunc.user h)
          = Exec.ok r ∧
      r.vodka.maxParam = segs.length ∧
      Find r m (s0 ++ segsPath segs vals) ⟨names, buf⟩ =
        Exec.ok ⟨HandlerFunc.user h, true,
          ⟨segs.map Prod.fst, vals ++ buf.drop segs.length⟩⟩ := by
  refine ⟨_, Add_segments m hm (HandlerFunc.user h) s0 segs false hs0 hs0c hsegs hok, rfl, ?_⟩
  have hc : (rootLink s0 : Link H).pfx.headD 0 ≠ colon := by
    cases s0 with
    | nil => exact absurd rfl hs0
    | cons b s' => exact (hs0c b (List.mem_cons_self _ _)).1
  have hloop := FindLoop_segs m (HandlerFunc.user h) segs vals (rootLink s0) [] [] buf
    ntype.stype none [] HandlerFunc.notFoundHandler false names (2 * segs.length + 2)
    hok hlen hvals hs0 hc (fun e => absurd e hsegs) hbuf (le_refl _)
  simp only [hsegs, if_false, List.nil_append, List.length_nil] at hloop
  refine Find_of_FindLoop _ m _ _ _ (2 * segs.length + 2) hm rfl ?_ ?_
  · have h1 := findFuel_ge_two_mul (chain (rootLink s0)
      (afterStatic m (HandlerFunc.user h) [] segs))
    have h2 := afterStatic_length m (HandlerFunc.user h) [] segs hok
    rw [chain_height] at h1
    simp only at h1 ⊢
    omega
  · have hv : (chain (rootLink s0) (afterStatic m (HandlerFunc.user h) [] segs)).vodka
        = false := by
      rw [chain_vodka]; rfl
    simp only [hv]
    exact hloop

theorem positional_capture_witness :
    SegsOk [(ascii "x", ascii "/b/"), (ascii "y", [])] ∧
    ∃ r : Router Nat,
      Add (NewRouter (New false)) (ascii "GET")
          (ascii "/a/" ++ segsPattern [(ascii "x", ascii "/b/"), (ascii "y", [])])
          (HandlerFunc.user 1) = Exec.ok r ∧
      r.vodka.maxParam = 2 ∧
      Find r (ascii "GET")
          (ascii "/a/" ++ segsPath [(ascii "x", ascii "/b/"), (ascii "y", [])]
            [ascii "1", ascii "2"]) ⟨[], [[], [], []]⟩ =
        Exec.ok ⟨HandlerFunc.user 1, true,
          ⟨[ascii "x", ascii "y"], [ascii "1", ascii "2", []]⟩⟩ :=
  ⟨by simp [SegsOk]; decide,
   positional_capture (ascii "GET") (by decide) 1 (ascii "/a/")
     [(ascii "x", ascii "/b/"), (ascii "y", [])] [ascii "1", ascii "2"] [] [[], [], []]
     (by decide) (by decide) (by decide) (by simp [SegsOk]; decide) rfl (by decide)
     (by decide)⟩

/-- C7: with the single route GET `/users/:id/files/*` (handler 1), which
sets `maxParam` to 2, and a value buffer of two slots,
`Find(GET, "/users/7/files/a/b")` returns handler 1 and the names
`["id", "_name"]`, but the catch-all remainder `a/b` is written to value
slot 0, over the segment value `7`, and slot 1 keeps its old content. -/
theorem catch_all_value_overwrites_slot_zero :
    Add (NewRouter (New false)) (ascii "GET") (ascii "/users/:id/files/*")
      (HandlerFunc.user 1) = Exec.ok routerUserFiles ∧
    Find routerUserFiles (ascii "GET") (ascii "/users/7/files/a/b") ⟨[], [[], []]⟩ =
      Exec.ok ⟨HandlerFunc.user 1, true,
        ⟨[ascii "id", ascii "_name"], [ascii "a/b", []]⟩⟩ :=
  ⟨rfl, rfl⟩

/-- C8: after GET `/ab` (handler 1) and POST `/ac` (handler 2) the literal
path `/ab` is registered under exactly the methods `{GET}`; yet
`Find(PUT, "/ab")` lists POST, not GET, as the allowed methods, and
`Find(POST, "/ab")` is not method-not-allowed at all: it returns the nil
handler.  The single route GET `/ping` does answer `Find(POST, "/ping")`
with method-not-allowed listing `["GET"]`. -/
theorem allowed_methods_wrong_after_split :
    (AddAll (NewRouter (New false))
      [(ascii "GET", ascii "/ab", HandlerFunc.user 1),
       (ascii "POST", ascii "/ac", HandlerFunc.user 2)] = Exec.ok routerAbAc ∧
     Find routerAbAc (ascii "PUT") (ascii "/ab") ⟨[], []⟩ =
      Exec.ok ⟨HandlerFunc.methodNotAllowedHandler [ascii "POST"], true, ⟨[], []⟩⟩ ∧
     Find routerAbAc (ascii "POST") (ascii "/ab") ⟨[], []⟩ =
      Exec.ok ⟨HandlerFunc.nil, true, ⟨[], []⟩⟩) ∧
    (Add (NewRouter (New false)) (ascii "GET") (ascii "/ping") (HandlerFunc.user 1) =
      Exec.ok routerPing ∧
     Find routerPing (ascii "POST") (ascii "/ping") ⟨[], []⟩ =
      Exec.ok ⟨HandlerFunc.methodNotAllowedHandler [ascii "GET"], true, ⟨[], []⟩⟩) :=
  ⟨⟨rfl, rfl, rfl⟩, ⟨rfl, rfl⟩⟩

/-- C9: on the router holding GET `/ping` and GET `/pong`, the path `/p`
satisfies neither pattern, yet `Find(GET, "/p")` is not the not-found
outcome: the shared node `/p` carries an allocated, empty handler map, which
passes the test `handler != nil`, and the lookup answers method-not-allowed
with an empty list.  (`/nonexistent` on the router holding only `/ping` is
answered with not-found.) -/
theorem unmatched_path_at_branch_node_is_not_not_found :
    Matches (ascii "/ping") (ascii "/p") = false ∧
    Matches (ascii "/pong") (ascii "/p") = false ∧
    (AddAll (NewRouter (New false))
      [(ascii "GET", ascii "/ping", HandlerFunc.user 1),
       (ascii "GET", ascii "/pong", HandlerFunc.user 2)] = Exec.ok routerPingPong ∧
     Find routerPingPong (ascii "GET") (ascii "/p") ⟨[], []⟩ =
      Exec.ok ⟨HandlerFunc.methodNotAllowedHandler [], false, ⟨[], []⟩⟩) ∧
    (Add (NewRouter (New false)) (ascii "GET") (ascii "/ping") (HandlerFunc.user 1) =
      Exec.ok routerPing ∧
     Find routerPing (ascii "GET") (ascii "/nonexistent") ⟨[], []⟩ =
      Exec.ok ⟨HandlerFunc.notFoundHandler, true, ⟨[], []⟩⟩) :=
  ⟨by decide, by decide, ⟨rfl, rfl⟩, ⟨rfl, rfl⟩⟩

/-- C10: with the single route GET `/a/:id/b` (handler 1, not nil),
`Find(GET, "/a/42")` returns the nil handler, which is neither a registered
handler nor one of the two sentinels: the intermediate PARAM node was created
by `newNode` with the map entry `GET ↦ nil`. -/
theorem find_returns_nil_handler_at_intermediate_node :
    Add (NewRouter (New false)) (ascii "GET") (ascii "/a/:id/b") (HandlerFunc.user 1) =
      Exec.ok routerParamThenStatic ∧
    Find routerParamThenStatic (ascii "GET") (ascii "/a/42") ⟨[], [[]]⟩ =
      Exec.ok ⟨HandlerFunc.nil, true, ⟨[ascii "id"], [ascii "42"]⟩⟩ :=
  ⟨rfl, rfl⟩

/-- C11: with the routes GET `/:p` and GET `/s/:x/zz`, `maxParam` is 1; on a
value buffer of that length `Find(GET, "/s/Q/zy")` panics with an index out
of range: the PARAM node below `s/` stores `Q` in slot 0 and raises the
counter `n` to 1, the static node `/zz` does not match, the lookup goes back
to the saved point at the root without resetting `n`, and the PARAM child of
the root writes `pvalues[1]`. -/
theorem find_panics_when_backtracking_keeps_param_counter :
    AddAll (NewRouter (New false))
      [(ascii "GET", ascii "/:p", HandlerFunc.user 1),
       (ascii "GET", ascii "/s/:x/zz", HandlerFunc.user 2)] = Exec.ok routerParamAndDeeper ∧
    routerParamAndDeeper.vodka.maxParam = 1 ∧
    Find routerParamAndDeeper (ascii "GET") (ascii "/s/Q/zy") ⟨[], [[]]⟩ =
      Exec.panic Panic.indexOutOfRange
        ⟨HandlerFunc.notFoundHandler, false, ⟨[], [ascii "Q"]⟩⟩ :=
  ⟨rfl, rfl, rfl⟩

/-- C12: on the router holding GET `/ab` (handler 1), `Find(GET, "/ab")`
returns handler 1; after the later `Add(PUT, "/a", 2)`, which splits the node
`/ab`, `Find(GET, "/ab")` answers method-not-allowed listing PUT: the split
kept only the PUT entry (`PUT ↦ nil`) for the child `b`. -/
theorem later_registration_under_other_method_breaks_route :
    Add (NewRouter (New false)) (ascii "GET") (ascii "/ab") (HandlerFunc.user 1) =
      Exec.ok routerAb ∧
    Find routerAb (ascii "GET") (ascii "/ab") ⟨[], []⟩ =
      Exec.ok ⟨HandlerFunc.user 1, true, ⟨[], []⟩⟩ ∧
    Add routerAb (ascii "PUT") (ascii "/a") (HandlerFunc.user 2) = Exec.ok routerAbThenA ∧
    Find routerAbThenA (ascii "GET") (ascii "/ab") ⟨[], []⟩ =
      Exec.ok ⟨HandlerFunc.methodNotAllowedHandler [ascii "PUT"], true, ⟨[], []⟩⟩ :=
  ⟨rfl, rfl, rfl, rfl⟩

/-- C13, counterexample: the router holds GET `/x` with handler 1.  After
`Add(GET, "/y", 1)` the lookup `Find(GET, "/x")` returns handler 1, and after
`Add(GET, "/y", 2)` it still returns handler 1, not handler 2: handler 1 is
still reachable under GET through the other route that binds it. -/
theorem reregistration_leaves_other_binding_of_same_handler :
    Add (NewRouter (New false)) (ascii "GET") (ascii "/x") (HandlerFunc.user 1)
      = Exec.ok routerX ∧
    Add routerX (ascii "GET") (ascii "/y") (HandlerFunc.user 1) = Exec.ok (routerXY 1) ∧
    Add (routerXY 1) (ascii "GET") (ascii "/y") (HandlerFunc.user 2)
      = Exec.ok (routerXY 2) ∧
    Find (routerXY 1) (ascii "GET") (ascii "/x") ⟨[], []⟩
      = Exec.ok ⟨HandlerFunc.user 1, true, ⟨[], []⟩⟩ ∧
    Find (routerXY 2) (ascii "GET") (ascii "/x") ⟨[], []⟩
      = Exec.ok ⟨HandlerFunc.user 1, true, ⟨[], []⟩⟩ :=
  ⟨rfl, rfl, rfl, rfl, rfl⟩

/-- C13, amended: for every router state whose route table is a table and in
which no node binds the method `m` to the handler `h1`, every pattern `p` and
handler `h2`: when `Vodka.add(m, p, h1)` returns, `Vodka.add(m, p, h2)` on
its result returns as well, and then every lookup `Find(m, q)` that returned
`h1` after the first call returns `h2` after the second, with the same owner
and the same context; if `h1` and `h2` differ no lookup under `m` returns `h1`
any more; and the route table, keyed by method+path, holds a single entry for
`(m, p)`, the one of the second call, and has as many entries as after the
first call. -/
theorem reregistration_overwrites {H : Type} (r r1 : Router H) (m p : Str) (h1 h2 : H)
    (n1 n2 : Str) (hm : validMethod m = true)
    (hfree : ∀ n ∈ r.tree.nodes, ∀ hmap, n.handler = some hmap →
      hmap.lookup m ≠ some (HandlerFunc.user h1))
    (htab : IsTable r.routes)
    (hadd : Vodka.add r m p h1 n1 = Exec.ok r1) :
    ∃ r2, Vodka.add r1 m p h2 n2 = Exec.ok r2 ∧
      (∀ q ctx e ctx', Find r1 m q ctx = Exec.ok ⟨HandlerFunc.user h1, e, ctx'⟩ →
        Find r2 m q ctx = Exec.ok ⟨HandlerFunc.user h2, e, ctx'⟩) ∧
      (h1 ≠ h2 → ∀ q ctx e ctx',
        Find r2 m q ctx ≠ Exec.ok ⟨HandlerFunc.user h1, e, ctx'⟩) ∧
      IsTable r2.routes ∧
      r1.routes.filter (fun x => decide (routeKey x = m ++ p)) = [⟨m, p, n1⟩] ∧
      r2.routes.filter (fun x => decide (routeKey x = m ++ p)) = [⟨m, p, n2⟩] ∧
      r2.routes.length = r1.routes.length := by
  classical
  have hu : Unbound m h1 r.tree := unbound_of_nodes m h1 r.tree hfree
  cases hA : Add r m p (HandlerFunc.user h1) with
  | panic q x => simp [Vodka.add, hA] at hadd
  | timeout => simp [Vodka.add, hA] at hadd
  | ok r0 =>
    have hroutes : r0.routes = r.routes := (AddLoop_maxParam m _ _ _ _ _ _ _ hA).2
    simp only [Vodka.add, hA, Exec.ok.injEq] at hadd
    subst hadd
    rw [hroutes]
    have hk1 : routeKey ⟨m, p, n1⟩ = m ++ p := rfl
    have hk2 : routeKey ⟨m, p, n2⟩ = m ++ p := rfl
    have hA' := AddLoop_with_routes (routesSet r.routes (m ++ p) ⟨m, p, n1⟩) m
      (HandlerFunc.user h1) (p.length + 1) r p 0 [] r0 hA
    have hrun := AddLoop_again m m h1 h2 hm (p.length + 1)
      ⟨r.tree, routesSet r.routes (m ++ p) ⟨m, p, n1⟩, r.vodka⟩ p 0 []
      ⟨r0.tree, routesSet r.routes (m ++ p) ⟨m, p, n1⟩, r0.vodka⟩ hu hA'
    have hadd2 : Add ⟨r0.tree, routesSet r.routes (m ++ p) ⟨m, p, n1⟩, r0.vodka⟩ m p
        (HandlerFunc.user h2)
        = Exec.ok ⟨r0.tree.mapMaps (rebind m h1 m h2),
            routesSet r.routes (m ++ p) ⟨m, p, n1⟩, r0.vodka⟩ := hrun
    have hex : ∀ q ctx,
        Find ⟨r0.tree.mapMaps (rebind m h1 m h2),
            routesSet (routesSet r.routes (m ++ p) ⟨m, p, n1⟩) (m ++ p) ⟨m, p, n2⟩,
            r0.vodka⟩ m q ctx
          = (Find ⟨r0.tree, routesSet r.routes (m ++ p) ⟨m, p, n1⟩, r0.vodka⟩ m q
              ctx).mapH (relabel h1 h2) := fun q ctx =>
      Find_mapMaps_exact (rebind m h1 m h2) m (relabel h1 h2)
        (rebind_lookup_same m h1 h2) (rebind_keys_same m h1 h2)
        (fun ks => by simp [relabel]) (by simp [relabel]) hm
        ⟨r0.tree, routesSet r.routes (m ++ p) ⟨m, p, n1⟩, r0.vodka⟩
        ⟨r0.tree.mapMaps (rebind m h1 m h2),
          routesSet (routesSet r.routes (m ++ p) ⟨m, p, n1⟩) (m ++ p) ⟨m, p, n2⟩,
          r0.vodka⟩ rfl rfl q ctx
    have ht1 : IsTable (routesSet r.routes (m ++ p) ⟨m, p, n1⟩) :=
      routesSet_isTable _ _ hk1 _ htab
    refine ⟨⟨r0.tree.mapMaps (rebind m h1 m h2),
      routesSet (routesSet r.routes (m ++ p) ⟨m, p, n1⟩) (m ++ p) ⟨m, p, n2⟩, r0.vodka⟩,
      ?_, ?_, ?_, ?_, ?_, ?_, ?_⟩
    · simp only [Vodka.add, hadd2]
    · intro q ctx e ctx' hfind
      rw [hex, hfind]
      simp [Exec.mapH, relabel]
    · intro hne q ctx e ctx' hfind
      rw [hex] at hfind
      cases hf1 : Find ⟨r0.tree, routesSet r.routes (m ++ p) ⟨m, p, n1⟩, r0.vodka⟩ m q ctx
        with
      | ok res =>
        rw [hf1] at hfind
        simp only [Exec.mapH, Exec.ok.injEq, FindResult.mk.injEq] at hfind
        have h0 := hfind.1
        unfold relabel at h0
        by_cases hx : res.h = HandlerFunc.user h1
        · rw [if_pos hx] at h0
          simp only [HandlerFunc.user.injEq] at h0
          exact hne h0.symm
        · rw [if_neg hx] at h0
          exact hx h0
      | panic pp res => rw [hf1] at hfind; simp [Exec.mapH] at hfind
      | timeout => rw [hf1] at hfind; simp [Exec.mapH] at hfind
    · exact routesSet_isTable _ _ hk2 _ ht1
    · exact routesSet_filter _ _ hk1 _ htab
    · exact routesSet_filter _ _ hk2 _ ht1
    · exact routesSet_length _ _ hk2 _ (routesSet_mem_key _ _ hk1 _)

/-- C13, amended, on a new router with GET `/users/:id` registered with
handler 1 (named `getUser`) and then with handler 2 (named `showUser`). -/
theorem reregistration_overwrites_witness :
    validMethod (ascii "GET") = true ∧
    (∀ n ∈ (NewRouter (New false) : Router Nat).tree.nodes, ∀ hmap, n.handler = some hmap →
      hmap.lookup (ascii "GET") ≠ some (HandlerFunc.user 1)) ∧
    IsTable (NewRouter (New false) : Router Nat).routes ∧
    Vodka.add (NewRouter (New false)) (ascii "GET") (ascii "/users/:id") 1 (ascii "getUser")
      = Exec.ok ⟨(routerUser 1).tree,
          [⟨ascii "GET", ascii "/users/:id", ascii "getUser"⟩], (routerUser 1).vodka⟩ ∧
    Vodka.add ⟨(routerUser 1).tree,
          [⟨ascii "GET", ascii "/users/:id", ascii "getUser"⟩], (routerUser 1).vodka⟩
        (ascii "GET") (ascii "/users/:id") 2 (ascii "showUser")
      = Exec.ok ⟨(routerUser 2).tree,
          [⟨ascii "GET", ascii "/users/:id", ascii "showUser"⟩], (routerUser 2).vodka⟩ ∧
    ∃ r2, Vodka.add ⟨(routerUser 1).tree,
          [⟨ascii "GET", ascii "/users/:id", ascii "getUser"⟩], (routerUser 1).vodka⟩
        (ascii "GET") (ascii "/users/:id") 2 (ascii "showUser") = Exec.ok r2 ∧
      (∀ q ctx e ctx',
        Find ⟨(routerUser 1).tree,
          [⟨ascii "GET", ascii "/users/:id", ascii "getUser"⟩], (routerUser 1).vodka⟩
          (ascii "GET") q ctx = Exec.ok ⟨HandlerFunc.user 1, e, ctx'⟩ →
        Find r2 (ascii "GET") q ctx = Exec.ok ⟨HandlerFunc.user 2, e, ctx'⟩) ∧
      ((1 : Nat) ≠ 2 → ∀ q ctx e ctx',
        Find r2 (ascii "GET") q ctx ≠ Exec.ok ⟨HandlerFunc.user 1, e, ctx'⟩) ∧
      IsTable r2.routes ∧
      List.filter (fun x => decide (routeKey x = ascii "GET" ++ ascii "/users/:id"))
        [⟨ascii "GET", ascii "/users/:id", ascii "getUser"⟩]
        = [⟨ascii "GET", ascii "/users/:id", ascii "getUser"⟩] ∧
      r2.routes.filter (fun x => decide (routeKey x = ascii "GET" ++ ascii "/users/:id"))
        = [⟨ascii "GET", ascii "/users/:id", ascii "showUser"⟩] ∧
      r2.routes.length = 1 :=
  have hfree : ∀ n ∈ (NewRouter (New false) : Router Nat).tree.nodes, ∀ hmap,
      n.handler = some hmap → hmap.lookup (ascii "GET") ≠ some (HandlerFunc.user 1) := by
    intro n hn hmap hh
    simp only [NewRouter, node.nodes, nodesList, List.mem_singleton] at hn
    subst hn
    simp only [Option.some.injEq] at hh
    subst hh
    simp [HandlerMap.lookup]
  have htab : IsTable (NewRouter (New false) : Router Nat).routes := List.nodup_nil
  ⟨by decide, hfree, htab, rfl, rfl,
    reregistration_overwrites (NewRouter (New false))
      ⟨(routerUser 1).tree, [⟨ascii "GET", ascii "/users/:id", ascii "getUser"⟩],
        (routerUser 1).vodka⟩ (ascii "GET") (ascii "/users/:id") 1 2 (ascii "getUser")
      (ascii "showUser") (by decide) hfree htab rfl⟩

/-- C14 (a second method on the same pattern preserves the first).  On a
fresh router (trailing-slash stripping off), for every non-empty pattern `p`
that does not start with `':'` or `'*'`, distinct valid methods `m1`, `m2` and
handlers `h1`, `h2`: `Add(m1, p, h1)` and then `Add(m2, p, h2)` both return,
and for every path `q` that satisfies `p` and every value buffer with
`maxParam` slots, `Find(m1, q)` returns `h1` and `Find(m2, q)` returns `h2`,
with the same owner and the same context. -/
theorem second_method_preserves_first {H : Type} (m1 m2 p : Str) (h1 h2 : H)
    (hm1 : validMethod m1 = true) (hm2 : validMethod m2 = true) (hne : m1 ≠ m2)
    (hp : p ≠ []) (hc : p.headD 0 ≠ colon) (hs : p.headD 0 ≠ star) :
    ∃ r2, AddAll (NewRouter (New false))
        [(m1, p, HandlerFunc.user h1), (m2, p, HandlerFunc.user h2)] = Exec.ok r2 ∧
      ∀ q names buf, Matches p q = true → r2.vodka.maxParam ≤ buf.length →
        ∃ e ctx',
          Find r2 m1 q ⟨names, buf⟩ = Exec.ok ⟨HandlerFunc.user h1, e, ctx'⟩ ∧
          Find r2 m2 q ⟨names, buf⟩ = Exec.ok ⟨HandlerFunc.user h2, e, ctx'⟩ := by
  classical
  obtain ⟨r1, hadd1, hfind1⟩ := single_route m1 hm1 h1 p hp hc hs
  have hu : Unbound m1 h1 (NewRouter (New false) : Router H).tree := by
    apply Unbound.mk
    · intro hmap hh
      simp only [NewRouter, Option.some.injEq] at hh
      subst hh
      simp [HandlerMap.lookup]
    · intro c hcm
      cases hcm
  have hrun := AddLoop_again m1 m2 h1 h2 hm2 (p.length + 1) (NewRouter (New false)) p 0 []
    r1 hu hadd1
  have hg1 : ∀ hmap : HandlerMap H, hmap.lookup m1 = some (HandlerFunc.user h1) →
      (rebind m1 h1 m2 h2 hmap).lookup m1 = some (HandlerFunc.user h1) := by
    intro hmap hb
    rw [rebind_bound m1 h1 m2 h2 hmap hb, lookup_mapSet_ne m2 m1 _ hne, hb]
  have hg2 : ∀ hmap : HandlerMap H, hmap.lookup m1 = some (HandlerFunc.user h1) →
      (rebind m1 h1 m2 h2 hmap).lookup m2 = some (HandlerFunc.user h2) := by
    intro hmap hb
    rw [rebind_bound m1 h1 m2 h2 hmap hb, lookup_mapSet_self]
  refine ⟨⟨r1.tree.mapMaps (rebind m1 h1 m2 h2), r1.routes, r1.vodka⟩, ?_, ?_⟩
  · have hadd2 : Add r1 m2 p (HandlerFunc.user h2)
        = Exec.ok ⟨r1.tree.mapMaps (rebind m1 h1 m2 h2), r1.routes, r1.vodka⟩ := hrun
    simp only [AddAll, hadd1, hadd2]
  · intro q names buf hq hbuf
    obtain ⟨e, ctx', hf⟩ := hfind1 q names buf hq hbuf
    exact ⟨e, ctx',
      Find_mapMaps_found (rebind m1 h1 m2 h2) m1 m1 h1 h1 hg1 hm1 hm1 r1
        ⟨r1.tree.mapMaps (rebind m1 h1 m2 h2), r1.routes, r1.vodka⟩ rfl rfl q _ _ e hf,
      Find_mapMaps_found (rebind m1 h1 m2 h2) m1 m2 h1 h2 hg2 hm1 hm2 r1
        ⟨r1.tree.mapMaps (rebind m1 h1 m2 h2), r1.routes, r1.vodka⟩ rfl rfl q _ _ e hf⟩

/-- C14 for GET and POST on the pattern `/users/:id`. -/
theorem second_method_preserves_first_witness :
    validMethod (ascii "GET") = true ∧ validMethod (ascii "POST") = true ∧
    ascii "GET" ≠ ascii "POST" ∧ ascii "/users/:id" ≠ [] ∧
    (ascii "/users/:id").headD 0 ≠ colon ∧ (ascii "/users/:id").headD 0 ≠ star ∧
    ∃ r2 : Router Nat, AddAll (NewRouter (New false))
        [(ascii "GET", ascii "/users/:id", HandlerFunc.user 1),
         (ascii "POST", ascii "/users/:id", HandlerFunc.user 2)] = Exec.ok r2 ∧
      ∀ q names buf, Matches (ascii "/users/:id") q = true → r2.vodka.maxParam ≤ buf.length →
        ∃ e ctx',
          Find r2 (ascii "GET") q ⟨names, buf⟩ = Exec.ok ⟨HandlerFunc.user 1, e, ctx'⟩ ∧
          Find r2 (ascii "POST") q ⟨names, buf⟩ = Exec.ok ⟨HandlerFunc.user 2, e, ctx'⟩ :=
  ⟨by decide, by decide, by decide, by decide, by decide, by decide,
    second_method_preserves_first (ascii "GET") (ascii "POST") (ascii "/users/:id") 1 2
      (by decide) (by decide) (by decide) (by decide) (by decide) (by decide)⟩

/-- C15: `Add` fails with the invalid-method panic exactly when the method is
not one of the nine method names (compared byte by byte), whatever the path;
when it fails that way the router, tree and `maxParam` included, is as
before the call. -/
theorem invalid_method_rejected {H : Type} (r : Router H) (method path : Str)
    (h : HandlerFunc H) :
    (validMethod method = true ↔ method ∈
      [ascii "CONNECT", ascii "DELETE", ascii "GET", ascii "HEAD", ascii "OPTIONS",
       ascii "PATCH", ascii "POST", ascii "PUT", ascii "TRACE"]) ∧
    (validMethod method = false →
      Add r method path h = Exec.panic Panic.invalidMethod r) ∧
    (validMethod method = true →
      ∀ r', Add r method path h ≠ Exec.panic Panic.invalidMethod r') := by
  refine ⟨validMethod_iff method, ?_, ?_⟩
  · intro hm
    exact AddLoop_invalid method h hm _ r path 0 (by omega)
  · intro hm r' hres
    exact AddLoop_not_invalid method h hm _ _ _ _ _ _ _ hres rfl

/-- C16: on the router holding GET `/files/` (handler 1) and GET `/files/*`
(handler 2), in either order, `Find(GET, "/files/")` returns handler 2, the
catch-all route's handler, with the names `["_name"]` and the empty string in
value slot 0, not handler 1: with an empty rest and a match-any child, `Find`
goes to `MatchAny` before it looks at the handler of the node itself.  The
same happens on a fresh router for every valid method, every non-empty literal
path `P` and all handlers. -/
theorem catch_all_beats_static_on_exact_prefix :
    AddAll (NewRouter (New false))
      [(ascii "GET", ascii "/files/", HandlerFunc.user 1),
       (ascii "GET", ascii "/files/*", HandlerFunc.user 2)] =
      Exec.ok routerStaticAndCatchAll ∧
    AddAll (NewRouter (New false))
      [(ascii "GET", ascii "/files/*", HandlerFunc.user 2),
       (ascii "GET", ascii "/files/", HandlerFunc.user 1)] =
      Exec.ok routerStaticAndCatchAll ∧
    Find routerStaticAndCatchAll (ascii "GET") (ascii "/files/") ⟨[], [[]]⟩ =
      Exec.ok ⟨HandlerFunc.user 2, true, ⟨[ascii "_name"], [[]]⟩⟩ ∧
    (HandlerFunc.user 2 : HandlerFunc Nat) ≠ HandlerFunc.user 1 ∧
    (∀ (H : Type) (m P : Str) (hS hC : H) (names : List Str) (v0 : Str) (vs : List Str)
      (routes : List (Str × Str × HandlerFunc H)),
      validMethod m = true →
      (routes = [(m, P, HandlerFunc.user hS), (m, P ++ [star], HandlerFunc.user hC)] ∨
       routes = [(m, P ++ [star], HandlerFunc.user hC), (m, P, HandlerFunc.user hS)]) →
      P ≠ [] → (∀ b ∈ P, b ≠ colon ∧ b ≠ star) →
      ∃ r, AddAll (NewRouter (New false)) routes = Exec.ok r ∧
        Find r m P ⟨names, v0 :: vs⟩ =
          Exec.ok ⟨HandlerFunc.user hC, true, ⟨[ascii "_name"], [] :: vs⟩⟩) := by
  refine ⟨rfl, rfl, rfl, by decide, ?_⟩
  intro H m P hS hC names v0 vs routes hm hroutes hP hPc
  refine ⟨_, AddAll_static_and_catch_all m hm P hS hC false routes hroutes hP hPc, ?_⟩
  have hc : P.headD 0 ≠ colon := by
    cases P with
    | nil => exact absurd rfl hP
    | cons b s' => exact (hPc b (List.mem_cons_self _ _)).1
  refine Find_of_FindLoop _ m _ _ _ 2 hm rfl ?_ ?_
  · exact le_trans (by omega) (findFuel_ge _)
  · exact FindLoop_exact_prefix_catch_all m ⟨ntype.stype, P, _, [], true⟩
      [(m, HandlerFunc.user hC)] [ascii "_name"] _ hP hc (by simp [HandlerMap.lookup])
      _ _ names v0 vs

/-- C17: stripping takes exactly one `'/'` off: `Find` with the switch on and
the path `p ++ "/"` is `Find` with the switch off and the path `p`, and on a
non-empty path that does not end in `'/'` the switch changes nothing.  On the
empty path, which does not end in `'/'` either, `Find` with the switch on
panics at `path[l-1]`, while with the switch off it returns. -/
theorem strip_trailing_slash_panics_on_empty_path :
    (∀ (H : Type) (r : Router H) (m p : Str) (ctx : Context),
      Find (withStrip true r) m (p ++ [slash]) ctx = Find (withStrip false r) m p ctx) ∧
    (∀ (H : Type) (r : Router H) (m p : Str) (ctx : Context),
      p ≠ [] → p.getLast? ≠ some slash →
      Find (withStrip true r) m p ctx = Find (withStrip false r) m p ctx) ∧
    Find (withStrip true routerPing) (ascii "GET") [] ⟨[], []⟩ =
      Exec.panic Panic.indexOutOfRange ⟨HandlerFunc.notFoundHandler, true, ⟨[], []⟩⟩ ∧
    Find (withStrip false routerPing) (ascii "GET") [] ⟨[], []⟩ =
      Exec.ok ⟨HandlerFunc.user 1, true, ⟨[], []⟩⟩ := by
  refine ⟨?_, ?_, rfl, rfl⟩
  · intro H r m p ctx
    simp [Find, withStrip]
  · intro H r m p ctx hp hlast
    cases hl : p.getLast? with
    | none => simp [List.getLast?_eq_none_iff] at hl; exact absurd hl hp
    | some b =>
      have hb : ¬ (b = slash) := fun e => hlast (by rw [hl, e])
      simp [Find, withStrip, hl, hb]

/-- C18: a successful `Add(m, p, h)` leaves `maxParam` at the larger of its
old value and the number of parameter names of `p` (one per `:name`, one for
a `'*'`), so it never decreases; after any sequence of successful `Add`
calls on a fresh router it is the largest such number among the registered
patterns. -/
theorem max_param_tracked {H : Type} :
    (∀ (r r' : Router H) (m p : Str) (h : HandlerFunc H), Add r m p h = Exec.ok r' →
      r'.vodka.maxParam = max r.vodka.maxParam (paramCount false p) ∧
      r.vodka.maxParam ≤ r'.vodka.maxParam) ∧
    (∀ (routes : List (Str × Str × HandlerFunc H)) (strip : Bool) (r : Router H),
      AddAll (NewRouter (New strip)) routes = Exec.ok r →
      r.vodka.maxParam = maxParamCount routes) := by
  constructor
  · intro r r' m p h hres
    have hv := (AddLoop_maxParam m h _ _ _ _ _ _ hres).1
    simp only [List.length_nil, Nat.zero_add, List.drop_zero] at hv
    rw [hv]
    exact ⟨rfl, Nat.le_max_left _ _⟩
  · intro routes strip r hres
    have := AddAll_maxParam routes _ _ hres
    simpa [NewRouter, New] using this

/-- C19: on a fresh router, for a non-empty literal text `P` and non-empty
literal texts `s` and `t` with different first bytes, `Add(m, P ++ s, hs)`
followed by `Add(m, P ++ t, ht)` leaves a root of kind STATIC with prefix `P`
and exactly two children, both STATIC, with prefixes `s` and `t`; afterwards
`Find` resolves `P ++ s` to `hs` and `P ++ t` to `ht`. -/
theorem split_shape {H : Type} (m : Str) (hm : validMethod m = true) (P s t : Str)
    (hs ht : H) (ctx : Context)
    (hP : P ≠ []) (hs0 : s ≠ []) (ht0 : t ≠ []) (hst : t.head? ≠ s.head?)
    (hlitP : ∀ b ∈ P, b ≠ colon ∧ b ≠ star) (hlits : ∀ b ∈ s, b ≠ colon ∧ b ≠ star)
    (hlitt : ∀ b ∈ t, b ≠ colon ∧ b ≠ star) :
    ∃ r1 r2 : Router H,
      Add (NewRouter (New false)) m (P ++ s) (HandlerFunc.user hs) = Exec.ok r1 ∧
      Add r1 m (P ++ t) (HandlerFunc.user ht) = Exec.ok r2 ∧
      r2.tree = branch P [leaf ntype.stype s [(m, HandlerFunc.user hs)] [],
                          leaf ntype.stype t [(m, HandlerFunc.user ht)] []] ∧
      Find r2 m (P ++ s) ctx = Exec.ok ⟨HandlerFunc.user hs, true, ⟨[], ctx.pvalues⟩⟩ ∧
      Find r2 m (P ++ t) ctx = Exec.ok ⟨HandlerFunc.user ht, true, ⟨[], ctx.pvalues⟩⟩ := by
  have hlit1 : ∀ b ∈ P ++ s, b ≠ colon ∧ b ≠ star := by
    intro b hb
    rcases List.mem_append.mp hb with h | h
    · exact hlitP b h
    · exact hlits b h
  have hlit2 : ∀ b ∈ P ++ t, b ≠ colon ∧ b ≠ star := by
    intro b hb
    rcases List.mem_append.mp hb with h | h
    · exact hlitP b h
    · exact hlitt b h
  have hPs : P ++ s ≠ [] := by simp [hP]
  refine ⟨⟨leaf ntype.stype (P ++ s) [(m, HandlerFunc.user hs)] [], [], New false⟩,
    ⟨branch P [leaf ntype.stype s [(m, HandlerFunc.user hs)] [],
               leaf ntype.stype t [(m, HandlerFunc.user ht)] []], [], New false⟩,
    ?_, ?_, rfl, ?_, ?_⟩
  · unfold Add
    rw [AddLoop_literal m _ _ _ _ hlit1]
    exact insert_fresh_root_handler m hm (P ++ s) hPs hs _
  · unfold Add
    rw [AddLoop_literal m _ _ _ _ hlit2]
    exact insert_split_root m hm P s t hP hs0 ht0 hst hs ht _
  · have hPc : (P.headD 0) ≠ colon := by
      cases P with
      | nil => exact absurd rfl hP
      | cons a P' => exact (hlitP a (List.mem_cons_self _ _)).1
    have hsc : s.headD 0 ≠ colon := by
      cases s with
      | nil => exact absurd rfl hs0
      | cons a s' => exact (hlits a (List.mem_cons_self _ _)).1
    refine Find_of_FindLoop _ m _ _ _ 3 hm rfl ?_ ?_
    · exact le_trans (by omega) (findFuel_ge _)
    · exact FindLoop_static_leaf m _ s [(m, HandlerFunc.user hs)] [] _ _ _ ctx hs0 hsc hPc
        (by simp [findChild, branch, leaf]) (by simp [HandlerMap.lookup])
  · have hPc : (P.headD 0) ≠ colon := by
      cases P with
      | nil => exact absurd rfl hP
      | cons a P' => exact (hlitP a (List.mem_cons_self _ _)).1
    have htc : t.headD 0 ≠ colon := by
      cases t with
      | nil => exact absurd rfl ht0
      | cons a t' => exact (hlitt a (List.mem_cons_self _ _)).1
    have hne : ¬ (s.headD 0 = t.headD 0) := by
      cases s with
      | nil => exact absurd rfl hs0
      | cons a s' =>
        cases t with
        | nil => exact absurd rfl ht0
        | cons c t' =>
          intro e
          apply hst
          simp only [List.headD_cons] at e
          simp [e]
    refine Find_of_FindLoop _ m _ _ _ 3 hm rfl ?_ ?_
    · exact le_trans (by omega) (findFuel_ge _)
    · have hne' : ¬ ((s.head?).getD 0 = (t.head?).getD 0) := by simpa using hne
      exact FindLoop_static_leaf m _ t [(m, HandlerFunc.user ht)] [] _ _ _ ctx ht0 htc hPc
        (by simp [findChild, branch, leaf, hne']) (by simp [HandlerMap.lookup])

theorem split_shape_witness :
    ∃ r1 r2 : Router Nat,
      Add (NewRouter (New false)) (ascii "GET") (ascii "/a" ++ ascii "b") (HandlerFunc.user 1)
        = Exec.ok r1 ∧
      Add r1 (ascii "GET") (ascii "/a" ++ ascii "c") (HandlerFunc.user 2) = Exec.ok r2 ∧
      r2.tree = branch (ascii "/a")
        [leaf ntype.stype (ascii "b") [(ascii "GET", HandlerFunc.user 1)] [],
         leaf ntype.stype (ascii "c") [(ascii "GET", HandlerFunc.user 2)] []] ∧
      Find r2 (ascii "GET") (ascii "/a" ++ ascii "b") ⟨[], []⟩ =
        Exec.ok ⟨HandlerFunc.user 1, true, ⟨[], []⟩⟩ ∧
      Find r2 (ascii "GET") (ascii "/a" ++ ascii "c") ⟨[], []⟩ =
        Exec.ok ⟨HandlerFunc.user 2, true, ⟨[], []⟩⟩ :=
  split_shape (ascii "GET") (by decide) (ascii "/a") (ascii "b") (ascii "c") 1 2 ⟨[], []⟩
    (by decide) (by decide) (by decide) (by decide) (by decide) (by decide) (by decide)

/-- C20 (child-set invariant).  In every tree that `Add` calls with valid
methods build from `NewRouter` (calls that panic included), every node has at
most one PARAM child and at most one CATCH_ALL child, its STATIC children have
pairwise distinct labels, and the label of each STATIC child is the first byte
of its prefix, which is not empty. -/
theorem child_set_invariant {H : Type} (r : Router H) (hr : Reachable r) :
    ∀ n ∈ r.tree.nodes,
      (childrenOfKind n ntype.ptype).length ≤ 1 ∧
      (childrenOfKind n ntype.mtype).length ≤ 1 ∧
      ((childrenOfKind n ntype.stype).map node.label).Nodup ∧
      ∀ c ∈ childrenOfKind n ntype.stype, c.pfx ≠ [] ∧ c.label = c.pfx.headD 0 := by
  intro n hn
  have hw : WF n := WF_nodes r.tree (Reachable_treeOk r hr).2 n hn
  refine ⟨?_, ?_, ?_, ?_⟩
  · apply WF_kind_le_one n hw ntype.ptype colon
    intro c hc ht
    have hok := hw.nodeOk c hc
    rw [hok.2.1, hok.2.2.1 ht]
    rfl
  · apply WF_kind_le_one n hw ntype.mtype star
    intro c hc ht
    have hok := hw.nodeOk c hc
    rw [hok.2.1, hok.2.2.2 ht]
    rfl
  · exact (hw.nodup).sublist (List.Sublist.map _ (List.filter_sublist _))
  · intro c hc
    unfold childrenOfKind at hc
    rw [List.mem_filter] at hc
    have hok := hw.nodeOk c hc.1
    exact ⟨hok.1, hok.2.1⟩

/-- C20 at the router built by GET `/files/:name` and then GET `/files/*`. -/
theorem child_set_invariant_witness :
    Reachable routerFilesRev ∧
    ∀ n ∈ routerFilesRev.tree.nodes,
      (childrenOfKind n ntype.ptype).length ≤ 1 ∧
      (childrenOfKind n ntype.mtype).length ≤ 1 ∧
      ((childrenOfKind n ntype.stype).map node.label).Nodup ∧
      ∀ c ∈ childrenOfKind n ntype.stype, c.pfx ≠ [] ∧ c.label = c.pfx.headD 0 :=
  have hr : Reachable routerFilesRev :=
    Reachable.add
      ⟨branch (ascii "/files/")
        [leaf ntype.ptype (ascii ":") [(ascii "GET", HandlerFunc.user 2)] [ascii "name"]],
        [], ⟨1, false⟩⟩
      routerFilesRev (ascii "GET") (ascii "/files/*") (HandlerFunc.user 1)
      (Reachable.add (NewRouter (New false)) _ (ascii "GET") (ascii "/files/:name")
        (HandlerFunc.user 2) (Reachable.fresh (New false)) rfl rfl)
      rfl rfl
  ⟨hr, child_set_invariant routerFilesRev hr⟩

/-- C21: the invariant fails on trees that `Add` builds with valid methods
and handlers that are not nil.  After GET `/a/:id/b` (handler 1) the
intermediate PARAM node, spelled `/a/:`, has the entry `GET ↦ nil` although
no registered pair ends there and nil was never registered.  After GET `/ab`
(1) and POST `/ac` (2) the node spelled `/ab` has the entry `POST ↦ nil`
although no POST pattern ends there. -/
theorem handler_map_has_entries_without_route :
    (Add (NewRouter (New false)) (ascii "GET") (ascii "/a/:id/b") (HandlerFunc.user 1) =
      Exec.ok routerParamThenStatic ∧
     routeText false (ascii "/a/:id/b") = ascii "/a/:/b" ∧
     (∃ x ∈ routerParamThenStatic.tree.spelled [], x.1 = ascii "/a/:" ∧
        x.2.typ = ntype.ptype ∧ x.2.handler = some [(ascii "GET", HandlerFunc.nil)]) ∧
     ¬ HandlerMapInvariant [(ascii "GET", ascii "/a/:id/b", HandlerFunc.user 1)]
        routerParamThenStatic.tree) ∧
    (AddAll (NewRouter (New false))
      [(ascii "GET", ascii "/ab", HandlerFunc.user 1),
       (ascii "POST", ascii "/ac", HandlerFunc.user 2)] = Exec.ok routerAbAc ∧
     (∃ x ∈ routerAbAc.tree.spelled [], x.1 = ascii "/ab" ∧
        x.2.handler = some [(ascii "POST", HandlerFunc.nil)]) ∧
     ¬ HandlerMapInvariant
        [(ascii "GET", ascii "/ab", HandlerFunc.user 1),
         (ascii "POST", ascii "/ac", HandlerFunc.user 2)] routerAbAc.tree) := by
  have h1 : ∃ x ∈ routerParamThenStatic.tree.spelled [], x.1 = ascii "/a/:" ∧
      x.2.typ = ntype.ptype ∧ x.2.handler = some [(ascii "GET", HandlerFunc.nil)] :=
    ⟨_, List.Mem.tail _ (List.Mem.head _), rfl, rfl, rfl⟩
  have h2 : ∃ x ∈ routerAbAc.tree.spelled [], x.1 = ascii "/ab" ∧
      x.2.handler = some [(ascii "POST", HandlerFunc.nil)] :=
    ⟨_, List.Mem.tail _ (List.Mem.head _), rfl, rfl⟩
  refine ⟨⟨rfl, by decide, h1, ?_⟩, ⟨rfl, h2, ?_⟩⟩
  · intro hinv
    obtain ⟨x, hx, _, _, hh⟩ := h1
    obtain ⟨p, hp, _⟩ := hinv x hx (ascii "GET") HandlerFunc.nil (by rw [hh]; rfl)
    simp at hp
  · intro hinv
    obtain ⟨x, hx, _, hh⟩ := h2
    obtain ⟨p, hp, _⟩ := hinv x hx (ascii "POST") HandlerFunc.nil (by rw [hh]; rfl)
    simp at hp

/-- C22: with the routes GET `/x/a/:id` (1), GET `/x/a/new` (2) and GET
`/x/b` (3), `Find(GET, "/x/a/ne")` returns the not-found handler and writes no
value, not handler 1 with the value `ne`.  The node `a/` ends in `'/'` and
has a PARAM child, but the test before the descent into `new` is
`cn.label == '/'`, the FIRST byte of the prefix, so `a/` is not saved; when
`new` dead-ends the lookup goes back to the root `/x/`, which has no PARAM
child.  (`/x/a/zz`, which has no static child to descend into, reaches the
PARAM child, and so does `/users/ne` below the node `/users/`, whose prefix
also starts with `'/'`.) -/
theorem no_backtrack_point_at_node_not_starting_with_slash :
    AddAll (NewRouter (New false))
      [(ascii "GET", ascii "/x/a/:id", HandlerFunc.user 1),
       (ascii "GET", ascii "/x/a/new", HandlerFunc.user 2),
       (ascii "GET", ascii "/x/b", HandlerFunc.user 3)] = Exec.ok routerXaXb ∧
    Matches (ascii "/x/a/:id") (ascii "/x/a/ne") = true ∧
    Find routerXaXb (ascii "GET") (ascii "/x/a/ne") ⟨[], [[]]⟩ =
      Exec.ok ⟨HandlerFunc.notFoundHandler, false, ⟨[], [[]]⟩⟩ ∧
    Find routerXaXb (ascii "GET") (ascii "/x/a/zz") ⟨[], [[]]⟩ =
      Exec.ok ⟨HandlerFunc.user 1, true, ⟨[ascii "id"], [ascii "zz"]⟩⟩ ∧
    Find (routerUsers (ascii "GET") 1 2 false) (ascii "GET") (ascii "/users/ne") ⟨[], [[]]⟩ =
      Exec.ok ⟨HandlerFunc.user 1, true, ⟨[ascii "id"], [ascii "ne"]⟩⟩ :=
  ⟨rfl, by decide, rfl, rfl, rfl⟩

/-- C23: `Find` does not return for every path.  With the routes GET `/:p`
and GET `/s/:x/zz` (`maxParam` is 1) and a value buffer of one slot,
`Find(GET, "/s/7/z")` jumps back to the root once and then panics: the PARAM
child of the root writes `pvalues[1]`, because the jump back does not restore
the counter `n`.  What the claim says about the loop itself holds.  On the
router holding GET `/a/b`, GET `/:x/c` and GET `/*`, `Find(GET, "/a/d")`
jumps back twice, with the pairs (3, 2) and (3, 1), and returns.  For every
router, method, path and context `Find` is over after at most `findFuel`
passes of its loop, by a return or by a panic on an index, and more passes do
not change the outcome.  For every router that `Add` calls with valid methods
build from `NewRouter`, the pair (length of the saved search string, rank of
the alternative still to try) strictly decreases from each jump back to the
next. -/
theorem find_leaves_loop_by_panic :
    (AddAll (NewRouter (New false))
      [(ascii "GET", ascii "/:p", HandlerFunc.user 1),
       (ascii "GET", ascii "/s/:x/zz", HandlerFunc.user 2)] = Exec.ok routerParamAndDeeper ∧
     routerParamAndDeeper.vodka.maxParam = 1 ∧
     backtracks (ascii "GET") (findFuel routerParamAndDeeper.tree)
       (startState routerParamAndDeeper (ascii "/s/7/z") ⟨[], [[]]⟩) = [(5, 2)] ∧
     Find routerParamAndDeeper (ascii "GET") (ascii "/s/7/z") ⟨[], [[]]⟩ =
       Exec.panic Panic.indexOutOfRange
         ⟨HandlerFunc.notFoundHandler, false, ⟨[], [ascii "7"]⟩⟩) ∧
    (Reachable routerBacktrack ∧
     backtracks (ascii "GET") (findFuel routerBacktrack.tree)
       (startState routerBacktrack (ascii "/a/d") ⟨[], [[]]⟩) = [(3, 2), (3, 1)] ∧
     Find routerBacktrack (ascii "GET") (ascii "/a/d") ⟨[], [[]]⟩ =
       Exec.ok ⟨HandlerFunc.user 3, true, ⟨[ascii "_name"], [ascii "a/d"]⟩⟩) ∧
    (∀ (H : Type) (r : Router H) (m path : Str) (ctx : Context),
      (∃ res, Find r m path ctx = Exec.ok res ∨
        Find r m path ctx = Exec.panic Panic.indexOutOfRange res) ∧
      (validMethod m = true → r.vodka.stripTrailingSlash = false →
        Find r m path ctx = FindLoop m (findFuel r.tree) (startState r path ctx)) ∧
      (∀ fuel, findFuel r.tree ≤ fuel →
        FindLoop m fuel (startState r path ctx) ≠ Exec.timeout ∧
        FindLoop m fuel (startState r path ctx)
          = FindLoop m (findFuel r.tree) (startState r path ctx))) ∧
    (∀ (H : Type) (r : Router H), Reachable r → ∀ (m path : Str) (ctx : Context) (fuel : Nat),
      (backtracks m fuel (startState r path ctx)).Chain' (fun a b => pairLt b a)) := by
  refine ⟨⟨rfl, rfl, rfl, rfl⟩, ⟨routerBacktrack_reachable, rfl, rfl⟩, ?_, ?_⟩
  · intro H r m path ctx
    refine ⟨Find_halts r m path ctx, ?_, ?_⟩
    · intro hv hst
      simp [Find, hv, hst, startState]
    · intro fuel hfuel
      obtain ⟨k, hk⟩ := Nat.exists_eq_add_of_le hfuel
      have hne : FindLoop m (findFuel r.tree) (startState r path ctx) ≠ Exec.timeout := by
        obtain ⟨res, h1 | h1⟩ := FindLoop_start_halts r m path ctx
        · rw [h1]; simp
        · rw [h1]; simp
      have hst := FindLoop_stable m (findFuel r.tree) k (startState r path ctx) hne
      rw [hk, hst]
      exact ⟨hne, rfl⟩
  · intro H r hr m path ctx fuel
    exact backtracks_chain m fuel _ (Traced_start r hr path ctx)

/-- C24 (`Add` is safe on well-formed patterns).  For every router that
`Add` calls with valid methods build from `NewRouter` (calls that panic
included), every valid method, every handler and every non-empty pattern that
does not start with `':'` or `'*'`: `Add` returns, so none of the `insert`
calls it makes reads the first byte of an empty search string or of an empty
new prefix or writes to a nil map; every `insert` with a non-empty path
returns as well; in the router that `Add` returns every node has a non-empty
prefix whose first byte is its label; and in the router before the call the
same holds unless the root is still as `NewRouter` made it, without prefix
and without children. -/
theorem add_safe_on_well_formed_patterns {H : Type} (r : Router H) (hr : Reachable r)
    (m : Str) (hm : validMethod m = true) (p : Str) (hp : p ≠ [])
    (hc : p.head? ≠ some colon) (hs : p.head? ≠ some star) (h : HandlerFunc H) :
    (∃ r', Add r m p h = Exec.ok r' ∧ ∀ n ∈ r'.tree.nodes, Labelled n) ∧
    (∀ (s : Str) (h' : HandlerFunc H) (t : ntype) (pn : List Str), s ≠ [] →
      ∃ r', insert r m s h' t pn = Exec.ok r') ∧
    ((r.tree.pfx = [] ∧ r.tree.children = []) ∨ ∀ n ∈ r.tree.nodes, Labelled n) := by
  have hall : ∀ (x : Router H), Reachable x → Labelled x.tree →
      ∀ n ∈ x.tree.nodes, Labelled n := by
    intro x hx hl n hn
    rw [nodes_eq, List.mem_cons] at hn
    rcases hn with h0 | h0
    · rw [h0]; exact hl
    · exact WF_labelled x.tree (Reachable_treeOk x hx).2 n h0
  have hfirst : p.getD 0 0 ≠ colon ∧ p.getD 0 0 ≠ star := by
    cases p with
    | nil => exact absurd rfl hp
    | cons b q =>
      constructor
      · intro hb
        apply hc
        simpa using hb
      · intro hb
        apply hs
        simpa using hb
  refine ⟨?_, ?_, ?_⟩
  · obtain ⟨r', hadd⟩ := AddLoop_total m hm h (p.length + 1) r p 0 []
      (Reachable_alloc r hr) hp (Or.inr hfirst) (by omega)
    exact ⟨r', hadd, hall r' (Reachable.add r r' m p h hr hm hadd)
      (Add_labelled r r' m p h (Reachable_rootOk r hr) hadd)⟩
  · intro s h' t pn hs'
    exact insert_total r m s h' t pn hm (Reachable_alloc r hr) hs'
  · rcases Reachable_rootOk r hr with ⟨h1, _, h3⟩ | hl
    · exact Or.inl ⟨h1, h3⟩
    · exact Or.inr (hall r hr hl)

/-- C24 for `Add(POST, "/a/:id", 9)` on the router holding GET `/a/b`, GET
`/:x/c` and GET `/*`. -/
theorem add_safe_on_well_formed_patterns_witness :
    Reachable routerBacktrack ∧
    (∃ r', Add routerBacktrack (ascii "POST") (ascii "/a/:id") (HandlerFunc.user 9)
        = Exec.ok r' ∧ ∀ n ∈ r'.tree.nodes, Labelled n) ∧
    (∀ (s : Str) (h' : HandlerFunc Nat) (t : ntype) (pn : List Str), s ≠ [] →
      ∃ r', insert routerBacktrack (ascii "POST") s h' t pn = Exec.ok r') ∧
    ((routerBacktrack.tree.pfx = [] ∧ routerBacktrack.tree.children = []) ∨
      ∀ n ∈ routerBacktrack.tree.nodes, Labelled n) :=
  ⟨routerBacktrack_reachable,
    add_safe_on_well_formed_patterns routerBacktrack routerBacktrack_reachable (ascii "POST")
      (by decide) (ascii "/a/:id") (by decide) (by decide) (by decide) (HandlerFunc.user 9)⟩

end VodkaRouter
